import Mathlib

/-!
# domMan: delegated event bookkeeping

A shallow embedding of the event methods of `src/domman.js` (`parseNamespacedEvent`, `on`,
`one`, `off` and the dispatcher closure `delegatedHandler`), together with a small model of
the platform pieces they call (`Map`, `addEventListener`, `removeEventListener`,
`Element.closest`, `Node.contains` and the delivery of an event to the listeners of one
element).

Conventions.
* Elements and user handler functions are identified by natural numbers (object identity).
* A JavaScript `Map` is an insertion-ordered association list; a child container that the
  source mutates in place is written back at the same position.
* The key string `c:o` of the innermost map is the pair `(c, o)` of booleans, so that
  `key.startsWith("1:")` is the first component.
* User handlers are opaque: calling one appends a record to `State.calls`.
-/

namespace DomMan

/-! ## JavaScript `Map` -/

/-- Insertion-ordered association list standing for a JavaScript `Map`. -/
abbrev JsMap (K V : Type) := List (K × V)

namespace JsMap

variable {K V : Type} [DecidableEq K]

/-- `Map.prototype.get`: the value stored under `k`, if any. -/
def get : JsMap K V → K → Option V
  | [], _ => none
  | e :: rest, k => if e.1 = k then some e.2 else get rest k

/-- `Map.prototype.set`: overwrite in place when the key exists, append otherwise. -/
def set : JsMap K V → K → V → JsMap K V
  | [], k, v => [(k, v)]
  | e :: rest, k, v => if e.1 = k then (e.1, v) :: rest else e :: set rest k v

/-- `Map.prototype.delete`. -/
def delete (m : JsMap K V) (k : K) : JsMap K V :=
  m.filter (fun e => decide (e.1 ≠ k))

/-- `Map.prototype.size`. -/
def size (m : JsMap K V) : Nat := m.length

/-- `Array.from(map.keys())`. -/
def keys (m : JsMap K V) : List K := m.map Prod.fst

/-- A child container `child` obtained from `parent.get(k)` was mutated in place; then the
source runs `if (child.size === 0) parent.delete(k)`. -/
def writeBack {K2 V2 : Type} (parent : JsMap K (JsMap K2 V2)) (k : K)
    (child : JsMap K2 V2) : JsMap K (JsMap K2 V2) :=
  if child.length = 0 then delete parent k else set parent k child

end JsMap

/-! ## Event strings -/

/-- Result object of `parseNamespacedEvent`; `nspace` is the field `namespace`. -/
structure ParsedEvent where
  type : String
  nspace : String
deriving DecidableEq, Repr

/-- The set `domEventNames`. -/
def domEventNames : List String :=
  ["click", "dblclick", "mouseover", "mouseout", "mouseenter", "mouseleave", "mousemove",
   "mouseup", "mousedown", "keydown", "keyup", "keypress", "change", "submit", "focus",
   "blur", "resize", "scroll", "load", "error", "focusin", "focusout", "select",
   "contextmenu", "input", "invalid", "reset", "search", "pointerdown", "pointerup",
   "pointermove", "pointerenter", "pointerleave", "touchstart", "touchend", "touchmove"]

/-- The function `parseNamespacedEvent` on strings. `dotIndex = cs.length` stands for
`indexOf` returning `-1`. -/
def parseNamespacedEvent (evt : String) : ParsedEvent :=
  let cs := evt.data
  if cs.head? = some '.' ∧ 1 < cs.length then
    { type := "", nspace := String.mk (cs.drop 1) }
  else
    let dotIndex := cs.indexOf '.'
    if dotIndex = cs.length then { type := evt, nspace := "" }
    else
      let base := String.mk (cs.take dotIndex)
      let ns := String.mk (cs.drop (dotIndex + 1))
      if base = "" ∨ ns = "" then { type := evt, nspace := "" }
      else if base ∉ domEventNames then { type := evt, nspace := "" }
      else { type := base, nspace := ns }

/-! ## Listener options -/

/-- A member of an options object: missing, a boolean, or some other value of which only the
truthiness matters. -/
inductive JsFlag where
  | absent
  | bool (b : Bool)
  | other (truthy : Bool)
deriving DecidableEq, Repr

/-- Double negation `!!x` of a member. -/
def JsFlag.toBool : JsFlag → Bool
  | .absent => false
  | .bool b => b
  | .other t => t

/-- The test `typeof x === "boolean"`. -/
def JsFlag.isBoolean : JsFlag → Bool
  | .bool _ => true
  | _ => false

/-- The `options` argument: `boolean | AddEventListenerOptions`, or left out. -/
inductive Opts where
  | undefined
  | null
  | bool (b : Bool)
  | obj (capture once : JsFlag)
deriving DecidableEq, Repr

/-- The `capture` computation of `on` and `off`. -/
def captureOf : Opts → Bool
  | .bool b => b
  | .undefined => false
  | .null => false
  | .obj c _ => c.toBool

/-- The `once` computation of `on`. -/
def onceOf : Opts → Bool
  | .obj _ o => o.toBool
  | _ => false

/-- The test `onceSpecified` of `off`. -/
def onceSpecified : Opts → Bool
  | .obj _ o => o.isBoolean
  | _ => false

/-- The array `onceValues` of `off`. -/
def onceValues (opts : Opts) : List Bool :=
  if onceSpecified opts then [onceOf opts] else [false, true]

/-- The options object built by `one`. -/
def oneOpts : Opts → Opts
  | .bool true => .obj (.bool true) (.bool true)
  | .bool false => .obj .absent (.bool true)
  | .undefined => .obj .absent (.bool true)
  | .null => .obj .absent (.bool true)
  | .obj c _ => .obj c (.bool true)

/-! ## Registry and platform state -/

abbrev Elem := Nat
abbrev Fn := Nat

/-- Key of the innermost map: `(capture, once)` for the string `c:o`. -/
abbrev Key := Bool × Bool

/-- A dispatcher closure created by `on`: its identity and the variables it captured. -/
structure Dispatcher where
  id : Nat
  rootEl : Elem
  eventType : String
  selector : String
  nsKey : String
  fn : Fn
  capture : Bool
  once : Bool
deriving DecidableEq, Repr

/-- The captured `key`. -/
def Dispatcher.key (d : Dispatcher) : Key := (d.capture, d.once)

abbrev ByCapture := JsMap Key Dispatcher
abbrev ByFn := JsMap Fn ByCapture
abbrev ByNamespace := JsMap String ByFn
abbrev BySelector := JsMap String ByNamespace
abbrev ByEvent := JsMap String BySelector
/-- The store `delegatedHandlers`. -/
abbrev Registry := JsMap Elem ByEvent

/-- What the platform calls: a user function bound directly, or a dispatcher. -/
inductive Callback where
  | direct (fn : Fn)
  | dispatcher (d : Dispatcher)
deriving DecidableEq, Repr

/-- One entry of the event listener list of the element `target`. -/
structure Listener where
  target : Elem
  type : String
  callback : Callback
  capture : Bool
  once : Bool
deriving DecidableEq, Repr

/-- A dispatched event: its type and its target when that is an element. -/
structure Event where
  type : String
  target : Option Elem
deriving DecidableEq, Repr

/-- One invocation of a user handler: `fn.call(thisArg, event)` for a direct listener
(`matched = none`), `fn.call(matched, event, matched)` for a delegated one. -/
structure Call where
  fn : Fn
  thisArg : Elem
  event : Event
  matched : Option Elem
deriving DecidableEq, Repr

/-- The registry, the listener lists of all elements, the identity counter for new closures,
and the log of handler invocations. -/
structure State where
  delegatedHandlers : Registry
  listeners : List Listener
  nextId : Nat
  calls : List Call
deriving Repr

/-- A fresh page. -/
def State.init : State :=
  { delegatedHandlers := [], listeners := [], nextId := 0, calls := [] }

/-- The document tree as far as delegation looks at it: the inclusive ancestors of every
element, nearest first, and `Element.matches`. -/
structure Dom where
  ancestors : Elem → List Elem
  isMatch : Elem → String → Bool

/-- `Element.closest`: the nearest inclusive ancestor that matches the selector. -/
def Dom.closest (dom : Dom) (el : Elem) (selector : String) : Option Elem :=
  (dom.ancestors el).find? (fun a => dom.isMatch a selector)

/-- `Node.contains`: `a` is an inclusive ancestor of `b`. -/
def Dom.contains (dom : Dom) (a b : Elem) : Bool :=
  decide (a ∈ dom.ancestors b)

/-- Listener identity for the platform: same target, type, callback and capture flag. -/
def sameListener (target : Elem) (type : String) (cb : Callback) (capture : Bool)
    (l : Listener) : Bool :=
  decide (l.target = target ∧ l.type = type ∧ l.callback = cb ∧ l.capture = capture)

/-- `target.addEventListener(type, cb, opts)`: no effect when an identical listener is
installed already. -/
def addEventListener (ls : List Listener) (target : Elem) (type : String) (cb : Callback)
    (opts : Opts) : List Listener :=
  if ls.any (sameListener target type cb (captureOf opts)) then ls
  else ls ++ [{ target := target, type := type, callback := cb,
                capture := captureOf opts, once := onceOf opts }]

/-- `target.removeEventListener(type, cb, opts)`. -/
def removeEventListener (ls : List Listener) (target : Elem) (type : String) (cb : Callback)
    (opts : Opts) : List Listener :=
  ls.filter (fun l => !sameListener target type cb (captureOf opts) l)

/-! ## `on` and `one` -/

/-- The argument shapes `on` and `one` tell apart with `typeof`. -/
inductive OnArgs where
  | direct (fn : Fn) (opts : Opts)
  | delegated (selector : String) (fn : Fn) (opts : Opts)
  | other
deriving DecidableEq, Repr

/-- Body of the delegation loop of `on` for one root element. -/
def onDelegatedRoot (eventType resolvedEventType nspace selector : String) (fn : Fn)
    (opts : Opts) (s : State) (rootEl : Elem) : State :=
  let capture := captureOf opts
  let once := onceOf opts
  let byEvent := (JsMap.get s.delegatedHandlers rootEl).getD []
  let bySelector := (JsMap.get byEvent resolvedEventType).getD []
  let byNamespace := (JsMap.get bySelector selector).getD []
  let nsKey := nspace
  let byFn := (JsMap.get byNamespace nsKey).getD []
  let byCapture := (JsMap.get byFn fn).getD []
  let key : Key := (capture, once)
  match JsMap.get byCapture key with
  | some delegatedHandler =>
    { s with listeners := addEventListener s.listeners rootEl resolvedEventType
               (.dispatcher delegatedHandler) opts }
  | none =>
    let delegatedHandler : Dispatcher :=
      { id := s.nextId, rootEl := rootEl, eventType := eventType, selector := selector,
        nsKey := nsKey, fn := fn, capture := capture, once := once }
    let byCapture1 := JsMap.set byCapture key delegatedHandler
    let byFn1 := JsMap.set byFn fn byCapture1
    let byNamespace1 := JsMap.set byNamespace nsKey byFn1
    let bySelector1 := JsMap.set bySelector selector byNamespace1
    let byEvent1 := JsMap.set byEvent resolvedEventType bySelector1
    { delegatedHandlers := JsMap.set s.delegatedHandlers rootEl byEvent1
      listeners := addEventListener s.listeners rootEl resolvedEventType
        (.dispatcher delegatedHandler) opts
      nextId := s.nextId + 1
      calls := s.calls }

/-- Body of the direct loop of `on` for one element. -/
def onDirectEl (resolvedEventType : String) (fn : Fn) (opts : Opts) (s : State)
    (el : Elem) : State :=
  { s with listeners := addEventListener s.listeners el resolvedEventType (.direct fn) opts }

/-- The method `on` on the selection `arr` (`on` is a reserved word here, hence `on_`). -/
def on_ (s : State) (arr : List Elem) (evt : String) (args : OnArgs) : State :=
  if evt = "" then s
  else
    let parsedEvt := parseNamespacedEvent evt
    let eventType := parsedEvt.type
    let nspace := parsedEvt.nspace
    if eventType = "" ∧ nspace ≠ "" then s
    else
      let resolvedEventType := if eventType = "" then evt else eventType
      if arr.length = 0 then s
      else
        match args with
        | .direct fn opts => arr.foldl (onDirectEl resolvedEventType fn opts) s
        | .delegated selector fn opts =>
          arr.foldl (onDelegatedRoot eventType resolvedEventType nspace selector fn opts) s
        | .other => s

/-- The method `one`. -/
def one (s : State) (arr : List Elem) (evt : String) (args : OnArgs) : State :=
  match args with
  | .direct fn opts => on_ s arr evt (.direct fn (oneOpts opts))
  | .delegated selector fn opts => on_ s arr evt (.delegated selector fn (oneOpts opts))
  | .other => s

/-! ## `off` -/

/-- The argument shapes `off` tells apart. -/
inductive OffArgs where
  | none
  | selector (selector : String)
  | direct (fn : Fn) (opts : Opts)
  | delegated (selector : String) (fn : Fn) (opts : Opts)
  | other
deriving DecidableEq, Repr

/-- The two nested `for ... of` loops over `byFn.entries()` and `byCapture.entries()`, which
call `removeEventListener(t, delegatedHandler, key.startsWith("1:"))`. -/
def removeAllIn (rootEl : Elem) (t : String) (byFn : ByFn) (ls : List Listener) :
    List Listener :=
  byFn.foldl (fun ls1 fe =>
    fe.2.foldl (fun ls2 ke =>
      removeEventListener ls2 rootEl t (.dispatcher ke.2) (.bool ke.1.1)) ls1) ls

/-- Body of the loop over `namespacesToRemove` in `off(evt)` and `off(evt, selector)`. -/
def offNamespace (rootEl : Elem) (t : String) (acc : ByNamespace × List Listener)
    (ns : String) : ByNamespace × List Listener :=
  match JsMap.get acc.1 ns with
  | none => acc
  | some byFn => (JsMap.delete acc.1 ns, removeAllIn rootEl t byFn acc.2)

/-- Body of the loop over `bySelector.entries()` in `off(evt)`. -/
def offAllSelector (rootEl : Elem) (t : String) (namespaceOnly : Bool) (nspace : String)
    (acc : BySelector × List Listener) (entry : String × ByNamespace) :
    BySelector × List Listener :=
  let selector := entry.1
  let byNamespace := entry.2
  let namespacesToRemove :=
    if namespaceOnly then [nspace]
    else if nspace ≠ "" then [nspace]
    else JsMap.keys byNamespace
  let r := namespacesToRemove.foldl (offNamespace rootEl t) (byNamespace, acc.2)
  (JsMap.writeBack acc.1 selector r.1, r.2)

/-- Body of the loop over `eventTypesToRemove` in `off(evt)`. -/
def offAllType (rootEl : Elem) (namespaceOnly : Bool) (nspace : String)
    (acc : ByEvent × List Listener) (t : String) : ByEvent × List Listener :=
  match JsMap.get acc.1 t with
  | none => acc
  | some bySelector =>
    let r := bySelector.foldl (offAllSelector rootEl t namespaceOnly nspace)
      (bySelector, acc.2)
    (JsMap.writeBack acc.1 t r.1, r.2)

/-- Body of the root loop of `off(evt)` and `off('.ns')`. -/
def offAllRoot (eventType resolvedEventType nspace : String) (s : State) (rootEl : Elem) :
    State :=
  let namespaceOnly := decide (eventType = "") && decide (nspace ≠ "")
  match JsMap.get s.delegatedHandlers rootEl with
  | none => s
  | some byEvent =>
    let eventTypesToRemove :=
      if namespaceOnly then JsMap.keys byEvent else [resolvedEventType]
    let r := eventTypesToRemove.foldl (offAllType rootEl namespaceOnly nspace)
      (byEvent, s.listeners)
    { s with delegatedHandlers := JsMap.writeBack s.delegatedHandlers rootEl r.1
             listeners := r.2 }

/-- Body of the root loop of `off(evt, selector)`. -/
def offSelectorRoot (resolvedEventType nspace selector : String) (s : State)
    (rootEl : Elem) : State :=
  match JsMap.get s.delegatedHandlers rootEl with
  | none => s
  | some byEvent =>
    match JsMap.get byEvent resolvedEventType with
    | none => s
    | some bySelector =>
      match JsMap.get bySelector selector with
      | none => s
      | some byNamespace =>
        let namespacesToRemove :=
          if nspace ≠ "" then [nspace] else JsMap.keys byNamespace
        let r := namespacesToRemove.foldl (offNamespace rootEl resolvedEventType)
          (byNamespace, s.listeners)
        let bySelector1 := JsMap.writeBack bySelector selector r.1
        let byEvent1 := JsMap.writeBack byEvent resolvedEventType bySelector1
        { s with delegatedHandlers := JsMap.writeBack s.delegatedHandlers rootEl byEvent1
                 listeners := r.2 }

/-- Body of the loop over `onceValues` in `off(evt, selector, handler, options)`. -/
def offOnce (rootEl : Elem) (resolvedEventType : String) (opts : Opts)
    (acc : ByCapture × List Listener) (once : Bool) : ByCapture × List Listener :=
  let key : Key := (captureOf opts, once)
  match JsMap.get acc.1 key with
  | none => acc
  | some delegatedHandler =>
    (JsMap.delete acc.1 key,
     removeEventListener acc.2 rootEl resolvedEventType (.dispatcher delegatedHandler) opts)

/-- Body of the loop over `namespacesToRemove` in `off(evt, selector, handler, options)`. -/
def offDelegatedNamespace (rootEl : Elem) (resolvedEventType : String) (fn : Fn)
    (opts : Opts) (acc : ByNamespace × List Listener) (ns : String) :
    ByNamespace × List Listener :=
  match JsMap.get acc.1 ns with
  | none => acc
  | some byFn =>
    match JsMap.get byFn fn with
    | none => acc
    | some byCapture =>
      let r := (onceValues opts).foldl (offOnce rootEl resolvedEventType opts)
        (byCapture, acc.2)
      let byFn1 := JsMap.writeBack byFn fn r.1
      (JsMap.writeBack acc.1 ns byFn1, r.2)

/-- Body of the root loop of `off(evt, selector, handler, options)`. -/
def offDelegatedRoot (resolvedEventType nspace selector : String) (fn : Fn) (opts : Opts)
    (s : State) (rootEl : Elem) : State :=
  let namespaceSpecified := decide (nspace ≠ "")
  match JsMap.get s.delegatedHandlers rootEl with
  | none => s
  | some byEvent =>
    match JsMap.get byEvent resolvedEventType with
    | none => s
    | some bySelector =>
      match JsMap.get bySelector selector with
      | none => s
      | some byNamespace =>
        let namespacesToRemove :=
          if namespaceSpecified then [nspace] else JsMap.keys byNamespace
        let r := namespacesToRemove.foldl
          (offDelegatedNamespace rootEl resolvedEventType fn opts) (byNamespace, s.listeners)
        let bySelector1 := JsMap.writeBack bySelector selector r.1
        let byEvent1 := JsMap.writeBack byEvent resolvedEventType bySelector1
        { s with delegatedHandlers := JsMap.writeBack s.delegatedHandlers rootEl byEvent1
                 listeners := r.2 }

/-- Body of the direct loop of `off(evt, handler, options)`. -/
def offDirectEl (resolvedEventType : String) (fn : Fn) (opts : Opts) (s : State)
    (el : Elem) : State :=
  { s with listeners := removeEventListener s.listeners el resolvedEventType (.direct fn) opts }

/-- The method `off` on the selection `arr`. -/
def off (s : State) (arr : List Elem) (evt : String) (args : OffArgs) : State :=
  if evt = "" then s
  else
    let parsedEvt := parseNamespacedEvent evt
    let eventType := parsedEvt.type
    let nspace := parsedEvt.nspace
    let resolvedEventType := if eventType = "" then evt else eventType
    if arr.length = 0 then s
    else
      match args with
      | .none => arr.foldl (offAllRoot eventType resolvedEventType nspace) s
      | .selector selector =>
        if eventType = "" then s
        else arr.foldl (offSelectorRoot resolvedEventType nspace selector) s
      | .direct fn opts => arr.foldl (offDirectEl resolvedEventType fn opts) s
      | .delegated selector fn opts =>
        if eventType = "" then s
        else arr.foldl (offDelegatedRoot resolvedEventType nspace selector fn opts) s
      | .other => s

/-! ## Dispatch -/

/-- The bookkeeping clean-up a dispatcher registered with `once` runs after the handler. -/
def onceCleanup (reg : Registry) (d : Dispatcher) : Registry :=
  match JsMap.get reg d.rootEl with
  | none => reg
  | some byEvent =>
    match JsMap.get byEvent d.eventType with
    | none => reg
    | some bySelector =>
      match JsMap.get bySelector d.selector with
      | none => reg
      | some byNamespace =>
        match JsMap.get byNamespace d.nsKey with
        | none => reg
        | some byFn =>
          match JsMap.get byFn d.fn with
          | none => reg
          | some byCapture =>
            let byCapture1 := JsMap.delete byCapture d.key
            let byFn1 := JsMap.writeBack byFn d.fn byCapture1
            let byNamespace1 := JsMap.writeBack byNamespace d.nsKey byFn1
            let bySelector1 := JsMap.writeBack bySelector d.selector byNamespace1
            let byEvent1 := JsMap.writeBack byEvent d.eventType bySelector1
            JsMap.writeBack reg d.rootEl byEvent1

/-- The closure `delegatedHandler` created by `on`, called with `this = root` and the
event `e`. -/
def delegatedHandler (d : Dispatcher) (dom : Dom) (root : Elem) (e : Event) (s : State) :
    State :=
  match e.target with
  | none => s
  | some rawTarget =>
    match dom.closest rawTarget d.selector with
    | none => s
    | some matched =>
      if root = matched ∨ dom.contains root matched = true then
        let s1 : State :=
          { s with calls := s.calls ++ [{ fn := d.fn, thisArg := matched, event := e,
                                          matched := some matched }] }
        if d.once then
          { s1 with delegatedHandlers := onceCleanup s1.delegatedHandlers d }
        else s1
      else s

/-- The platform runs one listener of the current target: a listener installed with `once`
is taken off the list first, then the callback is called. -/
def invokeListener (dom : Dom) (cur : Elem) (e : Event) (s : State) (l : Listener) :
    State :=
  let s1 : State :=
    if l.once then { s with listeners := s.listeners.filter (fun x => decide (x ≠ l)) }
    else s
  match l.callback with
  | .direct fn =>
    { s1 with calls := s1.calls ++ [{ fn := fn, thisArg := cur, event := e,
                                      matched := none }] }
  | .dispatcher d => delegatedHandler d dom cur e s1

/-- The listeners of `cur` for the event type `type` in the order in which the platform runs
them: the capturing listeners first, then the others, each group in the order of
registration. -/
def deliveryOrder (ls : List Listener) (cur : Elem) (type : String) : List Listener :=
  ls.filter (fun l => decide (l.target = cur ∧ l.type = type ∧ l.capture = true)) ++
    ls.filter (fun l => decide (l.target = cur ∧ l.type = type ∧ l.capture = false))

/-- The event `e` reaches the element `cur` in the capturing and in the bubbling phase: the
platform runs the listeners of `cur` for the type of `e` that are installed when the dispatch
starts, the capturing ones first. -/
def dispatchAt (s : State) (dom : Dom) (cur : Elem) (e : Event) : State :=
  (deliveryOrder s.listeners cur e.type).foldl (invokeListener dom cur e) s

/-! ## Plain objects -/

/-- The names every plain object inherits from `Object.prototype`. -/
def objectPrototypeNames : List String :=
  ["constructor", "__defineGetter__", "__defineSetter__", "hasOwnProperty",
   "__lookupGetter__", "__lookupSetter__", "isPrototypeOf", "propertyIsEnumerable",
   "toString", "valueOf", "__proto__", "toLocaleString"]

/-! ## Forms: `serializeForm` and `validate` -/

/-- A value of a `FormData` entry: a string, or a file, given by its name. -/
inductive FormValue where
  | str (s : String)
  | file (name : String)
deriving DecidableEq, Repr

/-- JavaScript truthiness of an entry value: only the empty string is falsy. -/
def FormValue.truthy : FormValue → Bool
  | .str s => decide (s ≠ "")
  | .file _ => true

/-- A property of the object `serializeForm` builds: one value, an array of values, or an
array that starts with the member `name` of `Object.prototype` and goes on with values. -/
inductive Slot where
  | single (v : FormValue)
  | array (vs : List FormValue)
  | inheritedThen (name : String) (vs : List FormValue)
deriving DecidableEq, Repr

/-- JavaScript truthiness of a property of the result: an array is truthy. -/
def Slot.truthy : Slot → Bool
  | .single v => v.truthy
  | .array _ => true
  | .inheritedThen _ _ => true

/-- The callback of `formData.forEach` in `serializeForm`, for the entry `(key, value)`. The
expression `result[key]` finds an own property, else the member of that name of
`Object.prototype` (truthy, and no array), else `undefined`. Under the key `__proto__` the
assignment replaces the prototype of `result` by an array and the value is pushed onto that
array: `result` gets no own property (what later reads find in that array is not
modelled). -/
def serializeEntry (result : JsMap String Slot) (entry : String × FormValue) :
    JsMap String Slot :=
  match JsMap.get result entry.1 with
  | none =>
    if entry.1 = "__proto__" then result
    else if entry.1 ∈ objectPrototypeNames then
      JsMap.set result entry.1 (.inheritedThen entry.1 [entry.2])
    else JsMap.set result entry.1 (.single entry.2)
  | some slot =>
    if slot.truthy = true then
      match slot with
      | .array vs => JsMap.set result entry.1 (.array (vs ++ [entry.2]))
      | .inheritedThen name vs => JsMap.set result entry.1 (.inheritedThen name (vs ++ [entry.2]))
      | .single v => JsMap.set result entry.1 (.array ([v] ++ [entry.2]))
    else JsMap.set result entry.1 (.single entry.2)

/-- The method `serializeForm("object")`; `form` holds the `FormData` entries of the first
element of the selection, in order, and is `none` when that element is no form. -/
def serializeForm (form : Option (List (String × FormValue))) : JsMap String Slot :=
  match form with
  | none => []
  | some entries => entries.foldl serializeEntry []

/-- The values a form submits under the name `key`, in the order of the entries. -/
def valuesOf (entries : List (String × FormValue)) (key : String) : List FormValue :=
  (entries.filter fun e => decide (e.1 = key)).map Prod.snd

/-- The characters `String.prototype.trim` removes: white space and line terminators. -/
def jsWhitespace (c : Char) : Bool :=
  decide (c.val ∈ [0x9, 0xA, 0xB, 0xC, 0xD, 0x20, 0xA0, 0x1680, 0x2028, 0x2029, 0x202F,
    0x205F, 0x3000, 0xFEFF]) || decide (0x2000 ≤ c.val ∧ c.val ≤ 0x200A)

/-- The test `!value.trim()`. -/
def isBlank (value : String) : Bool := value.data.all jsWhitespace

/-- The property `value.length`: the number of UTF-16 code units. -/
def jsLength (value : String) : Nat :=
  (value.data.map fun c => if c.val < 0x10000 then 1 else 2).sum

/-- The expression `a || b` on strings. -/
def orElse (a b : String) : String := if a ≠ "" then a else b

/-- A value of the rules `min` and `max`: a number (an integer here) or a string. -/
inductive RuleNum where
  | num (n : Int)
  | str (s : String)
deriving DecidableEq, Repr

/-- JavaScript truthiness of a rule value. -/
def RuleNum.truthy : RuleNum → Bool
  | .num n => decide (n ≠ 0)
  | .str s => decide (s ≠ "")

/-- A rule value in a message. -/
def RuleNum.text : RuleNum → String
  | .num n => toString n
  | .str s => s

/-- What a custom `validate` function returns: `true`, a string, or a falsy value. -/
inductive CustomResult where
  | ok
  | message (s : String)
  | falsy
deriving DecidableEq, Repr

/-- The rules of one field. A pattern is given by its `test`; the custom function `validate`
gets the value of the field, `none` for `undefined`; `message` is empty when the rules give
none. -/
structure FieldRules where
  required : Bool
  pattern : Option (String → Bool)
  minLength : Option Nat
  maxLength : Option Nat
  min : Option RuleNum
  max : Option RuleNum
  validate : Option (Option String → CustomResult)
  message : String

/-- The rules object without any rule. -/
def FieldRules.none : FieldRules :=
  { required := false, pattern := Option.none, minLength := Option.none,
    maxLength := Option.none, min := Option.none, max := Option.none,
    validate := Option.none, message := "" }

/-- What `form.elements[fieldName]` finds when it finds something: `name` and `value` are its
properties of these names (`none` for `undefined`), and `isElement` says whether it is an
element, with a class list and `addEventListener`. A control such as an input has all three;
a field set has no value; a group of controls that share the name (a `RadioNodeList`) has a
value, but no name, and is no element; a method of the collection has a name only. -/
structure Named where
  name : Option String
  value : Option String
  isElement : Bool
deriving DecidableEq, Repr

/-- A control with a name and a value, such as an input. -/
def Named.control (name value : String) : Named :=
  { name := some name, value := some value, isElement := true }

/-- A group of radio buttons that share a name; `value` is the value of the checked one. -/
def Named.group (value : String) : Named :=
  { name := Option.none, value := some value, isElement := false }

/-- The property key a name stands for: `undefined` gives the key `undefined`. -/
def propertyKey (name : Option String) : String := name.getD "undefined"

/-- The assignment `errors[name] = errorMessage` on the plain object `errors`: under the key
`__proto__` a string is not stored (the inherited setter ignores it). -/
def setError (errors : JsMap String String) (name : Option String) (errorMessage : String) :
    JsMap String String :=
  if propertyKey name = "__proto__" then errors
  else JsMap.set errors (propertyKey name) errorMessage

/-- What `validate` asks of the platform: `parseFloat` (`none` for `NaN`), and whether
`form.querySelector` rejects the selector built from the class of the error elements and the
name of a field. -/
structure FormEnv where
  parseFloat : String → Option Int
  invalidSelector : String → Option String → Bool

/-- The options of `validate`, after the defaults are applied. -/
structure Settings where
  showErrors : Bool
  errorClass : String
  errorMessageClass : String
  validateOnBlur : Bool
deriving DecidableEq, Repr

/-- The options of a call without options. -/
def Settings.default : Settings :=
  { showErrors := true, errorClass := "error", errorMessageClass := "error-message",
    validateOnBlur := false }

/-- The tokens `classList.remove` and `classList.add` reject: the empty string and strings
with white space. -/
def invalidToken (token : String) : Bool :=
  decide (token = "") || token.data.any fun c => decide (c.val ∈ [0x9, 0xA, 0xC, 0xD, 0x20])

/-- The test `parseFloat(value) < parseFloat(bound)`; `parseFloat` gives `none` for `NaN`,
and every comparison with `NaN` is false. -/
def floatLt (parseFloat : String → Option Int) (value : String) (bound : RuleNum) : Bool :=
  match parseFloat value, (match bound with | .num n => some n | .str s => parseFloat s) with
  | some a, some b => decide (a < b)
  | _, _ => false

/-- The test `parseFloat(value) > parseFloat(bound)`. -/
def floatGt (parseFloat : String → Option Int) (value : String) (bound : RuleNum) : Bool :=
  match parseFloat value, (match bound with | .num n => some n | .str s => parseFloat s) with
  | some a, some b => decide (a > b)
  | _, _ => false

/-- The chain of checks of `validateField` on a value that is a string: the error message, or
`none` when the field is valid. -/
def checkField (parseFloat : String → Option Int) (value : String) (fieldRules : FieldRules) :
    Option String :=
  if fieldRules.required = true ∧ isBlank value = true then
    some (orElse fieldRules.message "This field is required")
  else if fieldRules.pattern.isSome = true ∧ value ≠ "" then
    match fieldRules.pattern with
    | some test =>
      if test value = false then some (orElse fieldRules.message "Invalid format") else none
    | Option.none => none
  else if (match fieldRules.minLength with
      | some n => decide (n ≠ 0 ∧ jsLength value < n)
      | Option.none => false) = true then
    some (orElse fieldRules.message
      ("Minimum length is " ++ toString (fieldRules.minLength.getD 0) ++ " characters"))
  else if (match fieldRules.maxLength with
      | some n => decide (n ≠ 0 ∧ jsLength value > n)
      | Option.none => false) = true then
    some (orElse fieldRules.message
      ("Maximum length is " ++ toString (fieldRules.maxLength.getD 0) ++ " characters"))
  else if (match fieldRules.min with
      | some b => b.truthy && floatLt parseFloat value b
      | Option.none => false) = true then
    some (orElse fieldRules.message
      ("Minimum value is " ++ (fieldRules.min.getD (.num 0)).text))
  else if (match fieldRules.max with
      | some b => b.truthy && floatGt parseFloat value b
      | Option.none => false) = true then
    some (orElse fieldRules.message
      ("Maximum value is " ++ (fieldRules.max.getD (.num 0)).text))
  else
    match fieldRules.validate with
    | some f =>
      match f (some value) with
      | .ok => none
      | .message s => some (orElse s (orElse fieldRules.message "Invalid value"))
      | .falsy => some (orElse fieldRules.message "Invalid value")
    | Option.none => none

/-- The chain of checks of `validateField` on the value `undefined`. The outer `none` stands
for a `TypeError`: `value.trim()` under `required`, `value.length` under `minLength` or
`maxLength`. The pattern is skipped for a falsy value and the comparisons with `NaN` are
false. -/
def checkUndefined (fieldRules : FieldRules) : Option (Option String) :=
  if fieldRules.required = true then none
  else if (match fieldRules.minLength with
      | some n => decide (n ≠ 0)
      | Option.none => false) = true then none
  else if (match fieldRules.maxLength with
      | some n => decide (n ≠ 0)
      | Option.none => false) = true then none
  else
    match fieldRules.validate with
    | some f =>
      match f Option.none with
      | .ok => some none
      | .message s => some (some (orElse s (orElse fieldRules.message "Invalid value")))
      | .falsy => some (some (orElse fieldRules.message "Invalid value"))
    | Option.none => some none

/-- The variables `isValid` and `errors` of `validate`. -/
structure ValidationState where
  isValid : Bool
  errors : JsMap String String
deriving DecidableEq, Repr

/-- The function `validateField` of `validate`: whether the field is valid, and the state
after the call; the classes and error elements it puts on the page are left out. The result
is `none` when the call throws: with `showErrors`, at `field.classList.remove` for what is no
element or for a class the class list rejects, and at `form.querySelector` for a selector
the platform rejects; and in the checks on the value `undefined`. -/
def validateField (env : FormEnv) (settings : Settings) (st : ValidationState)
    (field : Named) (fieldRules : Option FieldRules) : Option (Bool × ValidationState) :=
  match fieldRules with
  | Option.none => some (true, st)
  | some rules =>
    if settings.showErrors = true ∧
        (field.isElement = false ∨ invalidToken settings.errorClass = true ∨
          env.invalidSelector settings.errorMessageClass field.name = true) then none
    else
      match (match field.value with
          | some value => some (checkField env.parseFloat value rules)
          | Option.none => checkUndefined rules) with
      | Option.none => none
      | some Option.none => some (true, st)
      | some (some errorMessage) =>
        some (false, { st with errors := setError st.errors field.name errorMessage })

/-- What the selection gives `validate`: no element, an element that is no form and lies in
none, or the form found, given by `form.elements[fieldName]` (`none` for `undefined`). -/
inductive FormTarget where
  | noElement
  | noForm
  | form (elements : String → Option Named)

/-- The result of `validate`. -/
structure ValidationResult where
  valid : Bool
  errors : JsMap String String
deriving DecidableEq, Repr

/-- The body of the validation loop of `validate` for one property of the rules object. -/
def validateRule (env : FormEnv) (settings : Settings) (elements : String → Option Named)
    (st : ValidationState) (r : String × Option FieldRules) : Option ValidationState :=
  match elements r.1 with
  | Option.none => some st
  | some field =>
    match validateField env settings st field r.2 with
    | Option.none => none
    | some res => some { res.2 with isValid := st.isValid && res.1 }

/-- The validation loop of `validate`; it stops at the first call that throws. -/
def validateRules (env : FormEnv) (settings : Settings) (elements : String → Option Named) :
    List (String × Option FieldRules) → ValidationState → Option ValidationState
  | [], st => some st
  | r :: rest, st =>
    match validateRule env settings elements st r with
    | Option.none => none
    | some st1 => validateRules env settings elements rest st1

/-- The method `validate(rules, options)`; `rules` lists the own properties of the rules
object in order. The result is `none` when the call throws: in `validateField`, or, with
`validateOnBlur`, at `field.addEventListener` for what is no control. -/
def validate (env : FormEnv) (target : FormTarget) (rules : List (String × Option FieldRules))
    (settings : Settings) : Option ValidationResult :=
  match target with
  | .noElement => some { valid := false, errors := [("general", "No element found")] }
  | .noForm => some { valid := false, errors := [("general", "No form element found")] }
  | .form elements =>
    if settings.validateOnBlur = true ∧
        rules.any (fun r =>
          match elements r.1 with
          | some field => !field.isElement
          | Option.none => false) = true then none
    else
      match validateRules env settings elements rules
          { isValid := true, errors := [] } with
      | Option.none => none
      | some st => some { valid := st.isValid, errors := st.errors }

/-- The rule `fieldRules` that the value breaks, rule by rule. -/
def Violates (parseFloat : String → Option Int) (value : String) (fieldRules : FieldRules) :
    Prop :=
  (fieldRules.required = true ∧ isBlank value = true) ∨
  (∃ test, fieldRules.pattern = some test ∧ value ≠ "" ∧ test value = false) ∨
  (∃ n, fieldRules.minLength = some n ∧ jsLength value < n) ∨
  (∃ n, fieldRules.maxLength = some n ∧ jsLength value > n) ∨
  (∃ b, fieldRules.min = some b ∧ floatLt parseFloat value b = true) ∨
  (∃ b, fieldRules.max = some b ∧ floatGt parseFloat value b = true) ∨
  (∃ f, fieldRules.validate = some f ∧ f (some value) ≠ .ok)

/-- A pattern for digits only. -/
def digitsOnly (value : String) : Bool := value.data.all Char.isDigit

/-- A form with the one control `a`, whose value is `12`. -/
def shortNumberForm : FormTarget :=
  .form fun name =>
    if name = "a" then some (Named.control "a" "12") else Option.none

/-- A form with one empty control whose id is `x` and whose name is `__proto__`. -/
def protoNameForm : FormTarget :=
  .form fun name =>
    if name = "x" then some (Named.control "__proto__" "") else Option.none

/-- A form with two radio buttons named `r`, the checked one with the value `yes`. -/
def radioForm : FormTarget :=
  .form fun name => if name = "r" then some (Named.group "yes") else Option.none

/-- No number is read from any string: every numeric comparison is false. -/
def noFloat : String → Option Int := fun _ => Option.none

/-- A platform that reads no number and accepts every selector. -/
def plainEnv : FormEnv := { parseFloat := noFloat, invalidSelector := fun _ _ => false }

/-! ## Observing the registry -/

/-- The dispatcher stored under `(fn, key)` in a handler map. -/
def lookupFn (byFn : ByFn) (fn : Fn) (key : Key) : Option Dispatcher :=
  (JsMap.get byFn fn).bind fun byCapture => JsMap.get byCapture key

/-- The dispatcher stored under `(ns, fn, key)` in a namespace map. -/
def lookupNs (byNamespace : ByNamespace) (ns : String) (fn : Fn) (key : Key) :
    Option Dispatcher :=
  (JsMap.get byNamespace ns).bind fun byFn => lookupFn byFn fn key

/-- The dispatcher stored under `(selector, ns, fn, key)` in a selector map. -/
def lookupSel (bySelector : BySelector) (selector ns : String) (fn : Fn) (key : Key) :
    Option Dispatcher :=
  (JsMap.get bySelector selector).bind fun byNamespace => lookupNs byNamespace ns fn key

/-- The dispatcher stored under `(t, selector, ns, fn, key)` in an event-type map. -/
def lookupEv (byEvent : ByEvent) (t selector ns : String) (fn : Fn) (key : Key) :
    Option Dispatcher :=
  (JsMap.get byEvent t).bind fun bySelector => lookupSel bySelector selector ns fn key

/-- The registry entry of the tuple `(root, t, selector, ns, fn, key)`: the dispatcher that
`delegatedHandlers.get(root).get(t).get(selector).get(ns).get(fn).get(key)` finds. -/
def lookup (reg : Registry) (root : Elem) (t selector ns : String) (fn : Fn) (key : Key) :
    Option Dispatcher :=
  (JsMap.get reg root).bind fun byEvent => lookupEv byEvent t selector ns fn key

/-- The handler map has no empty capture/once map. -/
def NoEmptyFn (byFn : ByFn) : Prop := ∀ e ∈ byFn, e.2 ≠ []

/-- The namespace map has no empty container below it. -/
def NoEmptyNs (byNamespace : ByNamespace) : Prop :=
  ∀ e ∈ byNamespace, e.2 ≠ [] ∧ NoEmptyFn e.2

/-- The selector map has no empty container below it. -/
def NoEmptySel (bySelector : BySelector) : Prop :=
  ∀ e ∈ bySelector, e.2 ≠ [] ∧ NoEmptyNs e.2

/-- The event-type map has no empty container below it. -/
def NoEmptyEv (byEvent : ByEvent) : Prop :=
  ∀ e ∈ byEvent, e.2 ≠ [] ∧ NoEmptySel e.2

/-- The registry holds no empty container at any level. -/
def NoEmpty (reg : Registry) : Prop :=
  ∀ e ∈ reg, e.2 ≠ [] ∧ NoEmptyEv e.2

/-- The user function a callback ends up calling. -/
def Callback.handler : Callback → Fn
  | .direct fn => fn
  | .dispatcher d => d.fn

/-- The dispatcher `onDelegatedRoot` installs: the one already stored for the tuple, or a
new closure. -/
def dispatcherOf (eventType resolvedEventType nspace selector : String) (fn : Fn)
    (opts : Opts) (s : State) (rootEl : Elem) : Dispatcher :=
  (lookup s.delegatedHandlers rootEl resolvedEventType selector nspace fn
    (captureOf opts, onceOf opts)).getD
    { id := s.nextId, rootEl := rootEl, eventType := eventType, selector := selector,
      nsKey := nspace, fn := fn, capture := captureOf opts, once := onceOf opts }

/-- The flag condition under which `off(evt, selector, handler, options)` removes a key. -/
def keyMatches (opts : Opts) (key : Key) : Prop :=
  key.1 = captureOf opts ∧ key.2 ∈ onceValues opts

instance (opts : Opts) (key : Key) : Decidable (keyMatches opts key) := by
  unfold keyMatches; infer_instance

/-- The tuples `off(evt, selector, handler, options)` removes on the root `r`. -/
def Removed4 (r : Elem) (rt nspace sel : String) (fn : Fn) (opts : Opts)
    (r1 : Elem) (t1 sel1 ns1 : String) (fn1 : Fn) (key1 : Key) : Prop :=
  r = r1 ∧ rt = t1 ∧ sel = sel1 ∧ (nspace = "" ∨ nspace = ns1) ∧ fn = fn1 ∧
    keyMatches opts key1

instance (r : Elem) (rt nspace sel : String) (fn : Fn) (opts : Opts)
    (r1 : Elem) (t1 sel1 ns1 : String) (fn1 : Fn) (key1 : Key) :
    Decidable (Removed4 r rt nspace sel fn opts r1 t1 sel1 ns1 fn1 key1) := by
  unfold Removed4; infer_instance

/-- The handler invocations a callback makes when the platform calls it for the event `e`
at the current target `cur`. -/
def callsOf (dom : Dom) (cur : Elem) (e : Event) : Callback → List Call
  | .direct fn => [{ fn := fn, thisArg := cur, event := e, matched := none }]
  | .dispatcher d =>
    match e.target with
    | none => []
    | some rawTarget =>
      match dom.closest rawTarget d.selector with
      | none => []
      | some matched =>
        if cur = matched ∨ dom.contains cur matched = true then
          [{ fn := d.fn, thisArg := matched, event := e, matched := some matched }]
        else []

/-- Every dispatcher stored in the registry captured the variables of the path it is stored
under. -/
def ClosuresAgree (reg : Registry) : Prop :=
  ∀ r t sel ns fn key d, lookup reg r t sel ns fn key = some d →
    d.rootEl = r ∧ d.eventType = t ∧ d.selector = sel ∧ d.nsKey = ns ∧ d.fn = fn ∧ d.key = key

/-- Every dispatcher on a listener list is installed on its own root, for its own event type
and with its own flags. -/
def ListenersAgree (ls : List Listener) : Prop :=
  ∀ l ∈ ls, ∀ d, l.callback = .dispatcher d →
    l.target = d.rootEl ∧ l.type = d.eventType ∧ l.capture = d.capture ∧ l.once = d.once

/-- The namespace condition of `off`: every namespace when the event string carries none,
the parsed one otherwise. -/
def nsMatches (nspace ns1 : String) : Prop := nspace = "" ∨ nspace = ns1

instance (nspace ns1 : String) : Decidable (nsMatches nspace ns1) := by
  unfold nsMatches; infer_instance

/-- The dispatcher `d` is stored under some handler and key of the handler map. -/
def StoredFn (byFn : ByFn) (key : Key) (d : Dispatcher) : Prop :=
  ∃ fe ∈ byFn, (key, d) ∈ fe.2

/-- The dispatcher `d` is stored under the root `r`, the event type `t`, the selector `sel`
and the namespace `ns`, under some handler and the key `key`. -/
def StoredAt (reg : Registry) (r : Elem) (t sel ns : String) (key : Key) (d : Dispatcher) :
    Prop :=
  ∃ be bs bn bf, JsMap.get reg r = some be ∧ JsMap.get be t = some bs ∧
    JsMap.get bs sel = some bn ∧ JsMap.get bn ns = some bf ∧ StoredFn bf key d

/-- Keys are unique in a handler map and below it, as in a JavaScript `Map`. -/
def WFFn (byFn : ByFn) : Prop :=
  (JsMap.keys byFn).Nodup ∧ ∀ e ∈ byFn, (JsMap.keys e.2).Nodup

/-- Keys are unique in a namespace map and below it. -/
def WFNs (byNamespace : ByNamespace) : Prop :=
  (JsMap.keys byNamespace).Nodup ∧ ∀ e ∈ byNamespace, WFFn e.2

/-- Keys are unique in a selector map and below it. -/
def WFSel (bySelector : BySelector) : Prop :=
  (JsMap.keys bySelector).Nodup ∧ ∀ e ∈ bySelector, WFNs e.2

/-- Keys are unique in an event-type map and below it. -/
def WFEv (byEvent : ByEvent) : Prop :=
  (JsMap.keys byEvent).Nodup ∧ ∀ e ∈ byEvent, WFSel e.2

/-- Keys are unique at every level of the registry. -/
def WF (reg : Registry) : Prop :=
  (JsMap.keys reg).Nodup ∧ ∀ e ∈ reg, WFEv e.2

/-- The tuples `off(evt, selector)` removes on the root `r`. -/
def Removed3 (r : Elem) (rt nspace sel : String) (r1 : Elem) (t1 sel1 ns1 : String) : Prop :=
  r = r1 ∧ rt = t1 ∧ sel = sel1 ∧ nsMatches nspace ns1

instance (r : Elem) (rt nspace sel : String) (r1 : Elem) (t1 sel1 ns1 : String) :
    Decidable (Removed3 r rt nspace sel r1 t1 sel1 ns1) := by
  unfold Removed3; infer_instance

/-- The tuples `off(evt)` and `off('.ns')` remove on the root `r`; `et` is the parsed event
type and `rt` the resolved one. -/
def Removed1 (r : Elem) (et rt nspace : String) (r1 : Elem) (t1 ns1 : String) : Prop :=
  r = r1 ∧ ((et = "" ∧ nspace ≠ "") ∨ rt = t1) ∧ nsMatches nspace ns1

instance (r : Elem) (et rt nspace : String) (r1 : Elem) (t1 ns1 : String) :
    Decidable (Removed1 r et rt nspace r1 t1 ns1) := by
  unfold Removed1; infer_instance

/-- Well-formedness of a state: unique keys, no empty container, and closures, listeners and
registry paths that agree. Every reachable state satisfies it (`inv_of_reachable`). -/
structure Inv (s : State) : Prop where
  wf : WF s.delegatedHandlers
  noEmpty : NoEmpty s.delegatedHandlers
  closures : ClosuresAgree s.delegatedHandlers
  listeners : ListenersAgree s.listeners

/-- The calls a page can make and the event deliveries the platform can perform. -/
inductive Action where
  | callOn (arr : List Elem) (evt : String) (args : OnArgs)
  | callOne (arr : List Elem) (evt : String) (args : OnArgs)
  | callOff (arr : List Elem) (evt : String) (args : OffArgs)
  | dispatch (dom : Dom) (cur : Elem) (e : Event)

/-- One action applied to a state. -/
def step (s : State) : Action → State
  | .callOn arr evt args => on_ s arr evt args
  | .callOne arr evt args => one s arr evt args
  | .callOff arr evt args => off s arr evt args
  | .dispatch dom cur e => dispatchAt s dom cur e

/-- The states a fresh page can get into. -/
inductive Reachable : State → Prop where
  | init : Reachable State.init
  | step (s : State) (a : Action) : Reachable s → Reachable (step s a)

/-- The page of the delegation tests: the list `1` holds the item `2`, which holds the span
`3`; the selector `li` matches the item and `span` the span. -/
def listDom : Dom :=
  { ancestors := fun x => if x = 3 then [3, 2, 1] else if x = 2 then [2, 1] else [x]
    isMatch := fun x sel => decide ((x = 2 ∧ sel = "li") ∨ (x = 3 ∧ sel = "span")) }

/-- A click on the span `3` of `listDom`. -/
def clickOnSpan : Event := { type := "click", target := some 3 }

/-- The arguments of one delegated registration `on(evt, selector, fn, opts)`. -/
structure Registration where
  evt : String
  selector : String
  fn : Fn
  opts : Opts
deriving DecidableEq, Repr

/-- A sequence of delegated registrations on one root. -/
def registerAll (s : State) (root : Elem) (regs : List Registration) : State :=
  regs.foldl (fun st g => on_ st [root] g.evt (.delegated g.selector g.fn g.opts)) s

/-- A sequence of `off(evt, selector, fn, opts)` calls on one root. -/
def removeEach (s : State) (root : Elem) (rms : List Registration) : State :=
  rms.foldl (fun st g => off st [root] g.evt (.delegated g.selector g.fn g.opts)) s

/-- A sequence of `off(evt)` calls on one root. -/
def removeTypes (s : State) (root : Elem) (evts : List String) : State :=
  evts.foldl (fun st e => off st [root] e .none) s

/-- The tuple under which a registration is stored. -/
def Registration.Covers (g : Registration) (t sel ns : String) (fn : Fn) (key : Key) : Prop :=
  (parseNamespacedEvent g.evt).type ≠ "" ∧ t = (parseNamespacedEvent g.evt).type ∧
    sel = g.selector ∧ ns = (parseNamespacedEvent g.evt).nspace ∧ fn = g.fn ∧
    key = (captureOf g.opts, onceOf g.opts)

/-- The event strings of the namespace-only form: a dot followed by at least one character. -/
def NamespaceOnly (evt : String) : Prop :=
  evt.data.head? = some '.' ∧ 1 < evt.data.length

instance (evt : String) : Decidable (NamespaceOnly evt) := by
  unfold NamespaceOnly; infer_instance

/-- A click whose target is the list `1` of `listDom` itself: no `li` lies on its path. -/
def clickOnList : Event := { type := "click", target := some 1 }

/-! ## `paginate` -/

/-- The constant `totalPages` of `paginate`: `Math.ceil(content.length / itemsPerPage)`, for an
integer `itemsPerPage` other than zero. -/
def totalPages (n : Nat) (itemsPerPage : Int) : Int := ⌈(n : ℚ) / (itemsPerPage : ℚ)⌉

/-- The call `arr.slice(start, stop)` with integer indices: a negative index counts from the
end of the array. -/
def slice {α : Type} (arr : List α) (start stop : Int) : List α :=
  let len : Int := arr.length
  let k := if start < 0 then max (len + start) 0 else min start len
  let final := if stop < 0 then max (len + stop) 0 else min stop len
  (arr.drop k.toNat).take (final - k).toNat

/-- The arguments `renderPage(page)` passes to the render callback: the content of the page,
the page number and the number of pages. -/
def renderPage {α : Type} (content : List α) (itemsPerPage : Int) (page : Int) :
    List α × Int × Int :=
  let start := (page - 1) * itemsPerPage
  let stop := start + itemsPerPage
  (slice content start stop, page, totalPages content.length itemsPerPage)

/-- The constant `startPage` of `renderPaginationControls`; `/` rounds down for the divisor
2, as `Math.floor` does. -/
def startPage (page maxPageNumbers : Int) : Int := max 1 (page - maxPageNumbers / 2)

/-- The constant `endPage` of `renderPaginationControls`. -/
def endPage (total page maxPageNumbers : Int) : Int :=
  min total (startPage page maxPageNumbers + maxPageNumbers - 1)

/-- The page buttons `renderPaginationControls(page)` appends, in order: the number on each
button and whether it gets the class `active`. -/
def pageButtons (total page maxPageNumbers : Int) : List (Int × Bool) :=
  (List.range (endPage total page maxPageNumbers - startPage page maxPageNumbers + 1).toNat).map
    fun k : Nat => (startPage page maxPageNumbers + (k : Int),
                    decide (startPage page maxPageNumbers + (k : Int) = page))

/-- The variable `currentPage` of `paginate`, and the pages `renderPage` was called for. -/
structure PagerState where
  currentPage : Int
  rendered : List Int
deriving DecidableEq, Repr

/-- The state `paginate` leaves behind: page 1 is rendered. -/
def PagerState.init : PagerState := { currentPage := 1, rendered := [1] }

/-- The click handler of the button `First`. -/
def firstHandler (s : PagerState) : PagerState :=
  if s.currentPage > 1 then { currentPage := 1, rendered := s.rendered ++ [1] } else s

/-- The click handler of the button `Last`. -/
def lastHandler (total : Int) (s : PagerState) : PagerState :=
  if s.currentPage < total then { currentPage := total, rendered := s.rendered ++ [total] }
  else s

/-- The click handler of the button `Next`. -/
def nextHandler (total : Int) (s : PagerState) : PagerState :=
  if s.currentPage < total then
    { currentPage := s.currentPage + 1, rendered := s.rendered ++ [s.currentPage + 1] }
  else s

/-- The click handler of the button `Previous`. -/
def prevHandler (s : PagerState) : PagerState :=
  if s.currentPage > 1 then
    { currentPage := s.currentPage - 1, rendered := s.rendered ++ [s.currentPage - 1] }
  else s

/-- The click handler of a page button; `text` is what `parseInt` reads on the button, `none`
for `NaN`. -/
def pageHandler (text : Option Int) (s : PagerState) : PagerState :=
  match text with
  | none => s
  | some page =>
    if page ≠ s.currentPage then { currentPage := page, rendered := s.rendered ++ [page] }
    else s

/-! ## The member resolver (the `get` trap of the proxy around the prototype) -/

/-- The array `standardEvents` of the resolver. -/
def standardEvents : List String :=
  ["click", "dblclick", "mouseover", "mouseout", "mouseenter", "mouseleave", "mousemove",
   "mouseup", "mousedown", "keydown", "keyup", "keypress", "change", "submit", "focus", "blur",
   "resize", "scroll", "load", "error", "focusin", "focusout", "select", "contextmenu",
   "input", "invalid", "reset", "search"]

/-- The object `aliases` of the resolver, as its list of entries. -/
def aliases : List (String × String) :=
  [("over", "mouseover"), ("out", "mouseout"), ("enter", "mouseenter"),
   ("leave", "mouseleave"), ("move", "mousemove"), ("up", "mouseup"), ("down", "mousedown")]

/-- The keys of the object `domMethods` of the resolver. -/
def domMethodNames : List String :=
  ["focus", "blur", "click", "scrollIntoView", "matches", "closest", "checkValidity",
   "reportValidity", "submit", "reset", "play", "pause", "load", "getContext", "toDataURL",
   "scrollTo", "scrollBy", "toggleClass", "containsClass", "replaceClass", "getAttribute",
   "setAttribute", "removeAttribute", "hasAttribute", "getBoundingClientRect"]

/-- The array `domProperties` of the resolver. -/
def domProperties : List String :=
  ["textContent", "innerHTML", "innerText", "outerHTML", "className", "id", "tagName",
   "nodeName", "nodeType", "nodeValue", "title", "lang", "dir", "attributes", "checked",
   "disabled", "value", "href", "src", "alt", "tabIndex", "accessKey", "hidden", "dataset",
   "contentEditable", "draggable", "spellcheck", "translate", "offsetHeight", "offsetWidth",
   "offsetLeft", "offsetTop", "parentNode", "parentElement", "nextSibling", "previousSibling",
   "nextElementSibling", "previousElementSibling", "childElementCount", "clientWidth",
   "clientHeight", "clientLeft", "clientTop", "scrollWidth", "scrollHeight", "scrollLeft",
   "scrollTop", "form", "formAction", "formMethod", "formEnctype", "formNoValidate",
   "formTarget", "validity", "validationMessage", "willValidate", "required", "readOnly",
   "autofocus", "defaultValue", "selectedIndex", "options", "length", "selectedOptions",
   "selected", "defaultChecked", "currentTime", "duration", "paused", "ended", "muted",
   "volume", "loop", "controls", "autoplay", "poster"]

/-- The names of the methods the prototype object literal defines. -/
def ptMethodNames : List String :=
  ["init", "_getElements", "_getElementArray", "_getFirstElement", "val", "textContent",
   "outerHTML", "html", "text", "remove", "clone", "replaceWith", "append", "pre", "prependTo",
   "appendTo", "hide", "css", "cssObject", "addClass", "removeClass", "toggleClass",
   "hasClass", "onReady", "on", "one", "trigger", "triggerHandler", "alternateColors",
   "createElement", "deepClone", "isValidSelector", "find", "findOne", "tap", "toArray",
   "asArray", "each", "isElement", "ready", "noConflict", "delegate", "hover", "cssPseudo",
   "cssHover", "removeHover", "removeCssHover", "cssVar", "onIntersect", "whenVisible",
   "unobserve", "onResize", "unobserveResize", "animateKeyframes", "pauseAnimation",
   "resumeAnimation", "cancelAnimation", "fadeIn", "animate", "data", "removeData",
   "setLocalStorage", "getLocalStorage", "removeLocalStorage", "clearLocalStorage", "parent",
   "children", "siblings", "ajax", "get", "post", "extend", "addClassWithTransition",
   "serializeForm", "submitForm", "resetForm", "formValue", "validate",
   "applyValidationAttributes", "create", "createElementNS", "createSVG", "off", "before",
   "after", "next", "prev", "isEmpty", "paginate", "createTextNode", "createComment",
   "createDocumentFragment", "appendChild", "removeChild", "replaceChild", "insertBefore",
   "childNodes", "firstChild", "lastChild", "getAttribute", "setAttribute", "removeAttribute",
   "hasAttribute"]

/-- The constant `version`. -/
def version : String := "1.0.1"

/-- A value found under a name of the prototype: a function of the prototype literal, a
number, a string, a function supplied from outside (a plugin), or the member of that name of
`Object.prototype`. -/
inductive Member where
  | builtin (name : String)
  | num (n : Int)
  | str (s : String)
  | fn (f : Fn)
  | inherited (name : String)
deriving DecidableEq, Repr

/-- JavaScript truthiness of a member. -/
def Member.truthy : Member → Bool
  | .builtin _ => true
  | .num n => decide (n ≠ 0)
  | .str s => decide (s ≠ "")
  | .fn _ => true
  | .inherited _ => true

/-- The own properties of the prototype object (the target of the proxy). The object is a
plain object: it inherits the names of `Object.prototype`. -/
abbrev MethodTable := JsMap String Member

/-- The test `prop in target`: an own name of the target or a name it inherits. -/
def inTarget (target : MethodTable) (prop : String) : Bool :=
  (JsMap.get target prop).isSome || decide (prop ∈ objectPrototypeNames)

/-- The call `Reflect.get(target, prop, receiver)`: the own member, else the inherited one,
else `undefined` (`none`). -/
def reflectGet (target : MethodTable) (prop : String) : Option Member :=
  match JsMap.get target prop with
  | some m => some m
  | none => if prop ∈ objectPrototypeNames then some (.inherited prop) else none

/-- The prototype object literal `domMan.pt`. -/
def pt : MethodTable :=
  [("domMan", .str version), ("constructor", .builtin "domMan"), ("length", .num 0)] ++
    ptMethodNames.map fun n => (n, Member.builtin n)

/-- What the resolver and the functions it returns ask the platform about an element or a
style name. -/
structure Platform where
  /-- The test `prop in el`. -/
  hasProp : Elem → String → Bool
  /-- The test `prop in tempElement.style`. -/
  cssProps : String → Bool
  /-- The test `typeof el[name] === "function"`. -/
  isFunction : Elem → String → Bool
  /-- The test `el instanceof HTMLFormElement`. -/
  isForm : Elem → Bool
  /-- The test `el instanceof HTMLMediaElement`. -/
  isMedia : Elem → Bool

/-- The value the `get` trap returns, by the step that produced it. -/
inductive Resolved where
  | explicit (m : Member)
  | collision (prop eventName : String)
  | domMethod (prop : String)
  | eventShortcut (eventName : String)
  | domProperty (prop : String)
  | cssProperty (prop : String)
  | fallback
deriving DecidableEq, Repr

/-- The `get` trap for a string `prop`; `first` is the first element of the receiver (`none`
when it has no element, as for the prototype itself). -/
def Proxy.get (pf : Platform) (target : MethodTable) (prop : String) (first : Option Elem) :
    Resolved :=
  if inTarget target prop = true then
    match reflectGet target prop with
    | some m => .explicit m
    | none => .fallback
  else
    let isEventShortcut := decide (prop ∈ standardEvents) || (JsMap.get aliases prop).isSome
    let eventName := (JsMap.get aliases prop).getD prop
    if isEventShortcut = true ∧ prop ∈ domMethodNames then .collision prop eventName
    else if prop ∈ domMethodNames then .domMethod prop
    else if isEventShortcut = true then .eventShortcut eventName
    else
      let shouldHandleAsDomProperty : Bool :=
        if prop ∉ domProperties then false
        else
          match first with
          | none => true
          | some el => pf.hasProp el prop
      if shouldHandleAsDomProperty = true then .domProperty prop
      else if pf.cssProps prop = true then .cssProperty prop
      else .fallback

/-- JavaScript truthiness of what the trap returns: every function it builds is truthy, the
last step returns `undefined`. -/
def Resolved.truthy : Resolved → Bool
  | .explicit m => m.truthy
  | .fallback => false
  | _ => true

/-- An argument of a call: `undefined`, a function, or another value. -/
inductive Arg where
  | undefined
  | fn (f : Fn)
  | other (v : Nat)
deriving DecidableEq, Repr

/-- What a resolved member asks of the platform. -/
inductive Effect where
  | call (el : Elem) (method : String)
  | setProp (el : Elem) (prop : String) (value : Arg)
  | setStyle (el : Elem) (prop : String) (value : Arg)
deriving DecidableEq, Repr

/-- What a resolved member returns: the selection, a property of an element, or a computed
style of an element. -/
inductive Ret where
  | this
  | prop (el : Elem) (name : String)
  | computedStyle (el : Elem) (name : String)
deriving DecidableEq, Repr

/-- The event system together with the requests made to the platform so far. -/
structure Page where
  events : State
  effects : List Effect

/-- The entries of `domMethods` that return the selection and take no argument: `focus`,
`blur`, `click`, `submit`, `reset`, `play`, `pause` and `load`, called on the selection
`arr`. The other entries are not modelled. -/
def domMethods (pf : Platform) (prop : String) (arr : List Elem) : List Effect :=
  if prop = "focus" ∨ prop = "blur" ∨ prop = "click" then
    arr.flatMap fun el => if pf.isFunction el prop = true then [Effect.call el prop] else []
  else if prop = "submit" then
    arr.flatMap fun el =>
      if pf.isForm el = true then
        if pf.isFunction el "requestSubmit" = true then [Effect.call el "requestSubmit"]
        else [Effect.call el "submit"]
      else []
  else if prop = "reset" then
    arr.flatMap fun el => if pf.isForm el = true then [Effect.call el "reset"] else []
  else if prop = "play" ∨ prop = "pause" ∨ prop = "load" then
    arr.flatMap fun el => if pf.isMedia el = true then [Effect.call el prop] else []
  else []

/-- The function returned for a name that is an event shortcut and a DOM method. -/
def callCollision (pf : Platform) (prop eventName : String) (arr : List Elem)
    (args : List Arg) (pg : Page) : Page × Ret :=
  match args with
  | [] => ({ pg with effects := pg.effects ++ domMethods pf prop arr }, .this)
  | [.fn f] => ({ pg with events := on_ pg.events arr eventName (.direct f .undefined) }, .this)
  | _ => ({ pg with effects := pg.effects ++ domMethods pf prop arr }, .this)

/-- The function returned for an event shortcut without a DOM method of the same name. -/
def callEventShortcut (eventName : String) (arr : List Elem) (args : List Arg) (pg : Page) :
    Page × Ret :=
  match args.headD .undefined with
  | .fn f => ({ pg with events := on_ pg.events arr eventName (.direct f .undefined) }, .this)
  | _ => (pg, .this)

/-- The function returned for a DOM property. -/
def callDomProperty (prop : String) (arr : List Elem) (args : List Arg) (pg : Page) :
    Page × Ret :=
  match arr.head? with
  | none => (pg, .this)
  | some first =>
    let value := args.headD .undefined
    if value = .undefined then (pg, .prop first prop)
    else ({ pg with effects := pg.effects ++ arr.map fun el => Effect.setProp el prop value },
          .this)

/-- The function returned for a CSS property. -/
def callCssProperty (prop : String) (arr : List Elem) (args : List Arg) (pg : Page) :
    Page × Ret :=
  match arr.head? with
  | none => (pg, .this)
  | some first =>
    let value := args.headD .undefined
    if value = .undefined then (pg, .computedStyle first prop)
    else ({ pg with effects := pg.effects ++ arr.map fun el => Effect.setStyle el prop value },
          .this)

/-- A call of what the trap returned on the selection `arr`; `none` where the value is not
one of the functions the trap builds around events, properties and styles. -/
def Resolved.call (pf : Platform) (r : Resolved) (arr : List Elem) (args : List Arg)
    (pg : Page) : Option (Page × Ret) :=
  match r with
  | .collision prop eventName => some (callCollision pf prop eventName arr args pg)
  | .eventShortcut eventName => some (callEventShortcut eventName arr args pg)
  | .domProperty prop => some (callDomProperty prop arr args pg)
  | .cssProperty prop => some (callCssProperty prop arr args pg)
  | _ => none

/-- The body of the loop of `extend` for the own property `e` of the argument. The test
`!ctor.pt[name]` reads the name through the proxy, on the prototype itself, which has no
element. -/
def extendStep (pf : Platform) (t : MethodTable) (e : String × Member) : MethodTable :=
  if (Proxy.get pf t e.1 none).truthy = false then JsMap.set t e.1 e.2 else t

/-- The method `extend`: `methods` lists the own enumerable properties of its argument, and
the result is the method table afterwards. The result is `none` when the argument has an own
property `hasOwnProperty`: the test `methods.hasOwnProperty(name)` then calls the supplied
value instead of the inherited function. -/
def extend (pf : Platform) (target : MethodTable) (methods : List (String × Member)) :
    Option MethodTable :=
  if "hasOwnProperty" ∈ methods.map Prod.fst then none
  else some (methods.foldl (extendStep pf) target)

/-- Reading the member `prop` of a selection whose first element is `first`. A property the
selection has of its own is read from the selection itself (`none` here): `init` gives every
selection `elements` and `length`, and `own` lists what it was given besides. Every other
name is read from the prototype, through the trap. -/
def selectionGet (pf : Platform) (target : MethodTable) (own : List String)
    (first : Option Elem) (prop : String) : Option Resolved :=
  if prop = "elements" ∨ prop = "length" ∨ prop ∈ own then none
  else some (Proxy.get pf target prop first)

/-- A page where every element is a plain block: it has the usual methods, and no `src` or
`volume` property; `color` and the overlapping `src` and `volume` are style names. Elements
and style objects inherit the names of `Object.prototype`. -/
def plainPlatform : Platform :=
  { hasProp := fun _ p =>
      decide (p ∈ ["id", "title", "textContent"] ∨ p ∈ objectPrototypeNames)
    cssProps := fun p => decide (p ∈ ["color", "src", "volume"] ∨ p ∈ objectPrototypeNames)
    isFunction := fun _ m => decide (m ∈ ["focus", "blur", "click"])
    isForm := fun _ => false
    isMedia := fun _ => false }

/-- A page where the element `1` is an audio element (it has `src` and `volume`) and the
others are plain blocks. -/
def mediaPlatform : Platform :=
  { plainPlatform with
    hasProp := fun el p =>
      decide (p ∈ ["id", "title", "textContent"] ∨ p ∈ objectPrototypeNames ∨
        (el = 1 ∧ p ∈ ["src", "volume"]))
    isMedia := fun el => decide (el = 1) }

/-! ## `siblings` -/

/-- The part of the document tree `siblings` reads. -/
structure Tree where
  /-- The property `el.parentElement`. -/
  parentElement : Elem → Option Elem
  /-- The property `parent.children`. -/
  children : Elem → List Elem

/-- The body of the inner loop of `siblings` for the child `kid`: the state is the array
`siblings` and the set `seen`. -/
def siblingsKid (selected : List Elem) (st : List Elem × List Elem) (kid : Elem) :
    List Elem × List Elem :=
  if kid ∈ selected then st
  else if kid ∉ st.2 then (st.1 ++ [kid], st.2 ++ [kid])
  else st

/-- The body of the outer loop of `siblings` for the selected element `el`. -/
def siblingsEl (tree : Tree) (selected : List Elem) (st : List Elem × List Elem) (el : Elem) :
    List Elem × List Elem :=
  match tree.parentElement el with
  | none => st
  | some parent => (tree.children parent).foldl (siblingsKid selected) st

/-- The method `siblings` on the selection `arr`: the elements of the selection it returns. -/
def siblings (tree : Tree) (arr : List Elem) : List Elem :=
  if arr.length = 0 then []
  else (arr.foldl (siblingsEl tree arr) ([], [])).1

/-- The children `siblings` meets, in the order it meets them: for each selected element
that has a parent, the children of the parent. -/
def encountered (tree : Tree) (arr : List Elem) : List Elem :=
  arr.flatMap fun el =>
    match tree.parentElement el with
    | none => []
    | some parent => tree.children parent

/-- The list of the traversal test: the list `10` holds the items `1`, `2` and `3`. -/
def listTree : Tree :=
  { parentElement := fun x => if x = 1 ∨ x = 2 ∨ x = 3 then some 10 else none
    children := fun x => if x = 10 then [1, 2, 3] else [] }

/-! ## Theorems about `JsMap` -/

namespace JsMap

variable {K V : Type} [DecidableEq K]

@[simp] theorem get_nil (k : K) : get ([] : JsMap K V) k = none := rfl

theorem get_cons (e : K × V) (m : JsMap K V) (k : K) :
    get (e :: m) k = if e.1 = k then some e.2 else get m k := rfl

theorem get_set (m : JsMap K V) (k k1 : K) (v : V) :
    get (set m k v) k1 = if k = k1 then some v else get m k1 := by
  induction m with
  | nil => simp [set, get_cons]
  | cons e m ih =>
    simp only [set]
    by_cases h : e.1 = k
    · rw [if_pos h, get_cons, get_cons]
      by_cases h1 : k = k1
      · have h2 : e.1 = k1 := h.trans h1
        simp [h1, h2]
      · have h2 : e.1 ≠ k1 := fun h3 => h1 (h.symm.trans h3)
        simp [h1, h2]
    · rw [if_neg h, get_cons, ih, get_cons]
      by_cases h1 : k = k1
      · have h2 : e.1 ≠ k1 := fun h3 => h (h3.trans h1.symm)
        simp [h1, h2]
      · simp [h1]

theorem delete_cons (e : K × V) (m : JsMap K V) (k : K) :
    delete (e :: m) k = if e.1 = k then delete m k else e :: delete m k := by
  unfold delete
  by_cases h : e.1 = k <;> simp [List.filter_cons, h]

theorem get_delete (m : JsMap K V) (k k1 : K) :
    get (delete m k) k1 = if k = k1 then none else get m k1 := by
  induction m with
  | nil => simp [delete]
  | cons e m ih =>
    rw [delete_cons]
    by_cases h : e.1 = k
    · rw [if_pos h, ih, get_cons]
      by_cases h1 : k = k1
      · simp [h1]
      · have h2 : e.1 ≠ k1 := fun h3 => h1 (h.symm.trans h3)
        simp [h1, h2]
    · rw [if_neg h, get_cons, ih, get_cons]
      by_cases h1 : k = k1
      · have h2 : e.1 ≠ k1 := fun h3 => h (h3.trans h1.symm)
        simp [h1, h2]
      · simp [h1]

theorem set_ne_nil (m : JsMap K V) (k : K) (v : V) : set m k v ≠ [] := by
  cases m with
  | nil => simp [set]
  | cons e m => by_cases h : e.1 = k <;> simp [set, h]

theorem mem_delete (m : JsMap K V) (k : K) (e : K × V) :
    e ∈ delete m k ↔ e ∈ m ∧ e.1 ≠ k := by
  simp [delete]

theorem mem_of_mem_set (m : JsMap K V) (k : K) (v : V) (e : K × V) (h : e ∈ set m k v) :
    e ∈ m ∨ e = (k, v) := by
  induction m with
  | nil => simpa [set] using h
  | cons a m ih =>
    by_cases ha : a.1 = k
    · simp only [set, ha, if_true, List.mem_cons] at h
      rcases h with h | h
      · right; rw [h]
      · left; exact List.mem_cons_of_mem _ h
    · simp only [set, ha, if_false, List.mem_cons] at h
      rcases h with h | h
      · left; rw [h]; exact List.mem_cons_self _ _
      · rcases ih h with h1 | h1
        · left; exact List.mem_cons_of_mem _ h1
        · right; exact h1

theorem mem_of_get (m : JsMap K V) (k : K) (v : V) (h : get m k = some v) : (k, v) ∈ m := by
  induction m with
  | nil => simp at h
  | cons e m ih =>
    rw [get_cons] at h
    by_cases he : e.1 = k
    · simp only [he, if_true, Option.some.injEq] at h
      have : e = (k, v) := Prod.ext he h
      rw [this]; exact List.mem_cons_self _ _
    · simp only [he, if_false] at h
      exact List.mem_cons_of_mem _ (ih h)

theorem get_of_mem (m : JsMap K V) (hm : (keys m).Nodup) (k : K) (v : V) (h : (k, v) ∈ m) :
    get m k = some v := by
  induction m with
  | nil => simp at h
  | cons e m ih =>
    simp only [keys, List.map_cons, List.nodup_cons] at hm
    rw [get_cons]
    rcases List.mem_cons.1 h with h1 | h1
    · rw [← h1]; simp
    · have hne : e.1 ≠ k := by
        intro he
        apply hm.1
        rw [he]
        exact List.mem_map.2 ⟨(k, v), h1, rfl⟩
      simp only [hne, if_false]
      exact ih hm.2 h1

theorem get_eq_none_iff (m : JsMap K V) (k : K) : get m k = none ↔ k ∉ keys m := by
  induction m with
  | nil => simp [keys]
  | cons e m ih =>
    rw [get_cons]
    by_cases he : e.1 = k
    · simp [he, keys]
    · simp only [he, if_false, ih, keys, List.map_cons, List.mem_cons]
      constructor
      · intro h1 h2
        rcases h2 with h2 | h2
        · exact he h2.symm
        · exact h1 h2
      · intro h1 h2; exact h1 (Or.inr h2)

theorem set_of_get (m : JsMap K V) (k : K) (v : V) (h : get m k = some v) : set m k v = m := by
  induction m with
  | nil => simp at h
  | cons e m ih =>
    rw [get_cons] at h
    by_cases he : e.1 = k
    · simp only [he, if_true, Option.some.injEq] at h
      simp only [set, he, if_true]
      rw [← h, ← he]
    · simp only [he, if_false] at h
      simp only [set, he, if_false]
      rw [ih h]

theorem delete_of_get_none (m : JsMap K V) (k : K) (h : get m k = none) : delete m k = m := by
  rw [get_eq_none_iff] at h
  unfold delete
  rw [List.filter_eq_self]
  intro e he
  have : e.1 ≠ k := fun h1 => h (h1 ▸ List.mem_map.2 ⟨e, he, rfl⟩)
  simpa using this

theorem keys_set_nodup (m : JsMap K V) (k : K) (v : V) (h : (keys m).Nodup) :
    (keys (set m k v)).Nodup := by
  induction m with
  | nil => simp [set, keys]
  | cons e m ih =>
    simp only [keys, List.map_cons, List.nodup_cons] at h
    by_cases he : e.1 = k
    · simp only [set, he, if_true, keys, List.map_cons, List.nodup_cons]
      rw [← he]; exact h
    · simp only [set, he, if_false, keys, List.map_cons, List.nodup_cons]
      refine ⟨?_, ih h.2⟩
      intro hmem
      rcases List.mem_map.1 hmem with ⟨x, hx, hx1⟩
      rcases mem_of_mem_set m k v x hx with h1 | h1
      · exact h.1 (List.mem_map.2 ⟨x, h1, hx1⟩)
      · rw [h1] at hx1; exact he hx1.symm

theorem keys_delete_nodup (m : JsMap K V) (k : K) (h : (keys m).Nodup) :
    (keys (delete m k)).Nodup := by
  unfold keys delete at *
  exact (List.filter_sublist _).map _ |>.nodup h

theorem get_none_of_delete_eq_nil (m : JsMap K V) (k k1 : K) (h : delete m k = [])
    (hk : k ≠ k1) : get m k1 = none := by
  have := get_delete m k k1
  rw [h] at this
  simpa [hk] using this.symm

/-- Reading through `writeBack` with a continuation that finds nothing in an empty
container. -/
theorem get_writeBack_bind {K2 V2 W : Type} (m : JsMap K (JsMap K2 V2)) (k k1 : K)
    (c : JsMap K2 V2) (g : JsMap K2 V2 → Option W) (hg : g [] = none) :
    (get (writeBack m k c) k1).bind g = if k = k1 then g c else (get m k1).bind g := by
  unfold writeBack
  by_cases hc : c.length = 0
  · have : c = [] := List.length_eq_zero.1 hc
    subst this
    by_cases h : k = k1 <;> simp [get_delete, h, hg]
  · by_cases h : k = k1 <;> simp [hc, get_set, h]

theorem get_set_bind {W : Type} (m : JsMap K V) (k k1 : K) (v : V) (g : V → Option W) :
    (get (set m k v) k1).bind g = if k = k1 then g v else (get m k1).bind g := by
  by_cases h : k = k1 <;> simp [get_set, h]

end JsMap

namespace JsMap

variable {K V : Type} [DecidableEq K]

theorem get_writeBack_ne {K2 V2 : Type} (m : JsMap K (JsMap K2 V2)) (k k1 : K)
    (c : JsMap K2 V2) (h : k ≠ k1) : get (writeBack m k c) k1 = get m k1 := by
  unfold writeBack
  by_cases hc : c.length = 0
  · rw [if_pos hc, get_delete, if_neg h]
  · rw [if_neg hc, get_set, if_neg h]

theorem keys_writeBack_nodup {K2 V2 : Type} (m : JsMap K (JsMap K2 V2)) (k : K)
    (c : JsMap K2 V2) (h : (keys m).Nodup) : (keys (writeBack m k c)).Nodup := by
  unfold writeBack
  by_cases hc : c.length = 0
  · rw [if_pos hc]; exact keys_delete_nodup _ _ h
  · rw [if_neg hc]; exact keys_set_nodup _ _ _ h

theorem mem_of_mem_writeBack {K2 V2 : Type} (m : JsMap K (JsMap K2 V2)) (k : K)
    (c : JsMap K2 V2) (e : K × JsMap K2 V2) (h : e ∈ writeBack m k c) :
    e ∈ m ∨ (e = (k, c) ∧ c ≠ []) := by
  unfold writeBack at h
  by_cases hc : c.length = 0
  · rw [if_pos hc] at h
    exact Or.inl ((mem_delete _ _ _).1 h).1
  · rw [if_neg hc] at h
    rcases mem_of_mem_set _ _ _ _ h with h1 | h1
    · exact Or.inl h1
    · refine Or.inr ⟨h1, ?_⟩
      intro h2
      exact hc (by rw [h2]; rfl)

omit [DecidableEq K] in
theorem not_mem_keys_of_nodup_cons (e : K × V) (m : JsMap K V)
    (h : (keys (e :: m)).Nodup) (e1 : K × V) (h1 : e1 ∈ m) : e.1 ≠ e1.1 := by
  simp only [keys, List.map_cons, List.nodup_cons] at h
  intro h2
  exact h.1 (h2 ▸ List.mem_map.2 ⟨e1, h1, rfl⟩)

end JsMap

/-! ## Theorems about `on` -/

theorem lookupFn_nil (fn : Fn) (key : Key) : lookupFn [] fn key = none := rfl

theorem lookupNs_nil (ns : String) (fn : Fn) (key : Key) : lookupNs [] ns fn key = none := rfl

theorem lookupSel_nil (sel ns : String) (fn : Fn) (key : Key) :
    lookupSel [] sel ns fn key = none := rfl

theorem lookupEv_nil (t sel ns : String) (fn : Fn) (key : Key) :
    lookupEv [] t sel ns fn key = none := rfl

theorem bind_getD_nil {K V W : Type} (o : Option (JsMap K V)) (g : JsMap K V → Option W)
    (hg : g [] = none) : g (o.getD []) = o.bind g := by
  cases o <;> simp [hg]

/-- Registry produced by the creating branch of `onDelegatedRoot`, level by level. -/
theorem lookupFn_set_set (byFn : ByFn) (fn fn1 : Fn) (key key1 : Key) (d : Dispatcher) :
    lookupFn (JsMap.set byFn fn (JsMap.set ((JsMap.get byFn fn).getD []) key d)) fn1 key1 =
      if fn = fn1 ∧ key = key1 then some d else lookupFn byFn fn1 key1 := by
  unfold lookupFn
  rw [JsMap.get_set_bind]
  by_cases h : fn = fn1
  · subst h
    rw [if_pos rfl, JsMap.get_set]
    by_cases h1 : key = key1
    · simp [h1]
    · simp only [h1, if_false, and_false]
      exact bind_getD_nil _ (fun bc => JsMap.get bc key1) rfl
  · simp [h]

theorem lookupNs_set_set (byNs : ByNamespace) (ns ns1 : String) (fn fn1 : Fn)
    (key key1 : Key) (d : Dispatcher) :
    lookupNs (JsMap.set byNs ns
        (JsMap.set ((JsMap.get byNs ns).getD []) fn
          (JsMap.set ((JsMap.get ((JsMap.get byNs ns).getD []) fn).getD []) key d)))
        ns1 fn1 key1 =
      if ns = ns1 ∧ fn = fn1 ∧ key = key1 then some d else lookupNs byNs ns1 fn1 key1 := by
  unfold lookupNs
  rw [JsMap.get_set_bind]
  by_cases h : ns = ns1
  · subst h
    rw [if_pos rfl, lookupFn_set_set]
    by_cases h1 : fn = fn1 ∧ key = key1
    · simp [h1]
    · simp only [h1, if_false, and_false]
      exact bind_getD_nil _ (fun bf => lookupFn bf fn1 key1) rfl
  · simp [h]

theorem lookupSel_set_set (bySel : BySelector) (sel sel1 ns ns1 : String) (fn fn1 : Fn)
    (key key1 : Key) (d : Dispatcher) :
    lookupSel (JsMap.set bySel sel
        (JsMap.set ((JsMap.get bySel sel).getD []) ns
          (JsMap.set ((JsMap.get ((JsMap.get bySel sel).getD []) ns).getD []) fn
            (JsMap.set ((JsMap.get ((JsMap.get ((JsMap.get bySel sel).getD []) ns).getD [])
              fn).getD []) key d))))
        sel1 ns1 fn1 key1 =
      if sel = sel1 ∧ ns = ns1 ∧ fn = fn1 ∧ key = key1 then some d
      else lookupSel bySel sel1 ns1 fn1 key1 := by
  unfold lookupSel
  rw [JsMap.get_set_bind]
  by_cases h : sel = sel1
  · subst h
    rw [if_pos rfl, lookupNs_set_set]
    by_cases h1 : ns = ns1 ∧ fn = fn1 ∧ key = key1
    · simp [h1]
    · simp only [h1, if_false, and_false]
      exact bind_getD_nil _ (fun bn => lookupNs bn ns1 fn1 key1) rfl
  · simp [h]

theorem lookupEv_set_set (byEv : ByEvent) (t t1 sel sel1 ns ns1 : String) (fn fn1 : Fn)
    (key key1 : Key) (d : Dispatcher) :
    lookupEv (JsMap.set byEv t
        (JsMap.set ((JsMap.get byEv t).getD []) sel
          (JsMap.set ((JsMap.get ((JsMap.get byEv t).getD []) sel).getD []) ns
            (JsMap.set ((JsMap.get ((JsMap.get ((JsMap.get byEv t).getD []) sel).getD [])
                ns).getD []) fn
              (JsMap.set ((JsMap.get ((JsMap.get ((JsMap.get ((JsMap.get byEv t).getD [])
                sel).getD []) ns).getD []) fn).getD []) key d)))))
        t1 sel1 ns1 fn1 key1 =
      if t = t1 ∧ sel = sel1 ∧ ns = ns1 ∧ fn = fn1 ∧ key = key1 then some d
      else lookupEv byEv t1 sel1 ns1 fn1 key1 := by
  unfold lookupEv
  rw [JsMap.get_set_bind]
  by_cases h : t = t1
  · subst h
    rw [if_pos rfl, lookupSel_set_set]
    by_cases h1 : sel = sel1 ∧ ns = ns1 ∧ fn = fn1 ∧ key = key1
    · simp [h1]
    · simp only [h1, if_false, and_false]
      exact bind_getD_nil _ (fun bs => lookupSel bs sel1 ns1 fn1 key1) rfl
  · simp [h]

theorem lookup_set_set (reg : Registry) (r r1 : Elem) (t t1 sel sel1 ns ns1 : String)
    (fn fn1 : Fn) (key key1 : Key) (d : Dispatcher) :
    lookup (JsMap.set reg r
        (JsMap.set ((JsMap.get reg r).getD []) t
          (JsMap.set ((JsMap.get ((JsMap.get reg r).getD []) t).getD []) sel
            (JsMap.set ((JsMap.get ((JsMap.get ((JsMap.get reg r).getD []) t).getD [])
                sel).getD []) ns
              (JsMap.set ((JsMap.get ((JsMap.get ((JsMap.get ((JsMap.get reg r).getD [])
                  t).getD []) sel).getD []) ns).getD []) fn
                (JsMap.set ((JsMap.get ((JsMap.get ((JsMap.get ((JsMap.get
                  ((JsMap.get reg r).getD []) t).getD []) sel).getD []) ns).getD [])
                  fn).getD []) key d))))))
        r1 t1 sel1 ns1 fn1 key1 =
      if r = r1 ∧ t = t1 ∧ sel = sel1 ∧ ns = ns1 ∧ fn = fn1 ∧ key = key1 then some d
      else lookup reg r1 t1 sel1 ns1 fn1 key1 := by
  unfold lookup
  rw [JsMap.get_set_bind]
  by_cases h : r = r1
  · subst h
    rw [if_pos rfl, lookupEv_set_set]
    by_cases h1 : t = t1 ∧ sel = sel1 ∧ ns = ns1 ∧ fn = fn1 ∧ key = key1
    · simp [h1]
    · simp only [h1, if_false, and_false]
      exact bind_getD_nil _ (fun be => lookupEv be t1 sel1 ns1 fn1 key1) rfl
  · simp [h]

/-- The chain of `get`s at the head of `onDelegatedRoot` reads the registry entry. -/
theorem lookup_eq_getD (reg : Registry) (r : Elem) (t sel ns : String) (fn : Fn) (key : Key) :
    JsMap.get ((JsMap.get ((JsMap.get ((JsMap.get ((JsMap.get
      ((JsMap.get reg r).getD []) t).getD []) sel).getD []) ns).getD []) fn).getD []) key =
      lookup reg r t sel ns fn key := by
  unfold lookup lookupEv lookupSel lookupNs lookupFn
  cases JsMap.get reg r with
  | none => rfl
  | some be =>
    simp only [Option.getD_some, Option.some_bind]
    cases JsMap.get be t with
    | none => rfl
    | some bs =>
      simp only [Option.getD_some, Option.some_bind]
      cases JsMap.get bs sel with
      | none => rfl
      | some bn =>
        simp only [Option.getD_some, Option.some_bind]
        cases JsMap.get bn ns with
        | none => rfl
        | some bf =>
          simp only [Option.getD_some, Option.some_bind]
          cases JsMap.get bf fn with
          | none => rfl
          | some bc => rfl

theorem onDelegatedRoot_listeners (et rt ns sel : String) (fn : Fn) (opts : Opts) (s : State)
    (r : Elem) :
    (onDelegatedRoot et rt ns sel fn opts s r).listeners =
      addEventListener s.listeners r rt (.dispatcher (dispatcherOf et rt ns sel fn opts s r))
        opts := by
  unfold onDelegatedRoot dispatcherOf
  simp only [lookup_eq_getD]
  cases lookup s.delegatedHandlers r rt sel ns fn (captureOf opts, onceOf opts) <;> rfl

theorem onDelegatedRoot_calls (et rt ns sel : String) (fn : Fn) (opts : Opts) (s : State)
    (r : Elem) : (onDelegatedRoot et rt ns sel fn opts s r).calls = s.calls := by
  unfold onDelegatedRoot
  simp only [lookup_eq_getD]
  cases lookup s.delegatedHandlers r rt sel ns fn (captureOf opts, onceOf opts) <;> rfl

theorem lookup_onDelegatedRoot (et rt ns sel : String) (fn : Fn) (opts : Opts) (s : State)
    (r r1 : Elem) (t1 sel1 ns1 : String) (fn1 : Fn) (key1 : Key) :
    lookup (onDelegatedRoot et rt ns sel fn opts s r).delegatedHandlers r1 t1 sel1 ns1 fn1 key1
      = if r = r1 ∧ rt = t1 ∧ sel = sel1 ∧ ns = ns1 ∧ fn = fn1 ∧
            (captureOf opts, onceOf opts) = key1
        then some (dispatcherOf et rt ns sel fn opts s r)
        else lookup s.delegatedHandlers r1 t1 sel1 ns1 fn1 key1 := by
  unfold onDelegatedRoot dispatcherOf
  simp only [lookup_eq_getD]
  cases hl : lookup s.delegatedHandlers r rt sel ns fn (captureOf opts, onceOf opts) with
  | none =>
    simp only [Option.getD_none]
    exact lookup_set_set _ _ _ _ _ _ _ _ _ _ _ _ _ _
  | some d =>
    simp only [Option.getD_some]
    by_cases h : r = r1 ∧ rt = t1 ∧ sel = sel1 ∧ ns = ns1 ∧ fn = fn1 ∧
        (captureOf opts, onceOf opts) = key1
    · rw [if_pos h]
      obtain ⟨h1, h2, h3, h4, h5, h6⟩ := h
      subst h1 h2 h3 h4 h5 h6
      exact hl
    · rw [if_neg h]

/-! ## Theorems about the listener list -/

theorem sameListener_iff (target : Elem) (type : String) (cb : Callback) (capture : Bool)
    (l : Listener) :
    sameListener target type cb capture l = true ↔
      l.target = target ∧ l.type = type ∧ l.callback = cb ∧ l.capture = capture := by
  simp [sameListener]

theorem mem_removeEventListener (ls : List Listener) (target : Elem) (type : String)
    (cb : Callback) (opts : Opts) (l : Listener) :
    l ∈ removeEventListener ls target type cb opts ↔
      l ∈ ls ∧ sameListener target type cb (captureOf opts) l = false := by
  simp [removeEventListener]

theorem mem_addEventListener (ls : List Listener) (target : Elem) (type : String)
    (cb : Callback) (opts : Opts) (l : Listener) :
    l ∈ addEventListener ls target type cb opts ↔
      l ∈ ls ∨ (l = { target := target, type := type, callback := cb,
                      capture := captureOf opts, once := onceOf opts } ∧
                ls.any (sameListener target type cb (captureOf opts)) = false) := by
  unfold addEventListener
  by_cases h : ls.any (sameListener target type cb (captureOf opts)) = true
  · simp [h]
  · simp only [h, if_false, List.mem_append, List.mem_singleton]
    simp only [Bool.not_eq_true] at h
    simp [h]

theorem subset_addEventListener (ls : List Listener) (target : Elem) (type : String)
    (cb : Callback) (opts : Opts) (l : Listener) (h : l ∈ ls) :
    l ∈ addEventListener ls target type cb opts :=
  (mem_addEventListener _ _ _ _ _ _).2 (Or.inl h)

/-- After `addEventListener` a listener with the given identity is installed. -/
theorem exists_mem_addEventListener (ls : List Listener) (target : Elem) (type : String)
    (cb : Callback) (opts : Opts) :
    ∃ l ∈ addEventListener ls target type cb opts,
      sameListener target type cb (captureOf opts) l = true := by
  by_cases h : ls.any (sameListener target type cb (captureOf opts)) = true
  · obtain ⟨l, hl, hs⟩ := List.any_eq_true.1 h
    exact ⟨l, subset_addEventListener _ _ _ _ _ _ hl, hs⟩
  · simp only [Bool.not_eq_true] at h
    refine ⟨_, (mem_addEventListener _ _ _ _ _ _).2 (Or.inr ⟨rfl, h⟩), ?_⟩
    simp [sameListener]

/-- Reading through `writeBack` when the new child lost exactly the entries satisfying `P`. -/
theorem JsMap.get_writeBack_remove {K K2 V2 W : Type} [DecidableEq K]
    (m : JsMap K (JsMap K2 V2)) (k k1 : K) (c c1 : JsMap K2 V2)
    (hc : JsMap.get m k = some c) (g : JsMap K2 V2 → Option W) (hg : g [] = none)
    (P : Prop) [Decidable P] (h : g c1 = if P then none else g c) :
    (JsMap.get (JsMap.writeBack m k c1) k1).bind g =
      if k = k1 ∧ P then none else (JsMap.get m k1).bind g := by
  rw [JsMap.get_writeBack_bind _ _ _ _ _ hg]
  by_cases hk : k = k1
  · subst hk
    rw [if_pos rfl, h, hc]
    by_cases hp : P <;> simp [hp]
  · simp [hk]

/-! ## Theorems about `off(evt, selector, handler, options)` -/

theorem offOnce_fst (r : Elem) (rt : String) (opts : Opts) (acc : ByCapture × List Listener)
    (o : Bool) : (offOnce r rt opts acc o).1 = JsMap.delete acc.1 (captureOf opts, o) := by
  unfold offOnce
  dsimp only
  cases h : JsMap.get acc.1 (captureOf opts, o) with
  | none => exact (JsMap.delete_of_get_none _ _ h).symm
  | some d => rfl

theorem offOnce_snd (r : Elem) (rt : String) (opts : Opts) (acc : ByCapture × List Listener)
    (o : Bool) (l : Listener) :
    l ∈ (offOnce r rt opts acc o).2 ↔
      l ∈ acc.2 ∧ ∀ d, JsMap.get acc.1 (captureOf opts, o) = some d →
        sameListener r rt (.dispatcher d) (captureOf opts) l = false := by
  unfold offOnce
  dsimp only
  cases h : JsMap.get acc.1 (captureOf opts, o) with
  | none => simp
  | some d => simp [mem_removeEventListener]

theorem get_fold_offOnce (r : Elem) (rt : String) (opts : Opts) (os : List Bool)
    (acc : ByCapture × List Listener) (key1 : Key) :
    JsMap.get (os.foldl (offOnce r rt opts) acc).1 key1 =
      if key1.1 = captureOf opts ∧ key1.2 ∈ os then none else JsMap.get acc.1 key1 := by
  induction os generalizing acc with
  | nil => simp
  | cons o os ih =>
    rw [List.foldl_cons, ih, offOnce_fst, JsMap.get_delete]
    by_cases h1 : key1.1 = captureOf opts ∧ key1.2 ∈ os
    · have : key1.1 = captureOf opts ∧ key1.2 ∈ o :: os :=
        ⟨h1.1, List.mem_cons_of_mem _ h1.2⟩
      rw [if_pos h1, if_pos this]
    · rw [if_neg h1]
      by_cases h2 : (captureOf opts, o) = key1
      · have : key1.1 = captureOf opts ∧ key1.2 ∈ o :: os := by
          rw [← h2]; exact ⟨rfl, List.mem_cons_self _ _⟩
        rw [if_pos h2, if_pos this]
      · have : ¬ (key1.1 = captureOf opts ∧ key1.2 ∈ o :: os) := by
          rintro ⟨h3, h4⟩
          rcases List.mem_cons.1 h4 with h5 | h5
          · exact h2 (Prod.ext h3.symm h5.symm)
          · exact h1 ⟨h3, h5⟩
        rw [if_neg h2, if_neg this]

theorem mem_fold_offOnce (r : Elem) (rt : String) (opts : Opts) (os : List Bool)
    (acc : ByCapture × List Listener) (l : Listener) :
    l ∈ (os.foldl (offOnce r rt opts) acc).2 ↔
      l ∈ acc.2 ∧ ∀ o ∈ os, ∀ d, JsMap.get acc.1 (captureOf opts, o) = some d →
        sameListener r rt (.dispatcher d) (captureOf opts) l = false := by
  induction os generalizing acc with
  | nil => simp
  | cons o os ih =>
    rw [List.foldl_cons, ih, offOnce_snd, offOnce_fst]
    constructor
    · rintro ⟨⟨h1, h2⟩, h3⟩
      refine ⟨h1, ?_⟩
      intro o1 ho1 d hd
      by_cases ho : o1 = o
      · subst ho; exact h2 d hd
      · rcases List.mem_cons.1 ho1 with h4 | h4
        · exact absurd h4 ho
        · apply h3 o1 h4 d
          rw [JsMap.get_delete, if_neg]
          · exact hd
          · intro h5
            exact ho (congrArg Prod.snd h5).symm
    · rintro ⟨h1, h2⟩
      refine ⟨⟨h1, h2 o (List.mem_cons_self _ _)⟩, ?_⟩
      intro o1 ho1 d hd
      rw [JsMap.get_delete] at hd
      by_cases h5 : (captureOf opts, o) = (captureOf opts, o1)
      · simp [h5] at hd
      · rw [if_neg h5] at hd
        exact h2 o1 (List.mem_cons_of_mem _ ho1) d hd

theorem offDelegatedNamespace_none (r : Elem) (rt : String) (fn : Fn) (opts : Opts)
    (acc : ByNamespace × List Listener) (ns : String) (h : JsMap.get acc.1 ns = none) :
    offDelegatedNamespace r rt fn opts acc ns = acc := by
  simp only [offDelegatedNamespace, h]

theorem offDelegatedNamespace_some_none (r : Elem) (rt : String) (fn : Fn) (opts : Opts)
    (acc : ByNamespace × List Listener) (ns : String) (bf : ByFn)
    (h : JsMap.get acc.1 ns = some bf) (h1 : JsMap.get bf fn = none) :
    offDelegatedNamespace r rt fn opts acc ns = acc := by
  simp only [offDelegatedNamespace, h, h1]

theorem offDelegatedNamespace_some_some (r : Elem) (rt : String) (fn : Fn) (opts : Opts)
    (acc : ByNamespace × List Listener) (ns : String) (bf : ByFn) (bc : ByCapture)
    (h : JsMap.get acc.1 ns = some bf) (h1 : JsMap.get bf fn = some bc) :
    offDelegatedNamespace r rt fn opts acc ns =
      (JsMap.writeBack acc.1 ns (JsMap.writeBack bf fn
          ((onceValues opts).foldl (offOnce r rt opts) (bc, acc.2)).1),
        ((onceValues opts).foldl (offOnce r rt opts) (bc, acc.2)).2) := by
  simp only [offDelegatedNamespace, h, h1]

theorem lookupNs_offDelegatedNamespace (r : Elem) (rt : String) (fn : Fn) (opts : Opts)
    (acc : ByNamespace × List Listener) (ns ns1 : String) (fn1 : Fn) (key1 : Key) :
    lookupNs (offDelegatedNamespace r rt fn opts acc ns).1 ns1 fn1 key1 =
      if ns = ns1 ∧ fn = fn1 ∧ keyMatches opts key1 then none
      else lookupNs acc.1 ns1 fn1 key1 := by
  cases hbf : JsMap.get acc.1 ns with
  | none =>
    rw [offDelegatedNamespace_none _ _ _ _ _ _ hbf]
    by_cases h : ns = ns1 ∧ fn = fn1 ∧ keyMatches opts key1
    · rw [if_pos h]
      obtain ⟨h1, -⟩ := h
      subst h1
      simp [lookupNs, hbf]
    · rw [if_neg h]
  | some bf =>
    cases hbc : JsMap.get bf fn with
    | none =>
      rw [offDelegatedNamespace_some_none _ _ _ _ _ _ _ hbf hbc]
      by_cases h : ns = ns1 ∧ fn = fn1 ∧ keyMatches opts key1
      · rw [if_pos h]
        obtain ⟨h1, h2, -⟩ := h
        subst h1 h2
        simp [lookupNs, lookupFn, hbf, hbc]
      · rw [if_neg h]
    | some bc =>
      rw [offDelegatedNamespace_some_some _ _ _ _ _ _ _ _ hbf hbc]
      unfold lookupNs
      refine JsMap.get_writeBack_remove acc.1 ns ns1 bf _ hbf
        (fun byFn => lookupFn byFn fn1 key1) rfl (fn = fn1 ∧ keyMatches opts key1) ?_
      unfold lookupFn
      refine JsMap.get_writeBack_remove bf fn fn1 bc _ hbc
        (fun byCapture => JsMap.get byCapture key1) rfl (keyMatches opts key1) ?_
      exact get_fold_offOnce r rt opts (onceValues opts) (bc, acc.2) key1

theorem mem_offDelegatedNamespace (r : Elem) (rt : String) (fn : Fn) (opts : Opts)
    (acc : ByNamespace × List Listener) (ns : String) (l : Listener) :
    l ∈ (offDelegatedNamespace r rt fn opts acc ns).2 ↔
      l ∈ acc.2 ∧ ∀ o ∈ onceValues opts, ∀ d,
        lookupNs acc.1 ns fn (captureOf opts, o) = some d →
        sameListener r rt (.dispatcher d) (captureOf opts) l = false := by
  cases hbf : JsMap.get acc.1 ns with
  | none =>
    rw [offDelegatedNamespace_none _ _ _ _ _ _ hbf]
    simp [lookupNs, hbf]
  | some bf =>
    cases hbc : JsMap.get bf fn with
    | none =>
      rw [offDelegatedNamespace_some_none _ _ _ _ _ _ _ hbf hbc]
      simp [lookupNs, lookupFn, hbf, hbc]
    | some bc =>
      rw [offDelegatedNamespace_some_some _ _ _ _ _ _ _ _ hbf hbc]
      simp only [mem_fold_offOnce, lookupNs, lookupFn, hbf, hbc, Option.some_bind]

theorem lookupNs_fold_offDelegatedNamespace (r : Elem) (rt : String) (fn : Fn) (opts : Opts)
    (nss : List String) (acc : ByNamespace × List Listener) (ns1 : String) (fn1 : Fn)
    (key1 : Key) :
    lookupNs (nss.foldl (offDelegatedNamespace r rt fn opts) acc).1 ns1 fn1 key1 =
      if ns1 ∈ nss ∧ fn = fn1 ∧ keyMatches opts key1 then none
      else lookupNs acc.1 ns1 fn1 key1 := by
  induction nss generalizing acc with
  | nil => simp
  | cons n nss ih =>
    rw [List.foldl_cons, ih, lookupNs_offDelegatedNamespace]
    by_cases h1 : ns1 ∈ nss ∧ fn = fn1 ∧ keyMatches opts key1
    · have : ns1 ∈ n :: nss ∧ fn = fn1 ∧ keyMatches opts key1 :=
        ⟨List.mem_cons_of_mem _ h1.1, h1.2⟩
      rw [if_pos h1, if_pos this]
    · rw [if_neg h1]
      by_cases h2 : n = ns1 ∧ fn = fn1 ∧ keyMatches opts key1
      · have : ns1 ∈ n :: nss ∧ fn = fn1 ∧ keyMatches opts key1 :=
          ⟨h2.1 ▸ List.mem_cons_self _ _, h2.2⟩
        rw [if_pos h2, if_pos this]
      · have : ¬ (ns1 ∈ n :: nss ∧ fn = fn1 ∧ keyMatches opts key1) := by
          rintro ⟨h3, h4⟩
          rcases List.mem_cons.1 h3 with h5 | h5
          · exact h2 ⟨h5.symm, h4⟩
          · exact h1 ⟨h5, h4⟩
        rw [if_neg h2, if_neg this]

theorem mem_fold_offDelegatedNamespace (r : Elem) (rt : String) (fn : Fn) (opts : Opts)
    (nss : List String) (acc : ByNamespace × List Listener) (l : Listener) :
    l ∈ (nss.foldl (offDelegatedNamespace r rt fn opts) acc).2 ↔
      l ∈ acc.2 ∧ ∀ ns ∈ nss, ∀ o ∈ onceValues opts, ∀ d,
        lookupNs acc.1 ns fn (captureOf opts, o) = some d →
        sameListener r rt (.dispatcher d) (captureOf opts) l = false := by
  induction nss generalizing acc with
  | nil => simp
  | cons n nss ih =>
    rw [List.foldl_cons, ih, mem_offDelegatedNamespace]
    constructor
    · rintro ⟨⟨h1, h2⟩, h3⟩
      refine ⟨h1, ?_⟩
      intro ns hns o ho d hd
      by_cases hn : n = ns
      · subst hn; exact h2 o ho d hd
      · rcases List.mem_cons.1 hns with h4 | h4
        · exact absurd h4.symm hn
        · apply h3 ns h4 o ho d
          rw [lookupNs_offDelegatedNamespace, if_neg]
          · exact hd
          · rintro ⟨h5, -⟩; exact hn h5
    · rintro ⟨h1, h2⟩
      refine ⟨⟨h1, h2 n (List.mem_cons_self _ _)⟩, ?_⟩
      intro ns hns o ho d hd
      rw [lookupNs_offDelegatedNamespace] at hd
      by_cases h5 : n = ns ∧ fn = fn ∧ keyMatches opts (captureOf opts, o)
      · rw [if_pos h5] at hd; cases hd
      · rw [if_neg h5] at hd
        exact h2 ns (List.mem_cons_of_mem _ hns) o ho d hd

/-- Three `writeBack`s above a namespace map that lost exactly the entries satisfying `P`. -/
theorem lookup_writeBack3 (reg : Registry) (r r1 : Elem) (rt t1 sel sel1 ns1 : String)
    (fn1 : Fn) (key1 : Key) (be : ByEvent) (bs : BySelector) (bn bn1 : ByNamespace)
    (hbe : JsMap.get reg r = some be) (hbs : JsMap.get be rt = some bs)
    (hbn : JsMap.get bs sel = some bn) (P : Prop) [Decidable P]
    (h : lookupNs bn1 ns1 fn1 key1 = if P then none else lookupNs bn ns1 fn1 key1) :
    lookup (JsMap.writeBack reg r (JsMap.writeBack be rt (JsMap.writeBack bs sel bn1)))
        r1 t1 sel1 ns1 fn1 key1 =
      if r = r1 ∧ rt = t1 ∧ sel = sel1 ∧ P then none
      else lookup reg r1 t1 sel1 ns1 fn1 key1 := by
  unfold lookup
  refine JsMap.get_writeBack_remove reg r r1 be _ hbe
    (fun byEvent => lookupEv byEvent t1 sel1 ns1 fn1 key1) rfl (rt = t1 ∧ sel = sel1 ∧ P) ?_
  unfold lookupEv
  refine JsMap.get_writeBack_remove be rt t1 bs _ hbs
    (fun bySelector => lookupSel bySelector sel1 ns1 fn1 key1) rfl (sel = sel1 ∧ P) ?_
  unfold lookupSel
  exact JsMap.get_writeBack_remove bs sel sel1 bn _ hbn
    (fun byNamespace => lookupNs byNamespace ns1 fn1 key1) rfl P h

theorem lookup_eq_none_of_get_none (reg : Registry) (r : Elem) (t sel ns : String) (fn : Fn)
    (key : Key) (h : JsMap.get reg r = none) : lookup reg r t sel ns fn key = none := by
  simp [lookup, h]

theorem lookup_eq_lookupEv (reg : Registry) (r : Elem) (t sel ns : String) (fn : Fn)
    (key : Key) (be : ByEvent) (h : JsMap.get reg r = some be) :
    lookup reg r t sel ns fn key = lookupEv be t sel ns fn key := by
  simp [lookup, h]

theorem lookupEv_eq_lookupSel (be : ByEvent) (t sel ns : String) (fn : Fn)
    (key : Key) (bs : BySelector) (h : JsMap.get be t = some bs) :
    lookupEv be t sel ns fn key = lookupSel bs sel ns fn key := by
  simp [lookupEv, h]

theorem lookupSel_eq_lookupNs (bs : BySelector) (sel ns : String) (fn : Fn)
    (key : Key) (bn : ByNamespace) (h : JsMap.get bs sel = some bn) :
    lookupSel bs sel ns fn key = lookupNs bn ns fn key := by
  simp [lookupSel, h]

theorem lookupNs_eq_none_of_not_mem (bn : ByNamespace) (ns : String) (fn : Fn) (key : Key)
    (h : ns ∉ JsMap.keys bn) : lookupNs bn ns fn key = none := by
  simp [lookupNs, (JsMap.get_eq_none_iff bn ns).2 h]

/-- The namespaces `off` goes through when a selector is given. -/
theorem mem_namespacesToRemove (nspace ns1 : String) (bn : ByNamespace) :
    ns1 ∈ (if nspace ≠ "" then [nspace] else JsMap.keys bn) ↔
      (nspace = "" ∧ ns1 ∈ JsMap.keys bn) ∨ (nspace ≠ "" ∧ nspace = ns1) := by
  by_cases h : nspace = ""
  · simp [h]
  · simp [h, eq_comm]

theorem lookup_offDelegatedRoot (rt nspace sel : String) (fn : Fn) (opts : Opts) (s : State)
    (r r1 : Elem) (t1 sel1 ns1 : String) (fn1 : Fn) (key1 : Key) :
    lookup (offDelegatedRoot rt nspace sel fn opts s r).delegatedHandlers
        r1 t1 sel1 ns1 fn1 key1 =
      if Removed4 r rt nspace sel fn opts r1 t1 sel1 ns1 fn1 key1 then none
      else lookup s.delegatedHandlers r1 t1 sel1 ns1 fn1 key1 := by
  by_cases hR : Removed4 r rt nspace sel fn opts r1 t1 sel1 ns1 fn1 key1
  · rw [if_pos hR]
    obtain ⟨h1, h2, h3, h4, h5, h6⟩ := hR
    subst h1 h2 h3 h5
    cases hbe : JsMap.get s.delegatedHandlers r with
    | none =>
      simp only [offDelegatedRoot, hbe]
      exact lookup_eq_none_of_get_none _ _ _ _ _ _ _ hbe
    | some be =>
      cases hbs : JsMap.get be rt with
      | none =>
        simp only [offDelegatedRoot, hbe, hbs]
        simp [lookup, lookupEv, hbe, hbs]
      | some bs =>
        cases hbn : JsMap.get bs sel with
        | none =>
          simp only [offDelegatedRoot, hbe, hbs, hbn]
          simp [lookup, lookupEv, lookupSel, hbe, hbs, hbn]
        | some bn =>
          simp only [offDelegatedRoot, hbe, hbs, hbn]
          rw [lookup_writeBack3 _ r r rt rt sel sel ns1 fn key1 be bs bn _ hbe hbs hbn
            (ns1 ∈ (if decide (nspace ≠ "") = true then [nspace] else JsMap.keys bn) ∧
              fn = fn ∧ keyMatches opts key1)
            (lookupNs_fold_offDelegatedNamespace _ _ _ _ _ _ _ _ _)]
          by_cases hm : ns1 ∈ (if decide (nspace ≠ "") = true then [nspace] else JsMap.keys bn)
          · rw [if_pos ⟨rfl, rfl, rfl, hm, rfl, h6⟩]
          · have hnone : lookupNs bn ns1 fn key1 = none := by
              apply lookupNs_eq_none_of_not_mem
              intro hk
              apply hm
              rcases h4 with h4 | h4
              · simp [h4, hk]
              · by_cases h7 : nspace = ""
                · simp [h7, hk]
                · subst h4
                  simp [h7]
            rw [if_neg (fun h => hm h.2.2.2.1)]
            simp [lookup, lookupEv, lookupSel, hbe, hbs, hbn, hnone]
  · rw [if_neg hR]
    cases hbe : JsMap.get s.delegatedHandlers r with
    | none => simp only [offDelegatedRoot, hbe]
    | some be =>
      cases hbs : JsMap.get be rt with
      | none => simp only [offDelegatedRoot, hbe, hbs]
      | some bs =>
        cases hbn : JsMap.get bs sel with
        | none => simp only [offDelegatedRoot, hbe, hbs, hbn]
        | some bn =>
          simp only [offDelegatedRoot, hbe, hbs, hbn]
          rw [lookup_writeBack3 _ r r1 rt t1 sel sel1 ns1 fn1 key1 be bs bn _ hbe hbs hbn
            (ns1 ∈ (if decide (nspace ≠ "") = true then [nspace] else JsMap.keys bn) ∧
              fn = fn1 ∧ keyMatches opts key1)
            (lookupNs_fold_offDelegatedNamespace _ _ _ _ _ _ _ _ _)]
          rw [if_neg]
          rintro ⟨h1, h2, h3, h4, h5, h6⟩
          apply hR
          refine ⟨h1, h2, h3, ?_, h5, h6⟩
          by_cases h7 : nspace = ""
          · exact Or.inl h7
          · right
            simpa [h7, eq_comm] using h4

theorem mem_offDelegatedRoot (rt nspace sel : String) (fn : Fn) (opts : Opts) (s : State)
    (r : Elem) (l : Listener) :
    l ∈ (offDelegatedRoot rt nspace sel fn opts s r).listeners ↔
      l ∈ s.listeners ∧ ∀ ns1 o d, (nspace = "" ∨ nspace = ns1) → o ∈ onceValues opts →
        lookup s.delegatedHandlers r rt sel ns1 fn (captureOf opts, o) = some d →
        sameListener r rt (.dispatcher d) (captureOf opts) l = false := by
  cases hbe : JsMap.get s.delegatedHandlers r with
  | none =>
    simp only [offDelegatedRoot, hbe]
    simp [lookup, hbe]
  | some be =>
    cases hbs : JsMap.get be rt with
    | none =>
      simp only [offDelegatedRoot, hbe, hbs]
      simp [lookup, lookupEv, hbe, hbs]
    | some bs =>
      cases hbn : JsMap.get bs sel with
      | none =>
        simp only [offDelegatedRoot, hbe, hbs, hbn]
        simp [lookup, lookupEv, lookupSel, hbe, hbs, hbn]
      | some bn =>
        simp only [offDelegatedRoot, hbe, hbs, hbn]
        rw [mem_fold_offDelegatedNamespace]
        have hl : ∀ ns1 key, lookup s.delegatedHandlers r rt sel ns1 fn key =
            lookupNs bn ns1 fn key := by
          intro ns1 key
          simp [lookup, lookupEv, lookupSel, hbe, hbs, hbn]
        simp only [hl]
        constructor
        · rintro ⟨h1, h2⟩
          refine ⟨h1, ?_⟩
          intro ns1 o d hns ho hd
          apply h2 ns1 _ o ho d hd
          by_cases h7 : nspace = ""
          · have : ns1 ∈ JsMap.keys bn := by
              by_contra hk
              rw [lookupNs_eq_none_of_not_mem _ _ _ _ hk] at hd
              cases hd
            simp [h7, this]
          · rcases hns with hns | hns
            · exact absurd hns h7
            · subst hns
              simp [h7]
        · rintro ⟨h1, h2⟩
          refine ⟨h1, ?_⟩
          intro ns1 hns o ho d hd
          apply h2 ns1 o d _ ho hd
          by_cases h7 : nspace = ""
          · exact Or.inl h7
          · right
            simpa [h7, eq_comm] using hns

/-! ## Theorems about event strings and the entry points -/

theorem parse_empty : parseNamespacedEvent "" = { type := "", nspace := "" } := by decide

theorem ne_empty_of_type_ne (evt : String) (h : (parseNamespacedEvent evt).type ≠ "") :
    evt ≠ "" := by
  intro h1
  rw [h1, parse_empty] at h
  exact h rfl

theorem on_delegated_eq (s : State) (arr : List Elem) (evt sel : String) (fn : Fn)
    (opts : Opts) (h : (parseNamespacedEvent evt).type ≠ "") :
    on_ s arr evt (.delegated sel fn opts) =
      arr.foldl (onDelegatedRoot (parseNamespacedEvent evt).type (parseNamespacedEvent evt).type
        (parseNamespacedEvent evt).nspace sel fn opts) s := by
  unfold on_
  rw [if_neg (ne_empty_of_type_ne evt h)]
  simp only [h, false_and, if_false]
  cases arr <;> simp

theorem off_delegated_eq (s : State) (arr : List Elem) (evt sel : String) (fn : Fn)
    (opts : Opts) (h : (parseNamespacedEvent evt).type ≠ "") :
    off s arr evt (.delegated sel fn opts) =
      arr.foldl (offDelegatedRoot (parseNamespacedEvent evt).type
        (parseNamespacedEvent evt).nspace sel fn opts) s := by
  unfold off
  rw [if_neg (ne_empty_of_type_ne evt h)]
  simp only [h, if_false]
  cases arr <;> simp

/-! ## Theorems about dispatch -/

theorem delegatedHandler_calls (d : Dispatcher) (dom : Dom) (root : Elem) (e : Event)
    (s : State) :
    (delegatedHandler d dom root e s).calls = s.calls ++ callsOf dom root e (.dispatcher d) := by
  unfold delegatedHandler callsOf
  cases e.target with
  | none => simp
  | some rawTarget =>
    dsimp only
    cases dom.closest rawTarget d.selector with
    | none => simp
    | some matched =>
      dsimp only
      by_cases h : root = matched ∨ dom.contains root matched = true
      · rw [if_pos h, if_pos h]
        cases d.once <;> simp
      · rw [if_neg h, if_neg h]
        simp

theorem invokeListener_calls (dom : Dom) (cur : Elem) (e : Event) (s : State) (l : Listener) :
    (invokeListener dom cur e s l).calls = s.calls ++ callsOf dom cur e l.callback := by
  unfold invokeListener
  cases hcb : l.callback with
  | direct fn => cases l.once <;> simp [callsOf]
  | dispatcher d =>
    dsimp only
    rw [delegatedHandler_calls]
    cases l.once <;> simp

theorem foldl_invokeListener_calls (dom : Dom) (cur : Elem) (e : Event) (snap : List Listener)
    (s : State) :
    (snap.foldl (invokeListener dom cur e) s).calls =
      s.calls ++ snap.flatMap (fun l => callsOf dom cur e l.callback) := by
  induction snap generalizing s with
  | nil => simp
  | cons l snap ih =>
    rw [List.foldl_cons, ih, invokeListener_calls]
    simp [List.append_assoc]

/-- The listeners a dispatch runs are the listeners of the element for the event type. -/
theorem mem_deliveryOrder (ls : List Listener) (cur : Elem) (type : String) (l : Listener) :
    l ∈ deliveryOrder ls cur type ↔ l ∈ ls ∧ l.target = cur ∧ l.type = type := by
  unfold deliveryOrder
  rw [List.mem_append, List.mem_filter, List.mem_filter]
  simp only [decide_eq_true_eq]
  cases l.capture <;> simp

/-- The calls made by a dispatch are those of the listeners installed when it starts. -/
theorem dispatchAt_calls (s : State) (dom : Dom) (cur : Elem) (e : Event) :
    (dispatchAt s dom cur e).calls =
      s.calls ++ (deliveryOrder s.listeners cur e.type).flatMap
        (fun l => callsOf dom cur e l.callback) := by
  unfold dispatchAt
  exact foldl_invokeListener_calls _ _ _ _ _

theorem fn_of_mem_callsOf (dom : Dom) (cur : Elem) (e : Event) (cb : Callback) (c : Call)
    (h : c ∈ callsOf dom cur e cb) : c.fn = cb.handler := by
  cases cb with
  | direct fn =>
    simp only [callsOf, List.mem_singleton] at h
    rw [h]; rfl
  | dispatcher d =>
    unfold callsOf at h
    cases ht : e.target with
    | none => simp [ht] at h
    | some rawTarget =>
      cases hc : dom.closest rawTarget d.selector with
      | none => simp [ht, hc] at h
      | some matched =>
        simp only [ht, hc] at h
        by_cases hm : cur = matched ∨ dom.contains cur matched = true
        · rw [if_pos hm, List.mem_singleton] at h
          rw [h]; rfl
        · rw [if_neg hm] at h
          cases h

/-- A dispatch at `cur` only calls handlers of listeners installed on `cur`. -/
theorem dispatchAt_new_calls (s : State) (dom : Dom) (cur : Elem) (e : Event) (c : Call)
    (h : c ∈ (dispatchAt s dom cur e).calls) :
    c ∈ s.calls ∨ ∃ l ∈ s.listeners, l.target = cur ∧ l.type = e.type ∧
      c.fn = l.callback.handler := by
  rw [dispatchAt_calls, List.mem_append] at h
  rcases h with h | h
  · exact Or.inl h
  · right
    rw [List.mem_flatMap] at h
    obtain ⟨l, hl, hc⟩ := h
    rw [mem_deliveryOrder] at hl
    exact ⟨l, hl.1, hl.2.1, hl.2.2, fn_of_mem_callsOf _ _ _ _ _ hc⟩

/-! ## Closures, listeners and the registry agree -/

theorem closure_dispatcherOf (rt ns sel : String) (fn : Fn) (opts : Opts) (s : State)
    (r : Elem) (h : ClosuresAgree s.delegatedHandlers) :
    (dispatcherOf rt rt ns sel fn opts s r).rootEl = r ∧
    (dispatcherOf rt rt ns sel fn opts s r).eventType = rt ∧
    (dispatcherOf rt rt ns sel fn opts s r).selector = sel ∧
    (dispatcherOf rt rt ns sel fn opts s r).nsKey = ns ∧
    (dispatcherOf rt rt ns sel fn opts s r).fn = fn ∧
    (dispatcherOf rt rt ns sel fn opts s r).capture = captureOf opts ∧
    (dispatcherOf rt rt ns sel fn opts s r).once = onceOf opts := by
  unfold dispatcherOf
  cases hl : lookup s.delegatedHandlers r rt sel ns fn (captureOf opts, onceOf opts) with
  | none => simp
  | some d =>
    obtain ⟨h1, h2, h3, h4, h5, h6⟩ := h _ _ _ _ _ _ _ hl
    simp only [Option.getD_some]
    have h7 : d.capture = captureOf opts := congrArg Prod.fst h6
    have h8 : d.once = onceOf opts := congrArg Prod.snd h6
    exact ⟨h1, h2, h3, h4, h5, h7, h8⟩

theorem closuresAgree_onDelegatedRoot (rt ns sel : String) (fn : Fn) (opts : Opts) (s : State)
    (r : Elem) (h : ClosuresAgree s.delegatedHandlers) :
    ClosuresAgree (onDelegatedRoot rt rt ns sel fn opts s r).delegatedHandlers := by
  intro r1 t1 sel1 ns1 fn1 key1 d hd
  rw [lookup_onDelegatedRoot] at hd
  by_cases hc : r = r1 ∧ rt = t1 ∧ sel = sel1 ∧ ns = ns1 ∧ fn = fn1 ∧
      (captureOf opts, onceOf opts) = key1
  · rw [if_pos hc] at hd
    obtain ⟨h1, h2, h3, h4, h5, h6⟩ := hc
    subst h1 h2 h3 h4 h5 h6
    have hd1 : dispatcherOf rt rt ns sel fn opts s r = d := Option.some.inj hd
    obtain ⟨c1, c2, c3, c4, c5, c6, c7⟩ := closure_dispatcherOf rt ns sel fn opts s r h
    rw [hd1] at c1 c2 c3 c4 c5 c6 c7
    exact ⟨c1, c2, c3, c4, c5, Prod.ext c6 c7⟩
  · rw [if_neg hc] at hd
    exact h _ _ _ _ _ _ _ hd

theorem listenersAgree_onDelegatedRoot (rt ns sel : String) (fn : Fn) (opts : Opts)
    (s : State) (r : Elem) (h : ClosuresAgree s.delegatedHandlers)
    (hl : ListenersAgree s.listeners) :
    ListenersAgree (onDelegatedRoot rt rt ns sel fn opts s r).listeners := by
  intro l hmem d hd
  rw [onDelegatedRoot_listeners, mem_addEventListener] at hmem
  rcases hmem with hmem | ⟨hmem, -⟩
  · exact hl l hmem d hd
  · obtain ⟨c1, c2, -, -, -, c6, c7⟩ := closure_dispatcherOf rt ns sel fn opts s r h
    rw [hmem] at hd ⊢
    simp only [Callback.dispatcher.injEq] at hd
    rw [hd] at c1 c2 c6 c7
    exact ⟨c1.symm, c2.symm, c6.symm, c7.symm⟩

theorem listenersAgree_of_subset (ls ls1 : List Listener) (h : ∀ l ∈ ls1, l ∈ ls)
    (hl : ListenersAgree ls) : ListenersAgree ls1 :=
  fun l hmem d hd => hl l (h l hmem) d hd

theorem offDelegatedRoot_calls (rt ns sel : String) (fn : Fn) (opts : Opts) (s : State)
    (r : Elem) : (offDelegatedRoot rt ns sel fn opts s r).calls = s.calls := by
  cases hbe : JsMap.get s.delegatedHandlers r with
  | none => simp only [offDelegatedRoot, hbe]
  | some be =>
    cases hbs : JsMap.get be rt with
    | none => simp only [offDelegatedRoot, hbe, hbs]
    | some bs =>
      cases hbn : JsMap.get bs sel with
      | none => simp only [offDelegatedRoot, hbe, hbs, hbn]
      | some bn => simp only [offDelegatedRoot, hbe, hbs, hbn]

theorem onceOf_mem_onceValues (opts : Opts) : onceOf opts ∈ onceValues opts := by
  unfold onceValues
  by_cases h : onceSpecified opts = true
  · simp [h]
  · simp only [h, if_false]
    cases onceOf opts <;> simp

/-! ## Theorems about `off(evt, selector)` -/

theorem mem_removeAllIn (r : Elem) (t : String) (bf : ByFn) (ls : List Listener)
    (l : Listener) :
    l ∈ removeAllIn r t bf ls ↔
      l ∈ ls ∧ ∀ key d, StoredFn bf key d →
        sameListener r t (.dispatcher d) key.1 l = false := by
  unfold removeAllIn StoredFn
  induction bf generalizing ls with
  | nil => simp
  | cons fe bf ih =>
    rw [List.foldl_cons, ih]
    have inner : ∀ (bc : ByCapture) (ls0 : List Listener),
        l ∈ bc.foldl (fun ls2 ke =>
          removeEventListener ls2 r t (.dispatcher ke.2) (.bool ke.1.1)) ls0 ↔
        l ∈ ls0 ∧ ∀ ke ∈ bc, sameListener r t (.dispatcher ke.2) ke.1.1 l = false := by
      intro bc
      induction bc with
      | nil => simp
      | cons ke bc ih2 =>
        intro ls0
        rw [List.foldl_cons, ih2, mem_removeEventListener]
        simp only [captureOf, List.mem_cons, forall_eq_or_imp]
        tauto
    rw [inner]
    constructor
    · rintro ⟨⟨h1, h2⟩, h3⟩
      refine ⟨h1, ?_⟩
      rintro key d ⟨fe1, hfe1, hk⟩
      rcases List.mem_cons.1 hfe1 with h4 | h4
      · subst h4; exact h2 (key, d) hk
      · exact h3 key d ⟨fe1, h4, hk⟩
    · rintro ⟨h1, h2⟩
      refine ⟨⟨h1, ?_⟩, ?_⟩
      · intro ke hke
        exact h2 ke.1 ke.2 ⟨fe, List.mem_cons_self _ _, hke⟩
      · rintro key d ⟨fe1, hfe1, hk⟩
        exact h2 key d ⟨fe1, List.mem_cons_of_mem _ hfe1, hk⟩

theorem offNamespace_fst (r : Elem) (t : String) (acc : ByNamespace × List Listener)
    (ns : String) : (offNamespace r t acc ns).1 = JsMap.delete acc.1 ns := by
  unfold offNamespace
  cases h : JsMap.get acc.1 ns with
  | none => exact (JsMap.delete_of_get_none _ _ h).symm
  | some bf => rfl

theorem offNamespace_snd (r : Elem) (t : String) (acc : ByNamespace × List Listener)
    (ns : String) (l : Listener) :
    l ∈ (offNamespace r t acc ns).2 ↔
      l ∈ acc.2 ∧ ∀ bf, JsMap.get acc.1 ns = some bf → ∀ key d, StoredFn bf key d →
        sameListener r t (.dispatcher d) key.1 l = false := by
  unfold offNamespace
  cases h : JsMap.get acc.1 ns with
  | none => simp
  | some bf => simp [mem_removeAllIn]

theorem get_fold_offNamespace (r : Elem) (t : String) (nss : List String)
    (acc : ByNamespace × List Listener) (ns1 : String) :
    JsMap.get (nss.foldl (offNamespace r t) acc).1 ns1 =
      if ns1 ∈ nss then none else JsMap.get acc.1 ns1 := by
  induction nss generalizing acc with
  | nil => simp
  | cons n nss ih =>
    rw [List.foldl_cons, ih, offNamespace_fst, JsMap.get_delete]
    by_cases h1 : ns1 ∈ nss
    · rw [if_pos h1, if_pos (List.mem_cons_of_mem _ h1)]
    · rw [if_neg h1]
      by_cases h2 : n = ns1
      · rw [if_pos h2, if_pos (h2 ▸ List.mem_cons_self _ _)]
      · rw [if_neg h2, if_neg]
        intro h3
        rcases List.mem_cons.1 h3 with h4 | h4
        · exact h2 h4.symm
        · exact h1 h4

theorem mem_fold_offNamespace (r : Elem) (t : String) (nss : List String)
    (acc : ByNamespace × List Listener) (l : Listener) :
    l ∈ (nss.foldl (offNamespace r t) acc).2 ↔
      l ∈ acc.2 ∧ ∀ ns ∈ nss, ∀ bf, JsMap.get acc.1 ns = some bf → ∀ key d,
        StoredFn bf key d → sameListener r t (.dispatcher d) key.1 l = false := by
  induction nss generalizing acc with
  | nil => simp
  | cons n nss ih =>
    rw [List.foldl_cons, ih, offNamespace_snd, offNamespace_fst]
    constructor
    · rintro ⟨⟨h1, h2⟩, h3⟩
      refine ⟨h1, ?_⟩
      intro ns hns bf hbf key d hst
      by_cases hn : n = ns
      · subst hn; exact h2 bf hbf key d hst
      · rcases List.mem_cons.1 hns with h4 | h4
        · exact absurd h4.symm hn
        · refine h3 ns h4 bf ?_ key d hst
          rw [JsMap.get_delete, if_neg hn]
          exact hbf
    · rintro ⟨h1, h2⟩
      refine ⟨⟨h1, h2 n (List.mem_cons_self _ _)⟩, ?_⟩
      intro ns hns bf hbf key d hst
      rw [JsMap.get_delete] at hbf
      by_cases hn : n = ns
      · rw [if_pos hn] at hbf; cases hbf
      · rw [if_neg hn] at hbf
        exact h2 ns (List.mem_cons_of_mem _ hns) bf hbf key d hst

/-- The namespaces gone after the namespace loop of `off(evt)` and `off(evt, selector)`. -/
theorem get_fold_offNamespace_toRemove (r : Elem) (t nspace : String) (bn : ByNamespace)
    (ls : List Listener) (ns1 : String) :
    JsMap.get ((if nspace ≠ "" then [nspace] else JsMap.keys bn).foldl (offNamespace r t)
        (bn, ls)).1 ns1 =
      if nsMatches nspace ns1 then none else JsMap.get bn ns1 := by
  rw [get_fold_offNamespace]
  unfold nsMatches
  by_cases h : nspace = ""
  · simp only [h, ne_eq, not_true_eq_false, if_false, true_or, if_true]
    by_cases hk : ns1 ∈ JsMap.keys bn
    · rw [if_pos hk]
    · rw [if_neg hk]
      exact (JsMap.get_eq_none_iff bn ns1).2 hk
  · simp [h, eq_comm]

theorem lookupNs_fold_offNamespace_toRemove (r : Elem) (t nspace : String)
    (bn : ByNamespace) (ls : List Listener) (ns1 : String) (fn1 : Fn) (key1 : Key) :
    lookupNs ((if nspace ≠ "" then [nspace] else JsMap.keys bn).foldl (offNamespace r t)
        (bn, ls)).1 ns1 fn1 key1 =
      if nsMatches nspace ns1 then none else lookupNs bn ns1 fn1 key1 := by
  unfold lookupNs
  rw [get_fold_offNamespace_toRemove]
  by_cases h : nsMatches nspace ns1 <;> simp [h]

theorem mem_fold_offNamespace_toRemove (r : Elem) (t nspace : String) (bn : ByNamespace)
    (ls : List Listener) (l : Listener) :
    l ∈ ((if nspace ≠ "" then [nspace] else JsMap.keys bn).foldl (offNamespace r t)
        (bn, ls)).2 ↔
      l ∈ ls ∧ ∀ ns1 bf, nsMatches nspace ns1 → JsMap.get bn ns1 = some bf → ∀ key d,
        StoredFn bf key d → sameListener r t (.dispatcher d) key.1 l = false := by
  rw [mem_fold_offNamespace]
  unfold nsMatches
  constructor
  · rintro ⟨h1, h2⟩
    refine ⟨h1, ?_⟩
    intro ns1 bf hns hbf key d hst
    refine h2 ns1 ?_ bf hbf key d hst
    by_cases h : nspace = ""
    · have : ns1 ∈ JsMap.keys bn := by
        by_contra hk
        rw [(JsMap.get_eq_none_iff bn ns1).2 hk] at hbf
        cases hbf
      simp [h, this]
    · rcases hns with hns | hns
      · exact absurd hns h
      · subst hns
        simp [h]
  · rintro ⟨h1, h2⟩
    refine ⟨h1, ?_⟩
    intro ns1 hns bf hbf key d hst
    refine h2 ns1 bf ?_ hbf key d hst
    by_cases h : nspace = ""
    · exact Or.inl h
    · right
      simpa [h, eq_comm] using hns

theorem storedFn_of_lookupFn (bf : ByFn) (fn : Fn) (key : Key) (d : Dispatcher)
    (h : lookupFn bf fn key = some d) : StoredFn bf key d := by
  unfold lookupFn at h
  cases hbc : JsMap.get bf fn with
  | none => simp [hbc] at h
  | some bc =>
    simp only [hbc, Option.some_bind] at h
    exact ⟨(fn, bc), JsMap.mem_of_get _ _ _ hbc, JsMap.mem_of_get _ _ _ h⟩

theorem lookupFn_of_storedFn (bf : ByFn) (key : Key) (d : Dispatcher) (hwf : WFFn bf)
    (h : StoredFn bf key d) : ∃ fn, lookupFn bf fn key = some d := by
  obtain ⟨fe, hfe, hk⟩ := h
  refine ⟨fe.1, ?_⟩
  unfold lookupFn
  rw [JsMap.get_of_mem bf hwf.1 fe.1 fe.2 hfe]
  exact JsMap.get_of_mem _ (hwf.2 fe hfe) _ _ hk

theorem storedAt_of_lookup (reg : Registry) (r : Elem) (t sel ns : String) (fn : Fn)
    (key : Key) (d : Dispatcher) (h : lookup reg r t sel ns fn key = some d) :
    StoredAt reg r t sel ns key d := by
  unfold lookup lookupEv lookupSel lookupNs at h
  cases hbe : JsMap.get reg r with
  | none => simp [hbe] at h
  | some be =>
    cases hbs : JsMap.get be t with
    | none => simp [hbe, hbs] at h
    | some bs =>
      cases hbn : JsMap.get bs sel with
      | none => simp [hbe, hbs, hbn] at h
      | some bn =>
        cases hbf : JsMap.get bn ns with
        | none => simp [hbe, hbs, hbn, hbf] at h
        | some bf =>
          simp only [hbe, hbs, hbn, hbf, Option.some_bind] at h
          exact ⟨be, bs, bn, bf, hbe, hbs, hbn, hbf, storedFn_of_lookupFn _ _ _ _ h⟩

theorem wfEv_of_get (reg : Registry) (r : Elem) (be : ByEvent) (hwf : WF reg)
    (h : JsMap.get reg r = some be) : WFEv be :=
  hwf.2 (r, be) (JsMap.mem_of_get _ _ _ h)

theorem wfSel_of_get (be : ByEvent) (t : String) (bs : BySelector) (hwf : WFEv be)
    (h : JsMap.get be t = some bs) : WFSel bs :=
  hwf.2 (t, bs) (JsMap.mem_of_get _ _ _ h)

theorem wfNs_of_get (bs : BySelector) (sel : String) (bn : ByNamespace) (hwf : WFSel bs)
    (h : JsMap.get bs sel = some bn) : WFNs bn :=
  hwf.2 (sel, bn) (JsMap.mem_of_get _ _ _ h)

theorem wfFn_of_get (bn : ByNamespace) (ns : String) (bf : ByFn) (hwf : WFNs bn)
    (h : JsMap.get bn ns = some bf) : WFFn bf :=
  hwf.2 (ns, bf) (JsMap.mem_of_get _ _ _ h)

theorem lookup_of_storedAt (reg : Registry) (r : Elem) (t sel ns : String)
    (key : Key) (d : Dispatcher) (hwf : WF reg) (h : StoredAt reg r t sel ns key d) :
    ∃ fn, lookup reg r t sel ns fn key = some d := by
  obtain ⟨be, bs, bn, bf, hbe, hbs, hbn, hbf, hst⟩ := h
  have hwfFn : WFFn bf :=
    wfFn_of_get _ _ _ (wfNs_of_get _ _ _ (wfSel_of_get _ _ _ (wfEv_of_get _ _ _ hwf hbe) hbs)
      hbn) hbf
  obtain ⟨fn, hfn⟩ := lookupFn_of_storedFn bf key d hwfFn hst
  refine ⟨fn, ?_⟩
  simp [lookup, lookupEv, lookupSel, lookupNs, hbe, hbs, hbn, hbf, hfn]

theorem lookup_offSelectorRoot (rt nspace sel : String) (s : State)
    (r r1 : Elem) (t1 sel1 ns1 : String) (fn1 : Fn) (key1 : Key) :
    lookup (offSelectorRoot rt nspace sel s r).delegatedHandlers r1 t1 sel1 ns1 fn1 key1 =
      if Removed3 r rt nspace sel r1 t1 sel1 ns1 then none
      else lookup s.delegatedHandlers r1 t1 sel1 ns1 fn1 key1 := by
  cases hbe : JsMap.get s.delegatedHandlers r with
  | none =>
    simp only [offSelectorRoot, hbe]
    by_cases hR : Removed3 r rt nspace sel r1 t1 sel1 ns1
    · rw [if_pos hR]
      obtain ⟨h1, -⟩ := hR
      subst h1
      simp [lookup, hbe]
    · rw [if_neg hR]
  | some be =>
    cases hbs : JsMap.get be rt with
    | none =>
      simp only [offSelectorRoot, hbe, hbs]
      by_cases hR : Removed3 r rt nspace sel r1 t1 sel1 ns1
      · rw [if_pos hR]
        obtain ⟨h1, h2, -⟩ := hR
        subst h1 h2
        simp [lookup, lookupEv, hbe, hbs]
      · rw [if_neg hR]
    | some bs =>
      cases hbn : JsMap.get bs sel with
      | none =>
        simp only [offSelectorRoot, hbe, hbs, hbn]
        by_cases hR : Removed3 r rt nspace sel r1 t1 sel1 ns1
        · rw [if_pos hR]
          obtain ⟨h1, h2, h3, -⟩ := hR
          subst h1 h2 h3
          simp [lookup, lookupEv, lookupSel, hbe, hbs, hbn]
        · rw [if_neg hR]
      | some bn =>
        simp only [offSelectorRoot, hbe, hbs, hbn]
        exact lookup_writeBack3 _ r r1 rt t1 sel sel1 ns1 fn1 key1 be bs bn _ hbe hbs hbn
          (nsMatches nspace ns1) (lookupNs_fold_offNamespace_toRemove _ _ _ _ _ _ _ _)

theorem mem_offSelectorRoot (rt nspace sel : String) (s : State) (r : Elem) (l : Listener) :
    l ∈ (offSelectorRoot rt nspace sel s r).listeners ↔
      l ∈ s.listeners ∧ ∀ ns1 key d, nsMatches nspace ns1 →
        StoredAt s.delegatedHandlers r rt sel ns1 key d →
        sameListener r rt (.dispatcher d) key.1 l = false := by
  cases hbe : JsMap.get s.delegatedHandlers r with
  | none =>
    simp only [offSelectorRoot, hbe]
    simp [StoredAt, hbe]
  | some be =>
    cases hbs : JsMap.get be rt with
    | none =>
      simp only [offSelectorRoot, hbe, hbs]
      simp [StoredAt, hbe, hbs]
    | some bs =>
      cases hbn : JsMap.get bs sel with
      | none =>
        simp only [offSelectorRoot, hbe, hbs, hbn]
        simp [StoredAt, hbe, hbs, hbn]
      | some bn =>
        simp only [offSelectorRoot, hbe, hbs, hbn]
        rw [mem_fold_offNamespace_toRemove]
        constructor
        · rintro ⟨h1, h2⟩
          refine ⟨h1, ?_⟩
          rintro ns1 key d hns ⟨be1, bs1, bn1, bf, e1, e2, e3, e4, hst⟩
          rw [hbe] at e1; cases e1
          rw [hbs] at e2; cases e2
          rw [hbn] at e3; cases e3
          exact h2 ns1 bf hns e4 key d hst
        · rintro ⟨h1, h2⟩
          refine ⟨h1, ?_⟩
          intro ns1 bf hns hbf key d hst
          exact h2 ns1 key d hns ⟨be, bs, bn, bf, hbe, hbs, hbn, hbf, hst⟩

/-! ## Theorems about `off(evt)` and `off('.ns')` -/

theorem offAllSelector_eq (r : Elem) (t : String) (no : Bool) (nspace : String)
    (hno : no = true → nspace ≠ "") (acc : BySelector × List Listener)
    (entry : String × ByNamespace) :
    offAllSelector r t no nspace acc entry =
      (JsMap.writeBack acc.1 entry.1
        ((if nspace ≠ "" then [nspace] else JsMap.keys entry.2).foldl (offNamespace r t)
          (entry.2, acc.2)).1,
       ((if nspace ≠ "" then [nspace] else JsMap.keys entry.2).foldl (offNamespace r t)
          (entry.2, acc.2)).2) := by
  unfold offAllSelector
  dsimp only
  have : (if no = true then [nspace] else if nspace ≠ "" then [nspace]
      else JsMap.keys entry.2) = (if nspace ≠ "" then [nspace] else JsMap.keys entry.2) := by
    by_cases h : no = true
    · rw [if_pos h, if_pos (hno h)]
    · rw [if_neg h]
  rw [this]

theorem lookupSel_fold_offAllSelector (r : Elem) (t : String) (no : Bool) (nspace : String)
    (hno : no = true → nspace ≠ "") (es : List (String × ByNamespace))
    (acc : BySelector × List Listener) (hnd : (JsMap.keys es).Nodup)
    (hacc : ∀ e ∈ es, JsMap.get acc.1 e.1 = some e.2)
    (sel1 ns1 : String) (fn1 : Fn) (key1 : Key) :
    lookupSel (es.foldl (offAllSelector r t no nspace) acc).1 sel1 ns1 fn1 key1 =
      if sel1 ∈ JsMap.keys es ∧ nsMatches nspace ns1 then none
      else lookupSel acc.1 sel1 ns1 fn1 key1 := by
  induction es generalizing acc with
  | nil => simp [JsMap.keys]
  | cons e es ih =>
    rw [List.foldl_cons]
    have hstep : ∀ e1 ∈ es, JsMap.get (offAllSelector r t no nspace acc e).1 e1.1 =
        some e1.2 := by
      intro e1 he1
      rw [offAllSelector_eq _ _ _ _ hno]
      dsimp only
      rw [JsMap.get_writeBack_ne _ _ _ _ (JsMap.not_mem_keys_of_nodup_cons e es hnd e1 he1)]
      exact hacc e1 (List.mem_cons_of_mem _ he1)
    have hnd1 : (JsMap.keys es).Nodup := by
      simp only [JsMap.keys, List.map_cons, List.nodup_cons] at hnd
      exact hnd.2
    rw [ih _ hnd1 hstep]
    have hone : lookupSel (offAllSelector r t no nspace acc e).1 sel1 ns1 fn1 key1 =
        if e.1 = sel1 ∧ nsMatches nspace ns1 then none
        else lookupSel acc.1 sel1 ns1 fn1 key1 := by
      rw [offAllSelector_eq _ _ _ _ hno]
      dsimp only
      unfold lookupSel
      exact JsMap.get_writeBack_remove acc.1 e.1 sel1 e.2 _
        (hacc e (List.mem_cons_self _ _))
        (fun byNamespace => lookupNs byNamespace ns1 fn1 key1) rfl (nsMatches nspace ns1)
        (lookupNs_fold_offNamespace_toRemove _ _ _ _ _ _ _ _)
    rw [hone]
    by_cases hns : nsMatches nspace ns1
    · by_cases h1 : sel1 ∈ JsMap.keys es
      · have h2 : sel1 ∈ JsMap.keys (e :: es) := by
          simp only [JsMap.keys, List.map_cons, List.mem_cons]
          exact Or.inr h1
        rw [if_pos ⟨h1, hns⟩, if_pos ⟨h2, hns⟩]
      · rw [if_neg (fun h => h1 h.1)]
        by_cases h3 : e.1 = sel1
        · have h2 : sel1 ∈ JsMap.keys (e :: es) := by
            simp only [JsMap.keys, List.map_cons, List.mem_cons]
            exact Or.inl h3.symm
          rw [if_pos ⟨h3, hns⟩, if_pos ⟨h2, hns⟩]
        · have h2 : sel1 ∉ JsMap.keys (e :: es) := by
            simp only [JsMap.keys, List.map_cons, List.mem_cons, not_or]
            exact ⟨fun h => h3 h.symm, h1⟩
          rw [if_neg (fun h => h3 h.1), if_neg (fun h => h2 h.1)]
    · rw [if_neg (fun h => hns h.2), if_neg (fun h => hns h.2), if_neg (fun h => hns h.2)]

theorem keys_fold_offAllSelector_nodup (r : Elem) (t : String) (no : Bool) (nspace : String)
    (es : List (String × ByNamespace)) (acc : BySelector × List Listener)
    (h : (JsMap.keys acc.1).Nodup) :
    (JsMap.keys (es.foldl (offAllSelector r t no nspace) acc).1).Nodup := by
  induction es generalizing acc with
  | nil => exact h
  | cons e es ih =>
    rw [List.foldl_cons]
    apply ih
    unfold offAllSelector
    exact JsMap.keys_writeBack_nodup _ _ _ h

theorem mem_fold_offAllSelector (r : Elem) (t : String) (no : Bool) (nspace : String)
    (hno : no = true → nspace ≠ "") (es : List (String × ByNamespace))
    (acc : BySelector × List Listener) (l : Listener) :
    l ∈ (es.foldl (offAllSelector r t no nspace) acc).2 ↔
      l ∈ acc.2 ∧ ∀ e ∈ es, ∀ ns1 bf, nsMatches nspace ns1 → JsMap.get e.2 ns1 = some bf →
        ∀ key d, StoredFn bf key d → sameListener r t (.dispatcher d) key.1 l = false := by
  induction es generalizing acc with
  | nil => simp
  | cons e es ih =>
    rw [List.foldl_cons, ih, offAllSelector_eq _ _ _ _ hno]
    dsimp only
    rw [mem_fold_offNamespace_toRemove]
    simp only [List.mem_cons, forall_eq_or_imp]
    tauto

/-- The selector map found under `t` passes the loop over its entries. -/
theorem lookupSel_fold_offAllSelector_self (r : Elem) (t : String) (no : Bool)
    (nspace : String) (hno : no = true → nspace ≠ "") (bs : BySelector)
    (ls : List Listener) (hnd : (JsMap.keys bs).Nodup)
    (sel1 ns1 : String) (fn1 : Fn) (key1 : Key) :
    lookupSel (bs.foldl (offAllSelector r t no nspace) (bs, ls)).1 sel1 ns1 fn1 key1 =
      if nsMatches nspace ns1 then none else lookupSel bs sel1 ns1 fn1 key1 := by
  rw [lookupSel_fold_offAllSelector r t no nspace hno bs (bs, ls) hnd
    (fun e he => JsMap.get_of_mem bs hnd e.1 e.2 he)]
  by_cases hns : nsMatches nspace ns1
  · by_cases h1 : sel1 ∈ JsMap.keys bs
    · rw [if_pos ⟨h1, hns⟩, if_pos hns]
    · rw [if_neg (fun h => h1 h.1), if_pos hns]
      simp [lookupSel, (JsMap.get_eq_none_iff bs sel1).2 h1]
  · rw [if_neg (fun h => hns h.2), if_neg hns]

theorem offAllType_none (r : Elem) (no : Bool) (nspace : String)
    (acc : ByEvent × List Listener) (t : String) (h : JsMap.get acc.1 t = none) :
    offAllType r no nspace acc t = acc := by
  simp only [offAllType, h]

theorem offAllType_some (r : Elem) (no : Bool) (nspace : String)
    (acc : ByEvent × List Listener) (t : String) (bs : BySelector)
    (h : JsMap.get acc.1 t = some bs) :
    offAllType r no nspace acc t =
      (JsMap.writeBack acc.1 t (bs.foldl (offAllSelector r t no nspace) (bs, acc.2)).1,
       (bs.foldl (offAllSelector r t no nspace) (bs, acc.2)).2) := by
  simp only [offAllType, h]

theorem get_offAllType_ne (r : Elem) (no : Bool) (nspace : String)
    (acc : ByEvent × List Listener) (t t1 : String) (h : t ≠ t1) :
    JsMap.get (offAllType r no nspace acc t).1 t1 = JsMap.get acc.1 t1 := by
  cases hbs : JsMap.get acc.1 t with
  | none => rw [offAllType_none _ _ _ _ _ hbs]
  | some bs =>
    rw [offAllType_some _ _ _ _ _ _ hbs]
    exact JsMap.get_writeBack_ne _ _ _ _ h

theorem lookupEv_offAllType (r : Elem) (no : Bool) (nspace : String)
    (hno : no = true → nspace ≠ "") (acc : ByEvent × List Listener) (t : String)
    (hnd : ∀ bs, JsMap.get acc.1 t = some bs → (JsMap.keys bs).Nodup)
    (t1 sel1 ns1 : String) (fn1 : Fn) (key1 : Key) :
    lookupEv (offAllType r no nspace acc t).1 t1 sel1 ns1 fn1 key1 =
      if t = t1 ∧ nsMatches nspace ns1 then none
      else lookupEv acc.1 t1 sel1 ns1 fn1 key1 := by
  cases hbs : JsMap.get acc.1 t with
  | none =>
    rw [offAllType_none _ _ _ _ _ hbs]
    by_cases h : t = t1 ∧ nsMatches nspace ns1
    · rw [if_pos h]
      obtain ⟨h1, -⟩ := h
      subst h1
      simp [lookupEv, hbs]
    · rw [if_neg h]
  | some bs =>
    rw [offAllType_some _ _ _ _ _ _ hbs]
    unfold lookupEv
    exact JsMap.get_writeBack_remove acc.1 t t1 bs _ hbs
      (fun bySelector => lookupSel bySelector sel1 ns1 fn1 key1) rfl (nsMatches nspace ns1)
      (lookupSel_fold_offAllSelector_self r t no nspace hno bs acc.2 (hnd bs hbs) _ _ _ _)

theorem mem_offAllType (r : Elem) (no : Bool) (nspace : String)
    (hno : no = true → nspace ≠ "") (acc : ByEvent × List Listener) (t : String)
    (l : Listener) :
    l ∈ (offAllType r no nspace acc t).2 ↔
      l ∈ acc.2 ∧ ∀ bs, JsMap.get acc.1 t = some bs → ∀ e ∈ bs, ∀ ns1 bf,
        nsMatches nspace ns1 → JsMap.get e.2 ns1 = some bf →
        ∀ key d, StoredFn bf key d → sameListener r t (.dispatcher d) key.1 l = false := by
  cases hbs : JsMap.get acc.1 t with
  | none =>
    rw [offAllType_none _ _ _ _ _ hbs]
    simp
  | some bs =>
    rw [offAllType_some _ _ _ _ _ _ hbs]
    dsimp only
    rw [mem_fold_offAllSelector _ _ _ _ hno]
    simp

theorem lookupEv_fold_offAllType (r : Elem) (no : Bool) (nspace : String)
    (hno : no = true → nspace ≠ "") (ts : List String) (hts : ts.Nodup)
    (acc : ByEvent × List Listener)
    (hnd : ∀ t ∈ ts, ∀ bs, JsMap.get acc.1 t = some bs → (JsMap.keys bs).Nodup)
    (t1 sel1 ns1 : String) (fn1 : Fn) (key1 : Key) :
    lookupEv (ts.foldl (offAllType r no nspace) acc).1 t1 sel1 ns1 fn1 key1 =
      if t1 ∈ ts ∧ nsMatches nspace ns1 then none
      else lookupEv acc.1 t1 sel1 ns1 fn1 key1 := by
  induction ts generalizing acc with
  | nil => simp
  | cons t ts ih =>
    rw [List.foldl_cons]
    rw [List.nodup_cons] at hts
    have hnd1 : ∀ t2 ∈ ts, ∀ bs, JsMap.get (offAllType r no nspace acc t).1 t2 = some bs →
        (JsMap.keys bs).Nodup := by
      intro t2 ht2 bs hbs
      have hne : t ≠ t2 := fun h => hts.1 (h ▸ ht2)
      rw [get_offAllType_ne _ _ _ _ _ _ hne] at hbs
      exact hnd t2 (List.mem_cons_of_mem _ ht2) bs hbs
    rw [ih hts.2 _ hnd1, lookupEv_offAllType _ _ _ hno _ _ (hnd t (List.mem_cons_self _ _))]
    by_cases hns : nsMatches nspace ns1
    · by_cases h1 : t1 ∈ ts
      · rw [if_pos ⟨h1, hns⟩, if_pos ⟨List.mem_cons_of_mem _ h1, hns⟩]
      · rw [if_neg (fun h => h1 h.1)]
        by_cases h3 : t = t1
        · rw [if_pos ⟨h3, hns⟩, if_pos ⟨h3 ▸ List.mem_cons_self _ _, hns⟩]
        · rw [if_neg (fun h => h3 h.1), if_neg]
          rintro ⟨h4, -⟩
          rcases List.mem_cons.1 h4 with h5 | h5
          · exact h3 h5.symm
          · exact h1 h5
    · rw [if_neg (fun h => hns h.2), if_neg (fun h => hns h.2), if_neg (fun h => hns h.2)]

theorem mem_fold_offAllType (r : Elem) (no : Bool) (nspace : String)
    (hno : no = true → nspace ≠ "") (ts : List String) (hts : ts.Nodup)
    (acc : ByEvent × List Listener) (l : Listener) :
    l ∈ (ts.foldl (offAllType r no nspace) acc).2 ↔
      l ∈ acc.2 ∧ ∀ t ∈ ts, ∀ bs, JsMap.get acc.1 t = some bs → ∀ e ∈ bs, ∀ ns1 bf,
        nsMatches nspace ns1 → JsMap.get e.2 ns1 = some bf →
        ∀ key d, StoredFn bf key d → sameListener r t (.dispatcher d) key.1 l = false := by
  induction ts generalizing acc with
  | nil => simp
  | cons t ts ih =>
    rw [List.foldl_cons]
    rw [List.nodup_cons] at hts
    rw [ih hts.2, mem_offAllType _ _ _ hno]
    constructor
    · rintro ⟨⟨h1, h2⟩, h3⟩
      refine ⟨h1, ?_⟩
      intro t2 ht2 bs hbs
      rcases List.mem_cons.1 ht2 with h4 | h4
      · subst h4; exact h2 bs hbs
      · have hne : t ≠ t2 := fun h => hts.1 (h ▸ h4)
        refine h3 t2 h4 bs ?_
        rw [get_offAllType_ne _ _ _ _ _ _ hne]
        exact hbs
    · rintro ⟨h1, h2⟩
      refine ⟨⟨h1, h2 t (List.mem_cons_self _ _)⟩, ?_⟩
      intro t2 ht2 bs hbs
      have hne : t ≠ t2 := fun h => hts.1 (h ▸ ht2)
      rw [get_offAllType_ne _ _ _ _ _ _ hne] at hbs
      exact h2 t2 (List.mem_cons_of_mem _ ht2) bs hbs

theorem offAllRoot_none (et rt nspace : String) (s : State) (r : Elem)
    (h : JsMap.get s.delegatedHandlers r = none) : offAllRoot et rt nspace s r = s := by
  simp only [offAllRoot, h]

theorem offAllRoot_some (et rt nspace : String) (s : State) (r : Elem) (be : ByEvent)
    (h : JsMap.get s.delegatedHandlers r = some be) :
    offAllRoot et rt nspace s r =
      { s with
        delegatedHandlers := JsMap.writeBack s.delegatedHandlers r
          ((if (decide (et = "") && decide (nspace ≠ "")) = true then JsMap.keys be
            else [rt]).foldl
            (offAllType r (decide (et = "") && decide (nspace ≠ "")) nspace)
            (be, s.listeners)).1
        listeners :=
          ((if (decide (et = "") && decide (nspace ≠ "")) = true then JsMap.keys be
            else [rt]).foldl
            (offAllType r (decide (et = "") && decide (nspace ≠ "")) nspace)
            (be, s.listeners)).2 } := by
  simp only [offAllRoot, h]

theorem namespaceOnly_ne (et nspace : String)
    (h : (decide (et = "") && decide (nspace ≠ "")) = true) : nspace ≠ "" := by
  simp only [Bool.and_eq_true, decide_eq_true_eq] at h
  exact h.2

theorem namespaceOnly_iff (et nspace : String) :
    (decide (et = "") && decide (nspace ≠ "")) = true ↔ (et = "" ∧ nspace ≠ "") := by
  simp

theorem typesToRemove_nodup (et rt nspace : String) (be : ByEvent)
    (h : (JsMap.keys be).Nodup) :
    (if (decide (et = "") && decide (nspace ≠ "")) = true then JsMap.keys be
      else [rt]).Nodup := by
  by_cases hno : (decide (et = "") && decide (nspace ≠ "")) = true
  · rw [if_pos hno]; exact h
  · rw [if_neg hno]; simp

theorem lookup_offAllRoot (et rt nspace : String) (s : State) (hwf : WF s.delegatedHandlers)
    (r r1 : Elem) (t1 sel1 ns1 : String) (fn1 : Fn) (key1 : Key) :
    lookup (offAllRoot et rt nspace s r).delegatedHandlers r1 t1 sel1 ns1 fn1 key1 =
      if Removed1 r et rt nspace r1 t1 ns1 then none
      else lookup s.delegatedHandlers r1 t1 sel1 ns1 fn1 key1 := by
  cases hbe : JsMap.get s.delegatedHandlers r with
  | none =>
    rw [offAllRoot_none _ _ _ _ _ hbe]
    by_cases hR : Removed1 r et rt nspace r1 t1 ns1
    · rw [if_pos hR]
      obtain ⟨h1, -⟩ := hR
      subst h1
      simp [lookup, hbe]
    · rw [if_neg hR]
  | some be =>
    rw [offAllRoot_some _ _ _ _ _ _ hbe]
    dsimp only
    have hwfe : WFEv be := wfEv_of_get _ _ _ hwf hbe
    have hfold := lookupEv_fold_offAllType r (decide (et = "") && decide (nspace ≠ "")) nspace
      (namespaceOnly_ne et nspace) _ (typesToRemove_nodup et rt nspace be hwfe.1)
      (be, s.listeners)
      (fun t _ bs hbs => (wfSel_of_get _ _ _ hwfe hbs).1) t1 sel1 ns1 fn1 key1
    unfold lookup
    rw [JsMap.get_writeBack_remove s.delegatedHandlers r r1 be _ hbe
      (fun byEvent => lookupEv byEvent t1 sel1 ns1 fn1 key1) rfl _ hfold]
    unfold Removed1
    by_cases hr : r = r1
    · subst hr
      by_cases hns : nsMatches nspace ns1
      · by_cases hno : (decide (et = "") && decide (nspace ≠ "")) = true
        · have hno1 := (namespaceOnly_iff et nspace).1 hno
          by_cases hk : t1 ∈ JsMap.keys be
          · rw [if_pos ⟨rfl, by rw [if_pos hno]; exact hk, hns⟩,
              if_pos ⟨rfl, Or.inl hno1, hns⟩]
          · rw [if_neg (by rw [if_pos hno]; exact fun h => hk h.2.1),
              if_pos ⟨rfl, Or.inl hno1, hns⟩]
            simp [hbe, lookupEv, (JsMap.get_eq_none_iff be t1).2 hk]
        · have hno1 : ¬ (et = "" ∧ nspace ≠ "") := fun h =>
            hno ((namespaceOnly_iff et nspace).2 h)
          by_cases ht : rt = t1
          · rw [if_pos ⟨rfl, by rw [if_neg hno]; simp [ht], hns⟩,
              if_pos ⟨rfl, Or.inr ht, hns⟩]
          · rw [if_neg, if_neg]
            · rintro ⟨-, h1 | h1, -⟩
              · exact hno1 h1
              · exact ht h1
            · rw [if_neg hno]
              rintro ⟨-, h1, -⟩
              simp only [List.mem_singleton] at h1
              exact ht h1.symm
      · rw [if_neg (fun h => hns h.2.2), if_neg (fun h => hns h.2.2)]
    · rw [if_neg (fun h => hr h.1), if_neg (fun h => hr h.1)]

theorem mem_offAllRoot (et rt nspace : String) (s : State) (hwf : WF s.delegatedHandlers)
    (r : Elem) (l : Listener) :
    l ∈ (offAllRoot et rt nspace s r).listeners ↔
      l ∈ s.listeners ∧ ∀ t1 sel1 ns1 key d, ((et = "" ∧ nspace ≠ "") ∨ rt = t1) →
        nsMatches nspace ns1 → StoredAt s.delegatedHandlers r t1 sel1 ns1 key d →
        sameListener r t1 (.dispatcher d) key.1 l = false := by
  cases hbe : JsMap.get s.delegatedHandlers r with
  | none =>
    rw [offAllRoot_none _ _ _ _ _ hbe]
    simp [StoredAt, hbe]
  | some be =>
    rw [offAllRoot_some _ _ _ _ _ _ hbe]
    dsimp only
    have hwfe : WFEv be := wfEv_of_get _ _ _ hwf hbe
    rw [mem_fold_offAllType r _ nspace (namespaceOnly_ne et nspace) _
      (typesToRemove_nodup et rt nspace be hwfe.1)]
    dsimp only
    constructor
    · rintro ⟨h1, h2⟩
      refine ⟨h1, ?_⟩
      rintro t1 sel1 ns1 key d htc hns ⟨be1, bs, bn, bf, e1, e2, e3, e4, hst⟩
      rw [hbe] at e1; cases e1
      refine h2 t1 ?_ bs e2 (sel1, bn) (JsMap.mem_of_get _ _ _ e3) ns1 bf hns e4 key d hst
      by_cases hno : (decide (et = "") && decide (nspace ≠ "")) = true
      · rw [if_pos hno]
        by_contra hk
        rw [(JsMap.get_eq_none_iff be t1).2 hk] at e2
        cases e2
      · rw [if_neg hno]
        rcases htc with htc | htc
        · exact absurd ((namespaceOnly_iff et nspace).2 htc) hno
        · simp [htc]
    · rintro ⟨h1, h2⟩
      refine ⟨h1, ?_⟩
      intro t1 ht1 bs hbs e he ns1 bf hns hbf key d hst
      have hwfs : WFSel bs := wfSel_of_get _ _ _ hwfe hbs
      refine h2 t1 e.1 ns1 key d ?_ hns
        ⟨be, bs, e.2, bf, hbe, hbs, JsMap.get_of_mem bs hwfs.1 e.1 e.2 he, hbf, hst⟩
      by_cases hno : (decide (et = "") && decide (nspace ≠ "")) = true
      · exact Or.inl ((namespaceOnly_iff et nspace).1 hno)
      · rw [if_neg hno] at ht1
        simp only [List.mem_singleton] at ht1
        exact Or.inr ht1.symm

/-! ## Unique keys and non-empty containers are preserved -/

theorem JsMap.level_set {K V : Type} [DecidableEq K] (P : V → Prop) (m : JsMap K V) (k : K)
    (v : V) (hall : ∀ e ∈ m, P e.2) (hv : P v) : ∀ e ∈ JsMap.set m k v, P e.2 := by
  intro e he
  rcases JsMap.mem_of_mem_set m k v e he with h | h
  · exact hall e h
  · rw [h]; exact hv

theorem JsMap.level_delete {K V : Type} [DecidableEq K] (P : V → Prop) (m : JsMap K V) (k : K)
    (hall : ∀ e ∈ m, P e.2) : ∀ e ∈ JsMap.delete m k, P e.2 :=
  fun e he => hall e ((JsMap.mem_delete m k e).1 he).1

theorem JsMap.level_writeBack {K K2 V2 : Type} [DecidableEq K] (P : JsMap K2 V2 → Prop)
    (m : JsMap K (JsMap K2 V2)) (k : K) (c : JsMap K2 V2) (hall : ∀ e ∈ m, P e.2)
    (hc : c ≠ [] → P c) : ∀ e ∈ JsMap.writeBack m k c, P e.2 := by
  intro e he
  rcases JsMap.mem_of_mem_writeBack m k c e he with h | ⟨h, h1⟩
  · exact hall e h
  · rw [h]; exact hc h1

theorem JsMap.level_getD {K K2 V2 : Type} [DecidableEq K] (P : JsMap K2 V2 → Prop)
    (m : JsMap K (JsMap K2 V2)) (k : K) (hall : ∀ e ∈ m, P e.2) (hnil : P []) :
    P ((JsMap.get m k).getD []) := by
  cases h : JsMap.get m k with
  | none => exact hnil
  | some c => exact hall (k, c) (JsMap.mem_of_get _ _ _ h)

theorem JsMap.level_get {K V : Type} [DecidableEq K] (P : V → Prop)
    (m : JsMap K V) (k : K) (c : V) (hall : ∀ e ∈ m, P e.2) (h : JsMap.get m k = some c) :
    P c :=
  hall (k, c) (JsMap.mem_of_get _ _ _ h)

theorem wfFn_nil : WFFn ([] : ByFn) :=
  ⟨List.nodup_nil, fun _ h => absurd h (List.not_mem_nil _)⟩

theorem noEmptyFn_nil : NoEmptyFn ([] : ByFn) := fun _ h => absurd h (List.not_mem_nil _)

theorem wfFn_set (m : ByFn) (k : Fn) (c : ByCapture) (h : WFFn m) (hc : (JsMap.keys c).Nodup) :
    WFFn (JsMap.set m k c) :=
  ⟨JsMap.keys_set_nodup m k c h.1, JsMap.level_set (fun bc : ByCapture => (JsMap.keys bc).Nodup) m k c h.2 hc⟩

theorem wfFn_delete (m : ByFn) (k : Fn) (h : WFFn m) : WFFn (JsMap.delete m k) :=
  ⟨JsMap.keys_delete_nodup m k h.1, JsMap.level_delete (fun bc : ByCapture => (JsMap.keys bc).Nodup) m k h.2⟩

theorem wfFn_writeBack (m : ByFn) (k : Fn) (c : ByCapture) (h : WFFn m) (hc : (JsMap.keys c).Nodup) :
    WFFn (JsMap.writeBack m k c) :=
  ⟨JsMap.keys_writeBack_nodup m k c h.1,
    JsMap.level_writeBack (fun bc : ByCapture => (JsMap.keys bc).Nodup) m k c h.2 (fun _ => hc)⟩

theorem noEmptyFn_set (m : ByFn) (k : Fn) (c : ByCapture) (h : NoEmptyFn m) (hc : c ≠ []) :
    NoEmptyFn (JsMap.set m k c) :=
  JsMap.level_set (fun bc : ByCapture => bc ≠ []) m k c h hc

theorem noEmptyFn_delete (m : ByFn) (k : Fn) (h : NoEmptyFn m) : NoEmptyFn (JsMap.delete m k) :=
  JsMap.level_delete (fun bc : ByCapture => bc ≠ []) m k h

theorem noEmptyFn_writeBack (m : ByFn) (k : Fn) (c : ByCapture) (h : NoEmptyFn m) :
    NoEmptyFn (JsMap.writeBack m k c) :=
  JsMap.level_writeBack (fun bc : ByCapture => bc ≠ []) m k c h (fun hc => hc)

theorem nodup_getD (m : ByFn) (k : Fn) (h : WFFn m) :
    (JsMap.keys ((JsMap.get m k).getD [])).Nodup :=
  JsMap.level_getD (fun bc : ByCapture => (JsMap.keys bc).Nodup) m k h.2 List.nodup_nil

theorem nodup_of_get (m : ByFn) (k : Fn) (c : ByCapture) (h : WFFn m)
    (hc : JsMap.get m k = some c) : (JsMap.keys c).Nodup :=
  JsMap.level_get (fun bc : ByCapture => (JsMap.keys bc).Nodup) m k c h.2 hc

theorem ne_nil_of_get (m : ByFn) (k : Fn) (c : ByCapture) (h : NoEmptyFn m)
    (hc : JsMap.get m k = some c) : c ≠ [] :=
  JsMap.level_get (fun bc : ByCapture => bc ≠ []) m k c h hc

theorem wfNs_nil : WFNs ([] : ByNamespace) :=
  ⟨List.nodup_nil, fun _ h => absurd h (List.not_mem_nil _)⟩

theorem noEmptyNs_nil : NoEmptyNs ([] : ByNamespace) := fun _ h => absurd h (List.not_mem_nil _)

theorem wfNs_set (m : ByNamespace) (k : String) (c : ByFn) (h : WFNs m) (hc : WFFn c) :
    WFNs (JsMap.set m k c) :=
  ⟨JsMap.keys_set_nodup m k c h.1, JsMap.level_set WFFn m k c h.2 hc⟩

theorem wfNs_delete (m : ByNamespace) (k : String) (h : WFNs m) : WFNs (JsMap.delete m k) :=
  ⟨JsMap.keys_delete_nodup m k h.1, JsMap.level_delete WFFn m k h.2⟩

theorem wfNs_writeBack (m : ByNamespace) (k : String) (c : ByFn) (h : WFNs m) (hc : WFFn c) :
    WFNs (JsMap.writeBack m k c) :=
  ⟨JsMap.keys_writeBack_nodup m k c h.1,
    JsMap.level_writeBack WFFn m k c h.2 (fun _ => hc)⟩

theorem noEmptyNs_set (m : ByNamespace) (k : String) (c : ByFn) (h : NoEmptyNs m) (hc : c ≠ [] ∧ NoEmptyFn c) :
    NoEmptyNs (JsMap.set m k c) :=
  JsMap.level_set (fun x : ByFn => x ≠ [] ∧ NoEmptyFn x) m k c h hc

theorem noEmptyNs_delete (m : ByNamespace) (k : String) (h : NoEmptyNs m) : NoEmptyNs (JsMap.delete m k) :=
  JsMap.level_delete (fun x : ByFn => x ≠ [] ∧ NoEmptyFn x) m k h

theorem noEmptyNs_writeBack (m : ByNamespace) (k : String) (c : ByFn) (h : NoEmptyNs m)
    (hc : NoEmptyFn c) : NoEmptyNs (JsMap.writeBack m k c) :=
  JsMap.level_writeBack (fun x : ByFn => x ≠ [] ∧ NoEmptyFn x) m k c h (fun h1 => ⟨h1, hc⟩)

theorem wfFn_getD (m : ByNamespace) (k : String) (h : WFNs m) :
    WFFn ((JsMap.get m k).getD []) :=
  JsMap.level_getD WFFn m k h.2 wfFn_nil

theorem noEmptyFn_getD (m : ByNamespace) (k : String) (h : NoEmptyNs m) :
    NoEmptyFn ((JsMap.get m k).getD []) :=
  JsMap.level_getD NoEmptyFn m k (fun e he => (h e he).2) noEmptyFn_nil

theorem noEmptyFn_of_get (m : ByNamespace) (k : String) (c : ByFn) (h : NoEmptyNs m)
    (hc : JsMap.get m k = some c) : c ≠ [] ∧ NoEmptyFn c :=
  JsMap.level_get (fun x : ByFn => x ≠ [] ∧ NoEmptyFn x) m k c h hc

theorem wfSel_nil : WFSel ([] : BySelector) :=
  ⟨List.nodup_nil, fun _ h => absurd h (List.not_mem_nil _)⟩

theorem noEmptySel_nil : NoEmptySel ([] : BySelector) := fun _ h => absurd h (List.not_mem_nil _)

theorem wfSel_set (m : BySelector) (k : String) (c : ByNamespace) (h : WFSel m) (hc : WFNs c) :
    WFSel (JsMap.set m k c) :=
  ⟨JsMap.keys_set_nodup m k c h.1, JsMap.level_set WFNs m k c h.2 hc⟩

theorem wfSel_delete (m : BySelector) (k : String) (h : WFSel m) : WFSel (JsMap.delete m k) :=
  ⟨JsMap.keys_delete_nodup m k h.1, JsMap.level_delete WFNs m k h.2⟩

theorem wfSel_writeBack (m : BySelector) (k : String) (c : ByNamespace) (h : WFSel m) (hc : WFNs c) :
    WFSel (JsMap.writeBack m k c) :=
  ⟨JsMap.keys_writeBack_nodup m k c h.1,
    JsMap.level_writeBack WFNs m k c h.2 (fun _ => hc)⟩

theorem noEmptySel_set (m : BySelector) (k : String) (c : ByNamespace) (h : NoEmptySel m) (hc : c ≠ [] ∧ NoEmptyNs c) :
    NoEmptySel (JsMap.set m k c) :=
  JsMap.level_set (fun x : ByNamespace => x ≠ [] ∧ NoEmptyNs x) m k c h hc

theorem noEmptySel_delete (m : BySelector) (k : String) (h : NoEmptySel m) : NoEmptySel (JsMap.delete m k) :=
  JsMap.level_delete (fun x : ByNamespace => x ≠ [] ∧ NoEmptyNs x) m k h

theorem noEmptySel_writeBack (m : BySelector) (k : String) (c : ByNamespace) (h : NoEmptySel m)
    (hc : NoEmptyNs c) : NoEmptySel (JsMap.writeBack m k c) :=
  JsMap.level_writeBack (fun x : ByNamespace => x ≠ [] ∧ NoEmptyNs x) m k c h (fun h1 => ⟨h1, hc⟩)

theorem wfNs_getD (m : BySelector) (k : String) (h : WFSel m) :
    WFNs ((JsMap.get m k).getD []) :=
  JsMap.level_getD WFNs m k h.2 wfNs_nil

theorem noEmptyNs_getD (m : BySelector) (k : String) (h : NoEmptySel m) :
    NoEmptyNs ((JsMap.get m k).getD []) :=
  JsMap.level_getD NoEmptyNs m k (fun e he => (h e he).2) noEmptyNs_nil

theorem noEmptyNs_of_get (m : BySelector) (k : String) (c : ByNamespace) (h : NoEmptySel m)
    (hc : JsMap.get m k = some c) : c ≠ [] ∧ NoEmptyNs c :=
  JsMap.level_get (fun x : ByNamespace => x ≠ [] ∧ NoEmptyNs x) m k c h hc

theorem wfEv_nil : WFEv ([] : ByEvent) :=
  ⟨List.nodup_nil, fun _ h => absurd h (List.not_mem_nil _)⟩

theorem noEmptyEv_nil : NoEmptyEv ([] : ByEvent) := fun _ h => absurd h (List.not_mem_nil _)

theorem wfEv_set (m : ByEvent) (k : String) (c : BySelector) (h : WFEv m) (hc : WFSel c) :
    WFEv (JsMap.set m k c) :=
  ⟨JsMap.keys_set_nodup m k c h.1, JsMap.level_set WFSel m k c h.2 hc⟩

theorem wfEv_delete (m : ByEvent) (k : String) (h : WFEv m) : WFEv (JsMap.delete m k) :=
  ⟨JsMap.keys_delete_nodup m k h.1, JsMap.level_delete WFSel m k h.2⟩

theorem wfEv_writeBack (m : ByEvent) (k : String) (c : BySelector) (h : WFEv m) (hc : WFSel c) :
    WFEv (JsMap.writeBack m k c) :=
  ⟨JsMap.keys_writeBack_nodup m k c h.1,
    JsMap.level_writeBack WFSel m k c h.2 (fun _ => hc)⟩

theorem noEmptyEv_set (m : ByEvent) (k : String) (c : BySelector) (h : NoEmptyEv m) (hc : c ≠ [] ∧ NoEmptySel c) :
    NoEmptyEv (JsMap.set m k c) :=
  JsMap.level_set (fun x : BySelector => x ≠ [] ∧ NoEmptySel x) m k c h hc

theorem noEmptyEv_delete (m : ByEvent) (k : String) (h : NoEmptyEv m) : NoEmptyEv (JsMap.delete m k) :=
  JsMap.level_delete (fun x : BySelector => x ≠ [] ∧ NoEmptySel x) m k h

theorem noEmptyEv_writeBack (m : ByEvent) (k : String) (c : BySelector) (h : NoEmptyEv m)
    (hc : NoEmptySel c) : NoEmptyEv (JsMap.writeBack m k c) :=
  JsMap.level_writeBack (fun x : BySelector => x ≠ [] ∧ NoEmptySel x) m k c h (fun h1 => ⟨h1, hc⟩)

theorem wfSel_getD (m : ByEvent) (k : String) (h : WFEv m) :
    WFSel ((JsMap.get m k).getD []) :=
  JsMap.level_getD WFSel m k h.2 wfSel_nil

theorem noEmptySel_getD (m : ByEvent) (k : String) (h : NoEmptyEv m) :
    NoEmptySel ((JsMap.get m k).getD []) :=
  JsMap.level_getD NoEmptySel m k (fun e he => (h e he).2) noEmptySel_nil

theorem noEmptySel_of_get (m : ByEvent) (k : String) (c : BySelector) (h : NoEmptyEv m)
    (hc : JsMap.get m k = some c) : c ≠ [] ∧ NoEmptySel c :=
  JsMap.level_get (fun x : BySelector => x ≠ [] ∧ NoEmptySel x) m k c h hc

theorem wfReg_nil : WF ([] : Registry) :=
  ⟨List.nodup_nil, fun _ h => absurd h (List.not_mem_nil _)⟩

theorem noEmptyReg_nil : NoEmpty ([] : Registry) := fun _ h => absurd h (List.not_mem_nil _)

theorem wfReg_set (m : Registry) (k : Elem) (c : ByEvent) (h : WF m) (hc : WFEv c) :
    WF (JsMap.set m k c) :=
  ⟨JsMap.keys_set_nodup m k c h.1, JsMap.level_set WFEv m k c h.2 hc⟩

theorem wfReg_delete (m : Registry) (k : Elem) (h : WF m) : WF (JsMap.delete m k) :=
  ⟨JsMap.keys_delete_nodup m k h.1, JsMap.level_delete WFEv m k h.2⟩

theorem wfReg_writeBack (m : Registry) (k : Elem) (c : ByEvent) (h : WF m) (hc : WFEv c) :
    WF (JsMap.writeBack m k c) :=
  ⟨JsMap.keys_writeBack_nodup m k c h.1,
    JsMap.level_writeBack WFEv m k c h.2 (fun _ => hc)⟩

theorem noEmptyReg_set (m : Registry) (k : Elem) (c : ByEvent) (h : NoEmpty m) (hc : c ≠ [] ∧ NoEmptyEv c) :
    NoEmpty (JsMap.set m k c) :=
  JsMap.level_set (fun x : ByEvent => x ≠ [] ∧ NoEmptyEv x) m k c h hc

theorem noEmptyReg_delete (m : Registry) (k : Elem) (h : NoEmpty m) : NoEmpty (JsMap.delete m k) :=
  JsMap.level_delete (fun x : ByEvent => x ≠ [] ∧ NoEmptyEv x) m k h

theorem noEmptyReg_writeBack (m : Registry) (k : Elem) (c : ByEvent) (h : NoEmpty m)
    (hc : NoEmptyEv c) : NoEmpty (JsMap.writeBack m k c) :=
  JsMap.level_writeBack (fun x : ByEvent => x ≠ [] ∧ NoEmptyEv x) m k c h (fun h1 => ⟨h1, hc⟩)

theorem wfEv_getD (m : Registry) (k : Elem) (h : WF m) :
    WFEv ((JsMap.get m k).getD []) :=
  JsMap.level_getD WFEv m k h.2 wfEv_nil

theorem noEmptyEv_getD (m : Registry) (k : Elem) (h : NoEmpty m) :
    NoEmptyEv ((JsMap.get m k).getD []) :=
  JsMap.level_getD NoEmptyEv m k (fun e he => (h e he).2) noEmptyEv_nil

theorem noEmptyEv_of_get (m : Registry) (k : Elem) (c : ByEvent) (h : NoEmpty m)
    (hc : JsMap.get m k = some c) : c ≠ [] ∧ NoEmptyEv c :=
  JsMap.level_get (fun x : ByEvent => x ≠ [] ∧ NoEmptyEv x) m k c h hc

theorem wf_onDelegatedRoot (et rt ns sel : String) (fn : Fn) (opts : Opts) (s : State)
    (r : Elem) (h : WF s.delegatedHandlers) :
    WF (onDelegatedRoot et rt ns sel fn opts s r).delegatedHandlers := by
  unfold onDelegatedRoot
  dsimp only
  split
  · exact h
  · dsimp only
    have h1 := wfEv_getD _ r h
    have h2 := wfSel_getD _ rt h1
    have h3 := wfNs_getD _ sel h2
    have h4 := wfFn_getD _ ns h3
    have h5 := nodup_getD _ fn h4
    exact wfReg_set _ _ _ h (wfEv_set _ _ _ h1 (wfSel_set _ _ _ h2 (wfNs_set _ _ _ h3
      (wfFn_set _ _ _ h4 (JsMap.keys_set_nodup _ _ _ h5)))))

theorem noEmpty_onDelegatedRoot (et rt ns sel : String) (fn : Fn) (opts : Opts) (s : State)
    (r : Elem) (h : NoEmpty s.delegatedHandlers) :
    NoEmpty (onDelegatedRoot et rt ns sel fn opts s r).delegatedHandlers := by
  unfold onDelegatedRoot
  dsimp only
  split
  · exact h
  · dsimp only
    have h1 := noEmptyEv_getD _ r h
    have h2 := noEmptySel_getD _ rt h1
    have h3 := noEmptyNs_getD _ sel h2
    have h4 := noEmptyFn_getD _ ns h3
    exact noEmptyReg_set _ _ _ h ⟨JsMap.set_ne_nil _ _ _,
      noEmptyEv_set _ _ _ h1 ⟨JsMap.set_ne_nil _ _ _,
        noEmptySel_set _ _ _ h2 ⟨JsMap.set_ne_nil _ _ _,
          noEmptyNs_set _ _ _ h3 ⟨JsMap.set_ne_nil _ _ _,
            noEmptyFn_set _ _ _ h4 (JsMap.set_ne_nil _ _ _)⟩⟩⟩⟩

/-! ## `off` keeps keys unique and containers non-empty -/

theorem nodup_fold_offOnce (r : Elem) (rt : String) (opts : Opts) (os : List Bool)
    (acc : ByCapture × List Listener) (h : (JsMap.keys acc.1).Nodup) :
    (JsMap.keys (os.foldl (offOnce r rt opts) acc).1).Nodup := by
  induction os generalizing acc with
  | nil => exact h
  | cons o os ih =>
    rw [List.foldl_cons]
    apply ih
    rw [offOnce_fst]
    exact JsMap.keys_delete_nodup _ _ h

theorem wfNs_offDelegatedNamespace (r : Elem) (rt : String) (fn : Fn) (opts : Opts)
    (acc : ByNamespace × List Listener) (ns : String) (h : WFNs acc.1) :
    WFNs (offDelegatedNamespace r rt fn opts acc ns).1 := by
  cases hbf : JsMap.get acc.1 ns with
  | none => rw [offDelegatedNamespace_none _ _ _ _ _ _ hbf]; exact h
  | some bf =>
    cases hbc : JsMap.get bf fn with
    | none => rw [offDelegatedNamespace_some_none _ _ _ _ _ _ _ hbf hbc]; exact h
    | some bc =>
      rw [offDelegatedNamespace_some_some _ _ _ _ _ _ _ _ hbf hbc]
      have hwf : WFFn bf := wfFn_of_get _ _ _ h hbf
      exact wfNs_writeBack _ _ _ h (wfFn_writeBack _ _ _ hwf
        (nodup_fold_offOnce _ _ _ _ _ (nodup_of_get _ _ _ hwf hbc)))

theorem noEmptyNs_offDelegatedNamespace (r : Elem) (rt : String) (fn : Fn) (opts : Opts)
    (acc : ByNamespace × List Listener) (ns : String) (h : NoEmptyNs acc.1) :
    NoEmptyNs (offDelegatedNamespace r rt fn opts acc ns).1 := by
  cases hbf : JsMap.get acc.1 ns with
  | none => rw [offDelegatedNamespace_none _ _ _ _ _ _ hbf]; exact h
  | some bf =>
    cases hbc : JsMap.get bf fn with
    | none => rw [offDelegatedNamespace_some_none _ _ _ _ _ _ _ hbf hbc]; exact h
    | some bc =>
      rw [offDelegatedNamespace_some_some _ _ _ _ _ _ _ _ hbf hbc]
      exact noEmptyNs_writeBack _ _ _ h
        (noEmptyFn_writeBack _ _ _ (noEmptyFn_of_get _ _ _ h hbf).2)

theorem wfNs_fold_offDelegatedNamespace (r : Elem) (rt : String) (fn : Fn) (opts : Opts)
    (nss : List String) (acc : ByNamespace × List Listener) (h : WFNs acc.1) :
    WFNs (nss.foldl (offDelegatedNamespace r rt fn opts) acc).1 := by
  induction nss generalizing acc with
  | nil => exact h
  | cons n nss ih =>
    rw [List.foldl_cons]
    exact ih _ (wfNs_offDelegatedNamespace _ _ _ _ _ _ h)

theorem noEmptyNs_fold_offDelegatedNamespace (r : Elem) (rt : String) (fn : Fn) (opts : Opts)
    (nss : List String) (acc : ByNamespace × List Listener) (h : NoEmptyNs acc.1) :
    NoEmptyNs (nss.foldl (offDelegatedNamespace r rt fn opts) acc).1 := by
  induction nss generalizing acc with
  | nil => exact h
  | cons n nss ih =>
    rw [List.foldl_cons]
    exact ih _ (noEmptyNs_offDelegatedNamespace _ _ _ _ _ _ h)

theorem wf_offDelegatedRoot (rt nspace sel : String) (fn : Fn) (opts : Opts) (s : State)
    (r : Elem) (h : WF s.delegatedHandlers) :
    WF (offDelegatedRoot rt nspace sel fn opts s r).delegatedHandlers := by
  cases hbe : JsMap.get s.delegatedHandlers r with
  | none => simp only [offDelegatedRoot, hbe]; exact h
  | some be =>
    cases hbs : JsMap.get be rt with
    | none => simp only [offDelegatedRoot, hbe, hbs]; exact h
    | some bs =>
      cases hbn : JsMap.get bs sel with
      | none => simp only [offDelegatedRoot, hbe, hbs, hbn]; exact h
      | some bn =>
        simp only [offDelegatedRoot, hbe, hbs, hbn]
        have h1 := wfEv_of_get _ _ _ h hbe
        have h2 := wfSel_of_get _ _ _ h1 hbs
        have h3 := wfNs_of_get _ _ _ h2 hbn
        exact wfReg_writeBack _ _ _ h (wfEv_writeBack _ _ _ h1 (wfSel_writeBack _ _ _ h2
          (wfNs_fold_offDelegatedNamespace _ _ _ _ _ _ h3)))

theorem noEmpty_offDelegatedRoot (rt nspace sel : String) (fn : Fn) (opts : Opts) (s : State)
    (r : Elem) (h : NoEmpty s.delegatedHandlers) :
    NoEmpty (offDelegatedRoot rt nspace sel fn opts s r).delegatedHandlers := by
  cases hbe : JsMap.get s.delegatedHandlers r with
  | none => simp only [offDelegatedRoot, hbe]; exact h
  | some be =>
    cases hbs : JsMap.get be rt with
    | none => simp only [offDelegatedRoot, hbe, hbs]; exact h
    | some bs =>
      cases hbn : JsMap.get bs sel with
      | none => simp only [offDelegatedRoot, hbe, hbs, hbn]; exact h
      | some bn =>
        simp only [offDelegatedRoot, hbe, hbs, hbn]
        have h1 := (noEmptyEv_of_get _ _ _ h hbe).2
        have h2 := (noEmptySel_of_get _ _ _ h1 hbs).2
        have h3 := (noEmptyNs_of_get _ _ _ h2 hbn).2
        exact noEmptyReg_writeBack _ _ _ h (noEmptyEv_writeBack _ _ _ h1
          (noEmptySel_writeBack _ _ _ h2
            (noEmptyNs_fold_offDelegatedNamespace _ _ _ _ _ _ h3)))

theorem wfNs_fold_offNamespace (r : Elem) (t : String) (nss : List String)
    (acc : ByNamespace × List Listener) (h : WFNs acc.1) :
    WFNs (nss.foldl (offNamespace r t) acc).1 := by
  induction nss generalizing acc with
  | nil => exact h
  | cons n nss ih =>
    rw [List.foldl_cons]
    apply ih
    rw [offNamespace_fst]
    exact wfNs_delete _ _ h

theorem noEmptyNs_fold_offNamespace (r : Elem) (t : String) (nss : List String)
    (acc : ByNamespace × List Listener) (h : NoEmptyNs acc.1) :
    NoEmptyNs (nss.foldl (offNamespace r t) acc).1 := by
  induction nss generalizing acc with
  | nil => exact h
  | cons n nss ih =>
    rw [List.foldl_cons]
    apply ih
    rw [offNamespace_fst]
    exact noEmptyNs_delete _ _ h

theorem wf_offSelectorRoot (rt nspace sel : String) (s : State) (r : Elem)
    (h : WF s.delegatedHandlers) :
    WF (offSelectorRoot rt nspace sel s r).delegatedHandlers := by
  cases hbe : JsMap.get s.delegatedHandlers r with
  | none => simp only [offSelectorRoot, hbe]; exact h
  | some be =>
    cases hbs : JsMap.get be rt with
    | none => simp only [offSelectorRoot, hbe, hbs]; exact h
    | some bs =>
      cases hbn : JsMap.get bs sel with
      | none => simp only [offSelectorRoot, hbe, hbs, hbn]; exact h
      | some bn =>
        simp only [offSelectorRoot, hbe, hbs, hbn]
        have h1 := wfEv_of_get _ _ _ h hbe
        have h2 := wfSel_of_get _ _ _ h1 hbs
        have h3 := wfNs_of_get _ _ _ h2 hbn
        exact wfReg_writeBack _ _ _ h (wfEv_writeBack _ _ _ h1 (wfSel_writeBack _ _ _ h2
          (wfNs_fold_offNamespace _ _ _ _ h3)))

theorem noEmpty_offSelectorRoot (rt nspace sel : String) (s : State) (r : Elem)
    (h : NoEmpty s.delegatedHandlers) :
    NoEmpty (offSelectorRoot rt nspace sel s r).delegatedHandlers := by
  cases hbe : JsMap.get s.delegatedHandlers r with
  | none => simp only [offSelectorRoot, hbe]; exact h
  | some be =>
    cases hbs : JsMap.get be rt with
    | none => simp only [offSelectorRoot, hbe, hbs]; exact h
    | some bs =>
      cases hbn : JsMap.get bs sel with
      | none => simp only [offSelectorRoot, hbe, hbs, hbn]; exact h
      | some bn =>
        simp only [offSelectorRoot, hbe, hbs, hbn]
        have h1 := (noEmptyEv_of_get _ _ _ h hbe).2
        have h2 := (noEmptySel_of_get _ _ _ h1 hbs).2
        have h3 := (noEmptyNs_of_get _ _ _ h2 hbn).2
        exact noEmptyReg_writeBack _ _ _ h (noEmptyEv_writeBack _ _ _ h1
          (noEmptySel_writeBack _ _ _ h2 (noEmptyNs_fold_offNamespace _ _ _ _ h3)))

theorem wfSel_fold_offAllSelector (r : Elem) (t : String) (no : Bool) (nspace : String)
    (es : List (String × ByNamespace)) (acc : BySelector × List Listener)
    (h : WFSel acc.1) (hes : ∀ e ∈ es, WFNs e.2) :
    WFSel (es.foldl (offAllSelector r t no nspace) acc).1 := by
  induction es generalizing acc with
  | nil => exact h
  | cons e es ih =>
    rw [List.foldl_cons]
    refine ih _ ?_ (fun e1 he1 => hes e1 (List.mem_cons_of_mem _ he1))
    unfold offAllSelector
    exact wfSel_writeBack _ _ _ h
      (wfNs_fold_offNamespace _ _ _ _ (hes e (List.mem_cons_self _ _)))

theorem noEmptySel_fold_offAllSelector (r : Elem) (t : String) (no : Bool) (nspace : String)
    (es : List (String × ByNamespace)) (acc : BySelector × List Listener)
    (h : NoEmptySel acc.1) (hes : ∀ e ∈ es, NoEmptyNs e.2) :
    NoEmptySel (es.foldl (offAllSelector r t no nspace) acc).1 := by
  induction es generalizing acc with
  | nil => exact h
  | cons e es ih =>
    rw [List.foldl_cons]
    refine ih _ ?_ (fun e1 he1 => hes e1 (List.mem_cons_of_mem _ he1))
    unfold offAllSelector
    exact noEmptySel_writeBack _ _ _ h
      (noEmptyNs_fold_offNamespace _ _ _ _ (hes e (List.mem_cons_self _ _)))

theorem wfEv_fold_offAllType (r : Elem) (no : Bool) (nspace : String) (ts : List String)
    (acc : ByEvent × List Listener) (h : WFEv acc.1) :
    WFEv (ts.foldl (offAllType r no nspace) acc).1 := by
  induction ts generalizing acc with
  | nil => exact h
  | cons t ts ih =>
    rw [List.foldl_cons]
    apply ih
    cases hbs : JsMap.get acc.1 t with
    | none => rw [offAllType_none _ _ _ _ _ hbs]; exact h
    | some bs =>
      rw [offAllType_some _ _ _ _ _ _ hbs]
      have h1 := wfSel_of_get _ _ _ h hbs
      exact wfEv_writeBack _ _ _ h (wfSel_fold_offAllSelector _ _ _ _ _ _ h1 h1.2)

theorem noEmptyEv_fold_offAllType (r : Elem) (no : Bool) (nspace : String) (ts : List String)
    (acc : ByEvent × List Listener) (h : NoEmptyEv acc.1) :
    NoEmptyEv (ts.foldl (offAllType r no nspace) acc).1 := by
  induction ts generalizing acc with
  | nil => exact h
  | cons t ts ih =>
    rw [List.foldl_cons]
    apply ih
    cases hbs : JsMap.get acc.1 t with
    | none => rw [offAllType_none _ _ _ _ _ hbs]; exact h
    | some bs =>
      rw [offAllType_some _ _ _ _ _ _ hbs]
      have h1 := (noEmptySel_of_get _ _ _ h hbs).2
      exact noEmptyEv_writeBack _ _ _ h
        (noEmptySel_fold_offAllSelector _ _ _ _ _ _ h1 (fun e he => (h1 e he).2))

theorem wf_offAllRoot (et rt nspace : String) (s : State) (r : Elem)
    (h : WF s.delegatedHandlers) : WF (offAllRoot et rt nspace s r).delegatedHandlers := by
  cases hbe : JsMap.get s.delegatedHandlers r with
  | none => rw [offAllRoot_none _ _ _ _ _ hbe]; exact h
  | some be =>
    rw [offAllRoot_some _ _ _ _ _ _ hbe]
    exact wfReg_writeBack _ _ _ h (wfEv_fold_offAllType _ _ _ _ _ (wfEv_of_get _ _ _ h hbe))

theorem noEmpty_offAllRoot (et rt nspace : String) (s : State) (r : Elem)
    (h : NoEmpty s.delegatedHandlers) :
    NoEmpty (offAllRoot et rt nspace s r).delegatedHandlers := by
  cases hbe : JsMap.get s.delegatedHandlers r with
  | none => rw [offAllRoot_none _ _ _ _ _ hbe]; exact h
  | some be =>
    rw [offAllRoot_some _ _ _ _ _ _ hbe]
    exact noEmptyReg_writeBack _ _ _ h
      (noEmptyEv_fold_offAllType _ _ _ _ _ (noEmptyEv_of_get _ _ _ h hbe).2)

/-! ## The clean-up of a `once` dispatcher -/

theorem onceCleanup_eq (reg : Registry) (d : Dispatcher) (be : ByEvent) (bs : BySelector)
    (bn : ByNamespace) (bf : ByFn) (bc : ByCapture)
    (hbe : JsMap.get reg d.rootEl = some be) (hbs : JsMap.get be d.eventType = some bs)
    (hbn : JsMap.get bs d.selector = some bn) (hbf : JsMap.get bn d.nsKey = some bf)
    (hbc : JsMap.get bf d.fn = some bc) :
    onceCleanup reg d =
      JsMap.writeBack reg d.rootEl (JsMap.writeBack be d.eventType
        (JsMap.writeBack bs d.selector (JsMap.writeBack bn d.nsKey
          (JsMap.writeBack bf d.fn (JsMap.delete bc d.key))))) := by
  simp only [onceCleanup, hbe, hbs, hbn, hbf, hbc]

theorem wf_onceCleanup (reg : Registry) (d : Dispatcher) (h : WF reg) :
    WF (onceCleanup reg d) := by
  unfold onceCleanup
  split
  · exact h
  · rename_i be hbe
    split
    · exact h
    · rename_i bs hbs
      split
      · exact h
      · rename_i bn hbn
        split
        · exact h
        · rename_i bf hbf
          split
          · exact h
          · rename_i bc hbc
            have h1 := wfEv_of_get _ _ _ h hbe
            have h2 := wfSel_of_get _ _ _ h1 hbs
            have h3 := wfNs_of_get _ _ _ h2 hbn
            have h4 := wfFn_of_get _ _ _ h3 hbf
            have h5 := nodup_of_get _ _ _ h4 hbc
            exact wfReg_writeBack _ _ _ h (wfEv_writeBack _ _ _ h1 (wfSel_writeBack _ _ _ h2
              (wfNs_writeBack _ _ _ h3 (wfFn_writeBack _ _ _ h4
                (JsMap.keys_delete_nodup _ _ h5)))))

theorem noEmpty_onceCleanup (reg : Registry) (d : Dispatcher) (h : NoEmpty reg) :
    NoEmpty (onceCleanup reg d) := by
  unfold onceCleanup
  split
  · exact h
  · rename_i be hbe
    split
    · exact h
    · rename_i bs hbs
      split
      · exact h
      · rename_i bn hbn
        split
        · exact h
        · rename_i bf hbf
          split
          · exact h
          · rename_i bc hbc
            have h1 := (noEmptyEv_of_get _ _ _ h hbe).2
            have h2 := (noEmptySel_of_get _ _ _ h1 hbs).2
            have h3 := (noEmptyNs_of_get _ _ _ h2 hbn).2
            have h4 := (noEmptyFn_of_get _ _ _ h3 hbf).2
            exact noEmptyReg_writeBack _ _ _ h (noEmptyEv_writeBack _ _ _ h1
              (noEmptySel_writeBack _ _ _ h2 (noEmptyNs_writeBack _ _ _ h3
                (noEmptyFn_writeBack _ _ _ h4))))

theorem lookup_onceCleanup (reg : Registry) (d : Dispatcher) (r1 : Elem)
    (t1 sel1 ns1 : String) (fn1 : Fn) (key1 : Key) :
    lookup (onceCleanup reg d) r1 t1 sel1 ns1 fn1 key1 =
      if d.rootEl = r1 ∧ d.eventType = t1 ∧ d.selector = sel1 ∧ d.nsKey = ns1 ∧ d.fn = fn1 ∧
          d.key = key1 then none
      else lookup reg r1 t1 sel1 ns1 fn1 key1 := by
  have hnone : lookup reg d.rootEl d.eventType d.selector d.nsKey d.fn d.key = none →
      onceCleanup reg d = reg →
      lookup (onceCleanup reg d) r1 t1 sel1 ns1 fn1 key1 =
        if d.rootEl = r1 ∧ d.eventType = t1 ∧ d.selector = sel1 ∧ d.nsKey = ns1 ∧
            d.fn = fn1 ∧ d.key = key1 then none
        else lookup reg r1 t1 sel1 ns1 fn1 key1 := by
    intro h1 h2
    rw [h2]
    by_cases hR : d.rootEl = r1 ∧ d.eventType = t1 ∧ d.selector = sel1 ∧ d.nsKey = ns1 ∧
        d.fn = fn1 ∧ d.key = key1
    · rw [if_pos hR]
      obtain ⟨e1, e2, e3, e4, e5, e6⟩ := hR
      subst e1 e2 e3 e4 e5 e6
      exact h1
    · rw [if_neg hR]
  cases hbe : JsMap.get reg d.rootEl with
  | none =>
    exact hnone (by simp [lookup, hbe]) (by simp only [onceCleanup, hbe])
  | some be =>
    cases hbs : JsMap.get be d.eventType with
    | none =>
      exact hnone (by simp [lookup, lookupEv, hbe, hbs]) (by simp only [onceCleanup, hbe, hbs])
    | some bs =>
      cases hbn : JsMap.get bs d.selector with
      | none =>
        exact hnone (by simp [lookup, lookupEv, lookupSel, hbe, hbs, hbn])
          (by simp only [onceCleanup, hbe, hbs, hbn])
      | some bn =>
        cases hbf : JsMap.get bn d.nsKey with
        | none =>
          exact hnone (by simp [lookup, lookupEv, lookupSel, lookupNs, hbe, hbs, hbn, hbf])
            (by simp only [onceCleanup, hbe, hbs, hbn, hbf])
        | some bf =>
          cases hbc : JsMap.get bf d.fn with
          | none =>
            exact hnone
              (by simp [lookup, lookupEv, lookupSel, lookupNs, lookupFn, hbe, hbs, hbn, hbf,
                hbc])
              (by simp only [onceCleanup, hbe, hbs, hbn, hbf, hbc])
          | some bc =>
            rw [onceCleanup_eq reg d be bs bn bf bc hbe hbs hbn hbf hbc]
            refine lookup_writeBack3 _ d.rootEl r1 d.eventType t1 d.selector sel1 ns1 fn1 key1
              be bs bn _ hbe hbs hbn (d.nsKey = ns1 ∧ d.fn = fn1 ∧ d.key = key1) ?_
            unfold lookupNs
            refine JsMap.get_writeBack_remove bn d.nsKey ns1 bf _ hbf
              (fun byFn => lookupFn byFn fn1 key1) rfl (d.fn = fn1 ∧ d.key = key1) ?_
            unfold lookupFn
            refine JsMap.get_writeBack_remove bf d.fn fn1 bc _ hbc
              (fun byCapture => JsMap.get byCapture key1) rfl (d.key = key1) ?_
            exact JsMap.get_delete bc d.key key1

/-! ## Every reachable state is well-formed -/

theorem parse_type_empty (evt : String) (h : (parseNamespacedEvent evt).type = "") :
    evt = "" ∨ (parseNamespacedEvent evt).nspace ≠ "" := by
  unfold parseNamespacedEvent at h ⊢
  dsimp only at h ⊢
  by_cases h1 : evt.data.head? = some '.' ∧ 1 < evt.data.length
  · rw [if_pos h1]
    right
    intro h5
    have h6 : (evt.data.drop 1) = [] := by
      have := congrArg String.data h5
      simpa using this
    have h7 : (evt.data.drop 1).length = 0 := by rw [h6]; rfl
    rw [List.length_drop] at h7
    omega
  · rw [if_neg h1] at h
    by_cases h2 : List.indexOf '.' evt.data = evt.data.length
    · rw [if_pos h2] at h
      exact Or.inl h
    · rw [if_neg h2] at h
      by_cases h3 : String.mk (List.take (List.indexOf '.' evt.data) evt.data) = "" ∨
          String.mk (List.drop (List.indexOf '.' evt.data + 1) evt.data) = ""
      · rw [if_pos h3] at h
        exact Or.inl h
      · rw [if_neg h3] at h
        by_cases h4 : String.mk (List.take (List.indexOf '.' evt.data) evt.data) ∉
            domEventNames
        · rw [if_pos h4] at h
          exact Or.inl h
        · rw [if_neg h4] at h
          exact absurd h (fun h5 => h3 (Or.inl h5))

/-- When `on` gets to its loops the resolved event type is the parsed one. -/
theorem on_eq_of_type_empty (s : State) (arr : List Elem) (evt : String) (args : OnArgs)
    (h : (parseNamespacedEvent evt).type = "") : on_ s arr evt args = s := by
  unfold on_
  by_cases h1 : evt = ""
  · rw [if_pos h1]
  · rw [if_neg h1]
    dsimp only
    rcases parse_type_empty evt h with h2 | h2
    · exact absurd h2 h1
    · rw [if_pos ⟨h, h2⟩]

theorem on_direct_eq (s : State) (arr : List Elem) (evt : String) (fn : Fn)
    (opts : Opts) (h : (parseNamespacedEvent evt).type ≠ "") :
    on_ s arr evt (.direct fn opts) =
      arr.foldl (onDirectEl (parseNamespacedEvent evt).type fn opts) s := by
  unfold on_
  rw [if_neg (ne_empty_of_type_ne evt h)]
  simp only [h, false_and, if_false]
  cases arr <;> simp

theorem on_other_eq (s : State) (arr : List Elem) (evt : String) :
    on_ s arr evt .other = s := by
  unfold on_
  dsimp only
  split_ifs <;> rfl

theorem foldl_preserves {α β : Type} (P : α → Prop) (f : α → β → α)
    (h : ∀ a b, P a → P (f a b)) (l : List β) (a : α) (ha : P a) : P (l.foldl f a) := by
  induction l generalizing a with
  | nil => exact ha
  | cons b l ih => exact ih _ (h a b ha)

theorem inv_init : Inv State.init :=
  { wf := wfReg_nil
    noEmpty := noEmptyReg_nil
    closures := by intro r t sel ns fn key d h; simp [State.init, lookup] at h
    listeners := by intro l h; simp [State.init] at h }

theorem inv_onDelegatedRoot (rt ns sel : String) (fn : Fn) (opts : Opts) (s : State)
    (r : Elem) (h : Inv s) : Inv (onDelegatedRoot rt rt ns sel fn opts s r) :=
  { wf := wf_onDelegatedRoot _ _ _ _ _ _ _ _ h.wf
    noEmpty := noEmpty_onDelegatedRoot _ _ _ _ _ _ _ _ h.noEmpty
    closures := closuresAgree_onDelegatedRoot _ _ _ _ _ _ _ h.closures
    listeners := listenersAgree_onDelegatedRoot _ _ _ _ _ _ _ h.closures h.listeners }

theorem inv_onDirectEl (rt : String) (fn : Fn) (opts : Opts) (s : State) (el : Elem)
    (h : Inv s) : Inv (onDirectEl rt fn opts s el) :=
  { wf := h.wf
    noEmpty := h.noEmpty
    closures := h.closures
    listeners := by
      intro l hl d hd
      simp only [onDirectEl, mem_addEventListener] at hl
      rcases hl with hl | ⟨hl, -⟩
      · exact h.listeners l hl d hd
      · rw [hl] at hd; cases hd }

theorem inv_on (s : State) (arr : List Elem) (evt : String) (args : OnArgs) (h : Inv s) :
    Inv (on_ s arr evt args) := by
  by_cases ht : (parseNamespacedEvent evt).type = ""
  · rw [on_eq_of_type_empty _ _ _ _ ht]; exact h
  · cases args with
    | direct fn opts =>
      rw [on_direct_eq _ _ _ _ _ ht]
      exact foldl_preserves Inv _ (fun a b => inv_onDirectEl _ _ _ a b) _ _ h
    | delegated sel fn opts =>
      rw [on_delegated_eq _ _ _ _ _ _ ht]
      exact foldl_preserves Inv _ (fun a b => inv_onDelegatedRoot _ _ _ _ _ a b) _ _ h
    | other => rw [on_other_eq]; exact h

theorem inv_one (s : State) (arr : List Elem) (evt : String) (args : OnArgs) (h : Inv s) :
    Inv (one s arr evt args) := by
  cases args with
  | direct fn opts => exact inv_on s arr evt (.direct fn (oneOpts opts)) h
  | delegated sel fn opts => exact inv_on s arr evt (.delegated sel fn (oneOpts opts)) h
  | other => exact h

theorem inv_offDelegatedRoot (rt nspace sel : String) (fn : Fn) (opts : Opts) (s : State)
    (r : Elem) (h : Inv s) : Inv (offDelegatedRoot rt nspace sel fn opts s r) :=
  { wf := wf_offDelegatedRoot _ _ _ _ _ _ _ h.wf
    noEmpty := noEmpty_offDelegatedRoot _ _ _ _ _ _ _ h.noEmpty
    closures := by
      intro r1 t1 sel1 ns1 fn1 key1 d hd
      rw [lookup_offDelegatedRoot] at hd
      split_ifs at hd
      exact h.closures _ _ _ _ _ _ _ hd
    listeners := listenersAgree_of_subset _ _
      (fun l hl => ((mem_offDelegatedRoot _ _ _ _ _ _ _ l).1 hl).1) h.listeners }

theorem inv_offSelectorRoot (rt nspace sel : String) (s : State)
    (r : Elem) (h : Inv s) : Inv (offSelectorRoot rt nspace sel s r) :=
  { wf := wf_offSelectorRoot _ _ _ _ _ h.wf
    noEmpty := noEmpty_offSelectorRoot _ _ _ _ _ h.noEmpty
    closures := by
      intro r1 t1 sel1 ns1 fn1 key1 d hd
      rw [lookup_offSelectorRoot] at hd
      split_ifs at hd
      exact h.closures _ _ _ _ _ _ _ hd
    listeners := listenersAgree_of_subset _ _
      (fun l hl => ((mem_offSelectorRoot _ _ _ _ _ l).1 hl).1) h.listeners }

theorem inv_offAllRoot (et rt nspace : String) (s : State)
    (r : Elem) (h : Inv s) : Inv (offAllRoot et rt nspace s r) :=
  { wf := wf_offAllRoot _ _ _ _ _ h.wf
    noEmpty := noEmpty_offAllRoot _ _ _ _ _ h.noEmpty
    closures := by
      intro r1 t1 sel1 ns1 fn1 key1 d hd
      rw [lookup_offAllRoot _ _ _ _ h.wf] at hd
      split_ifs at hd
      exact h.closures _ _ _ _ _ _ _ hd
    listeners := listenersAgree_of_subset _ _
      (fun l hl => ((mem_offAllRoot _ _ _ _ h.wf _ l).1 hl).1) h.listeners }

theorem inv_offDirectEl (rt : String) (fn : Fn) (opts : Opts) (s : State) (el : Elem)
    (h : Inv s) : Inv (offDirectEl rt fn opts s el) :=
  { wf := h.wf
    noEmpty := h.noEmpty
    closures := h.closures
    listeners := listenersAgree_of_subset _ _
      (fun l hl => ((mem_removeEventListener _ _ _ _ _ l).1 hl).1) h.listeners }

theorem off_none_eq (s : State) (arr : List Elem) (evt : String) (h : evt ≠ "") :
    off s arr evt .none =
      arr.foldl (offAllRoot (parseNamespacedEvent evt).type
        (if (parseNamespacedEvent evt).type = "" then evt else (parseNamespacedEvent evt).type)
        (parseNamespacedEvent evt).nspace) s := by
  unfold off
  rw [if_neg h]
  cases arr <;> simp

theorem off_selector_eq (s : State) (arr : List Elem) (evt sel : String)
    (h : (parseNamespacedEvent evt).type ≠ "") :
    off s arr evt (.selector sel) =
      arr.foldl (offSelectorRoot (parseNamespacedEvent evt).type
        (parseNamespacedEvent evt).nspace sel) s := by
  unfold off
  rw [if_neg (ne_empty_of_type_ne evt h)]
  simp only [h, if_false]
  cases arr <;> simp

theorem off_direct_eq (s : State) (arr : List Elem) (evt : String) (fn : Fn) (opts : Opts)
    (h : evt ≠ "") :
    off s arr evt (.direct fn opts) =
      arr.foldl (offDirectEl
        (if (parseNamespacedEvent evt).type = "" then evt else (parseNamespacedEvent evt).type)
        fn opts) s := by
  unfold off
  rw [if_neg h]
  cases arr <;> simp

theorem off_empty (s : State) (arr : List Elem) (args : OffArgs) : off s arr "" args = s := by
  unfold off
  rw [if_pos rfl]

theorem off_other_eq (s : State) (arr : List Elem) (evt : String) :
    off s arr evt .other = s := by
  unfold off
  dsimp only
  split_ifs <;> rfl

theorem off_selector_of_type_empty (s : State) (arr : List Elem) (evt sel : String)
    (h : (parseNamespacedEvent evt).type = "") : off s arr evt (.selector sel) = s := by
  unfold off
  dsimp only
  split_ifs <;> rfl

theorem off_delegated_of_type_empty (s : State) (arr : List Elem) (evt sel : String)
    (fn : Fn) (opts : Opts) (h : (parseNamespacedEvent evt).type = "") :
    off s arr evt (.delegated sel fn opts) = s := by
  unfold off
  dsimp only
  split_ifs <;> rfl

theorem inv_off (s : State) (arr : List Elem) (evt : String) (args : OffArgs) (h : Inv s) :
    Inv (off s arr evt args) := by
  by_cases he : evt = ""
  · rw [he, off_empty]; exact h
  · cases args with
    | none =>
      rw [off_none_eq _ _ _ he]
      exact foldl_preserves Inv _ (fun a b => inv_offAllRoot _ _ _ a b) _ _ h
    | selector sel =>
      by_cases ht : (parseNamespacedEvent evt).type = ""
      · rw [off_selector_of_type_empty _ _ _ _ ht]; exact h
      · rw [off_selector_eq _ _ _ _ ht]
        exact foldl_preserves Inv _ (fun a b => inv_offSelectorRoot _ _ _ a b) _ _ h
    | direct fn opts =>
      rw [off_direct_eq _ _ _ _ _ he]
      exact foldl_preserves Inv _ (fun a b => inv_offDirectEl _ _ _ a b) _ _ h
    | delegated sel fn opts =>
      by_cases ht : (parseNamespacedEvent evt).type = ""
      · rw [off_delegated_of_type_empty _ _ _ _ _ _ ht]; exact h
      · rw [off_delegated_eq _ _ _ _ _ _ ht]
        exact foldl_preserves Inv _ (fun a b => inv_offDelegatedRoot _ _ _ _ _ a b) _ _ h
    | other => rw [off_other_eq]; exact h

theorem inv_delegatedHandler (d : Dispatcher) (dom : Dom) (root : Elem) (e : Event)
    (s : State) (h : Inv s) : Inv (delegatedHandler d dom root e s) := by
  unfold delegatedHandler
  split
  · exact h
  · split
    · exact h
    · split_ifs
      · exact
          { wf := wf_onceCleanup _ _ h.wf
            noEmpty := noEmpty_onceCleanup _ _ h.noEmpty
            closures := by
              intro r1 t1 sel1 ns1 fn1 key1 d1 hd
              rw [lookup_onceCleanup] at hd
              split_ifs at hd
              exact h.closures _ _ _ _ _ _ _ hd
            listeners := h.listeners }
      · exact ⟨h.wf, h.noEmpty, h.closures, h.listeners⟩
      · exact h

theorem inv_invokeListener (dom : Dom) (cur : Elem) (e : Event) (s : State) (l : Listener)
    (h : Inv s) : Inv (invokeListener dom cur e s l) := by
  unfold invokeListener
  have h1 : Inv (if l.once = true then
      { s with listeners := s.listeners.filter (fun x => decide (x ≠ l)) } else s) := by
    split_ifs
    · exact ⟨h.wf, h.noEmpty, h.closures, listenersAgree_of_subset _ _
        (fun x hx => (List.mem_filter.1 hx).1) h.listeners⟩
    · exact h
  cases l.callback with
  | direct fn => exact ⟨h1.wf, h1.noEmpty, h1.closures, h1.listeners⟩
  | dispatcher d => exact inv_delegatedHandler _ _ _ _ _ h1

theorem inv_dispatchAt (s : State) (dom : Dom) (cur : Elem) (e : Event) (h : Inv s) :
    Inv (dispatchAt s dom cur e) := by
  unfold dispatchAt
  exact foldl_preserves Inv _ (fun a b => inv_invokeListener dom cur e a b) _ _ h

theorem inv_step (s : State) (a : Action) (h : Inv s) : Inv (step s a) := by
  cases a with
  | callOn arr evt args => exact inv_on _ _ _ _ h
  | callOne arr evt args => exact inv_one _ _ _ _ h
  | callOff arr evt args => exact inv_off _ _ _ _ h
  | dispatch dom cur e => exact inv_dispatchAt _ _ _ _ h

theorem inv_of_reachable (s : State) (h : Reachable s) : Inv s := by
  induction h with
  | init => exact inv_init
  | step s a _ ih => exact inv_step s a ih

/-! ## Which listeners `off` takes away and which it leaves -/

theorem same_of_lookup (s : State) (hs : Inv s) (l : Listener) (hl : l ∈ s.listeners)
    (r : Elem) (t sel ns : String) (fn : Fn) (key : Key) (d : Dispatcher)
    (hd : lookup s.delegatedHandlers r t sel ns fn key = some d)
    (hcb : l.callback = .dispatcher d) :
    sameListener r t (.dispatcher d) key.1 l = true := by
  obtain ⟨a1, a2, a3, -⟩ := hs.listeners l hl d hcb
  obtain ⟨c1, c2, -, -, -, c6⟩ := hs.closures _ _ _ _ _ _ _ hd
  rw [sameListener_iff]
  refine ⟨a1.trans c1, a2.trans c2, hcb, ?_⟩
  rw [a3, ← c6]
  rfl

theorem closure_of_storedAt (s : State) (hs : Inv s) (r : Elem) (t sel ns : String)
    (key : Key) (d : Dispatcher) (hst : StoredAt s.delegatedHandlers r t sel ns key d) :
    d.rootEl = r ∧ d.eventType = t ∧ d.selector = sel ∧ d.nsKey = ns ∧ d.key = key := by
  obtain ⟨fn, hfn⟩ := lookup_of_storedAt _ _ _ _ _ _ _ hs.wf hst
  obtain ⟨c1, c2, c3, c4, -, c6⟩ := hs.closures _ _ _ _ _ _ _ hfn
  exact ⟨c1, c2, c3, c4, c6⟩

theorem callback_of_same (r : Elem) (t : String) (cb : Callback) (c : Bool) (l : Listener)
    (h : sameListener r t cb c l = true) : l.callback = cb :=
  ((sameListener_iff _ _ _ _ _).1 h).2.2.1

theorem eq_false_of_ne_true (b : Bool) (h : b = true → False) : b = false := by
  cases b
  · rfl
  · exact absurd rfl h

theorem offAllRoot_uninstalled (et rt nspace : String) (s : State) (hs : Inv s) (r : Elem)
    (t1 sel1 ns1 : String) (fn1 : Fn) (key1 : Key) (d : Dispatcher)
    (hd : lookup s.delegatedHandlers r t1 sel1 ns1 fn1 key1 = some d)
    (htc : (et = "" ∧ nspace ≠ "") ∨ rt = t1) (hns : nsMatches nspace ns1) :
    ∀ l ∈ (offAllRoot et rt nspace s r).listeners, l.callback ≠ .dispatcher d := by
  intro l hl hcb
  rw [mem_offAllRoot _ _ _ _ hs.wf] at hl
  have h1 := hl.2 t1 sel1 ns1 key1 d htc hns (storedAt_of_lookup _ _ _ _ _ _ _ _ hd)
  rw [same_of_lookup s hs l hl.1 r t1 sel1 ns1 fn1 key1 d hd hcb] at h1
  cases h1

theorem offAllRoot_kept (et rt nspace : String) (s : State) (hs : Inv s) (r : Elem)
    (l : Listener) (hl : l ∈ s.listeners)
    (h : ∀ d, l.callback = .dispatcher d →
      ¬ (d.rootEl = r ∧ ((et = "" ∧ nspace ≠ "") ∨ rt = d.eventType) ∧
        nsMatches nspace d.nsKey)) :
    l ∈ (offAllRoot et rt nspace s r).listeners := by
  rw [mem_offAllRoot _ _ _ _ hs.wf]
  refine ⟨hl, ?_⟩
  intro t1 sel1 ns1 key d htc hns hst
  apply eq_false_of_ne_true
  intro hsame
  obtain ⟨c1, c2, -, c4, -⟩ := closure_of_storedAt s hs _ _ _ _ _ _ hst
  apply h d (callback_of_same _ _ _ _ _ hsame)
  refine ⟨c1, ?_, ?_⟩
  · rw [c2]; exact htc
  · rw [c4]; exact hns

theorem offSelectorRoot_uninstalled (rt nspace sel : String) (s : State) (hs : Inv s)
    (r : Elem) (ns1 : String) (fn1 : Fn) (key1 : Key) (d : Dispatcher)
    (hd : lookup s.delegatedHandlers r rt sel ns1 fn1 key1 = some d)
    (hns : nsMatches nspace ns1) :
    ∀ l ∈ (offSelectorRoot rt nspace sel s r).listeners, l.callback ≠ .dispatcher d := by
  intro l hl hcb
  rw [mem_offSelectorRoot] at hl
  have h1 := hl.2 ns1 key1 d hns (storedAt_of_lookup _ _ _ _ _ _ _ _ hd)
  rw [same_of_lookup s hs l hl.1 r rt sel ns1 fn1 key1 d hd hcb] at h1
  cases h1

theorem offSelectorRoot_kept (rt nspace sel : String) (s : State) (hs : Inv s) (r : Elem)
    (l : Listener) (hl : l ∈ s.listeners)
    (h : ∀ d, l.callback = .dispatcher d →
      ¬ (d.rootEl = r ∧ d.eventType = rt ∧ d.selector = sel ∧ nsMatches nspace d.nsKey)) :
    l ∈ (offSelectorRoot rt nspace sel s r).listeners := by
  rw [mem_offSelectorRoot]
  refine ⟨hl, ?_⟩
  intro ns1 key d hns hst
  apply eq_false_of_ne_true
  intro hsame
  obtain ⟨c1, c2, c3, c4, -⟩ := closure_of_storedAt s hs _ _ _ _ _ _ hst
  apply h d (callback_of_same _ _ _ _ _ hsame)
  refine ⟨c1, c2, c3, ?_⟩
  rw [c4]; exact hns

theorem offDelegatedRoot_uninstalled (rt nspace sel : String) (fn : Fn) (opts : Opts)
    (s : State) (hs : Inv s) (r : Elem) (ns1 : String) (key1 : Key) (d : Dispatcher)
    (hd : lookup s.delegatedHandlers r rt sel ns1 fn key1 = some d)
    (hns : nsMatches nspace ns1) (hk : keyMatches opts key1) :
    ∀ l ∈ (offDelegatedRoot rt nspace sel fn opts s r).listeners,
      l.callback ≠ .dispatcher d := by
  intro l hl hcb
  rw [mem_offDelegatedRoot] at hl
  have hkey : key1 = (captureOf opts, key1.2) := Prod.ext hk.1 rfl
  rw [hkey] at hd
  have h1 := hl.2 ns1 key1.2 d hns hk.2 hd
  have h2 := same_of_lookup s hs l hl.1 r rt sel ns1 fn _ d hd hcb
  rw [h2] at h1
  cases h1

theorem offDelegatedRoot_kept (rt nspace sel : String) (fn : Fn) (opts : Opts) (s : State)
    (hs : Inv s) (r : Elem) (l : Listener) (hl : l ∈ s.listeners)
    (h : ∀ d, l.callback = .dispatcher d →
      ¬ (d.rootEl = r ∧ d.eventType = rt ∧ d.selector = sel ∧ nsMatches nspace d.nsKey ∧
        d.fn = fn ∧ keyMatches opts d.key)) :
    l ∈ (offDelegatedRoot rt nspace sel fn opts s r).listeners := by
  rw [mem_offDelegatedRoot]
  refine ⟨hl, ?_⟩
  intro ns1 o d hns ho hd
  apply eq_false_of_ne_true
  intro hsame
  obtain ⟨c1, c2, c3, c4, c5, c6⟩ := hs.closures _ _ _ _ _ _ _ hd
  apply h d (callback_of_same _ _ _ _ _ hsame)
  refine ⟨c1, c2, c3, ?_, c5, ?_⟩
  · rw [c4]; exact hns
  · rw [c6]; exact ⟨rfl, ho⟩

theorem offAllRoot_calls (et rt nspace : String) (s : State) (r : Elem) :
    (offAllRoot et rt nspace s r).calls = s.calls := by
  cases hbe : JsMap.get s.delegatedHandlers r with
  | none => rw [offAllRoot_none _ _ _ _ _ hbe]
  | some be => rw [offAllRoot_some _ _ _ _ _ _ hbe]

theorem offSelectorRoot_calls (rt nspace sel : String) (s : State) (r : Elem) :
    (offSelectorRoot rt nspace sel s r).calls = s.calls := by
  cases hbe : JsMap.get s.delegatedHandlers r with
  | none => simp only [offSelectorRoot, hbe]
  | some be =>
    cases hbs : JsMap.get be rt with
    | none => simp only [offSelectorRoot, hbe, hbs]
    | some bs =>
      cases hbn : JsMap.get bs sel with
      | none => simp only [offSelectorRoot, hbe, hbs, hbn]
      | some bn => simp only [offSelectorRoot, hbe, hbs, hbn]

theorem callsOf_dispatcher_match (dom : Dom) (cur : Elem) (e : Event) (d : Dispatcher)
    (x m : Elem) (hx : e.target = some x) (hm : dom.closest x d.selector = some m)
    (hc : cur = m ∨ dom.contains cur m = true) :
    callsOf dom cur e (.dispatcher d) =
      [{ fn := d.fn, thisArg := m, event := e, matched := some m }] := by
  simp only [callsOf, hx, hm, hc, if_true]

theorem mem_dispatchAt_calls (s : State) (dom : Dom) (cur : Elem) (e : Event) (c : Call) :
    c ∈ (dispatchAt s dom cur e).calls ↔
      c ∈ s.calls ∨ ∃ l ∈ s.listeners, l.target = cur ∧ l.type = e.type ∧
        c ∈ callsOf dom cur e l.callback := by
  rw [dispatchAt_calls, List.mem_append, List.mem_flatMap]
  constructor
  · rintro (h | ⟨l, hl, hc⟩)
    · exact Or.inl h
    · rw [mem_deliveryOrder] at hl
      exact Or.inr ⟨l, hl.1, hl.2.1, hl.2.2, hc⟩
  · rintro (h | ⟨l, hl, h1, h2, hc⟩)
    · exact Or.inl h
    · exact Or.inr ⟨l, (mem_deliveryOrder _ _ _ _).2 ⟨hl, h1, h2⟩, hc⟩

/-- The listener `onDelegatedRoot` leaves installed for its tuple. -/
theorem exists_listener_onDelegatedRoot (rt ns sel : String) (fn : Fn) (opts : Opts)
    (s : State) (r : Elem) :
    ∃ l ∈ (onDelegatedRoot rt rt ns sel fn opts s r).listeners,
      l.target = r ∧ l.type = rt ∧
      l.callback = .dispatcher (dispatcherOf rt rt ns sel fn opts s r) := by
  rw [onDelegatedRoot_listeners]
  obtain ⟨l, hl, hs⟩ := exists_mem_addEventListener s.listeners r rt
    (.dispatcher (dispatcherOf rt rt ns sel fn opts s r)) opts
  rw [sameListener_iff] at hs
  exact ⟨l, hl, hs.1, hs.2.1, hs.2.2.1⟩

theorem mem_listeners_onDelegatedRoot (rt ns sel : String) (fn : Fn) (opts : Opts)
    (s : State) (r : Elem) (l : Listener)
    (h : l ∈ (onDelegatedRoot rt rt ns sel fn opts s r).listeners) :
    l ∈ s.listeners ∨ l.callback = .dispatcher (dispatcherOf rt rt ns sel fn opts s r) := by
  rw [onDelegatedRoot_listeners, mem_addEventListener] at h
  rcases h with h | ⟨h, -⟩
  · exact Or.inl h
  · right; rw [h]

theorem lookup_onDelegatedRoot_self (rt ns sel : String) (fn : Fn) (opts : Opts)
    (s : State) (r : Elem) :
    lookup (onDelegatedRoot rt rt ns sel fn opts s r).delegatedHandlers r rt sel ns fn
      (captureOf opts, onceOf opts) = some (dispatcherOf rt rt ns sel fn opts s r) := by
  rw [lookup_onDelegatedRoot, if_pos ⟨rfl, rfl, rfl, rfl, rfl, rfl⟩]

theorem two_namespaces_scenario (root : Elem) (evtA evtB offEvt t A B sel : String)
    (hA hB : Fn) (optsA optsB : Opts) (dom : Dom) (e : Event) (x m : Elem)
    (pA : parseNamespacedEvent evtA = { type := t, nspace := A })
    (pB : parseNamespacedEvent evtB = { type := t, nspace := B })
    (pO : parseNamespacedEvent offEvt = { type := "", nspace := A })
    (ht : t ≠ "") (hne : A ≠ "") (hAB : A ≠ B)
    (he : e.type = t) (hx : e.target = some x) (hm : dom.closest x sel = some m)
    (hc : root = m ∨ dom.contains root m = true) (c : Call) :
    c ∈ (dispatchAt (off (on_ (on_ State.init [root] evtA (.delegated sel hA optsA)) [root]
        evtB (.delegated sel hB optsB)) [root] offEvt .none) dom root e).calls ↔
      c = { fn := hB, thisArg := m, event := e, matched := some m } := by
  have tA : (parseNamespacedEvent evtA).type ≠ "" := by rw [pA]; exact ht
  have tB : (parseNamespacedEvent evtB).type ≠ "" := by rw [pB]; exact ht
  have hO : offEvt ≠ "" := by
    intro h
    rw [h, parse_empty] at pO
    exact hne (congrArg ParsedEvent.nspace pO).symm
  rw [off_none_eq _ _ _ hO, on_delegated_eq _ _ _ _ _ _ tB, on_delegated_eq _ _ _ _ _ _ tA]
  simp only [List.foldl_cons, List.foldl_nil, pA, pB, pO, if_true]
  have i1 : Inv (onDelegatedRoot t t A sel hA optsA State.init root) :=
    inv_onDelegatedRoot _ _ _ _ _ _ _ inv_init
  have i2 : Inv (onDelegatedRoot t t B sel hB optsB
      (onDelegatedRoot t t A sel hA optsA State.init root) root) :=
    inv_onDelegatedRoot _ _ _ _ _ _ _ i1
  have cA := closure_dispatcherOf t A sel hA optsA State.init root inv_init.closures
  have cB := closure_dispatcherOf t B sel hB optsB _ root i1.closures
  have lA : lookup (onDelegatedRoot t t B sel hB optsB
      (onDelegatedRoot t t A sel hA optsA State.init root) root).delegatedHandlers root t sel
      A hA (captureOf optsA, onceOf optsA) =
      some (dispatcherOf t t A sel hA optsA State.init root) := by
    rw [lookup_onDelegatedRoot, if_neg (fun h => hAB h.2.2.2.1.symm)]
    exact lookup_onDelegatedRoot_self _ _ _ _ _ _ _
  have hcallB : callsOf dom root e
      (.dispatcher (dispatcherOf t t B sel hB optsB
        (onDelegatedRoot t t A sel hA optsA State.init root) root)) =
      [{ fn := hB, thisArg := m, event := e, matched := some m }] := by
    rw [callsOf_dispatcher_match dom root e _ x m hx (by rw [cB.2.2.1]; exact hm) hc,
      cB.2.2.2.2.1]
  rw [mem_dispatchAt_calls, offAllRoot_calls, onDelegatedRoot_calls, onDelegatedRoot_calls]
  constructor
  · rintro (h | ⟨l, hl, -, -, hcl⟩)
    · simp [State.init] at h
    · have hl2 := ((mem_offAllRoot _ _ _ _ i2.wf _ l).1 hl).1
      rcases mem_listeners_onDelegatedRoot _ _ _ _ _ _ _ l hl2 with h1 | h1
      · rcases mem_listeners_onDelegatedRoot _ _ _ _ _ _ _ l h1 with h2 | h2
        · simp [State.init] at h2
        · exfalso
          exact offAllRoot_uninstalled "" offEvt A _ i2 root t sel A hA _ _ lA
            (Or.inl ⟨rfl, hne⟩) (Or.inr rfl) l hl h2
      · rw [h1, hcallB, List.mem_singleton] at hcl
        exact hcl
  · intro hcc
    right
    obtain ⟨l, hl, h1, h2, h3⟩ := exists_listener_onDelegatedRoot t B sel hB optsB
      (onDelegatedRoot t t A sel hA optsA State.init root) root
    refine ⟨l, ?_, h1, h2.trans he.symm, ?_⟩
    · apply offAllRoot_kept "" offEvt A _ i2 root l hl
      intro d hd
      rw [h3] at hd
      simp only [Callback.dispatcher.injEq] at hd
      rw [← hd, cB.2.2.2.1]
      rintro ⟨-, -, h4 | h4⟩
      · exact hne h4
      · exact hAB h4
    · rw [h3, hcallB, hcc]
      exact List.mem_singleton_self _

/-! ## Direct listeners -/

theorem off_none_keeps (s : State) (hs : Inv s) (arr : List Elem) (evt : String)
    (l : Listener) (hl : l ∈ s.listeners) (hd : ∀ d, l.callback ≠ .dispatcher d) :
    l ∈ (off s arr evt .none).listeners := by
  by_cases he : evt = ""
  · rw [he, off_empty]; exact hl
  · rw [off_none_eq _ _ _ he]
    have key : ∀ (rs : List Elem) (st : State), Inv st → l ∈ st.listeners →
        l ∈ (rs.foldl (offAllRoot (parseNamespacedEvent evt).type
          (if (parseNamespacedEvent evt).type = "" then evt
            else (parseNamespacedEvent evt).type)
          (parseNamespacedEvent evt).nspace) st).listeners := by
      intro rs
      induction rs with
      | nil => intro st _ h; exact h
      | cons r rs ih =>
        intro st hst h
        rw [List.foldl_cons]
        apply ih _ (inv_offAllRoot _ _ _ _ _ hst)
        exact offAllRoot_kept _ _ _ st hst r l h (fun d hcb => absurd hcb (hd d))
    exact key arr s hs hl

theorem addEventListener_nil (target : Elem) (type : String) (cb : Callback) (opts : Opts) :
    addEventListener [] target type cb opts =
      [{ target := target, type := type, callback := cb, capture := captureOf opts,
         once := onceOf opts }] := by
  simp [addEventListener]

/-- Two direct handlers bound under two namespaces of one event type both run after
`off('.A')`, each once: the calls of the dispatch are the two calls, the one of a capturing
listener first. -/
theorem direct_namespaces_scenario (el : Elem) (evt1 evt2 offEvt t A B : String)
    (h1 h2 : Fn) (o1 o2 : Opts) (dom : Dom) (e : Event)
    (p1 : parseNamespacedEvent evt1 = { type := t, nspace := A })
    (p2 : parseNamespacedEvent evt2 = { type := t, nspace := B })
    (pO : parseNamespacedEvent offEvt = { type := "", nspace := A })
    (ht : t ≠ "") (hne : A ≠ "") (h12 : h1 ≠ h2) (he : e.type = t) :
    (dispatchAt (off (on_ (on_ State.init [el] evt1 (.direct h1 o1)) [el] evt2
        (.direct h2 o2)) [el] offEvt .none) dom el e).calls =
      if captureOf o1 = false ∧ captureOf o2 = true then
        [{ fn := h2, thisArg := el, event := e, matched := none },
         { fn := h1, thisArg := el, event := e, matched := none }]
      else
        [{ fn := h1, thisArg := el, event := e, matched := none },
         { fn := h2, thisArg := el, event := e, matched := none }] := by
  have t1 : (parseNamespacedEvent evt1).type ≠ "" := by rw [p1]; exact ht
  have t2 : (parseNamespacedEvent evt2).type ≠ "" := by rw [p2]; exact ht
  have hO : offEvt ≠ "" := by
    intro h
    rw [h, parse_empty] at pO
    exact hne (congrArg ParsedEvent.nspace pO).symm
  rw [off_none_eq _ _ _ hO, on_direct_eq _ _ _ _ _ t2, on_direct_eq _ _ _ _ _ t1]
  simp only [List.foldl_cons, List.foldl_nil, p1, p2, pO, if_true]
  rw [offAllRoot_none]
  · rw [dispatchAt_calls]
    cases hc1 : captureOf o1 <;> cases hc2 : captureOf o2 <;>
      simp [onDirectEl, State.init, addEventListener, sameListener, h12, he, callsOf,
        deliveryOrder, hc1, hc2]
  · simp [onDirectEl, State.init]

/-! ## Dispatch: listeners, registry and call counts -/

theorem delegatedHandler_listeners (d : Dispatcher) (dom : Dom) (root : Elem) (e : Event)
    (s : State) : (delegatedHandler d dom root e s).listeners = s.listeners := by
  unfold delegatedHandler
  split
  · rfl
  · split
    · rfl
    · split_ifs <;> rfl

theorem invokeListener_listeners (dom : Dom) (cur : Elem) (e : Event) (s : State)
    (l : Listener) :
    (invokeListener dom cur e s l).listeners =
      if l.once = true then s.listeners.filter (fun x => decide (x ≠ l)) else s.listeners := by
  unfold invokeListener
  cases l.callback with
  | direct fn => cases l.once <;> rfl
  | dispatcher d =>
    dsimp only
    rw [delegatedHandler_listeners]
    cases l.once <;> rfl

theorem mem_foldl_invokeListener_listeners (dom : Dom) (cur : Elem) (e : Event)
    (snap : List Listener) (s : State) (l : Listener) :
    l ∈ (snap.foldl (invokeListener dom cur e) s).listeners ↔
      l ∈ s.listeners ∧ ¬ (l.once = true ∧ l ∈ snap) := by
  induction snap generalizing s with
  | nil => simp
  | cons x snap ih =>
    rw [List.foldl_cons, ih, invokeListener_listeners]
    by_cases hx : x.once = true
    · rw [if_pos hx, List.mem_filter]
      simp only [decide_eq_true_eq, List.mem_cons, not_and, not_or]
      constructor
      · rintro ⟨⟨h1, h2⟩, h3⟩
        exact ⟨h1, fun ho => ⟨h2, h3 ho⟩⟩
      · rintro ⟨h1, h2⟩
        refine ⟨⟨h1, ?_⟩, fun ho => (h2 ho).2⟩
        intro hlx
        subst hlx
        exact (h2 hx).1 rfl
    · rw [if_neg hx]
      simp only [List.mem_cons, not_and, not_or]
      constructor
      · rintro ⟨h1, h2⟩
        refine ⟨h1, fun ho => ⟨?_, h2 ho⟩⟩
        intro hlx
        subst hlx
        exact hx ho
      · rintro ⟨h1, h2⟩
        exact ⟨h1, fun ho => (h2 ho).2⟩

/-- After a dispatch at `cur` the listeners left are those installed before, without the
`once` listeners of `cur` for the event type. -/
theorem mem_dispatchAt_listeners (s : State) (dom : Dom) (cur : Elem) (e : Event)
    (l : Listener) :
    l ∈ (dispatchAt s dom cur e).listeners ↔
      l ∈ s.listeners ∧ ¬ (l.once = true ∧ l.target = cur ∧ l.type = e.type) := by
  unfold dispatchAt
  rw [mem_foldl_invokeListener_listeners, mem_deliveryOrder]
  tauto

/-- Number of calls of the handler `fn` in a log. -/
theorem countFn_append (fn : Fn) (a b : List Call) :
    ((a ++ b).filter (fun c => decide (c.fn = fn))).length =
      (a.filter (fun c => decide (c.fn = fn))).length +
      (b.filter (fun c => decide (c.fn = fn))).length := by
  rw [List.filter_append, List.length_append]

theorem filter_fn_flatMap_eq_nil (fn : Fn) (dom : Dom) (cur : Elem) (e : Event)
    (ls : List Listener) (h : ∀ l ∈ ls, l.callback.handler ≠ fn) :
    (ls.flatMap (fun l => callsOf dom cur e l.callback)).filter
      (fun c => decide (c.fn = fn)) = [] := by
  rw [List.filter_eq_nil_iff]
  intro c hc
  rw [List.mem_flatMap] at hc
  obtain ⟨l, hl, hcl⟩ := hc
  rw [fn_of_mem_callsOf _ _ _ _ _ hcl]
  simpa using h l hl

/-- A dispatch at an element none of whose listeners for the event type calls `fn` leaves
the calls of `fn` as they were. -/
theorem dispatchAt_calls_filter_of_fresh (s : State) (dom : Dom) (cur : Elem) (e : Event)
    (fn : Fn)
    (h : ∀ l ∈ s.listeners, l.target = cur → l.type = e.type → l.callback.handler ≠ fn) :
    (dispatchAt s dom cur e).calls.filter (fun c => decide (c.fn = fn)) =
      s.calls.filter (fun c => decide (c.fn = fn)) := by
  rw [dispatchAt_calls, List.filter_append, filter_fn_flatMap_eq_nil, List.append_nil]
  intro l hl
  rw [mem_deliveryOrder] at hl
  exact h l hl.1 hl.2.1 hl.2.2

theorem addEventListener_of_fresh (ls : List Listener) (target : Elem) (type : String)
    (cb : Callback) (opts : Opts)
    (h : ∀ l ∈ ls, l.target = target → l.type = type → l.callback ≠ cb) :
    addEventListener ls target type cb opts =
      ls ++ [{ target := target, type := type, callback := cb, capture := captureOf opts,
               once := onceOf opts }] := by
  unfold addEventListener
  rw [if_neg]
  intro hany
  obtain ⟨l, hl, hs⟩ := List.any_eq_true.1 hany
  rw [sameListener_iff] at hs
  exact h l hl hs.1 hs.2.1 hs.2.2.1

/-- The calls of `fn` by the listeners of an element when the newest listener is the only
one that can call `fn`. -/
theorem filter_fn_deliveryOrder_snoc (fn : Fn) (dom : Dom) (cur : Elem) (e : Event)
    (ls : List Listener) (x : Listener) (hx : x.target = cur ∧ x.type = e.type)
    (h : ∀ l ∈ ls, l.target = cur → l.type = e.type → l.callback.handler ≠ fn) :
    ((deliveryOrder (ls ++ [x]) cur e.type).flatMap
        (fun l => callsOf dom cur e l.callback)).filter (fun c => decide (c.fn = fn)) =
      (callsOf dom cur e x.callback).filter (fun c => decide (c.fn = fn)) := by
  have hold : ∀ b : Bool,
      ((ls.filter (fun l => decide (l.target = cur ∧ l.type = e.type ∧ l.capture = b))).flatMap
        (fun l => callsOf dom cur e l.callback)).filter (fun c => decide (c.fn = fn)) = [] := by
    intro b
    apply filter_fn_flatMap_eq_nil
    intro l hl
    rw [List.mem_filter] at hl
    have h2 : l.target = cur ∧ l.type = e.type ∧ l.capture = b := by simpa using hl.2
    exact h l hl.1 h2.1 h2.2.1
  unfold deliveryOrder
  rw [List.filter_append, List.filter_append]
  simp only [List.flatMap_append, List.filter_append]
  rw [hold true, hold false]
  cases hcap : x.capture <;> simp [hx.1, hx.2, hcap]

/-- The calls of `fn` a dispatch makes right after `on(evt, selector, fn, options)`, when no
other listener of the root for the event type calls `fn`. -/
theorem calls_after_on (rt ns sel : String) (fn : Fn) (opts : Opts) (s : State) (hs : Inv s)
    (r : Elem) (dom : Dom) (e : Event) (he : e.type = rt)
    (hfresh : ∀ l ∈ s.listeners, l.target = r → l.type = rt → l.callback.handler ≠ fn) :
    (dispatchAt (onDelegatedRoot rt rt ns sel fn opts s r) dom r e).calls.filter
        (fun c => decide (c.fn = fn)) =
      s.calls.filter (fun c => decide (c.fn = fn)) ++
        callsOf dom r e (.dispatcher (dispatcherOf rt rt ns sel fn opts s r)) := by
  have cD := closure_dispatcherOf rt ns sel fn opts s r hs.closures
  have hfreshL : ∀ l ∈ s.listeners, l.target = r → l.type = rt →
      l.callback ≠ .dispatcher (dispatcherOf rt rt ns sel fn opts s r) := by
    intro l hl h1 h2 hcb
    apply hfresh l hl h1 h2
    rw [hcb]
    exact cD.2.2.2.2.1
  rw [dispatchAt_calls, onDelegatedRoot_calls, onDelegatedRoot_listeners,
    addEventListener_of_fresh _ _ _ _ _ hfreshL, List.filter_append]
  congr 1
  rw [filter_fn_deliveryOrder_snoc fn dom r e s.listeners _ ⟨rfl, he.symm⟩
    (fun l hl h1 h2 => hfresh l hl h1 (h2.trans he))]
  rw [List.filter_eq_self]
  intro c hc
  rw [fn_of_mem_callsOf _ _ _ _ _ hc]
  simp [Callback.handler, cD.2.2.2.2.1]

theorem captureOf_oneOpts (opts : Opts) : captureOf (oneOpts opts) = captureOf opts := by
  cases opts with
  | undefined => rfl
  | null => rfl
  | bool b => cases b <;> rfl
  | obj c o => rfl

theorem onceOf_oneOpts (opts : Opts) : onceOf (oneOpts opts) = true := by
  cases opts with
  | undefined => rfl
  | null => rfl
  | bool b => cases b <;> rfl
  | obj c o => rfl

/-- Running a `once` dispatcher on a matching event prunes its registry entry. -/
theorem lookup_invokeListener_once (dom : Dom) (cur : Elem) (e : Event) (s : State)
    (l : Listener) (d : Dispatcher) (x m : Elem) (hcb : l.callback = .dispatcher d)
    (ho : d.once = true) (hx : e.target = some x) (hm : dom.closest x d.selector = some m)
    (hc : cur = m ∨ dom.contains cur m = true) :
    lookup (invokeListener dom cur e s l).delegatedHandlers d.rootEl d.eventType d.selector
      d.nsKey d.fn d.key = none := by
  unfold invokeListener
  rw [hcb]
  dsimp only
  unfold delegatedHandler
  simp only [hx, hm, hc, ho, if_true]
  rw [lookup_onceCleanup, if_pos ⟨rfl, rfl, rfl, rfl, rfl, rfl⟩]

/-- A dispatcher leaves alone a registry entry that is absent. -/
theorem lookup_delegatedHandler_of_none (d : Dispatcher) (dom : Dom) (root : Elem)
    (e : Event) (s : State) (r1 : Elem) (t1 sel1 ns1 : String) (fn1 : Fn) (key1 : Key)
    (h : lookup s.delegatedHandlers r1 t1 sel1 ns1 fn1 key1 = none) :
    lookup (delegatedHandler d dom root e s).delegatedHandlers r1 t1 sel1 ns1 fn1 key1 =
      none := by
  unfold delegatedHandler
  split
  · exact h
  · split
    · exact h
    · split_ifs
      · show lookup (onceCleanup s.delegatedHandlers d) r1 t1 sel1 ns1 fn1 key1 = none
        rw [lookup_onceCleanup]
        split_ifs
        · rfl
        · exact h
      · exact h
      · exact h

/-- A listener leaves alone a registry entry that is absent. -/
theorem lookup_invokeListener_of_none (dom : Dom) (cur : Elem) (e : Event) (s : State)
    (l : Listener) (r1 : Elem) (t1 sel1 ns1 : String) (fn1 : Fn) (key1 : Key)
    (h : lookup s.delegatedHandlers r1 t1 sel1 ns1 fn1 key1 = none) :
    lookup (invokeListener dom cur e s l).delegatedHandlers r1 t1 sel1 ns1 fn1 key1 = none := by
  unfold invokeListener
  cases l.callback with
  | direct fn => cases l.once <;> exact h
  | dispatcher d =>
    dsimp only
    cases l.once
    · exact lookup_delegatedHandler_of_none d dom cur e s r1 t1 sel1 ns1 fn1 key1 h
    · exact lookup_delegatedHandler_of_none d dom cur e _ r1 t1 sel1 ns1 fn1 key1 h

/-- Absent registry entries stay absent while the listeners of a dispatch run. -/
theorem lookup_foldl_invokeListener_of_none (dom : Dom) (cur : Elem) (e : Event)
    (snap : List Listener) (s : State) (r1 : Elem) (t1 sel1 ns1 : String) (fn1 : Fn)
    (key1 : Key) (h : lookup s.delegatedHandlers r1 t1 sel1 ns1 fn1 key1 = none) :
    lookup (snap.foldl (invokeListener dom cur e) s).delegatedHandlers r1 t1 sel1 ns1 fn1
      key1 = none := by
  induction snap generalizing s with
  | nil => exact h
  | cons y snap ih =>
    rw [List.foldl_cons]
    exact ih _ (lookup_invokeListener_of_none dom cur e s y r1 t1 sel1 ns1 fn1 key1 h)

/-- A dispatch that runs a `once` dispatcher on a matching event prunes its registry entry,
wherever the dispatcher stands among the listeners. -/
theorem lookup_foldl_invokeListener_once (dom : Dom) (cur : Elem) (e : Event)
    (snap : List Listener) (s : State) (l : Listener) (d : Dispatcher) (x m : Elem)
    (hl : l ∈ snap) (hcb : l.callback = .dispatcher d) (ho : d.once = true)
    (hx : e.target = some x) (hm : dom.closest x d.selector = some m)
    (hc : cur = m ∨ dom.contains cur m = true) :
    lookup (snap.foldl (invokeListener dom cur e) s).delegatedHandlers d.rootEl d.eventType
      d.selector d.nsKey d.fn d.key = none := by
  induction snap generalizing s with
  | nil => simp at hl
  | cons y snap ih =>
    rw [List.foldl_cons]
    rcases List.mem_cons.1 hl with h | h
    · subst h
      exact lookup_foldl_invokeListener_of_none dom cur e snap _ _ _ _ _ _ _
        (lookup_invokeListener_once dom cur e s l d x m hcb ho hx hm hc)
    · exact ih _ h

theorem once_core (rt ns sel : String) (fn : Fn) (opts : Opts) (s : State) (hs : Inv s)
    (r : Elem) (dom : Dom) (e : Event) (x m : Elem) (ho : onceOf opts = true)
    (he : e.type = rt) (hx : e.target = some x) (hm : dom.closest x sel = some m)
    (hc : r = m ∨ dom.contains r m = true)
    (hfresh : ∀ l ∈ s.listeners, l.target = r → l.type = rt → l.callback.handler ≠ fn) :
    lookup (onDelegatedRoot rt rt ns sel fn opts s r).delegatedHandlers r rt sel ns fn
      (captureOf opts, true) ≠ none ∧
    (dispatchAt (onDelegatedRoot rt rt ns sel fn opts s r) dom r e).calls.filter
        (fun c => decide (c.fn = fn)) =
      s.calls.filter (fun c => decide (c.fn = fn)) ++
        [{ fn := fn, thisArg := m, event := e, matched := some m }] ∧
    lookup (dispatchAt (onDelegatedRoot rt rt ns sel fn opts s r) dom r e).delegatedHandlers
      r rt sel ns fn (captureOf opts, true) = none ∧
    (dispatchAt (dispatchAt (onDelegatedRoot rt rt ns sel fn opts s r) dom r e) dom r
        e).calls.filter (fun c => decide (c.fn = fn)) =
      s.calls.filter (fun c => decide (c.fn = fn)) ++
        [{ fn := fn, thisArg := m, event := e, matched := some m }] := by
  have cD := closure_dispatcherOf rt ns sel fn opts s r hs.closures
  have hcalls := calls_after_on rt ns sel fn opts s hs r dom e he hfresh
  rw [callsOf_dispatcher_match dom r e _ x m hx (by rw [cD.2.2.1]; exact hm) hc,
    cD.2.2.2.2.1] at hcalls
  have hfreshL : ∀ l ∈ s.listeners, l.target = r → l.type = rt →
      l.callback ≠ .dispatcher (dispatcherOf rt rt ns sel fn opts s r) := by
    intro l hl h1 h2 hcb
    apply hfresh l hl h1 h2
    rw [hcb]
    exact cD.2.2.2.2.1
  have hlist := addEventListener_of_fresh s.listeners r rt
    (.dispatcher (dispatcherOf rt rt ns sel fn opts s r)) opts hfreshL
  refine ⟨?_, hcalls, ?_, ?_⟩
  · have := lookup_onDelegatedRoot_self rt ns sel fn opts s r
    rw [ho] at this
    rw [this]
    exact Option.some_ne_none _
  · have hk : (dispatcherOf rt rt ns sel fn opts s r).key = (captureOf opts, true) := by
      unfold Dispatcher.key
      rw [cD.2.2.2.2.2.1, cD.2.2.2.2.2.2, ho]
    have hl := lookup_foldl_invokeListener_once dom r e
      (deliveryOrder (onDelegatedRoot rt rt ns sel fn opts s r).listeners r e.type)
      (onDelegatedRoot rt rt ns sel fn opts s r)
      { target := r, type := rt,
        callback := .dispatcher (dispatcherOf rt rt ns sel fn opts s r),
        capture := captureOf opts, once := onceOf opts }
      (dispatcherOf rt rt ns sel fn opts s r) x m
      (by
        rw [mem_deliveryOrder, onDelegatedRoot_listeners, hlist]
        exact ⟨List.mem_append.2 (Or.inr (List.mem_singleton.2 rfl)), rfl, he.symm⟩)
      rfl (by rw [cD.2.2.2.2.2.2]; exact ho) hx (by rw [cD.2.2.1]; exact hm) hc
    rw [cD.1, cD.2.1, cD.2.2.1, cD.2.2.2.1, cD.2.2.2.2.1, hk] at hl
    exact hl
  · rw [dispatchAt_calls_filter_of_fresh, hcalls]
    intro l hl h1 h2
    rw [mem_dispatchAt_listeners, onDelegatedRoot_listeners, hlist, List.mem_append,
      List.mem_singleton] at hl
    obtain ⟨hl1 | hl1, hl2⟩ := hl
    · exact hfresh l hl1 h1 (h2.trans he)
    · exfalso
      apply hl2
      rw [hl1]
      exact ⟨ho, rfl, he.symm⟩

/-! ## What `off` removes, per argument shape -/

theorem mem_onceValues_iff (opts : Opts) (o : Bool) :
    o ∈ onceValues opts ↔ (onceSpecified opts = true → o = onceOf opts) := by
  unfold onceValues
  by_cases h : onceSpecified opts = true
  · simp [h]
  · simp only [h, if_false]
    cases o <;> simp

theorem removed4_iff (r : Elem) (rt nspace sel : String) (fn : Fn) (opts : Opts)
    (r1 : Elem) (t1 sel1 ns1 : String) (fn1 : Fn) (key1 : Key) :
    Removed4 r rt nspace sel fn opts r1 t1 sel1 ns1 fn1 key1 ↔
      (r1 = r ∧ t1 = rt ∧ sel1 = sel ∧ (nspace = "" ∨ ns1 = nspace) ∧ fn1 = fn ∧
        key1.1 = captureOf opts ∧ (onceSpecified opts = true → key1.2 = onceOf opts)) := by
  unfold Removed4 keyMatches
  rw [mem_onceValues_iff]
  constructor
  · rintro ⟨h1, h2, h3, h4, h5, h6, h7⟩
    exact ⟨h1.symm, h2.symm, h3.symm, h4.imp id Eq.symm, h5.symm, h6, h7⟩
  · rintro ⟨h1, h2, h3, h4, h5, h6, h7⟩
    exact ⟨h1.symm, h2.symm, h3.symm, h4.imp id Eq.symm, h5.symm, h6, h7⟩

/-! ## Registering and removing everything -/

theorem JsMap.exists_get_of_ne_nil {K V : Type} [DecidableEq K] (m : JsMap K V)
    (h : m ≠ []) : ∃ k v, JsMap.get m k = some v := by
  cases m with
  | nil => exact absurd rfl h
  | cons e m => exact ⟨e.1, e.2, by simp [JsMap.get_cons]⟩

/-- A root without any entry is not a key of a registry that has no empty container. -/
theorem get_none_of_lookup_none (reg : Registry) (root : Elem) (hne : NoEmpty reg)
    (h : ∀ t sel ns fn key, lookup reg root t sel ns fn key = none) :
    JsMap.get reg root = none := by
  cases hbe : JsMap.get reg root with
  | none => rfl
  | some be =>
    exfalso
    obtain ⟨n1, h1⟩ := noEmptyEv_of_get _ _ _ hne hbe
    obtain ⟨t, bs, hbs⟩ := JsMap.exists_get_of_ne_nil be n1
    obtain ⟨n2, h2⟩ := noEmptySel_of_get _ _ _ h1 hbs
    obtain ⟨sel, bn, hbn⟩ := JsMap.exists_get_of_ne_nil bs n2
    obtain ⟨n3, h3⟩ := noEmptyNs_of_get _ _ _ h2 hbn
    obtain ⟨ns, bf, hbf⟩ := JsMap.exists_get_of_ne_nil bn n3
    obtain ⟨n4, h4⟩ := noEmptyFn_of_get _ _ _ h3 hbf
    obtain ⟨fn, bc, hbc⟩ := JsMap.exists_get_of_ne_nil bf n4
    have n5 := ne_nil_of_get _ _ _ h4 hbc
    obtain ⟨key, d, hd⟩ := JsMap.exists_get_of_ne_nil bc n5
    have := h t sel ns fn key
    simp [lookup, lookupEv, lookupSel, lookupNs, lookupFn, hbe, hbs, hbn, hbf, hbc, hd] at this

theorem parse_of_mem_domEventNames :
    ∀ b ∈ domEventNames, parseNamespacedEvent b = { type := b, nspace := "" } := by
  decide

/-- Parsing the parsed event type again gives that type and no namespace. -/
theorem parse_type_idem (evt : String) :
    parseNamespacedEvent (parseNamespacedEvent evt).type =
      { type := (parseNamespacedEvent evt).type, nspace := "" } := by
  have key : parseNamespacedEvent evt = { type := "", nspace := (parseNamespacedEvent evt).nspace }
      ∨ parseNamespacedEvent evt = { type := evt, nspace := "" }
      ∨ (parseNamespacedEvent evt).type ∈ domEventNames := by
    unfold parseNamespacedEvent
    dsimp only
    by_cases h1 : evt.data.head? = some '.' ∧ 1 < evt.data.length
    · left; rw [if_pos h1]
    · right
      rw [if_neg h1]
      by_cases h2 : List.indexOf '.' evt.data = evt.data.length
      · left; rw [if_pos h2]
      · rw [if_neg h2]
        by_cases h3 : String.mk (List.take (List.indexOf '.' evt.data) evt.data) = "" ∨
            String.mk (List.drop (List.indexOf '.' evt.data + 1) evt.data) = ""
        · left; rw [if_pos h3]
        · rw [if_neg h3]
          by_cases h4 : String.mk (List.take (List.indexOf '.' evt.data) evt.data) ∉
              domEventNames
          · left; rw [if_pos h4]
          · right
            rw [if_neg h4]
            exact not_not.1 h4
  rcases key with h | h | h
  · rw [h]; exact parse_empty
  · rw [h]; exact h
  · exact parse_of_mem_domEventNames _ h

theorem inv_registerAll (s : State) (root : Elem) (regs : List Registration) (hs : Inv s) :
    Inv (registerAll s root regs) :=
  foldl_preserves Inv _ (fun a _ ha => inv_on a _ _ _ ha) regs s hs

theorem inv_removeEach (s : State) (root : Elem) (rms : List Registration) (hs : Inv s) :
    Inv (removeEach s root rms) :=
  foldl_preserves Inv _ (fun a _ ha => inv_off a _ _ _ ha) rms s hs

theorem inv_removeTypes (s : State) (root : Elem) (evts : List String) (hs : Inv s) :
    Inv (removeTypes s root evts) :=
  foldl_preserves Inv _ (fun a _ ha => inv_off a _ _ _ ha) evts s hs

theorem lookup_registerAll (root : Elem) (regs all : List Registration) (s : State)
    (hsub : ∀ g ∈ regs, g ∈ all)
    (hst : ∀ t sel ns fn key, lookup s.delegatedHandlers root t sel ns fn key ≠ none →
      ∃ g ∈ all, g.Covers t sel ns fn key)
    (t sel ns : String) (fn : Fn) (key : Key)
    (h : lookup (registerAll s root regs).delegatedHandlers root t sel ns fn key ≠ none) :
    ∃ g ∈ all, g.Covers t sel ns fn key := by
  induction regs generalizing s with
  | nil => exact hst t sel ns fn key h
  | cons g regs ih =>
    unfold registerAll at h
    rw [List.foldl_cons] at h
    refine ih (on_ s [root] g.evt (.delegated g.selector g.fn g.opts))
      (fun g1 hg1 => hsub g1 (List.mem_cons_of_mem _ hg1)) ?_ h
    intro t1 sel1 ns1 fn1 key1 h1
    by_cases ht : (parseNamespacedEvent g.evt).type = ""
    · rw [on_eq_of_type_empty _ _ _ _ ht] at h1
      exact hst _ _ _ _ _ h1
    · rw [on_delegated_eq _ _ _ _ _ _ ht] at h1
      simp only [List.foldl_cons, List.foldl_nil] at h1
      rw [lookup_onDelegatedRoot] at h1
      split_ifs at h1 with hc
      · obtain ⟨-, c2, c3, c4, c5, c6⟩ := hc
        exact ⟨g, hsub g (List.mem_cons_self _ _), ht, c2.symm, c3.symm, c4.symm, c5.symm,
          c6.symm⟩
      · exact hst _ _ _ _ _ h1

theorem lookup_removeEach (root : Elem) (rms : List Registration) (s : State)
    (t sel ns : String) (fn : Fn) (key : Key)
    (h : lookup (removeEach s root rms).delegatedHandlers root t sel ns fn key ≠ none) :
    lookup s.delegatedHandlers root t sel ns fn key ≠ none ∧
      ∀ g ∈ rms, ¬ g.Covers t sel ns fn key := by
  induction rms generalizing s with
  | nil => exact ⟨h, fun g hg => absurd hg (List.not_mem_nil _)⟩
  | cons g rms ih =>
    unfold removeEach at h
    rw [List.foldl_cons] at h
    obtain ⟨h1, h2⟩ := ih (off s [root] g.evt (.delegated g.selector g.fn g.opts)) h
    by_cases ht : (parseNamespacedEvent g.evt).type = ""
    · rw [off_delegated_of_type_empty _ _ _ _ _ _ ht] at h1
      refine ⟨h1, ?_⟩
      intro g1 hg1
      rcases List.mem_cons.1 hg1 with h3 | h3
      · rw [h3]; exact fun hc => hc.1 ht
      · exact h2 g1 h3
    · rw [off_delegated_eq _ _ _ _ _ _ ht] at h1
      simp only [List.foldl_cons, List.foldl_nil] at h1
      rw [lookup_offDelegatedRoot] at h1
      split_ifs at h1 with hc
      · exact absurd rfl h1
      · refine ⟨h1, ?_⟩
        intro g1 hg1
        rcases List.mem_cons.1 hg1 with h3 | h3
        · rw [h3]
          rintro ⟨-, c2, c3, c4, c5, c6⟩
          apply hc
          refine ⟨rfl, c2.symm, c3.symm, ?_, c5.symm, ?_⟩
          · by_cases hn : (parseNamespacedEvent g.evt).nspace = ""
            · exact Or.inl hn
            · exact Or.inr c4.symm
          · rw [c6]
            exact ⟨rfl, onceOf_mem_onceValues g.opts⟩
        · exact h2 g1 h3

theorem lookup_removeTypes (root : Elem) (evts : List String) (s : State) (hs : Inv s)
    (t sel ns : String) (fn : Fn) (key : Key)
    (h : lookup (removeTypes s root evts).delegatedHandlers root t sel ns fn key ≠ none) :
    lookup s.delegatedHandlers root t sel ns fn key ≠ none ∧
      (parseNamespacedEvent t = { type := t, nspace := "" } → t ≠ "" → t ∉ evts) := by
  induction evts generalizing s with
  | nil => exact ⟨h, fun _ _ hm => absurd hm (List.not_mem_nil _)⟩
  | cons e evts ih =>
    unfold removeTypes at h
    rw [List.foldl_cons] at h
    obtain ⟨h1, h2⟩ := ih (off s [root] e .none) (inv_off _ _ _ _ hs) h
    by_cases he : e = ""
    · rw [he, off_empty] at h1
      refine ⟨h1, ?_⟩
      intro hp ht hm
      rcases List.mem_cons.1 hm with h3 | h3
      · exact ht (h3.trans he)
      · exact h2 hp ht h3
    · rw [off_none_eq _ _ _ he] at h1
      simp only [List.foldl_cons, List.foldl_nil] at h1
      rw [lookup_offAllRoot _ _ _ _ hs.wf] at h1
      by_cases hc : Removed1 root (parseNamespacedEvent e).type
          (if (parseNamespacedEvent e).type = "" then e else (parseNamespacedEvent e).type)
          (parseNamespacedEvent e).nspace root t ns
      · rw [if_pos hc] at h1
        exact absurd rfl h1
      · rw [if_neg hc] at h1
        refine ⟨h1, ?_⟩
        intro hp ht hm
        rcases List.mem_cons.1 hm with h3 | h3
        · apply hc
          rw [← h3, hp]
          simp only [if_neg ht]
          exact ⟨rfl, Or.inr rfl, Or.inl rfl⟩
        · exact h2 hp ht h3

/-! ## Registering twice, `one`, and namespace-only event strings -/

theorem onDelegatedRoot_of_lookup (et rt ns sel : String) (fn : Fn) (opts : Opts) (s : State)
    (r : Elem) (d : Dispatcher)
    (h : lookup s.delegatedHandlers r rt sel ns fn (captureOf opts, onceOf opts) = some d) :
    onDelegatedRoot et rt ns sel fn opts s r =
      { s with listeners := addEventListener s.listeners r rt (.dispatcher d) opts } := by
  unfold onDelegatedRoot
  simp only [lookup_eq_getD, h]

theorem addEventListener_of_any (ls : List Listener) (target : Elem) (type : String)
    (cb : Callback) (opts : Opts)
    (h : ls.any (sameListener target type cb (captureOf opts)) = true) :
    addEventListener ls target type cb opts = ls := by
  unfold addEventListener
  rw [if_pos h]

theorem addEventListener_idem (ls : List Listener) (target : Elem) (type : String)
    (cb : Callback) (opts : Opts) :
    addEventListener (addEventListener ls target type cb opts) target type cb opts =
      addEventListener ls target type cb opts := by
  obtain ⟨l, hl, hs⟩ := exists_mem_addEventListener ls target type cb opts
  exact addEventListener_of_any _ _ _ _ _ (List.any_eq_true.2 ⟨l, hl, hs⟩)

theorem onDelegatedRoot_idem (rt ns sel : String) (fn : Fn) (opts : Opts) (s : State)
    (r : Elem) :
    onDelegatedRoot rt rt ns sel fn opts (onDelegatedRoot rt rt ns sel fn opts s r) r =
      onDelegatedRoot rt rt ns sel fn opts s r := by
  rw [onDelegatedRoot_of_lookup rt rt ns sel fn opts _ r _
    (lookup_onDelegatedRoot_self rt ns sel fn opts s r)]
  rw [onDelegatedRoot_listeners, addEventListener_idem]
  rw [← onDelegatedRoot_listeners]

theorem dispatcherOf_idem (rt ns sel : String) (fn : Fn) (opts : Opts) (s : State)
    (r : Elem) :
    dispatcherOf rt rt ns sel fn opts (onDelegatedRoot rt rt ns sel fn opts s r) r =
      dispatcherOf rt rt ns sel fn opts s r := by
  conv_lhs => unfold dispatcherOf
  rw [lookup_onDelegatedRoot_self]
  rfl

theorem addEventListener_congr (ls : List Listener) (target : Elem) (type : String)
    (cb : Callback) (o1 o2 : Opts) (hc : captureOf o1 = captureOf o2)
    (ho : onceOf o1 = onceOf o2) :
    addEventListener ls target type cb o1 = addEventListener ls target type cb o2 := by
  unfold addEventListener
  rw [hc, ho]

theorem onDelegatedRoot_congr (et rt ns sel : String) (fn : Fn) (o1 o2 : Opts)
    (hc : captureOf o1 = captureOf o2) (ho : onceOf o1 = onceOf o2) :
    onDelegatedRoot et rt ns sel fn o1 = onDelegatedRoot et rt ns sel fn o2 := by
  funext s r
  unfold onDelegatedRoot
  simp only [hc, ho, addEventListener_congr _ _ _ _ o1 o2 hc ho]

theorem onDirectEl_congr (rt : String) (fn : Fn) (o1 o2 : Opts)
    (hc : captureOf o1 = captureOf o2) (ho : onceOf o1 = onceOf o2) :
    onDirectEl rt fn o1 = onDirectEl rt fn o2 := by
  funext s el
  unfold onDirectEl
  simp only [addEventListener_congr _ _ _ _ o1 o2 hc ho]

theorem on_congr_delegated (s : State) (arr : List Elem) (evt sel : String) (fn : Fn)
    (o1 o2 : Opts) (hc : captureOf o1 = captureOf o2) (ho : onceOf o1 = onceOf o2) :
    on_ s arr evt (.delegated sel fn o1) = on_ s arr evt (.delegated sel fn o2) := by
  unfold on_
  simp only [onDelegatedRoot_congr _ _ _ _ _ o1 o2 hc ho]

theorem on_congr_direct (s : State) (arr : List Elem) (evt : String) (fn : Fn)
    (o1 o2 : Opts) (hc : captureOf o1 = captureOf o2) (ho : onceOf o1 = onceOf o2) :
    on_ s arr evt (.direct fn o1) = on_ s arr evt (.direct fn o2) := by
  unfold on_
  simp only [onDirectEl_congr _ _ o1 o2 hc ho]

theorem parse_namespaceOnly (evt : String) (h : NamespaceOnly evt) :
    parseNamespacedEvent evt = { type := "", nspace := String.mk (evt.data.drop 1) } := by
  unfold parseNamespacedEvent
  unfold NamespaceOnly at h
  dsimp only
  rw [if_pos h]

/-! ## Theorems about `parseNamespacedEvent` -/

theorem parse_not_recognized (evt : String) (h1 : ¬ NamespaceOnly evt)
    (h2 : String.mk (evt.data.take (evt.data.indexOf '.')) ∉ domEventNames) :
    parseNamespacedEvent evt = { type := evt, nspace := "" } := by
  unfold parseNamespacedEvent
  unfold NamespaceOnly at h1
  dsimp only
  rw [if_neg h1]
  split_ifs <;> rfl

theorem names_have_no_dot :
    ∀ b ∈ domEventNames, '.' ∉ b.data ∧ b.data ≠ [] := by
  decide

theorem parse_base_dot_ns (b ns : String) (hb : b ∈ domEventNames) (hns : ns ≠ "") :
    parseNamespacedEvent (b ++ "." ++ ns) = { type := b, nspace := ns } := by
  obtain ⟨hdot, hne⟩ := names_have_no_dot b hb
  have hdata : (b ++ "." ++ ns).data = b.data ++ '.' :: ns.data := by
    simp [String.data_append]
  have hidx : List.indexOf '.' (b.data ++ '.' :: ns.data) = b.data.length := by
    rw [List.indexOf_append_of_not_mem hdot, List.indexOf_cons_self, Nat.add_zero]
  have hhead : ¬ ((b.data ++ '.' :: ns.data).head? = some '.' ∧
      1 < (b.data ++ '.' :: ns.data).length) := by
    rintro ⟨h, -⟩
    cases hbd : b.data with
    | nil => exact hne hbd
    | cons c cs =>
      rw [hbd] at h hdot
      simp only [List.cons_append, List.head?_cons, Option.some.injEq] at h
      exact hdot (h ▸ List.mem_cons_self _ _)
  have htake : List.take b.data.length (b.data ++ '.' :: ns.data) = b.data := by
    simp
  have hdrop : List.drop (b.data.length + 1) (b.data ++ '.' :: ns.data) = ns.data := by
    rw [← List.drop_drop]
    simp
  have hnsd : ns.data ≠ [] := by
    intro h
    apply hns
    cases ns
    simp only at h
    rw [h]
  unfold parseNamespacedEvent
  dsimp only
  rw [hdata, if_neg hhead, hidx, htake, hdrop]
  have hlen : ¬ b.data.length = (b.data ++ '.' :: ns.data).length := by
    simp
  rw [if_neg hlen]
  have hb1 : (String.mk b.data) = b := rfl
  have hn1 : (String.mk ns.data) = ns := rfl
  rw [hb1, hn1]
  have hbne : b ≠ "" := by
    intro h
    apply hne
    rw [h]
  rw [if_neg (by simp [hbne, hns]), if_neg (not_not.2 hb)]

theorem parse_dot_ns (ns : String) (hns : ns ≠ "") :
    parseNamespacedEvent ("." ++ ns) = { type := "", nspace := ns } := by
  have hnsd : ns.data ≠ [] := by
    intro h
    apply hns
    cases ns
    simp only at h
    rw [h]
  have hdata : ("." ++ ns).data = '.' :: ns.data := by
    simp [String.data_append]
  have hno : NamespaceOnly ("." ++ ns) := by
    unfold NamespaceOnly
    rw [hdata]
    refine ⟨rfl, ?_⟩
    cases hd : ns.data with
    | nil => exact absurd hd hnsd
    | cons c cs => simp
  rw [parse_namespaceOnly _ hno, hdata]
  rfl

/-! ## `off` for something that was never registered -/

theorem JsMap.writeBack_self {K K2 V2 : Type} [DecidableEq K] (m : JsMap K (JsMap K2 V2))
    (k : K) (c : JsMap K2 V2) (h : JsMap.get m k = some c) (hc : c ≠ []) :
    JsMap.writeBack m k c = m := by
  unfold JsMap.writeBack
  rw [if_neg (fun h0 => hc (List.length_eq_zero.1 h0))]
  exact JsMap.set_of_get m k c h

theorem fold_offOnce_noop (r : Elem) (rt : String) (opts : Opts) (os : List Bool)
    (acc : ByCapture × List Listener)
    (h : ∀ o ∈ os, JsMap.get acc.1 (captureOf opts, o) = none) :
    os.foldl (offOnce r rt opts) acc = acc := by
  induction os with
  | nil => rfl
  | cons o os ih =>
    rw [List.foldl_cons]
    have : offOnce r rt opts acc o = acc := by
      simp only [offOnce, h o (List.mem_cons_self _ _)]
    rw [this]
    exact ih (fun o1 ho1 => h o1 (List.mem_cons_of_mem _ ho1))

theorem offDelegatedNamespace_noop (r : Elem) (rt : String) (fn : Fn) (opts : Opts)
    (acc : ByNamespace × List Listener) (ns : String) (hne : NoEmptyNs acc.1)
    (h : ∀ o ∈ onceValues opts, lookupNs acc.1 ns fn (captureOf opts, o) = none) :
    offDelegatedNamespace r rt fn opts acc ns = acc := by
  cases hbf : JsMap.get acc.1 ns with
  | none => exact offDelegatedNamespace_none _ _ _ _ _ _ hbf
  | some bf =>
    cases hbc : JsMap.get bf fn with
    | none => exact offDelegatedNamespace_some_none _ _ _ _ _ _ _ hbf hbc
    | some bc =>
      rw [offDelegatedNamespace_some_some _ _ _ _ _ _ _ _ hbf hbc]
      have hfold : (onceValues opts).foldl (offOnce r rt opts) (bc, acc.2) = (bc, acc.2) := by
        apply fold_offOnce_noop
        intro o ho
        have := h o ho
        simpa [lookupNs, lookupFn, hbf, hbc] using this
      rw [hfold]
      obtain ⟨n1, h1⟩ := noEmptyFn_of_get _ _ _ hne hbf
      have n2 := ne_nil_of_get _ _ _ h1 hbc
      dsimp only
      rw [JsMap.writeBack_self bf fn bc hbc n2, JsMap.writeBack_self acc.1 ns bf hbf n1]

theorem fold_offDelegatedNamespace_noop (r : Elem) (rt : String) (fn : Fn) (opts : Opts)
    (nss : List String) (acc : ByNamespace × List Listener) (hne : NoEmptyNs acc.1)
    (h : ∀ ns ∈ nss, ∀ o ∈ onceValues opts,
      lookupNs acc.1 ns fn (captureOf opts, o) = none) :
    nss.foldl (offDelegatedNamespace r rt fn opts) acc = acc := by
  induction nss with
  | nil => rfl
  | cons n nss ih =>
    rw [List.foldl_cons, offDelegatedNamespace_noop _ _ _ _ _ _ hne
      (h n (List.mem_cons_self _ _))]
    exact ih (fun ns hns => h ns (List.mem_cons_of_mem _ hns))

theorem nsMatches_of_mem_toRemove (nspace ns : String) (bn : ByNamespace)
    (h : ns ∈ (if nspace ≠ "" then [nspace] else JsMap.keys bn)) : nsMatches nspace ns := by
  by_cases hn : nspace = ""
  · exact Or.inl hn
  · rw [if_pos hn, List.mem_singleton] at h
    exact Or.inr h.symm

theorem offDelegatedRoot_noop (rt nspace sel : String) (fn : Fn) (opts : Opts) (s : State)
    (r : Elem) (hne : NoEmpty s.delegatedHandlers)
    (h : ∀ ns key, nsMatches nspace ns → keyMatches opts key →
      lookup s.delegatedHandlers r rt sel ns fn key = none) :
    offDelegatedRoot rt nspace sel fn opts s r = s := by
  cases hbe : JsMap.get s.delegatedHandlers r with
  | none => simp only [offDelegatedRoot, hbe]
  | some be =>
    cases hbs : JsMap.get be rt with
    | none => simp only [offDelegatedRoot, hbe, hbs]
    | some bs =>
      cases hbn : JsMap.get bs sel with
      | none => simp only [offDelegatedRoot, hbe, hbs, hbn]
      | some bn =>
        simp only [offDelegatedRoot, hbe, hbs, hbn]
        obtain ⟨n1, h1⟩ := noEmptyEv_of_get _ _ _ hne hbe
        obtain ⟨n2, h2⟩ := noEmptySel_of_get _ _ _ h1 hbs
        obtain ⟨n3, h3⟩ := noEmptyNs_of_get _ _ _ h2 hbn
        rw [fold_offDelegatedNamespace_noop _ _ _ _ _ (bn, s.listeners) h3]
        · dsimp only
          rw [JsMap.writeBack_self bs sel bn hbn n3, JsMap.writeBack_self be rt bs hbs n2,
            JsMap.writeBack_self _ r be hbe n1]
        · intro ns hns o ho
          have := h ns (captureOf opts, o)
            (nsMatches_of_mem_toRemove nspace ns bn (by simpa using hns)) ⟨rfl, ho⟩
          simpa [lookup, lookupEv, lookupSel, hbe, hbs, hbn] using this

theorem exists_lookupNs_of_get (bn : ByNamespace) (ns : String) (bf : ByFn)
    (hne : NoEmptyNs bn) (h : JsMap.get bn ns = some bf) :
    ∃ fn key d, lookupNs bn ns fn key = some d := by
  obtain ⟨n1, h1⟩ := noEmptyFn_of_get _ _ _ hne h
  obtain ⟨fn, bc, hbc⟩ := JsMap.exists_get_of_ne_nil bf n1
  have n2 := ne_nil_of_get _ _ _ h1 hbc
  obtain ⟨key, d, hd⟩ := JsMap.exists_get_of_ne_nil bc n2
  exact ⟨fn, key, d, by simp [lookupNs, lookupFn, h, hbc, hd]⟩

theorem fold_offNamespace_noop (r : Elem) (t : String) (nss : List String)
    (acc : ByNamespace × List Listener) (h : ∀ ns ∈ nss, JsMap.get acc.1 ns = none) :
    nss.foldl (offNamespace r t) acc = acc := by
  induction nss with
  | nil => rfl
  | cons n nss ih =>
    rw [List.foldl_cons]
    have : offNamespace r t acc n = acc := by
      simp only [offNamespace, h n (List.mem_cons_self _ _)]
    rw [this]
    exact ih (fun ns hns => h ns (List.mem_cons_of_mem _ hns))

theorem get_none_of_lookupNs_none (bn : ByNamespace) (ns : String) (hne : NoEmptyNs bn)
    (h : ∀ fn key, lookupNs bn ns fn key = none) : JsMap.get bn ns = none := by
  cases hbf : JsMap.get bn ns with
  | none => rfl
  | some bf =>
    obtain ⟨fn, key, d, hd⟩ := exists_lookupNs_of_get bn ns bf hne hbf
    rw [h fn key] at hd
    cases hd

theorem offSelectorRoot_noop (rt nspace sel : String) (s : State)
    (r : Elem) (hne : NoEmpty s.delegatedHandlers)
    (h : ∀ ns fn key, nsMatches nspace ns →
      lookup s.delegatedHandlers r rt sel ns fn key = none) :
    offSelectorRoot rt nspace sel s r = s := by
  cases hbe : JsMap.get s.delegatedHandlers r with
  | none => simp only [offSelectorRoot, hbe]
  | some be =>
    cases hbs : JsMap.get be rt with
    | none => simp only [offSelectorRoot, hbe, hbs]
    | some bs =>
      cases hbn : JsMap.get bs sel with
      | none => simp only [offSelectorRoot, hbe, hbs, hbn]
      | some bn =>
        simp only [offSelectorRoot, hbe, hbs, hbn]
        obtain ⟨n1, h1⟩ := noEmptyEv_of_get _ _ _ hne hbe
        obtain ⟨n2, h2⟩ := noEmptySel_of_get _ _ _ h1 hbs
        obtain ⟨n3, h3⟩ := noEmptyNs_of_get _ _ _ h2 hbn
        rw [fold_offNamespace_noop _ _ _ (bn, s.listeners)]
        · dsimp only
          rw [JsMap.writeBack_self bs sel bn hbn n3, JsMap.writeBack_self be rt bs hbs n2,
            JsMap.writeBack_self _ r be hbe n1]
        · intro ns hns
          apply get_none_of_lookupNs_none bn ns h3
          intro fn key
          have := h ns fn key (nsMatches_of_mem_toRemove nspace ns bn (by simpa using hns))
          simpa [lookup, lookupEv, lookupSel, hbe, hbs, hbn] using this

theorem fold_offAllSelector_noop (r : Elem) (t : String) (no : Bool) (nspace : String)
    (hno : no = true → nspace ≠ "") (es : List (String × ByNamespace))
    (acc : BySelector × List Listener)
    (h : ∀ e ∈ es, JsMap.get acc.1 e.1 = some e.2 ∧ e.2 ≠ [] ∧
      ∀ ns, nsMatches nspace ns → JsMap.get e.2 ns = none) :
    es.foldl (offAllSelector r t no nspace) acc = acc := by
  induction es with
  | nil => rfl
  | cons e es ih =>
    rw [List.foldl_cons]
    obtain ⟨h1, h2, h3⟩ := h e (List.mem_cons_self _ _)
    have : offAllSelector r t no nspace acc e = acc := by
      rw [offAllSelector_eq _ _ _ _ hno, fold_offNamespace_noop _ _ _ (e.2, acc.2)]
      · dsimp only
        rw [JsMap.writeBack_self acc.1 e.1 e.2 h1 h2]
      · intro ns hns
        exact h3 ns (nsMatches_of_mem_toRemove nspace ns e.2 hns)
    rw [this]
    exact ih (fun e1 he1 => h e1 (List.mem_cons_of_mem _ he1))

theorem offAllType_noop (r : Elem) (no : Bool) (nspace : String)
    (hno : no = true → nspace ≠ "") (acc : ByEvent × List Listener) (t : String)
    (hwf : WFEv acc.1) (hne : NoEmptyEv acc.1)
    (h : ∀ sel ns fn key, nsMatches nspace ns → lookupEv acc.1 t sel ns fn key = none) :
    offAllType r no nspace acc t = acc := by
  cases hbs : JsMap.get acc.1 t with
  | none => exact offAllType_none _ _ _ _ _ hbs
  | some bs =>
    rw [offAllType_some _ _ _ _ _ _ hbs]
    obtain ⟨n1, h1⟩ := noEmptySel_of_get _ _ _ hne hbs
    have w1 := wfSel_of_get _ _ _ hwf hbs
    rw [fold_offAllSelector_noop _ _ _ _ hno bs (bs, acc.2)]
    · dsimp only
      rw [JsMap.writeBack_self acc.1 t bs hbs n1]
    · intro e he
      have hg : JsMap.get bs e.1 = some e.2 := JsMap.get_of_mem bs w1.1 e.1 e.2 he
      obtain ⟨n2, h2⟩ := noEmptyNs_of_get _ _ _ h1 hg
      refine ⟨hg, n2, ?_⟩
      intro ns hns
      apply get_none_of_lookupNs_none e.2 ns h2
      intro fn key
      have := h e.1 ns fn key hns
      simpa [lookupEv, lookupSel, hbs, hg] using this

theorem fold_offAllType_noop (r : Elem) (no : Bool) (nspace : String)
    (hno : no = true → nspace ≠ "") (ts : List String) (acc : ByEvent × List Listener)
    (hwf : WFEv acc.1) (hne : NoEmptyEv acc.1)
    (h : ∀ t ∈ ts, ∀ sel ns fn key, nsMatches nspace ns →
      lookupEv acc.1 t sel ns fn key = none) :
    ts.foldl (offAllType r no nspace) acc = acc := by
  induction ts with
  | nil => rfl
  | cons t ts ih =>
    rw [List.foldl_cons, offAllType_noop _ _ _ hno _ _ hwf hne (h t (List.mem_cons_self _ _))]
    exact ih (fun t1 ht1 => h t1 (List.mem_cons_of_mem _ ht1))

theorem offAllRoot_noop (et rt nspace : String) (s : State) (hs : Inv s) (r : Elem)
    (h : ∀ t sel ns fn key, ((et = "" ∧ nspace ≠ "") ∨ rt = t) → nsMatches nspace ns →
      lookup s.delegatedHandlers r t sel ns fn key = none) :
    offAllRoot et rt nspace s r = s := by
  cases hbe : JsMap.get s.delegatedHandlers r with
  | none => exact offAllRoot_none _ _ _ _ _ hbe
  | some be =>
    rw [offAllRoot_some _ _ _ _ _ _ hbe]
    obtain ⟨n1, h1⟩ := noEmptyEv_of_get _ _ _ hs.noEmpty hbe
    have w1 := wfEv_of_get _ _ _ hs.wf hbe
    rw [fold_offAllType_noop _ _ _ (namespaceOnly_ne et nspace) _ (be, s.listeners) w1 h1]
    · dsimp only
      rw [JsMap.writeBack_self _ r be hbe n1]
    · intro t ht sel ns fn key hns
      have htc : (et = "" ∧ nspace ≠ "") ∨ rt = t := by
        by_cases hno : (decide (et = "") && decide (nspace ≠ "")) = true
        · exact Or.inl ((namespaceOnly_iff et nspace).1 hno)
        · rw [if_neg hno, List.mem_singleton] at ht
          exact Or.inr ht.symm
      have := h t sel ns fn key htc hns
      simpa [lookup, hbe] using this

/-! ## Theorems about the member resolver -/

/-- Binding a function directly leaves the registry and the invocation log alone. -/
theorem foldl_onDirectEl_frame (t : String) (fn : Fn) (opts : Opts) (arr : List Elem)
    (s : State) :
    (arr.foldl (onDirectEl t fn opts) s).delegatedHandlers = s.delegatedHandlers ∧
    (arr.foldl (onDirectEl t fn opts) s).calls = s.calls ∧
    (arr.foldl (onDirectEl t fn opts) s).nextId = s.nextId ∧
    ∀ l ∈ s.listeners, l ∈ (arr.foldl (onDirectEl t fn opts) s).listeners := by
  induction arr generalizing s with
  | nil => exact ⟨rfl, rfl, rfl, fun _ h => h⟩
  | cons el arr ih =>
    obtain ⟨h1, h2, h3, h4⟩ := ih (onDirectEl t fn opts s el)
    refine ⟨h1, h2, h3, fun l hl => h4 l ?_⟩
    exact (mem_addEventListener _ _ _ _ _ _).2 (Or.inl hl)

/-- Binding a function directly installs it on every element of the selection. -/
theorem foldl_onDirectEl_installs (t : String) (fn : Fn) (opts : Opts) (arr : List Elem)
    (s : State) :
    ∀ el ∈ arr, ∃ l ∈ (arr.foldl (onDirectEl t fn opts) s).listeners,
      l.target = el ∧ l.type = t ∧ l.callback = .direct fn ∧ l.capture = captureOf opts := by
  induction arr generalizing s with
  | nil => intro el h; simp at h
  | cons a arr ih =>
    intro el hel
    rcases List.mem_cons.1 hel with rfl | hel
    · obtain ⟨l, hl, hs⟩ := exists_mem_addEventListener s.listeners el t (.direct fn) opts
      refine ⟨l, (foldl_onDirectEl_frame t fn opts arr (onDirectEl t fn opts s el)).2.2.2 l hl,
        ?_⟩
      simpa [sameListener] using hs
    · exact ih (onDirectEl t fn opts s a) el hel

/-- Binding a function directly installs nothing else. -/
theorem foldl_onDirectEl_only (t : String) (fn : Fn) (opts : Opts) (arr : List Elem)
    (s : State) :
    ∀ l ∈ (arr.foldl (onDirectEl t fn opts) s).listeners,
      l ∈ s.listeners ∨ ∃ el ∈ arr, l = { target := el, type := t, callback := .direct fn,
                                          capture := captureOf opts, once := onceOf opts } := by
  induction arr generalizing s with
  | nil => intro l h; exact Or.inl h
  | cons a arr ih =>
    intro l hl
    rcases ih (onDirectEl t fn opts s a) l hl with h | ⟨el, hel, h⟩
    · rcases (mem_addEventListener _ _ _ _ _ _).1 h with h | ⟨h, -⟩
      · exact Or.inl h
      · exact Or.inr ⟨a, List.mem_cons_self _ _, h⟩
    · exact Or.inr ⟨el, List.mem_cons_of_mem _ hel, h⟩

/-- Every shortcut name is a base event name of the parser. -/
theorem standardEvents_subset : ∀ n ∈ standardEvents, n ∈ domEventNames := by decide

/-- Every alias stands for a shortcut name. -/
theorem aliases_standard : ∀ e ∈ aliases, e.2 ∈ standardEvents := by decide

/-- The event name an event shortcut binds is a base event name of the parser. -/
theorem eventName_mem (prop : String)
    (h : prop ∈ standardEvents ∨ (JsMap.get aliases prop).isSome = true) :
    (JsMap.get aliases prop).getD prop ∈ domEventNames := by
  cases ha : JsMap.get aliases prop with
  | none =>
    rcases h with h | h
    · exact standardEvents_subset _ h
    · rw [ha] at h; simp at h
  | some full =>
    exact standardEvents_subset _ (aliases_standard _ (JsMap.mem_of_get _ _ _ ha))

/-- The method `on` called with an event name of the resolver and a function. -/
theorem on_shortcut_eq (s : State) (arr : List Elem) (ev : String) (f : Fn)
    (h : ev ∈ domEventNames) :
    on_ s arr ev (.direct f .undefined) = arr.foldl (onDirectEl ev f .undefined) s := by
  have hp := parse_of_mem_domEventNames ev h
  have hne : (parseNamespacedEvent ev).type ≠ "" := by
    rw [hp]
    intro h0
    have h1 : ev = "" := h0
    rw [h1] at h
    revert h
    decide
  rw [on_direct_eq _ _ _ _ _ hne, hp]

/-- No alias and no DOM property is the name of a DOM method, and no DOM property is an event
shortcut. -/
theorem tables_disjoint :
    (∀ p ∈ domMethodNames, JsMap.get aliases p = none) ∧
    (∀ p ∈ domProperties, p ∉ standardEvents ∧ JsMap.get aliases p = none ∧
      p ∉ domMethodNames) := by
  decide

/-- No name of the tables of the resolver is a name of `Object.prototype`. -/
theorem tables_not_inherited :
    (∀ p ∈ standardEvents, p ∉ objectPrototypeNames) ∧
    (∀ e ∈ aliases, e.1 ∉ objectPrototypeNames) ∧
    (∀ p ∈ domMethodNames, p ∉ objectPrototypeNames) ∧
    (∀ p ∈ domProperties, p ∉ objectPrototypeNames) := by
  decide

/-- An event shortcut or alias is no name of `Object.prototype`. -/
theorem shortcut_not_inherited (prop : String)
    (h : prop ∈ standardEvents ∨ (JsMap.get aliases prop).isSome = true) :
    prop ∉ objectPrototypeNames := by
  rcases h with h | h
  · exact tables_not_inherited.1 prop h
  · cases ha : JsMap.get aliases prop with
    | none => rw [ha] at h; simp at h
    | some full => exact tables_not_inherited.2.1 _ (JsMap.mem_of_get _ _ _ ha)

/-- The test `prop in target` fails for a name that the target neither has nor inherits. -/
theorem inTarget_eq_false (target : MethodTable) (prop : String)
    (h : JsMap.get target prop = none) (hni : prop ∉ objectPrototypeNames) :
    inTarget target prop = false := by
  unfold inTarget
  rw [h]
  simp [hni]

/-- The trap past its first step, for a name that the target neither has nor inherits. -/
theorem proxyGet_of_not_inTarget (pf : Platform) (target : MethodTable) (prop : String)
    (first : Option Elem) (h : JsMap.get target prop = none)
    (hni : prop ∉ objectPrototypeNames) :
    Proxy.get pf target prop first =
      if (decide (prop ∈ standardEvents) || (JsMap.get aliases prop).isSome) = true ∧
          prop ∈ domMethodNames then
        .collision prop ((JsMap.get aliases prop).getD prop)
      else if prop ∈ domMethodNames then .domMethod prop
      else if (decide (prop ∈ standardEvents) || (JsMap.get aliases prop).isSome) = true then
        .eventShortcut ((JsMap.get aliases prop).getD prop)
      else if (if prop ∉ domProperties then false
          else
            match first with
            | none => true
            | some el => pf.hasProp el prop) = true then .domProperty prop
      else if pf.cssProps prop = true then .cssProperty prop
      else .fallback := by
  unfold Proxy.get
  rw [if_neg (by rw [inTarget_eq_false target prop h hni]; simp)]

/-- The trap reads the target only at the name it resolves. -/
theorem proxyGet_congr (pf : Platform) (t1 t2 : MethodTable) (prop : String)
    (first : Option Elem) (h : JsMap.get t1 prop = JsMap.get t2 prop) :
    Proxy.get pf t1 prop first = Proxy.get pf t2 prop first := by
  unfold Proxy.get inTarget reflectGet
  rw [h]

/-- The trap at a name the target has or inherits: the member `Reflect.get` finds. -/
theorem proxyGet_inTarget (pf : Platform) (target : MethodTable) (prop : String)
    (first : Option Elem) (h : inTarget target prop = true) :
    Proxy.get pf target prop first =
      .explicit ((JsMap.get target prop).getD (.inherited prop)) := by
  unfold Proxy.get
  rw [if_pos h]
  unfold inTarget at h
  unfold reflectGet
  cases hg : JsMap.get target prop with
  | some m => rfl
  | none =>
    rw [hg] at h
    have hin : prop ∈ objectPrototypeNames := by simpa using h
    simp [hin]

/-- The trap at a name the target defines. -/
theorem proxyGet_explicit (pf : Platform) (target : MethodTable) (prop : String)
    (first : Option Elem) (m : Member) (h : JsMap.get target prop = some m) :
    Proxy.get pf target prop first = .explicit m := by
  rw [proxyGet_inTarget pf target prop first (by unfold inTarget; rw [h]; rfl), h]
  rfl

/-- One step of `extend` reads and writes the target only at its own name. -/
theorem extendStep_get (pf : Platform) (t : MethodTable) (e : String × Member)
    (name : String) (h : e.1 ≠ name) :
    JsMap.get (extendStep pf t e) name = JsMap.get t name := by
  unfold extendStep
  split_ifs
  · rw [JsMap.get_set, if_neg h]
  · rfl

/-- The loop of `extend` leaves alone the names its argument does not have. -/
theorem foldl_extendStep_get_of_not_mem (pf : Platform) (methods : List (String × Member))
    (target : MethodTable) (name : String) (h : name ∉ methods.map Prod.fst) :
    JsMap.get (methods.foldl (extendStep pf) target) name = JsMap.get target name := by
  induction methods generalizing target with
  | nil => rfl
  | cons e methods ih =>
    simp only [List.map_cons, List.mem_cons, not_or] at h
    rw [List.foldl_cons, ih _ h.2]
    exact extendStep_get pf target e name (fun h1 => h.1 h1.symm)

/-- The loop of `extend` at a name of its argument, whose own names are distinct. -/
theorem foldl_extendStep_get_of_mem (pf : Platform) (methods : List (String × Member))
    (target : MethodTable) (hnd : (methods.map Prod.fst).Nodup) (name : String) (m : Member)
    (hmem : (name, m) ∈ methods) :
    JsMap.get (methods.foldl (extendStep pf) target) name =
      if (Proxy.get pf target name none).truthy = false then some m
      else JsMap.get target name := by
  induction methods generalizing target with
  | nil => simp at hmem
  | cons e methods ih =>
    simp only [List.map_cons, List.nodup_cons] at hnd
    rw [List.foldl_cons]
    rcases List.mem_cons.1 hmem with h | h
    · subst h
      rw [foldl_extendStep_get_of_not_mem pf methods _ name hnd.1]
      unfold extendStep
      by_cases ht : (Proxy.get pf target name none).truthy = false
      · rw [if_pos ht, if_pos ht, JsMap.get_set, if_pos rfl]
      · rw [if_neg ht, if_neg ht]
    · have hne : e.1 ≠ name := by
        intro h1
        apply hnd.1
        rw [h1]
        exact List.mem_map.2 ⟨(name, m), h, rfl⟩
      rw [ih _ hnd.2 h, extendStep_get pf target e name hne,
        proxyGet_congr pf _ target name none (extendStep_get pf target e name hne)]

/-- The method `extend` returns a method table when its argument keeps the inherited
`hasOwnProperty`. -/
theorem extend_eq_some (pf : Platform) (target : MethodTable)
    (methods : List (String × Member)) (h : "hasOwnProperty" ∉ methods.map Prod.fst) :
    extend pf target methods = some (methods.foldl (extendStep pf) target) := by
  unfold extend
  rw [if_neg h]

/-! ## Theorems about `paginate` -/

/-- The number of pages is the least number of pages of `itemsPerPage` items that hold `n`
items. -/
theorem totalPages_spec (n : Nat) (q : Int) (hq : 0 < q) :
    (totalPages n q - 1) * q < n ∧ (n : Int) ≤ totalPages n q * q := by
  have hq1 : (0 : ℚ) < (q : ℚ) := by exact_mod_cast hq
  have h1 : (n : ℚ) / (q : ℚ) ≤ ((totalPages n q : Int) : ℚ) := Int.le_ceil _
  have h2 : ((totalPages n q : Int) : ℚ) < (n : ℚ) / (q : ℚ) + 1 := Int.ceil_lt_add_one _
  constructor
  · have h3 : ((totalPages n q : Int) : ℚ) - 1 < (n : ℚ) / (q : ℚ) := by linarith
    have h4 : (((totalPages n q : Int) : ℚ) - 1) * (q : ℚ) < (n : ℚ) :=
      (lt_div_iff₀ hq1).1 h3
    exact_mod_cast h4
  · have h4 : (n : ℚ) ≤ ((totalPages n q : Int) : ℚ) * (q : ℚ) := (div_le_iff₀ hq1).1 h1
    exact_mod_cast h4

/-- The number of pages in integer arithmetic. -/
theorem totalPages_eq (n : Nat) (q : Int) (hq : 0 < q) :
    totalPages n q = ((n : Int) + q - 1) / q := by
  obtain ⟨h1, h2⟩ := totalPages_spec n q hq
  have e1 : (totalPages n q - 1) * q = totalPages n q * q - q := by ring
  have e2 : (totalPages n q + 1) * q = totalPages n q * q + q := by ring
  apply le_antisymm
  · exact (Int.le_ediv_iff_mul_le hq).2 (by omega)
  · exact Int.lt_add_one_iff.1 ((Int.ediv_lt_iff_lt_mul hq).2 (by omega))

/-- A slice between two natural indices is a `drop` followed by a `take`. -/
theorem slice_nat {α : Type} (arr : List α) (s q : Nat) :
    slice arr (s : Int) ((s : Int) + (q : Int)) = (arr.drop s).take q := by
  unfold slice
  have hs : ¬ ((s : Int) < 0) := by omega
  have he : ¬ ((s : Int) + (q : Int) < 0) := by omega
  simp only [hs, he, if_false]
  by_cases h : s ≤ arr.length
  · have h1 : (min (s : Int) (arr.length : Int)).toNat = s := by omega
    rw [h1]
    by_cases h2 : s + q ≤ arr.length
    · have h3 : (min ((s : Int) + (q : Int)) (arr.length : Int) -
          min (s : Int) (arr.length : Int)).toNat = q := by omega
      rw [h3]
    · have h3 : (min ((s : Int) + (q : Int)) (arr.length : Int) -
          min (s : Int) (arr.length : Int)).toNat = arr.length - s := by omega
      rw [h3, List.take_of_length_le (by simp), List.take_of_length_le (by simp; omega)]
  · have h1 : (min (s : Int) (arr.length : Int)).toNat = arr.length := by omega
    rw [h1, List.drop_length, List.drop_eq_nil_of_le (by omega)]
    simp

/-- The first `m` pages of `q` items are the first `m * q` items. -/
theorem flatMap_pages {α : Type} (content : List α) (q m : Nat) :
    (List.range m).flatMap (fun k => (content.drop (k * q)).take q) = content.take (m * q) := by
  induction m with
  | zero => simp
  | succ m ih =>
    rw [List.range_succ, List.flatMap_append, ih]
    simp only [List.flatMap_cons, List.flatMap_nil, List.append_nil]
    rw [Nat.succ_mul, List.take_add]

/-- The content of page `k + 1` when the page size is a natural number. -/
theorem renderPage_eq {α : Type} (content : List α) (q k : Nat) :
    (renderPage content (q : Int) ((k : Int) + 1)).1 = (content.drop (k * q)).take q := by
  unfold renderPage
  have h : ((k : Int) + 1 - 1) * (q : Int) = ((k * q : Nat) : Int) := by
    push_cast
    ring
  simp only [h]
  exact slice_nat content (k * q) q

/-- The buttons marked active are the buttons that carry the current page. -/
theorem filter_window (s p : Int) (len : Nat) (h1 : s ≤ p) (h2 : p < s + len) :
    ((List.range len).map fun k : Nat => (s + (k : Int), decide (s + (k : Int) = p))).filter
      (fun b => b.2) = [(p, true)] := by
  induction len generalizing p with
  | zero => omega
  | succ len ih =>
    rw [List.range_succ, List.map_append, List.filter_append]
    by_cases hp : p < s + len
    · rw [ih p h1 hp]
      have : ¬ (s + (len : Int) = p) := by omega
      simp [this]
    · have hp1 : s + (len : Int) = p := by push_cast at h2; omega
      have hnone : ((List.range len).map fun k : Nat =>
          (s + (k : Int), decide (s + (k : Int) = p))).filter (fun b => b.2) = [] := by
        rw [List.filter_eq_nil_iff]
        intro b hb
        obtain ⟨k, hk, rfl⟩ := List.mem_map.1 hb
        have hk1 := List.mem_range.1 hk
        have : ¬ (s + (k : Int) = p) := by omega
        simp [this]
      rw [hnone]
      simp [hp1]

/-! ## Theorems about `siblings` -/

/-- The two loops of `siblings` are one loop over the children it meets. -/
theorem foldl_siblingsEl (tree : Tree) (selected arr : List Elem)
    (st : List Elem × List Elem) :
    arr.foldl (siblingsEl tree selected) st =
      (arr.flatMap fun el =>
        match tree.parentElement el with
        | none => []
        | some parent => tree.children parent).foldl (siblingsKid selected) st := by
  induction arr generalizing st with
  | nil => rfl
  | cons el arr ih =>
    rw [List.foldl_cons, ih, List.flatMap_cons, List.foldl_append]
    congr 1
    unfold siblingsEl
    cases tree.parentElement el <;> rfl

/-- What the loop of `siblings` has collected after the children `l`: no duplicate, the
children met that are not selected, in the order of their first occurrence; and the set
`seen` holds the same elements. -/
theorem foldl_siblingsKid (selected l : List Elem) :
    (l.foldl (siblingsKid selected) ([], [])).2 = (l.foldl (siblingsKid selected) ([], [])).1 ∧
    (l.foldl (siblingsKid selected) ([], [])).1.Nodup ∧
    (∀ k, k ∈ (l.foldl (siblingsKid selected) ([], [])).1 ↔ k ∈ l ∧ k ∉ selected) ∧
    ∀ a b, a ∈ (l.foldl (siblingsKid selected) ([], [])).1 →
      b ∈ (l.foldl (siblingsKid selected) ([], [])).1 →
      ((l.foldl (siblingsKid selected) ([], [])).1.indexOf a <
          (l.foldl (siblingsKid selected) ([], [])).1.indexOf b ↔
        l.indexOf a < l.indexOf b) := by
  induction l using List.reverseRecOn with
  | nil => simp
  | append_singleton l k ih =>
    obtain ⟨hseen, hnd, hmem, hord⟩ := ih
    rw [List.foldl_append, List.foldl_cons, List.foldl_nil]
    generalize hS : l.foldl (siblingsKid selected) ([], []) = st at *
    obtain ⟨S0, S⟩ := st
    simp only at hseen hnd hmem hord
    subst hseen
    unfold siblingsKid
    by_cases hsel : k ∈ selected
    · simp only [hsel, if_true]
      refine ⟨by first | rfl | trivial, hnd, ?_, ?_⟩
      · intro x
        rw [hmem, List.mem_append, List.mem_singleton]
        constructor
        · exact fun h => ⟨Or.inl h.1, h.2⟩
        · rintro ⟨h1 | h1, h2⟩
          · exact ⟨h1, h2⟩
          · exact absurd (h1 ▸ hsel) h2
      · intro a b ha hb
        rw [hord a b ha hb, List.indexOf_append_of_mem ((hmem a).1 ha).1,
          List.indexOf_append_of_mem ((hmem b).1 hb).1]
    · simp only [hsel, if_false]
      by_cases hk : k ∈ S
      · simp only [hk, not_true_eq_false, if_false]
        refine ⟨by first | rfl | trivial, hnd, ?_, ?_⟩
        · intro x
          rw [hmem, List.mem_append, List.mem_singleton]
          constructor
          · exact fun h => ⟨Or.inl h.1, h.2⟩
          · rintro ⟨h1 | h1, h2⟩
            · exact ⟨h1, h2⟩
            · exact ⟨h1 ▸ ((hmem k).1 hk).1, h2⟩
        · intro a b ha hb
          rw [hord a b ha hb, List.indexOf_append_of_mem ((hmem a).1 ha).1,
            List.indexOf_append_of_mem ((hmem b).1 hb).1]
      · simp only [hk, not_false_eq_true, if_true]
        have hkl : k ∉ l := fun h => hk ((hmem k).2 ⟨h, hsel⟩)
        refine ⟨by first | rfl | trivial, ?_, ?_, ?_⟩
        · exact List.nodup_append.2 ⟨hnd, List.nodup_singleton k, by
            intro x hx hx1
            rw [List.mem_singleton] at hx1
            exact hk (hx1 ▸ hx)⟩
        · intro x
          rw [List.mem_append, List.mem_singleton, hmem, List.mem_append, List.mem_singleton]
          constructor
          · rintro (h | h)
            · exact ⟨Or.inl h.1, h.2⟩
            · exact ⟨Or.inr h, h ▸ hsel⟩
          · rintro ⟨h1 | h1, h2⟩
            · exact Or.inl ⟨h1, h2⟩
            · exact Or.inr h1
        · intro a b ha hb
          have hSk : (S ++ [k]).indexOf k = S.length := by
            rw [List.indexOf_append_of_not_mem hk, List.indexOf_cons_self]
            rfl
          have hlk : (l ++ [k]).indexOf k = l.length := by
            rw [List.indexOf_append_of_not_mem hkl, List.indexOf_cons_self]
            rfl
          rcases List.mem_append.1 ha with ha1 | ha1
          · rcases List.mem_append.1 hb with hb1 | hb1
            · rw [List.indexOf_append_of_mem ha1, List.indexOf_append_of_mem hb1,
                hord a b ha1 hb1, List.indexOf_append_of_mem ((hmem a).1 ha1).1,
                List.indexOf_append_of_mem ((hmem b).1 hb1).1]
            · rw [List.mem_singleton] at hb1
              subst hb1
              rw [hSk, hlk, List.indexOf_append_of_mem ha1,
                List.indexOf_append_of_mem ((hmem a).1 ha1).1]
              exact iff_of_true (List.indexOf_lt_length.2 ha1)
                (List.indexOf_lt_length.2 ((hmem a).1 ha1).1)
          · rw [List.mem_singleton] at ha1
            subst ha1
            rcases List.mem_append.1 hb with hb1 | hb1
            · rw [hSk, hlk, List.indexOf_append_of_mem hb1,
                List.indexOf_append_of_mem ((hmem b).1 hb1).1]
              exact iff_of_false (Nat.not_lt.2 (List.indexOf_le_length))
                (Nat.not_lt.2 (List.indexOf_le_length))
            · rw [List.mem_singleton] at hb1
              subst hb1
              exact iff_of_false (lt_irrefl _) (lt_irrefl _)

/-! ## Theorems about `serializeForm` and `validate` -/

/-- The values under a name after one more entry. -/
theorem valuesOf_append (entries : List (String × FormValue)) (e : String × FormValue)
    (key : String) :
    valuesOf (entries ++ [e]) key =
      if e.1 = key then valuesOf entries key ++ [e.2] else valuesOf entries key := by
  unfold valuesOf
  rw [List.filter_append, List.map_append]
  by_cases h : e.1 = key
  · simp [h]
  · simp [h]

/-- Every value under a name is the value of an entry. -/
theorem mem_valuesOf (entries : List (String × FormValue)) (key : String) (v : FormValue)
    (h : v ∈ valuesOf entries key) : ∃ e ∈ entries, e.2 = v := by
  unfold valuesOf at h
  obtain ⟨e, he, rfl⟩ := List.mem_map.1 h
  exact ⟨e, (List.mem_filter.1 he).1, rfl⟩

/-- An entry changes the result only under its own name. -/
theorem get_serializeEntry_ne (result : JsMap String Slot) (e : String × FormValue)
    (key : String) (hk : e.1 ≠ key) :
    JsMap.get (serializeEntry result e) key = JsMap.get result key := by
  unfold serializeEntry
  cases JsMap.get result e.1 with
  | none =>
    simp only
    split_ifs
    · rfl
    · rw [JsMap.get_set, if_neg hk]
    · rw [JsMap.get_set, if_neg hk]
  | some slot =>
    simp only
    split_ifs
    · cases slot <;> simp only <;> rw [JsMap.get_set, if_neg hk]
    · rw [JsMap.get_set, if_neg hk]

/-- When no value is the empty string and no name is a name of `Object.prototype`,
`serializeForm` keeps every value: a name with one value maps to the value, a name with
several values to the array of them, in order. -/
theorem serializeForm_of_truthy (entries : List (String × FormValue))
    (h : ∀ e ∈ entries, e.2.truthy = true)
    (hkeys : ∀ e ∈ entries, e.1 ∉ objectPrototypeNames) (key : String) :
    JsMap.get (serializeForm (some entries)) key =
      match valuesOf entries key with
      | [] => none
      | [v] => some (.single v)
      | v :: w :: vs => some (.array (v :: w :: vs)) := by
  unfold serializeForm
  simp only
  induction entries using List.reverseRecOn with
  | nil => rfl
  | append_singleton entries e ih =>
    have ih1 := ih (fun x hx => h x (List.mem_append.2 (Or.inl hx)))
      (fun x hx => hkeys x (List.mem_append.2 (Or.inl hx)))
    have hke : e.1 ∉ objectPrototypeNames :=
      hkeys e (List.mem_append.2 (Or.inr (List.mem_singleton.2 rfl)))
    have hkp : e.1 ≠ "__proto__" := by
      intro hp
      apply hke
      rw [hp]
      decide
    rw [List.foldl_append, List.foldl_cons, List.foldl_nil, valuesOf_append]
    generalize entries.foldl serializeEntry [] = result at ih1 ⊢
    by_cases hk : e.1 = key
    · subst hk
      rw [if_pos rfl]
      unfold serializeEntry
      cases hv : valuesOf entries e.1 with
      | nil =>
        rw [hv] at ih1
        simp only at ih1
        rw [ih1]
        simp only [List.nil_append]
        rw [if_neg hkp, if_neg hke, JsMap.get_set, if_pos rfl]
      | cons v vs =>
        rw [hv] at ih1
        have hvt : v.truthy = true := by
          obtain ⟨x, hx, hxv⟩ := mem_valuesOf entries e.1 v
            (by rw [hv]; exact List.mem_cons_self _ _)
          rw [← hxv]
          exact h x (List.mem_append.2 (Or.inl hx))
        cases vs with
        | nil =>
          simp only at ih1
          rw [ih1]
          simp only [Slot.truthy, hvt, if_true, List.cons_append, List.nil_append]
          rw [JsMap.get_set, if_pos rfl]
        | cons w vs =>
          simp only at ih1
          rw [ih1]
          simp only [Slot.truthy, if_true, List.cons_append]
          rw [JsMap.get_set, if_pos rfl]
    · rw [if_neg hk, get_serializeEntry_ne result e key hk, ih1]

/-- A call of `validateField` that returns finds the field valid and leaves the errors
alone, or finds it invalid and assigns an error under the name of the field. -/
theorem validateField_spec (env : FormEnv) (settings : Settings) (st : ValidationState)
    (field : Named) (fieldRules : Option FieldRules) (res : Bool × ValidationState)
    (h : validateField env settings st field fieldRules = some res) :
    (res.1 = true ∧ res.2.errors = st.errors) ∨
    (res.1 = false ∧ ∃ msg, res.2.errors = setError st.errors field.name msg) := by
  unfold validateField at h
  cases fieldRules with
  | none =>
    simp only [Option.some.injEq] at h
    rw [← h]
    exact Or.inl ⟨rfl, rfl⟩
  | some rules =>
    simp only at h
    by_cases hg : settings.showErrors = true ∧
        (field.isElement = false ∨ invalidToken settings.errorClass = true ∨
          env.invalidSelector settings.errorMessageClass field.name = true)
    · rw [if_pos hg] at h
      simp at h
    · rw [if_neg hg] at h
      generalize (match field.value with
        | some value => some (checkField env.parseFloat value rules)
        | Option.none => checkUndefined rules) = chk at h
      match chk, h with
      | some Option.none, h =>
        simp only [Option.some.injEq] at h
        rw [← h]
        exact Or.inl ⟨rfl, rfl⟩
      | some (some msg), h =>
        simp only [Option.some.injEq] at h
        rw [← h]
        exact Or.inr ⟨rfl, msg, rfl⟩

/-- An error assigned under a name other than `__proto__` makes the errors object
non-empty. -/
theorem setError_ne_nil (errors : JsMap String String) (name : Option String) (msg : String)
    (h : propertyKey name ≠ "__proto__") : setError errors name msg ≠ [] := by
  unfold setError
  rw [if_neg h]
  exact JsMap.set_ne_nil _ _ _

/-- The validation loop keeps `isValid` and `errors` consistent when no field it meets has
the name `__proto__`. -/
theorem validateRules_consistent (env : FormEnv) (settings : Settings)
    (elements : String → Option Named) (rules : List (String × Option FieldRules))
    (st st1 : ValidationState)
    (hn : ∀ r ∈ rules, ∀ field, elements r.1 = some field →
      propertyKey field.name ≠ "__proto__")
    (h : validateRules env settings elements rules st = some st1)
    (hst : st.isValid = true ↔ st.errors = []) :
    st1.isValid = true ↔ st1.errors = [] := by
  induction rules generalizing st with
  | nil =>
    simp only [validateRules, Option.some.injEq] at h
    rw [← h]
    exact hst
  | cons r rules ih =>
    simp only [validateRules] at h
    cases hr : validateRule env settings elements st r with
    | none => rw [hr] at h; simp at h
    | some st2 =>
      rw [hr] at h
      simp only at h
      refine ih st2 (fun q hq => hn q (List.mem_cons_of_mem _ hq)) h ?_
      unfold validateRule at hr
      cases he : elements r.1 with
      | none =>
        rw [he] at hr
        simp only [Option.some.injEq] at hr
        rw [← hr]
        exact hst
      | some field =>
        rw [he] at hr
        simp only at hr
        cases hv : validateField env settings st field r.2 with
        | none => rw [hv] at hr; simp at hr
        | some res =>
          rw [hv] at hr
          simp only [Option.some.injEq] at hr
          rw [← hr]
          rcases validateField_spec env settings st field r.2 res hv with
            ⟨h1, h2⟩ | ⟨h1, msg, h2⟩
          · show (st.isValid && res.1) = true ↔ res.2.errors = []
            rw [h1, h2, Bool.and_true]
            exact hst
          · show (st.isValid && res.1) = true ↔ res.2.errors = []
            rw [h1, h2, Bool.and_false]
            exact ⟨fun h => absurd h (by simp), fun h => absurd h
              (setError_ne_nil _ _ _ (hn r (List.mem_cons_self _ _) field he))⟩

/-- When `validate` returns and no field it validates has the name `__proto__`, its result is
consistent: `valid` is true exactly when `errors` has no entry. -/
theorem valid_iff_no_errors_of_names (env : FormEnv) (target : FormTarget)
    (rules : List (String × Option FieldRules)) (settings : Settings)
    (res : ValidationResult)
    (hn : ∀ elements, target = .form elements → ∀ r ∈ rules, ∀ field,
      elements r.1 = some field → propertyKey field.name ≠ "__proto__")
    (h : validate env target rules settings = some res) :
    res.valid = true ↔ res.errors = [] := by
  unfold validate at h
  cases target with
  | noElement =>
    simp only [Option.some.injEq] at h
    rw [← h]
    simp
  | noForm =>
    simp only [Option.some.injEq] at h
    rw [← h]
    simp
  | form elements =>
    simp only at h
    split_ifs at h
    cases hv : validateRules env settings elements rules
        { isValid := true, errors := [] } with
    | none => rw [hv] at h; simp at h
    | some st =>
      rw [hv] at h
      simp only [Option.some.injEq] at h
      rw [← h]
      exact validateRules_consistent env settings elements rules _ st (hn elements rfl) hv
        (by simp)

/-- An error message of `checkField` comes from a rule the value breaks. -/
theorem checkField_sound (parseFloat : String → Option Int) (value : String)
    (fieldRules : FieldRules) (msg : String)
    (h : checkField parseFloat value fieldRules = some msg) :
    Violates parseFloat value fieldRules := by
  unfold checkField at h
  unfold Violates
  split_ifs at h with h1 h2 h3 h4 h5 h6
  · exact Or.inl h1
  · cases hp : fieldRules.pattern with
    | none => rw [hp] at h; simp at h
    | some test =>
      rw [hp] at h
      simp only at h
      split_ifs at h with ht
      exact Or.inr (Or.inl ⟨test, rfl, h2.2, ht⟩)
  · cases hm : fieldRules.minLength with
    | none => rw [hm] at h3; simp at h3
    | some n =>
      rw [hm] at h3
      simp only [decide_eq_true_eq] at h3
      exact Or.inr (Or.inr (Or.inl ⟨n, rfl, h3.2⟩))
  · cases hm : fieldRules.maxLength with
    | none => rw [hm] at h4; simp at h4
    | some n =>
      rw [hm] at h4
      simp only [decide_eq_true_eq] at h4
      exact Or.inr (Or.inr (Or.inr (Or.inl ⟨n, rfl, h4.2⟩)))
  · cases hm : fieldRules.min with
    | none => rw [hm] at h5; simp at h5
    | some b =>
      rw [hm] at h5
      simp only [Bool.and_eq_true] at h5
      exact Or.inr (Or.inr (Or.inr (Or.inr (Or.inl ⟨b, rfl, h5.2⟩))))
  · cases hm : fieldRules.max with
    | none => rw [hm] at h6; simp at h6
    | some b =>
      rw [hm] at h6
      simp only [Bool.and_eq_true] at h6
      exact Or.inr (Or.inr (Or.inr (Or.inr (Or.inr (Or.inl ⟨b, rfl, h6.2⟩)))))
  · cases hf : fieldRules.validate with
    | none => rw [hf] at h; simp at h
    | some f =>
      rw [hf] at h
      simp only at h
      refine Or.inr (Or.inr (Or.inr (Or.inr (Or.inr (Or.inr ⟨f, rfl, ?_⟩)))))
      intro hok
      rw [hok] at h
      simp at h

/-! ## Claims -/

/-- C1. After `on(evt, selector, handler, options)` has registered a tuple, `off` with the
same arguments leaves no registry entry for the tuple and no listener that calls its
dispatcher; if the handler was not bound on the root otherwise, no later dispatch on the
root calls it. -/
theorem on_then_off_removes (s : State) (root : Elem) (evt selector : String) (fn : Fn)
    (opts : Opts) (hreg : ClosuresAgree s.delegatedHandlers)
    (hls : ListenersAgree s.listeners) (ht : (parseNamespacedEvent evt).type ≠ "") :
    ∃ d,
      lookup (on_ s [root] evt (.delegated selector fn opts)).delegatedHandlers root
        (parseNamespacedEvent evt).type selector (parseNamespacedEvent evt).nspace fn
        (captureOf opts, onceOf opts) = some d ∧
      (∃ l ∈ (on_ s [root] evt (.delegated selector fn opts)).listeners,
        l.target = root ∧ l.callback = .dispatcher d) ∧
      lookup (off (on_ s [root] evt (.delegated selector fn opts)) [root] evt
          (.delegated selector fn opts)).delegatedHandlers root
        (parseNamespacedEvent evt).type selector (parseNamespacedEvent evt).nspace fn
        (captureOf opts, onceOf opts) = none ∧
      (∀ l ∈ (off (on_ s [root] evt (.delegated selector fn opts)) [root] evt
          (.delegated selector fn opts)).listeners, l.callback ≠ .dispatcher d) ∧
      ((∀ l ∈ s.listeners, l.target = root → l.callback.handler ≠ fn) →
        ∀ (dom : Dom) (e : Event),
          ∀ c ∈ (dispatchAt (off (on_ s [root] evt (.delegated selector fn opts)) [root] evt
            (.delegated selector fn opts)) dom root e).calls, c ∈ s.calls ∨ c.fn ≠ fn) := by
  rw [off_delegated_eq _ _ _ _ _ _ ht, on_delegated_eq _ _ _ _ _ _ ht]
  simp only [List.foldl_cons, List.foldl_nil]
  generalize hT : (parseNamespacedEvent evt).type = t
  generalize hN : (parseNamespacedEvent evt).nspace = ns
  have hcl := closure_dispatcherOf t ns selector fn opts s root hreg
  have hls1 := listenersAgree_onDelegatedRoot t ns selector fn opts s root hreg hls
  have hlk : lookup (onDelegatedRoot t t ns selector fn opts s root).delegatedHandlers root t
      selector ns fn (captureOf opts, onceOf opts) =
      some (dispatcherOf t t ns selector fn opts s root) := by
    rw [lookup_onDelegatedRoot, if_pos ⟨rfl, rfl, rfl, rfl, rfl, rfl⟩]
  have hrem : ∀ l ∈ (offDelegatedRoot t ns selector fn opts
      (onDelegatedRoot t t ns selector fn opts s root) root).listeners,
      l.callback ≠ .dispatcher (dispatcherOf t t ns selector fn opts s root) := by
    intro l hl hcb
    rw [mem_offDelegatedRoot] at hl
    obtain ⟨hl1, hl2⟩ := hl
    have hsame := hl2 ns (onceOf opts) _ (by
      by_cases h : ns = ""
      · exact Or.inl h
      · exact Or.inr rfl) (onceOf_mem_onceValues opts) hlk
    obtain ⟨a1, a2, a3, -⟩ := hls1 l hl1 _ hcb
    have : sameListener root t (.dispatcher (dispatcherOf t t ns selector fn opts s root))
        (captureOf opts) l = true := by
      rw [sameListener_iff]
      exact ⟨a1.trans hcl.1, a2.trans hcl.2.1, hcb, a3.trans hcl.2.2.2.2.2.1⟩
    rw [this] at hsame
    cases hsame
  refine ⟨dispatcherOf t t ns selector fn opts s root, hlk, ?_, ?_, hrem, ?_⟩
  · rw [onDelegatedRoot_listeners]
    obtain ⟨l, hl, hs⟩ := exists_mem_addEventListener s.listeners root t
      (.dispatcher (dispatcherOf t t ns selector fn opts s root)) opts
    rw [sameListener_iff] at hs
    exact ⟨l, hl, hs.1, hs.2.2.1⟩
  · rw [lookup_offDelegatedRoot, if_pos]
    refine ⟨rfl, rfl, rfl, ?_, rfl, rfl, onceOf_mem_onceValues opts⟩
    by_cases h : ns = ""
    · exact Or.inl h
    · exact Or.inr rfl
  · intro hfresh dom e c hc
    rcases dispatchAt_new_calls _ _ _ _ _ hc with h | ⟨l, hl, h1, -, h3⟩
    · left
      rw [offDelegatedRoot_calls, onDelegatedRoot_calls] at h
      exact h
    · right
      rw [h3]
      have hne := hrem l hl
      rw [mem_offDelegatedRoot] at hl
      have hl1 := hl.1
      rw [onDelegatedRoot_listeners, mem_addEventListener] at hl1
      rcases hl1 with hl1 | ⟨hl1, -⟩
      · exact hfresh l hl1 h1
      · exfalso
        apply hne
        rw [hl1]

/-- Witness for C1 on a fresh page. -/
theorem on_then_off_removes_witness :
    ∃ d,
      lookup (on_ State.init [1] "click.menu" (.delegated "li" 7 .undefined)).delegatedHandlers
        1 (parseNamespacedEvent "click.menu").type "li"
        (parseNamespacedEvent "click.menu").nspace 7
        (captureOf .undefined, onceOf .undefined) = some d ∧
      (∃ l ∈ (on_ State.init [1] "click.menu" (.delegated "li" 7 .undefined)).listeners,
        l.target = 1 ∧ l.callback = .dispatcher d) ∧
      lookup (off (on_ State.init [1] "click.menu" (.delegated "li" 7 .undefined)) [1]
          "click.menu" (.delegated "li" 7 .undefined)).delegatedHandlers 1
        (parseNamespacedEvent "click.menu").type "li"
        (parseNamespacedEvent "click.menu").nspace 7
        (captureOf .undefined, onceOf .undefined) = none ∧
      (∀ l ∈ (off (on_ State.init [1] "click.menu" (.delegated "li" 7 .undefined)) [1]
          "click.menu" (.delegated "li" 7 .undefined)).listeners, l.callback ≠ .dispatcher d) ∧
      ((∀ l ∈ State.init.listeners, l.target = 1 → l.callback.handler ≠ 7) →
        ∀ (dom : Dom) (e : Event),
          ∀ c ∈ (dispatchAt (off (on_ State.init [1] "click.menu"
            (.delegated "li" 7 .undefined)) [1] "click.menu"
            (.delegated "li" 7 .undefined)) dom 1 e).calls,
            c ∈ State.init.calls ∨ c.fn ≠ 7) :=
  on_then_off_removes State.init 1 "click.menu" "li" 7 .undefined
    (by intro r t sel ns fn key d h; simp [State.init, lookup] at h)
    (by intro l h; simp [State.init] at h)
    (by decide)

/-- C2. For a well-formed state and a namespace-only event string that parses to the
namespace `A`, `off('.A')` on a root removes every delegated entry of namespace `A` under
every event type of that root and uninstalls its dispatcher, and leaves every other entry
registered and every other listener installed; with `on(type.A, sel, hA)` and
`on(type.B, sel, hB)`, `A ≠ B`, on a fresh page, a matching dispatch after `off('.A')` makes
exactly the call of `hB` on the matched element. -/
theorem off_namespace_only (s : State) (hs : Inv s) (root : Elem) (offEvt A : String)
    (pO : parseNamespacedEvent offEvt = { type := "", nspace := A }) (hne : A ≠ "") :
    (∀ t sel fn key,
      lookup (off s [root] offEvt .none).delegatedHandlers root t sel A fn key = none) ∧
    (∀ t sel fn key d, lookup s.delegatedHandlers root t sel A fn key = some d →
      ∀ l ∈ (off s [root] offEvt .none).listeners, l.callback ≠ .dispatcher d) ∧
    (∀ r t sel ns fn key, r ≠ root ∨ ns ≠ A →
      lookup (off s [root] offEvt .none).delegatedHandlers r t sel ns fn key =
        lookup s.delegatedHandlers r t sel ns fn key) ∧
    (∀ l ∈ s.listeners, (∀ d, l.callback = .dispatcher d → d.rootEl ≠ root ∨ d.nsKey ≠ A) →
      l ∈ (off s [root] offEvt .none).listeners) ∧
    (∀ (evtA evtB t B sel : String) (hA hB : Fn) (optsA optsB : Opts) (dom : Dom)
      (e : Event) (x m : Elem),
      parseNamespacedEvent evtA = { type := t, nspace := A } →
      parseNamespacedEvent evtB = { type := t, nspace := B } →
      t ≠ "" → A ≠ B → e.type = t → e.target = some x → dom.closest x sel = some m →
      (root = m ∨ dom.contains root m = true) →
      ∀ c, c ∈ (dispatchAt (off (on_ (on_ State.init [root] evtA (.delegated sel hA optsA))
          [root] evtB (.delegated sel hB optsB)) [root] offEvt .none) dom root e).calls ↔
        c = { fn := hB, thisArg := m, event := e, matched := some m }) := by
  have hO : offEvt ≠ "" := by
    intro h
    rw [h, parse_empty] at pO
    exact hne (congrArg ParsedEvent.nspace pO).symm
  rw [off_none_eq _ _ _ hO]
  simp only [List.foldl_cons, List.foldl_nil, pO, if_true]
  refine ⟨?_, ?_, ?_, ?_, ?_⟩
  · intro t sel fn key
    rw [lookup_offAllRoot _ _ _ _ hs.wf, if_pos ⟨rfl, Or.inl ⟨rfl, hne⟩, Or.inr rfl⟩]
  · intro t sel fn key d hd
    exact offAllRoot_uninstalled "" offEvt A s hs root t sel A fn key d hd
      (Or.inl ⟨rfl, hne⟩) (Or.inr rfl)
  · intro r t sel ns fn key h
    rw [lookup_offAllRoot _ _ _ _ hs.wf, if_neg]
    rintro ⟨h1, -, h3 | h3⟩
    · exact hne h3
    · rcases h with h | h
      · exact h h1.symm
      · exact h h3.symm
  · intro l hl h
    apply offAllRoot_kept "" offEvt A s hs root l hl
    intro d hd
    rintro ⟨h1, -, h3 | h3⟩
    · exact hne h3
    · rcases h d hd with h4 | h4
      · exact h4 h1
      · exact h4 h3.symm
  · intro evtA evtB t B sel hA hB optsA optsB dom e x m pA pB ht hAB he hx hm hc c
    exact two_namespaces_scenario root evtA evtB offEvt t A B sel hA hB optsA optsB dom e x m
      pA pB pO ht hne hAB he hx hm hc c

/-- Witness for C2: two namespaced registrations on the root `1`, then `off('.menu')`. -/
theorem off_namespace_only_witness :
    Inv (on_ (on_ State.init [1] "click.menu" (.delegated "li" 7 .undefined)) [1]
      "click.other" (.delegated "li" 8 .undefined)) ∧
    parseNamespacedEvent ".menu" = { type := "", nspace := "menu" } ∧ "menu" ≠ "" ∧
    lookup (off (on_ (on_ State.init [1] "click.menu" (.delegated "li" 7 .undefined)) [1]
      "click.other" (.delegated "li" 8 .undefined)) [1] ".menu" .none).delegatedHandlers
      1 "click" "li" "menu" 7 (false, false) = none :=
  ⟨inv_on _ _ _ _ (inv_on _ _ _ _ inv_init), by decide, by decide,
    (off_namespace_only _ (inv_on _ _ _ _ (inv_on _ _ _ _ inv_init)) 1 ".menu" "menu"
      (by decide) (by decide)).1 "click" "li" 7 (false, false)⟩

/-- C3, as the code behaves. `off('.menu')` goes through the delegation registry only: with
the direct handlers `H1` and `H2` bound by `on("click.menu", H1)` and
`on("click.other", H2)` on the element `1`, a click after `off(".menu")` calls `H1` as well
as `H2`. -/
theorem direct_listener_survives_namespace_off :
    (dispatchAt (off (on_ (on_ State.init [1] "click.menu" (.direct 11 .undefined)) [1]
        "click.other" (.direct 22 .undefined)) [1] ".menu" .none)
      { ancestors := fun x => [x], isMatch := fun _ _ => false } 1
      { type := "click", target := some 1 }).calls ≠
      [{ fn := 22, thisArg := 1, event := { type := "click", target := some 1 },
         matched := none }] ∧
    ({ fn := 11, thisArg := 1, event := { type := "click", target := some 1 },
       matched := none } : Call) ∈
      (dispatchAt (off (on_ (on_ State.init [1] "click.menu" (.direct 11 .undefined)) [1]
        "click.other" (.direct 22 .undefined)) [1] ".menu" .none)
      { ancestors := fun x => [x], isMatch := fun _ _ => false } 1
      { type := "click", target := some 1 }).calls := by
  rw [direct_namespaces_scenario 1 "click.menu" "click.other" ".menu" "click" "menu" "other"
    11 22 .undefined .undefined _ _ (by decide) (by decide) (by decide) (by decide)
    (by decide) (by decide) rfl]
  decide

/-- C3, amended. `off` without selector and handler never takes a direct listener off an
element, whatever namespace the event string names; with `on(type.A, H1)` and
`on(type.B, H2)` bound directly on one element of a fresh page, `H1 ≠ H2`, whatever their
options, a dispatch of the event after `off('.A')` calls both `H1` and `H2`, each once, and
nothing else. -/
theorem off_namespace_keeps_direct (s : State) (hs : Inv s) (arr : List Elem) (evt : String) :
    (∀ l ∈ s.listeners, (∀ d, l.callback ≠ .dispatcher d) →
      l ∈ (off s arr evt .none).listeners) ∧
    (∀ (el : Elem) (evt1 evt2 offEvt t A B : String) (h1 h2 : Fn) (o1 o2 : Opts) (dom : Dom)
      (e : Event),
      parseNamespacedEvent evt1 = { type := t, nspace := A } →
      parseNamespacedEvent evt2 = { type := t, nspace := B } →
      parseNamespacedEvent offEvt = { type := "", nspace := A } →
      t ≠ "" → A ≠ "" → h1 ≠ h2 → e.type = t →
      (dispatchAt (off (on_ (on_ State.init [el] evt1 (.direct h1 o1)) [el] evt2
          (.direct h2 o2)) [el] offEvt .none) dom el e).calls.Perm
        [{ fn := h1, thisArg := el, event := e, matched := none },
         { fn := h2, thisArg := el, event := e, matched := none }]) := by
  refine ⟨fun l hl hd => off_none_keeps s hs arr evt l hl hd, ?_⟩
  intro el evt1 evt2 offEvt t A B h1 h2 o1 o2 dom e p1 p2 pO ht hne h12 he
  rw [direct_namespaces_scenario el evt1 evt2 offEvt t A B h1 h2 o1 o2 dom e p1 p2 pO ht hne
    h12 he]
  split_ifs
  · exact List.Perm.swap _ _ _
  · exact List.Perm.refl _

/-- Witness for C3, amended: the direct listener of `H1` is still on the list; and with `H2`
bound as a capturing listener, a click on the span below the element calls `H2` and `H1`. -/
theorem off_namespace_keeps_direct_witness :
    Inv (on_ State.init [1] "click.menu" (.direct 11 .undefined)) ∧
    ({ target := 1, type := "click", callback := .direct 11, capture := false,
       once := false } : Listener) ∈
      (off (on_ State.init [1] "click.menu" (.direct 11 .undefined)) [1] ".menu"
        .none).listeners ∧
    (dispatchAt (off (on_ (on_ State.init [1] "click.menu" (.direct 11 .undefined)) [1]
        "click.other" (.direct 22 (.bool true))) [1] ".menu" .none) listDom 1
        clickOnSpan).calls.Perm
      [{ fn := 11, thisArg := 1, event := clickOnSpan, matched := none },
       { fn := 22, thisArg := 1, event := clickOnSpan, matched := none }] ∧
    (dispatchAt (off (on_ (on_ State.init [1] "click.menu" (.direct 11 .undefined)) [1]
        "click.other" (.direct 22 (.bool true))) [1] ".menu" .none) listDom 1
        clickOnSpan).calls =
      [{ fn := 22, thisArg := 1, event := clickOnSpan, matched := none },
       { fn := 11, thisArg := 1, event := clickOnSpan, matched := none }] :=
  ⟨inv_on _ _ _ _ inv_init,
   (off_namespace_keeps_direct (on_ State.init [1] "click.menu" (.direct 11 .undefined))
      (inv_on _ _ _ _ inv_init) [1] ".menu").1 _ (by decide) (by intro d h; cases h),
   (off_namespace_keeps_direct State.init inv_init [1] ".menu").2 1 "click.menu" "click.other"
      ".menu" "click" "menu" "other" 11 22 .undefined (.bool true) listDom clickOnSpan
      (by decide) (by decide) (by decide) (by decide) (by decide) (by decide) rfl,
   by decide⟩

/-- C4. A delegated registration made with `one(evt, selector, handler)`, or with `on` and
`once: true`, on a root none of whose other listeners for the event type calls the handler:
the registry holds the entry of the tuple; the first matching dispatch on the root calls the
handler once and prunes the entry; after the second matching dispatch the handler has still
been called once. -/
theorem once_fires_once (s : State) (hs : Inv s) (root : Elem) (evt sel : String) (fn : Fn)
    (opts : Opts) (dom : Dom) (e : Event) (x m : Elem)
    (ht : (parseNamespacedEvent evt).type ≠ "")
    (he : e.type = (parseNamespacedEvent evt).type) (hx : e.target = some x)
    (hm : dom.closest x sel = some m) (hc : root = m ∨ dom.contains root m = true)
    (hfresh : ∀ l ∈ s.listeners, l.target = root → l.type = (parseNamespacedEvent evt).type →
      l.callback.handler ≠ fn)
    (s1 : State)
    (h1 : s1 = one s [root] evt (.delegated sel fn opts) ∨
      (onceOf opts = true ∧ s1 = on_ s [root] evt (.delegated sel fn opts))) :
    lookup s1.delegatedHandlers root (parseNamespacedEvent evt).type sel
      (parseNamespacedEvent evt).nspace fn (captureOf opts, true) ≠ none ∧
    (dispatchAt s1 dom root e).calls.filter (fun c => decide (c.fn = fn)) =
      s.calls.filter (fun c => decide (c.fn = fn)) ++
        [{ fn := fn, thisArg := m, event := e, matched := some m }] ∧
    lookup (dispatchAt s1 dom root e).delegatedHandlers root (parseNamespacedEvent evt).type
      sel (parseNamespacedEvent evt).nspace fn (captureOf opts, true) = none ∧
    (dispatchAt (dispatchAt s1 dom root e) dom root e).calls.filter
        (fun c => decide (c.fn = fn)) =
      s.calls.filter (fun c => decide (c.fn = fn)) ++
        [{ fn := fn, thisArg := m, event := e, matched := some m }] := by
  rcases h1 with h1 | ⟨ho, h1⟩
  · have h2 : s1 = on_ s [root] evt (.delegated sel fn (oneOpts opts)) := h1
    rw [h2, on_delegated_eq _ _ _ _ _ _ ht]
    simp only [List.foldl_cons, List.foldl_nil]
    have := once_core (parseNamespacedEvent evt).type (parseNamespacedEvent evt).nspace sel fn
      (oneOpts opts) s hs root dom e x m (onceOf_oneOpts opts) he hx hm hc hfresh
    rw [captureOf_oneOpts] at this
    exact this
  · rw [h1, on_delegated_eq _ _ _ _ _ _ ht]
    simp only [List.foldl_cons, List.foldl_nil]
    exact once_core (parseNamespacedEvent evt).type (parseNamespacedEvent evt).nspace sel fn
      opts s hs root dom e x m ho he hx hm hc hfresh

/-- Witness for C4: `one("click", "li", 7)` on the list `1`, twice a click on the span `3`
inside the item `2`. -/
theorem once_fires_once_witness :
    Inv State.init ∧ (parseNamespacedEvent "click").type ≠ "" ∧
    (dispatchAt (dispatchAt (one State.init [1] "click" (.delegated "li" 7 .undefined))
        listDom 1 clickOnSpan) listDom 1 clickOnSpan).calls.filter
        (fun c => decide (c.fn = 7)) =
      State.init.calls.filter (fun c => decide (c.fn = 7)) ++
        [{ fn := 7, thisArg := 2, event := clickOnSpan, matched := some 2 }] :=
  ⟨inv_init, by decide,
   (once_fires_once State.init inv_init 1 "click" "li" 7 .undefined listDom clickOnSpan 3 2
      (by decide) (by decide) rfl (by decide) (by decide)
      (by intro l h; simp [State.init] at h) _ (Or.inl rfl)).2.2.2⟩

/-- C5. Right after `on(evt, selector, handler, options)` on a root none of whose other
listeners for the event type calls the handler, a dispatch of an event of that type whose
target is the element `x` calls the handler exactly when `x.closest(selector)` exists and is
the root or contained in it, and then once, with `this` the matched element and the
arguments `(event, matched)`. -/
theorem delegated_dispatch (s : State) (hs : Inv s) (root : Elem) (evt sel : String) (fn : Fn)
    (opts : Opts) (dom : Dom) (e : Event) (x : Elem)
    (ht : (parseNamespacedEvent evt).type ≠ "")
    (he : e.type = (parseNamespacedEvent evt).type) (hx : e.target = some x)
    (hfresh : ∀ l ∈ s.listeners, l.target = root → l.type = (parseNamespacedEvent evt).type →
      l.callback.handler ≠ fn) :
    (dispatchAt (on_ s [root] evt (.delegated sel fn opts)) dom root e).calls.filter
        (fun c => decide (c.fn = fn)) =
      s.calls.filter (fun c => decide (c.fn = fn)) ++
        (match dom.closest x sel with
         | some m =>
           if root = m ∨ dom.contains root m = true then
             [{ fn := fn, thisArg := m, event := e, matched := some m }]
           else []
         | none => []) := by
  rw [on_delegated_eq _ _ _ _ _ _ ht]
  simp only [List.foldl_cons, List.foldl_nil]
  rw [calls_after_on _ _ _ _ _ _ hs _ _ _ he hfresh]
  have cD := closure_dispatcherOf (parseNamespacedEvent evt).type
    (parseNamespacedEvent evt).nspace sel fn opts s root hs.closures
  congr 1
  simp only [callsOf, hx, cD.2.2.1, cD.2.2.2.2.1]
  cases dom.closest x sel <;> rfl

/-- Witness for C5: the handler `7` delegated on the list `1` for `li`, a click on the span
`3` inside the item `2`. -/
theorem delegated_dispatch_witness :
    Inv State.init ∧ (parseNamespacedEvent "click").type ≠ "" ∧
    (dispatchAt (on_ State.init [1] "click" (.delegated "li" 7 .undefined)) listDom 1
        clickOnSpan).calls.filter (fun c => decide (c.fn = 7)) =
      State.init.calls.filter (fun c => decide (c.fn = 7)) ++
        (match listDom.closest 3 "li" with
         | some m =>
           if 1 = m ∨ listDom.contains 1 m = true then
             [{ fn := 7, thisArg := m, event := clickOnSpan, matched := some m }]
           else []
         | none => []) :=
  ⟨inv_init, by decide,
   delegated_dispatch State.init inv_init 1 "click" "li" 7 .undefined listDom clickOnSpan 3
     (by decide) (by decide) rfl (by intro l h; simp [State.init] at h)⟩

/-- C8, as the code behaves. An entry registered with `capture: true` is not removed by
`off(evt, selector, handler)` without options: a flag that `options` does not supply is not
always ignored, the capture flag then counts as `false`. -/
theorem off_without_options_keeps_capture_entry :
    lookup (off (on_ State.init [1] "click" (.delegated "li" 7 (.obj (.bool true) .absent)))
      [1] "click" (.delegated "li" 7 .undefined)).delegatedHandlers 1 "click" "li" "" 7
      (true, false) ≠ none := by
  decide

/-- C8, amended. `off(evt, selector, handler, options)` on a root removes exactly the
entries of (event type, selector, handler) in the parsed namespace (in every namespace when
there is none) whose capture flag is the one `options` gives (`false` when it gives none)
and whose once flag is the one `options` gives when that is a boolean (any once flag
otherwise); their dispatchers are uninstalled and every other listener stays. -/
theorem off_handler_exact (s : State) (hs : Inv s) (root : Elem) (evt sel : String) (fn : Fn)
    (opts : Opts) (ht : (parseNamespacedEvent evt).type ≠ "") :
    (∀ r t sel1 ns fn1 key,
      (r = root ∧ t = (parseNamespacedEvent evt).type ∧ sel1 = sel ∧
        ((parseNamespacedEvent evt).nspace = "" ∨ ns = (parseNamespacedEvent evt).nspace) ∧
        fn1 = fn ∧ key.1 = captureOf opts ∧
        (onceSpecified opts = true → key.2 = onceOf opts)) →
      lookup (off s [root] evt (.delegated sel fn opts)).delegatedHandlers r t sel1 ns fn1 key
        = none ∧
      ∀ d, lookup s.delegatedHandlers r t sel1 ns fn1 key = some d →
        ∀ l ∈ (off s [root] evt (.delegated sel fn opts)).listeners,
          l.callback ≠ .dispatcher d) ∧
    (∀ r t sel1 ns fn1 key,
      ¬ (r = root ∧ t = (parseNamespacedEvent evt).type ∧ sel1 = sel ∧
        ((parseNamespacedEvent evt).nspace = "" ∨ ns = (parseNamespacedEvent evt).nspace) ∧
        fn1 = fn ∧ key.1 = captureOf opts ∧
        (onceSpecified opts = true → key.2 = onceOf opts)) →
      lookup (off s [root] evt (.delegated sel fn opts)).delegatedHandlers r t sel1 ns fn1 key
        = lookup s.delegatedHandlers r t sel1 ns fn1 key ∧
      ∀ d, lookup s.delegatedHandlers r t sel1 ns fn1 key = some d →
        ∀ l ∈ s.listeners, l.callback = .dispatcher d →
          l ∈ (off s [root] evt (.delegated sel fn opts)).listeners) := by
  rw [off_delegated_eq _ _ _ _ _ _ ht]
  simp only [List.foldl_cons, List.foldl_nil]
  constructor
  · intro r t sel1 ns fn1 key hR
    have hR4 := (removed4_iff root _ _ sel fn opts r t sel1 ns fn1 key).2 hR
    refine ⟨by rw [lookup_offDelegatedRoot, if_pos hR4], ?_⟩
    intro d hd
    obtain ⟨h1, h2, h3, h4, h5, h6⟩ := hR4
    subst h1 h2 h3 h5
    exact offDelegatedRoot_uninstalled _ _ _ _ _ s hs _ ns key d hd h4 h6
  · intro r t sel1 ns fn1 key hR
    have hR4 : ¬ Removed4 root (parseNamespacedEvent evt).type
        (parseNamespacedEvent evt).nspace sel fn opts r t sel1 ns fn1 key :=
      fun h => hR ((removed4_iff root _ _ sel fn opts r t sel1 ns fn1 key).1 h)
    refine ⟨by rw [lookup_offDelegatedRoot, if_neg hR4], ?_⟩
    intro d hd l hl hcb
    apply offDelegatedRoot_kept _ _ _ _ _ s hs root l hl
    intro d1 hd1
    rw [hcb] at hd1
    simp only [Callback.dispatcher.injEq] at hd1
    subst hd1
    obtain ⟨c1, c2, c3, c4, c5, c6⟩ := hs.closures _ _ _ _ _ _ _ hd
    rw [c1, c2, c3, c4, c5, c6]
    rintro ⟨g1, g2, g3, g4, g5, g6⟩
    exact hR4 ⟨g1.symm, g2.symm, g3.symm, g4, g5.symm, g6⟩

/-- Witness for C8, amended: an entry registered with `once`, removed without options. -/
theorem off_handler_exact_witness :
    Inv (one State.init [1] "click" (.delegated "li" 7 .undefined)) ∧
    (parseNamespacedEvent "click").type ≠ "" ∧
    lookup (off (one State.init [1] "click" (.delegated "li" 7 .undefined)) [1] "click"
      (.delegated "li" 7 .undefined)).delegatedHandlers 1 "click" "li" "" 7 (false, true)
      = none :=
  ⟨inv_one _ _ _ _ inv_init, by decide,
   ((off_handler_exact (one State.init [1] "click" (.delegated "li" 7 .undefined))
      (inv_one _ _ _ _ inv_init) 1 "click" "li" 7 .undefined (by decide)).1 1 "click" "li" ""
      7 (false, true) (by decide)).1⟩

/-- C9, as the code behaves. `off("click.menu")` has a non-empty parsed event type and still
leaves the entry registered under `click` in the namespace `other`. -/
theorem off_type_with_namespace_keeps_other_namespace :
    (parseNamespacedEvent "click.menu").type ≠ "" ∧
    lookup (off (on_ State.init [1] "click.other" (.delegated "li" 8 .undefined)) [1]
      "click.menu" .none).delegatedHandlers 1 "click" "li" "other" 8 (false, false) ≠ none := by
  decide

/-- C9, amended. `off(evt)` with a non-empty parsed event type removes, on the root, every
entry under that event type when `evt` carries no namespace, and only the entries of the
parsed namespace under that event type otherwise; their dispatchers are uninstalled; every
other entry, in particular under every other event type, and every other listener stays. -/
theorem off_event_type (s : State) (hs : Inv s) (root : Elem) (evt : String)
    (ht : (parseNamespacedEvent evt).type ≠ "") :
    (∀ sel ns fn key,
      ((parseNamespacedEvent evt).nspace = "" ∨ ns = (parseNamespacedEvent evt).nspace) →
      lookup (off s [root] evt .none).delegatedHandlers root (parseNamespacedEvent evt).type
        sel ns fn key = none ∧
      ∀ d, lookup s.delegatedHandlers root (parseNamespacedEvent evt).type sel ns fn key
          = some d →
        ∀ l ∈ (off s [root] evt .none).listeners, l.callback ≠ .dispatcher d) ∧
    (∀ r t sel ns fn key,
      ¬ (r = root ∧ t = (parseNamespacedEvent evt).type ∧
        ((parseNamespacedEvent evt).nspace = "" ∨ ns = (parseNamespacedEvent evt).nspace)) →
      lookup (off s [root] evt .none).delegatedHandlers r t sel ns fn key =
        lookup s.delegatedHandlers r t sel ns fn key ∧
      ∀ d, lookup s.delegatedHandlers r t sel ns fn key = some d →
        ∀ l ∈ s.listeners, l.callback = .dispatcher d →
          l ∈ (off s [root] evt .none).listeners) := by
  rw [off_none_eq _ _ _ (ne_empty_of_type_ne evt ht)]
  simp only [List.foldl_cons, List.foldl_nil, if_neg ht]
  constructor
  · intro sel ns fn key hns
    have hns1 : nsMatches (parseNamespacedEvent evt).nspace ns := hns.imp id Eq.symm
    refine ⟨by rw [lookup_offAllRoot _ _ _ _ hs.wf, if_pos ⟨rfl, Or.inr rfl, hns1⟩], ?_⟩
    intro d hd
    exact offAllRoot_uninstalled _ _ _ s hs root _ sel ns fn key d hd (Or.inr rfl) hns1
  · intro r t sel ns fn key hR
    have hR1 : ¬ Removed1 root (parseNamespacedEvent evt).type (parseNamespacedEvent evt).type
        (parseNamespacedEvent evt).nspace r t ns := by
      rintro ⟨h1, h2 | h2, h3⟩
      · exact ht h2.1
      · exact hR ⟨h1.symm, h2.symm, h3.imp id Eq.symm⟩
    refine ⟨by rw [lookup_offAllRoot _ _ _ _ hs.wf, if_neg hR1], ?_⟩
    intro d hd l hl hcb
    apply offAllRoot_kept _ _ _ s hs root l hl
    intro d1 hd1
    rw [hcb] at hd1
    simp only [Callback.dispatcher.injEq] at hd1
    subst hd1
    obtain ⟨c1, c2, -, c4, -, -⟩ := hs.closures _ _ _ _ _ _ _ hd
    rw [c1, c2, c4]
    rintro ⟨g1, g2, g3⟩
    exact hR1 ⟨g1.symm, g2, g3⟩

/-- Witness for C9, amended: `off("click")` removes the entry of a namespaced registration. -/
theorem off_event_type_witness :
    Inv (on_ State.init [1] "click.other" (.delegated "li" 8 .undefined)) ∧
    (parseNamespacedEvent "click").type ≠ "" ∧
    lookup (off (on_ State.init [1] "click.other" (.delegated "li" 8 .undefined)) [1] "click"
      .none).delegatedHandlers 1 (parseNamespacedEvent "click").type "li" "other" 8
      (false, false) = none :=
  ⟨inv_on _ _ _ _ inv_init, by decide,
   ((off_event_type (on_ State.init [1] "click.other" (.delegated "li" 8 .undefined))
      (inv_on _ _ _ _ inv_init) 1 "click" (by decide)).1 "li" "other" 8 (false, false)
      (by decide)).1⟩

/-- C10. `off(evt, selector)` with a non-empty parsed event type removes, on the root, every
entry of that (event type, selector) pair, in every namespace when `evt` carries none and
in the parsed namespace otherwise, and uninstalls their dispatchers; every other entry, in
particular of every other selector and every other event type, stays registered, its
listener stays installed, and a dispatch on the root still makes its calls. -/
theorem off_selector (s : State) (hs : Inv s) (root : Elem) (evt sel : String)
    (ht : (parseNamespacedEvent evt).type ≠ "") :
    (∀ ns fn key,
      ((parseNamespacedEvent evt).nspace = "" ∨ ns = (parseNamespacedEvent evt).nspace) →
      lookup (off s [root] evt (.selector sel)).delegatedHandlers root
        (parseNamespacedEvent evt).type sel ns fn key = none ∧
      ∀ d, lookup s.delegatedHandlers root (parseNamespacedEvent evt).type sel ns fn key
          = some d →
        ∀ l ∈ (off s [root] evt (.selector sel)).listeners, l.callback ≠ .dispatcher d) ∧
    (∀ r t sel1 ns fn key,
      ¬ (r = root ∧ t = (parseNamespacedEvent evt).type ∧ sel1 = sel ∧
        ((parseNamespacedEvent evt).nspace = "" ∨ ns = (parseNamespacedEvent evt).nspace)) →
      lookup (off s [root] evt (.selector sel)).delegatedHandlers r t sel1 ns fn key =
        lookup s.delegatedHandlers r t sel1 ns fn key ∧
      ∀ d, lookup s.delegatedHandlers r t sel1 ns fn key = some d →
        ∀ l ∈ s.listeners, l.callback = .dispatcher d →
          l ∈ (off s [root] evt (.selector sel)).listeners ∧
          ∀ (dom : Dom) (e : Event), l.target = root → l.type = e.type →
            ∀ c ∈ callsOf dom root e l.callback,
              c ∈ (dispatchAt (off s [root] evt (.selector sel)) dom root e).calls) := by
  rw [off_selector_eq _ _ _ _ ht]
  simp only [List.foldl_cons, List.foldl_nil]
  constructor
  · intro ns fn key hns
    have hns1 : nsMatches (parseNamespacedEvent evt).nspace ns := hns.imp id Eq.symm
    refine ⟨by rw [lookup_offSelectorRoot, if_pos ⟨rfl, rfl, rfl, hns1⟩], ?_⟩
    intro d hd
    exact offSelectorRoot_uninstalled _ _ _ s hs root ns fn key d hd hns1
  · intro r t sel1 ns fn key hR
    have hR1 : ¬ Removed3 root (parseNamespacedEvent evt).type
        (parseNamespacedEvent evt).nspace sel r t sel1 ns := by
      rintro ⟨h1, h2, h3, h4⟩
      exact hR ⟨h1.symm, h2.symm, h3.symm, h4.imp id Eq.symm⟩
    refine ⟨by rw [lookup_offSelectorRoot, if_neg hR1], ?_⟩
    intro d hd l hl hcb
    have hkept : l ∈ (offSelectorRoot (parseNamespacedEvent evt).type
        (parseNamespacedEvent evt).nspace sel s root).listeners := by
      apply offSelectorRoot_kept _ _ _ s hs root l hl
      intro d1 hd1
      rw [hcb] at hd1
      simp only [Callback.dispatcher.injEq] at hd1
      subst hd1
      obtain ⟨c1, c2, c3, c4, -, -⟩ := hs.closures _ _ _ _ _ _ _ hd
      rw [c1, c2, c3, c4]
      rintro ⟨g1, g2, g3, g4⟩
      exact hR1 ⟨g1.symm, g2.symm, g3.symm, g4⟩
    refine ⟨hkept, ?_⟩
    intro dom e h1 h2 c hc
    rw [mem_dispatchAt_calls]
    exact Or.inr ⟨l, hkept, h1, h2, hc⟩

/-- Witness for C10: of the handlers delegated for `li` and for `span`, `off("click", "li")`
removes the first. -/
theorem off_selector_witness :
    Inv (on_ (on_ State.init [1] "click" (.delegated "li" 7 .undefined)) [1] "click"
      (.delegated "span" 8 .undefined)) ∧
    (parseNamespacedEvent "click").type ≠ "" ∧
    lookup (off (on_ (on_ State.init [1] "click" (.delegated "li" 7 .undefined)) [1] "click"
      (.delegated "span" 8 .undefined)) [1] "click" (.selector "li")).delegatedHandlers 1
      (parseNamespacedEvent "click").type "li" "" 7 (false, false) = none :=
  ⟨inv_on _ _ _ _ (inv_on _ _ _ _ inv_init), by decide,
   ((off_selector (on_ (on_ State.init [1] "click" (.delegated "li" 7 .undefined)) [1] "click"
      (.delegated "span" 8 .undefined)) (inv_on _ _ _ _ (inv_on _ _ _ _ inv_init)) 1 "click"
      "li" (by decide)).1 "" 7 (false, false) (by decide)).1⟩

/-- C6. On a root without entries in a well-formed state, after any sequence of delegated
registrations, removing them all (by `off` with the arguments of each registration, or by
`off(type)` for each registered event type) leaves the root without a key in
`delegatedHandlers`. -/
theorem register_remove_roundtrip (s : State) (hs : Inv s) (root : Elem)
    (h0 : JsMap.get s.delegatedHandlers root = none) (regs : List Registration) :
    (∀ rms : List Registration, (∀ g ∈ regs, g ∈ rms) →
      JsMap.get (removeEach (registerAll s root regs) root rms).delegatedHandlers root
        = none) ∧
    (∀ evts : List String, (∀ g ∈ regs, (parseNamespacedEvent g.evt).type ∈ evts) →
      JsMap.get (removeTypes (registerAll s root regs) root evts).delegatedHandlers root
        = none) := by
  have hreg : ∀ t sel ns fn key,
      lookup (registerAll s root regs).delegatedHandlers root t sel ns fn key ≠ none →
      ∃ g ∈ regs, g.Covers t sel ns fn key := by
    intro t sel ns fn key h
    refine lookup_registerAll root regs regs s (fun g hg => hg) ?_ t sel ns fn key h
    intro t1 sel1 ns1 fn1 key1 h1
    exact absurd (lookup_eq_none_of_get_none _ _ _ _ _ _ _ h0) h1
  have i1 := inv_registerAll s root regs hs
  constructor
  · intro rms hcov
    apply get_none_of_lookup_none _ _ (inv_removeEach _ root rms i1).noEmpty
    intro t sel ns fn key
    by_contra hne
    obtain ⟨h1, h2⟩ := lookup_removeEach root rms _ t sel ns fn key hne
    obtain ⟨g, hg, hc⟩ := hreg t sel ns fn key h1
    exact h2 g (hcov g hg) hc
  · intro evts hcov
    apply get_none_of_lookup_none _ _ (inv_removeTypes _ root evts i1).noEmpty
    intro t sel ns fn key
    by_contra hne
    obtain ⟨h1, h2⟩ := lookup_removeTypes root evts _ i1 t sel ns fn key hne
    obtain ⟨g, hg, hc⟩ := hreg t sel ns fn key h1
    obtain ⟨c1, c2, -⟩ := hc
    apply h2 _ (c2 ▸ c1) (c2 ▸ hcov g hg)
    rw [c2]
    exact parse_type_idem g.evt

/-- Witness for C6: two registrations on the root `1`, removed one by one. -/
theorem register_remove_roundtrip_witness :
    Inv State.init ∧ JsMap.get State.init.delegatedHandlers 1 = none ∧
    JsMap.get (removeEach (registerAll State.init 1
        [{ evt := "click.menu", selector := "li", fn := 7, opts := .undefined },
         { evt := "keydown", selector := "span", fn := 8, opts := .bool true }]) 1
        [{ evt := "click.menu", selector := "li", fn := 7, opts := .undefined },
         { evt := "keydown", selector := "span", fn := 8, opts := .bool true }]).delegatedHandlers
      1 = none :=
  ⟨inv_init, rfl,
   (register_remove_roundtrip State.init inv_init 1 rfl
      [{ evt := "click.menu", selector := "li", fn := 7, opts := .undefined },
       { evt := "keydown", selector := "span", fn := 8, opts := .bool true }]).1 _
      (fun _ hg => hg)⟩

/-- C7. In every state a page can reach with `on`, `one`, `off` and event deliveries, and
after any further such action, the registry holds no empty container at any level. -/
theorem registry_has_no_empty_container (s : State) (h : Reachable s) :
    NoEmpty s.delegatedHandlers ∧ ∀ a : Action, NoEmpty (step s a).delegatedHandlers :=
  ⟨(inv_of_reachable s h).noEmpty, fun a => (inv_step s a (inv_of_reachable s h)).noEmpty⟩

/-- Witness for C7: the state after a `once` registration and a matching click. -/
theorem registry_has_no_empty_container_witness :
    Reachable (step (step State.init (.callOne [1] "click" (.delegated "li" 7 .undefined)))
      (.dispatch listDom 1 clickOnSpan)) ∧
    NoEmpty (step (step State.init (.callOne [1] "click" (.delegated "li" 7 .undefined)))
      (.dispatch listDom 1 clickOnSpan)).delegatedHandlers :=
  ⟨Reachable.step _ _ (Reachable.step _ _ Reachable.init),
   (registry_has_no_empty_container _
      (Reachable.step _ _ (Reachable.step _ _ Reachable.init))).1⟩

/-- C11. Calling `on` a second time with the identical delegated arguments changes nothing:
the state (registry, listener lists, closure counter) is the one after the first call, and
the dispatcher handed to `addEventListener` is the one of the first call, found in the
registry under the tuple. -/
theorem on_twice_is_idempotent (s : State) (root : Elem) (evt sel : String) (fn : Fn)
    (opts : Opts) :
    on_ (on_ s [root] evt (.delegated sel fn opts)) [root] evt (.delegated sel fn opts) =
      on_ s [root] evt (.delegated sel fn opts) ∧
    ((parseNamespacedEvent evt).type ≠ "" →
      dispatcherOf (parseNamespacedEvent evt).type (parseNamespacedEvent evt).type
          (parseNamespacedEvent evt).nspace sel fn opts
          (on_ s [root] evt (.delegated sel fn opts)) root =
        dispatcherOf (parseNamespacedEvent evt).type (parseNamespacedEvent evt).type
          (parseNamespacedEvent evt).nspace sel fn opts s root ∧
      lookup (on_ s [root] evt (.delegated sel fn opts)).delegatedHandlers root
          (parseNamespacedEvent evt).type sel (parseNamespacedEvent evt).nspace fn
          (captureOf opts, onceOf opts) =
        some (dispatcherOf (parseNamespacedEvent evt).type (parseNamespacedEvent evt).type
          (parseNamespacedEvent evt).nspace sel fn opts s root)) := by
  by_cases ht : (parseNamespacedEvent evt).type = ""
  · refine ⟨?_, fun h => absurd ht h⟩
    rw [on_eq_of_type_empty _ _ _ _ ht, on_eq_of_type_empty _ _ _ _ ht]
  · rw [on_delegated_eq _ _ _ _ _ _ ht, on_delegated_eq _ _ _ _ _ _ ht]
    simp only [List.foldl_cons, List.foldl_nil]
    exact ⟨onDelegatedRoot_idem _ _ _ _ _ _ _,
      fun _ => ⟨dispatcherOf_idem _ _ _ _ _ _ _, lookup_onDelegatedRoot_self _ _ _ _ _ _ _⟩⟩

/-- C15. With a namespace-only event string, `on` and `one` leave the state as it is,
whatever the selection and the other arguments: no listener is added and the registry is
not touched. -/
theorem namespace_only_registers_nothing (s : State) (arr : List Elem) (evt : String)
    (args : OnArgs) (h : NamespaceOnly evt) :
    on_ s arr evt args = s ∧ one s arr evt args = s := by
  have ht : (parseNamespacedEvent evt).type = "" := by rw [parse_namespaceOnly evt h]
  refine ⟨on_eq_of_type_empty _ _ _ _ ht, ?_⟩
  cases args with
  | direct fn opts => exact on_eq_of_type_empty s arr evt (.direct fn (oneOpts opts)) ht
  | delegated sel fn opts =>
    exact on_eq_of_type_empty s arr evt (.delegated sel fn (oneOpts opts)) ht
  | other => rfl

/-- Witness for C15: `one(".menu", "li", 7)`. -/
theorem namespace_only_registers_nothing_witness :
    NamespaceOnly ".menu" ∧
    on_ State.init [1] ".menu" (.delegated "li" 7 .undefined) = State.init ∧
    one State.init [1] ".menu" (.delegated "li" 7 .undefined) = State.init :=
  ⟨by decide,
   namespace_only_registers_nothing State.init [1] ".menu" (.delegated "li" 7 .undefined)
     (by decide)⟩

/-- C17. `one` is `on` with the once flag: for every options value, `one` with `options`
gives the state `on` gives with any options `o` of the same capture flag and a true once
flag, for delegated and for direct handlers. -/
theorem one_is_on_with_once (s : State) (arr : List Elem) (evt sel : String) (fn : Fn)
    (opts o : Opts) (hc : captureOf o = captureOf opts) (ho : onceOf o = true) :
    one s arr evt (.delegated sel fn opts) = on_ s arr evt (.delegated sel fn o) ∧
    one s arr evt (.direct fn opts) = on_ s arr evt (.direct fn o) :=
  ⟨on_congr_delegated s arr evt sel fn (oneOpts opts) o
      ((captureOf_oneOpts opts).trans hc.symm) ((onceOf_oneOpts opts).trans ho.symm),
   on_congr_direct s arr evt fn (oneOpts opts) o
      ((captureOf_oneOpts opts).trans hc.symm) ((onceOf_oneOpts opts).trans ho.symm)⟩

/-- Witness for C17: options that say `once: false`. -/
theorem one_is_on_with_once_witness :
    captureOf (.obj (.bool true) (.bool true)) = captureOf (.obj (.bool true) (.bool false)) ∧
    onceOf (.obj (.bool true) (.bool true)) = true ∧
    one State.init [1] "click" (.delegated "li" 7 (.obj (.bool true) (.bool false))) =
      on_ State.init [1] "click" (.delegated "li" 7 (.obj (.bool true) (.bool true))) :=
  ⟨rfl, rfl,
   (one_is_on_with_once State.init [1] "click" "li" 7 (.obj (.bool true) (.bool false))
      (.obj (.bool true) (.bool true)) rfl rfl).1⟩

/-- C12. For an event string that is not of the namespace-only form and whose text before
the first dot is not a recognized base event name, `parseNamespacedEvent` returns the whole
string as the type and no namespace, and `on(evt, handler)` installs the handler on every
element of the selection for the whole string as the event type. -/
theorem custom_event_name_is_kept (evt : String) (h1 : ¬ NamespaceOnly evt)
    (h2 : String.mk (evt.data.take (evt.data.indexOf '.')) ∉ domEventNames) :
    parseNamespacedEvent evt = { type := evt, nspace := "" } ∧
    (evt ≠ "" → ∀ (s : State) (arr : List Elem) (fn : Fn) (opts : Opts),
      on_ s arr evt (.direct fn opts) =
        arr.foldl (fun st el =>
          { st with listeners :=
              addEventListener st.listeners el evt (.direct fn) opts }) s) := by
  have hp := parse_not_recognized evt h1 h2
  refine ⟨hp, ?_⟩
  intro hne s arr fn opts
  have ht : (parseNamespacedEvent evt).type ≠ "" := by rw [hp]; exact hne
  rw [on_direct_eq _ _ _ _ _ ht, hp]
  rfl

/-- Witness for C12: the custom event name `hello.world`. -/
theorem custom_event_name_is_kept_witness :
    ¬ NamespaceOnly "hello.world" ∧
    String.mk ("hello.world".data.take ("hello.world".data.indexOf '.')) ∉ domEventNames ∧
    parseNamespacedEvent "hello.world" = { type := "hello.world", nspace := "" } :=
  ⟨by decide, by decide, (custom_event_name_is_kept "hello.world" (by decide) (by decide)).1⟩

/-- C13. For a recognized base event name `b` and a non-empty string `ns`,
`parseNamespacedEvent(b + "." + ns)` returns the type `b` and the namespace `ns`, the whole
remainder after the first dot. -/
theorem recognized_base_is_namespaced (b ns : String) (hb : b ∈ domEventNames)
    (hns : ns ≠ "") :
    parseNamespacedEvent (b ++ "." ++ ns) = { type := b, nspace := ns } :=
  parse_base_dot_ns b ns hb hns

/-- Witness for C13: a namespace that contains a dot. -/
theorem recognized_base_is_namespaced_witness :
    "click" ∈ domEventNames ∧ "menu.sub" ≠ "" ∧
    parseNamespacedEvent ("click" ++ "." ++ "menu.sub") =
      { type := "click", nspace := "menu.sub" } :=
  ⟨by decide, by decide, recognized_base_is_namespaced "click" "menu.sub" (by decide)
    (by decide)⟩

/-- C14. For a non-empty string `ns`, `parseNamespacedEvent("." + ns)` returns the empty
type and the namespace `ns`. -/
theorem leading_dot_is_namespace_only (ns : String) (hns : ns ≠ "") :
    parseNamespacedEvent ("." ++ ns) = { type := "", nspace := ns } :=
  parse_dot_ns ns hns

/-- Witness for C14: a namespace made of dots. -/
theorem leading_dot_is_namespace_only_witness :
    ".." ≠ "" ∧ parseNamespacedEvent ("." ++ "..") = { type := "", nspace := ".." } :=
  ⟨by decide, leading_dot_is_namespace_only ".." (by decide)⟩

/-- C16. In a well-formed state, an `off(evt, selector, handler, options)`,
`off(evt, selector)` or `off(evt)` call on a root whose discriminators match no registry
entry returns the state it was given: registry and listener lists are left as they
were. -/
theorem off_unregistered_is_noop (s : State) (hs : Inv s) (root : Elem) (evt : String) :
    (∀ sel fn opts,
      (∀ ns key,
        ((parseNamespacedEvent evt).nspace = "" ∨ ns = (parseNamespacedEvent evt).nspace) →
        key.1 = captureOf opts → (onceSpecified opts = true → key.2 = onceOf opts) →
        lookup s.delegatedHandlers root (parseNamespacedEvent evt).type sel ns fn key = none) →
      off s [root] evt (.delegated sel fn opts) = s) ∧
    (∀ sel,
      (∀ ns fn key,
        ((parseNamespacedEvent evt).nspace = "" ∨ ns = (parseNamespacedEvent evt).nspace) →
        lookup s.delegatedHandlers root (parseNamespacedEvent evt).type sel ns fn key = none) →
      off s [root] evt (.selector sel) = s) ∧
    ((∀ t sel ns fn key,
        (((parseNamespacedEvent evt).type = "" ∧ (parseNamespacedEvent evt).nspace ≠ "") ∨
          (parseNamespacedEvent evt).type = t) →
        ((parseNamespacedEvent evt).nspace = "" ∨ ns = (parseNamespacedEvent evt).nspace) →
        lookup s.delegatedHandlers root t sel ns fn key = none) →
      off s [root] evt .none = s) := by
  refine ⟨?_, ?_, ?_⟩
  · intro sel fn opts h
    by_cases ht : (parseNamespacedEvent evt).type = ""
    · exact off_delegated_of_type_empty _ _ _ _ _ _ ht
    · rw [off_delegated_eq _ _ _ _ _ _ ht]
      simp only [List.foldl_cons, List.foldl_nil]
      apply offDelegatedRoot_noop _ _ _ _ _ _ _ hs.noEmpty
      intro ns key hns hk
      exact h ns key (hns.imp id Eq.symm) hk.1 ((mem_onceValues_iff opts key.2).1 hk.2)
  · intro sel h
    by_cases ht : (parseNamespacedEvent evt).type = ""
    · exact off_selector_of_type_empty _ _ _ _ ht
    · rw [off_selector_eq _ _ _ _ ht]
      simp only [List.foldl_cons, List.foldl_nil]
      apply offSelectorRoot_noop _ _ _ _ _ hs.noEmpty
      intro ns fn key hns
      exact h ns fn key (hns.imp id Eq.symm)
  · intro h
    by_cases he : evt = ""
    · rw [he, off_empty]
    · rw [off_none_eq _ _ _ he]
      simp only [List.foldl_cons, List.foldl_nil]
      apply offAllRoot_noop _ _ _ _ hs
      intro t sel ns fn key htc hns
      refine h t sel ns fn key ?_ (hns.imp id Eq.symm)
      rcases htc with htc | htc
      · exact Or.inl htc
      · by_cases ht : (parseNamespacedEvent evt).type = ""
        · left
          refine ⟨ht, ?_⟩
          rcases parse_type_empty evt ht with h1 | h1
          · exact absurd h1 he
          · exact h1
        · rw [if_neg ht] at htc
          exact Or.inr htc

/-- Witness for C16: `off("keydown")` on a root that only has a click handler. -/
theorem off_unregistered_is_noop_witness :
    Inv (on_ State.init [1] "click" (.delegated "li" 7 .undefined)) ∧
    off (on_ State.init [1] "click" (.delegated "li" 7 .undefined)) [1] "keydown" .none =
      on_ State.init [1] "click" (.delegated "li" 7 .undefined) :=
  ⟨inv_on _ _ _ _ inv_init,
   (off_unregistered_is_noop (on_ State.init [1] "click" (.delegated "li" 7 .undefined))
      (inv_on _ _ _ _ inv_init) 1 "keydown").2.2 (by
        intro t sel ns fn key h1 _
        have ht : t = "keydown" := by
          rcases h1 with h1 | h1
          · exact absurd h1.1 (by decide)
          · exact h1.symm
        subst ht
        rw [on_delegated_eq _ _ _ _ _ _ (by decide)]
        simp only [List.foldl_cons, List.foldl_nil]
        rw [lookup_onDelegatedRoot, if_neg]
        · simp [State.init, lookup]
        · rintro ⟨-, h2, -⟩
          revert h2
          decide)⟩

/-- C18: a name of the DOM-property list that is also a style name and that no earlier rule
resolves follows the first element of the selection. When the first element has the property,
the accessor reads it from the first element and writes it on every element; when it lacks
the property, the accessor reads the computed style of the first element and writes the
inline style of every element, and assigns no property. -/
theorem overlap_name_follows_first_element (pf : Platform) (target : MethodTable)
    (prop : String) (el : Elem) (rest : List Elem) (v : Arg) (pg : Page)
    (hdom : prop ∈ domProperties) (hcss : pf.cssProps prop = true)
    (htab : JsMap.get target prop = none) (hv : v ≠ .undefined) :
    (pf.hasProp el prop = true →
      Proxy.get pf target prop (some el) = .domProperty prop ∧
      (Proxy.get pf target prop (some el)).call pf (el :: rest) [] pg =
        some (pg, .prop el prop) ∧
      (Proxy.get pf target prop (some el)).call pf (el :: rest) [v] pg =
        some ({ pg with effects := pg.effects ++
                  (el :: rest).map fun e => Effect.setProp e prop v }, .this)) ∧
    (pf.hasProp el prop = false →
      Proxy.get pf target prop (some el) = .cssProperty prop ∧
      (Proxy.get pf target prop (some el)).call pf (el :: rest) [] pg =
        some (pg, .computedStyle el prop) ∧
      (Proxy.get pf target prop (some el)).call pf (el :: rest) [v] pg =
        some ({ pg with effects := pg.effects ++
                  (el :: rest).map fun e => Effect.setStyle e prop v }, .this) ∧
      ∀ pg1 r, (Proxy.get pf target prop (some el)).call pf (el :: rest) [v] pg =
          some (pg1, r) →
        ∀ e w, Effect.setProp e prop w ∈ pg1.effects → Effect.setProp e prop w ∈ pg.effects) := by
  obtain ⟨hev, hal, hdm⟩ := tables_disjoint.2 prop hdom
  have hget : ∀ b, pf.hasProp el prop = b →
      Proxy.get pf target prop (some el) =
        if b = true then .domProperty prop else .cssProperty prop := by
    intro b hb
    rw [proxyGet_of_not_inTarget pf target prop _ htab (tables_not_inherited.2.2.2 prop hdom)]
    simp only [hal, Option.isSome_none, Bool.or_false, decide_eq_true_eq, hev, false_and,
      if_false, hdm, hdom, not_true_eq_false, hb, hcss, if_true]
  constructor
  · intro h
    rw [hget true h]
    refine ⟨rfl, rfl, ?_⟩
    simp [Resolved.call, callDomProperty, hv]
  · intro h
    rw [hget false h]
    refine ⟨by simp, by simp [Resolved.call, callCssProperty], ?_, ?_⟩
    · simp [Resolved.call, callCssProperty, hv]
    · intro pg1 r hcall e w hmem
      simp [Resolved.call, callCssProperty, hv] at hcall
      rw [← hcall.1] at hmem
      simpa using hmem

/-- Witness for C18: `volume` on the audio element `1` and on the plain block `2`. -/
theorem overlap_name_follows_first_element_witness :
    "volume" ∈ domProperties ∧ mediaPlatform.cssProps "volume" = true ∧
    JsMap.get pt "volume" = none ∧
    Proxy.get mediaPlatform pt "volume" (some 1) = .domProperty "volume" ∧
    Proxy.get mediaPlatform pt "volume" (some 2) = .cssProperty "volume" ∧
    (Proxy.get mediaPlatform pt "volume" (some 2)).call mediaPlatform [2, 1] [.other 5]
        { events := State.init, effects := [] } =
      some ({ events := State.init,
              effects := [.setStyle 2 "volume" (.other 5), .setStyle 1 "volume" (.other 5)] },
            .this) :=
  ⟨by decide, by decide, by decide,
   ((overlap_name_follows_first_element mediaPlatform pt "volume" 1 [] (.other 5)
      { events := State.init, effects := [] } (by decide) (by decide) (by decide)
      (by decide)).1 (by decide)).1,
   ((overlap_name_follows_first_element mediaPlatform pt "volume" 2 [1] (.other 5)
      { events := State.init, effects := [] } (by decide) (by decide) (by decide)
      (by decide)).2 (by decide)).1,
   ((overlap_name_follows_first_element mediaPlatform pt "volume" 2 [1] (.other 5)
      { events := State.init, effects := [] } (by decide) (by decide) (by decide)
      (by decide)).2 (by decide)).2.2.1⟩

/-- C19: a name that is an event shortcut and a DOM method, and that the method table does
not define, resolves to a function that looks at its arguments. Without arguments it calls
the DOM method on the selection and binds nothing; with one function it binds the function
to the event on every element through `on` and calls no DOM method; with any other arguments
it calls the DOM method, which takes no parameter. For the prototype of the library these
names are `focus`, `blur`, `click`, `submit`, `reset` and `load`. -/
theorem collision_member_dispatches_on_arguments (pf : Platform) (target : MethodTable)
    (prop : String) (first : Option Elem) (arr : List Elem) (pg : Page)
    (hev : prop ∈ standardEvents ∨ (JsMap.get aliases prop).isSome = true)
    (hdm : prop ∈ domMethodNames) (htab : JsMap.get target prop = none) :
    Proxy.get pf target prop first = .collision prop prop ∧
    (Proxy.get pf target prop first).call pf arr [] pg =
      some ({ pg with effects := pg.effects ++ domMethods pf prop arr }, .this) ∧
    (∀ f, ∃ pg1, (Proxy.get pf target prop first).call pf arr [.fn f] pg = some (pg1, .this) ∧
      pg1.effects = pg.effects ∧
      pg1.events = on_ pg.events arr prop (.direct f .undefined) ∧
      pg1.events.delegatedHandlers = pg.events.delegatedHandlers ∧
      (∀ el ∈ arr, ∃ l ∈ pg1.events.listeners,
        l.target = el ∧ l.type = prop ∧ l.callback = .direct f) ∧
      (∀ l ∈ pg1.events.listeners, l ∈ pg.events.listeners ∨
        (l.target ∈ arr ∧ l.type = prop ∧ l.callback = .direct f))) ∧
    (∀ args, args ≠ [] → (∀ f, args ≠ [.fn f]) →
      (Proxy.get pf target prop first).call pf arr args pg =
        some ({ pg with effects := pg.effects ++ domMethods pf prop arr }, .this)) ∧
    (domMethodNames.filter fun p =>
        decide ((p ∈ standardEvents ∨ (JsMap.get aliases p).isSome = true) ∧
          JsMap.get pt p = none)) = ["focus", "blur", "click", "submit", "reset", "load"] := by
  have hal := tables_disjoint.1 prop hdm
  have hst : prop ∈ standardEvents := by
    rcases hev with h | h
    · exact h
    · rw [hal] at h; simp at h
  have hget : Proxy.get pf target prop first = .collision prop prop := by
    rw [proxyGet_of_not_inTarget pf target prop _ htab (tables_not_inherited.2.2.1 prop hdm)]
    simp [hal, hst, hdm]
  rw [hget]
  refine ⟨rfl, rfl, ?_, ?_, by decide⟩
  · intro f
    refine ⟨_, rfl, rfl, rfl, ?_, ?_, ?_⟩
    · show (on_ pg.events arr prop (.direct f .undefined)).delegatedHandlers = _
      rw [on_shortcut_eq _ _ _ _ (standardEvents_subset _ hst)]
      exact (foldl_onDirectEl_frame _ _ _ _ _).1
    · show ∀ el ∈ arr, ∃ l ∈ (on_ pg.events arr prop (.direct f .undefined)).listeners, _
      rw [on_shortcut_eq _ _ _ _ (standardEvents_subset _ hst)]
      intro el hel
      obtain ⟨l, hl, h1, h2, h3, -⟩ := foldl_onDirectEl_installs prop f .undefined arr pg.events
        el hel
      exact ⟨l, hl, h1, h2, h3⟩
    · show ∀ l ∈ (on_ pg.events arr prop (.direct f .undefined)).listeners, _
      rw [on_shortcut_eq _ _ _ _ (standardEvents_subset _ hst)]
      intro l hl
      rcases foldl_onDirectEl_only prop f .undefined arr pg.events l hl with h | ⟨el, hel, h⟩
      · exact Or.inl h
      · right
        rw [h]
        exact ⟨hel, rfl, rfl⟩
  · intro args h0 h1
    match args, h0, h1 with
    | [], h0, _ => exact absurd rfl h0
    | [.fn f], _, h1 => exact absurd rfl (h1 f)
    | [.undefined], _, _ => rfl
    | [.other _], _, _ => rfl
    | .fn _ :: _ :: _, _, _ => rfl
    | .undefined :: _ :: _, _, _ => rfl
    | .other _ :: _ :: _, _, _ => rfl

/-- Witness for C19: `click` on the selection `[1, 2]` of plain blocks. -/
theorem collision_member_dispatches_on_arguments_witness :
    ("click" ∈ standardEvents ∨ (JsMap.get aliases "click").isSome = true) ∧
    "click" ∈ domMethodNames ∧ JsMap.get pt "click" = none ∧
    (Proxy.get plainPlatform pt "click" (some 1)).call plainPlatform [1, 2] []
        { events := State.init, effects := [] } =
      some ({ events := State.init, effects := [.call 1 "click", .call 2 "click"] }, .this) :=
  ⟨by decide, by decide, by decide,
   (collision_member_dispatches_on_arguments plainPlatform pt "click" (some 1) [1, 2]
      { events := State.init, effects := [] } (by decide) (by decide) (by decide)).2.1⟩

/-- C20: a name the method table has (`prop in target`: an own name, or a name inherited
from `Object.prototype`) resolves to what `Reflect.get` finds under it, the own definition
first, whatever else the name is: an event name or alias, the name of a DOM method, of a DOM
property or of a style. -/
theorem explicit_definition_wins (pf : Platform) (target : MethodTable) (prop : String)
    (first : Option Elem) (h : inTarget target prop = true) :
    reflectGet target prop = some ((JsMap.get target prop).getD (.inherited prop)) ∧
    Proxy.get pf target prop first =
      .explicit ((JsMap.get target prop).getD (.inherited prop)) ∧
    (∀ m, JsMap.get target prop = some m → Proxy.get pf target prop first = .explicit m) := by
  have hp := proxyGet_inTarget pf target prop first h
  refine ⟨?_, hp, ?_⟩
  · unfold reflectGet
    unfold inTarget at h
    cases hg : JsMap.get target prop with
    | some m => rfl
    | none =>
      rw [hg] at h
      have hin : prop ∈ objectPrototypeNames := by simpa using h
      simp [hin]
  · intro m hm
    rw [hp, hm]
    rfl

/-- Witness for C20: `toggleClass` and `getAttribute` are DOM-method names and `length`
and `textContent` DOM-property names, all defined by the prototype; `click` is an event name
and `color` a style name, defined here by a plain assignment to the prototype; `toString` is
inherited from `Object.prototype` and also found in a style object. -/
theorem explicit_definition_wins_witness :
    "toggleClass" ∈ domMethodNames ∧
    Proxy.get plainPlatform pt "toggleClass" (some 1) = .explicit (.builtin "toggleClass") ∧
    "getAttribute" ∈ domMethodNames ∧
    Proxy.get plainPlatform pt "getAttribute" (some 1) = .explicit (.builtin "getAttribute") ∧
    "length" ∈ domProperties ∧
    Proxy.get plainPlatform pt "length" (some 1) = .explicit (.num 0) ∧
    "textContent" ∈ domProperties ∧
    Proxy.get plainPlatform pt "textContent" (some 1) = .explicit (.builtin "textContent") ∧
    "click" ∈ standardEvents ∧
    Proxy.get plainPlatform (JsMap.set pt "click" (.fn 7)) "click" (some 1) =
      .explicit (.fn 7) ∧
    plainPlatform.cssProps "color" = true ∧
    Proxy.get plainPlatform (JsMap.set pt "color" (.fn 7)) "color" (some 1) =
      .explicit (.fn 7) ∧
    plainPlatform.cssProps "toString" = true ∧ JsMap.get pt "toString" = none ∧
    Proxy.get plainPlatform pt "toString" (some 1) = .explicit (.inherited "toString") :=
  ⟨by decide,
   (explicit_definition_wins plainPlatform pt "toggleClass" (some 1) (by decide)).2.2 _
     (by decide),
   by decide,
   (explicit_definition_wins plainPlatform pt "getAttribute" (some 1) (by decide)).2.2 _
     (by decide),
   by decide,
   (explicit_definition_wins plainPlatform pt "length" (some 1) (by decide)).2.2 _ (by decide),
   by decide,
   (explicit_definition_wins plainPlatform pt "textContent" (some 1) (by decide)).2.2 _
     (by decide),
   by decide,
   (explicit_definition_wins plainPlatform _ "click" (some 1) (by decide)).2.2 _ (by decide),
   by decide,
   (explicit_definition_wins plainPlatform _ "color" (some 1) (by decide)).2.2 _ (by decide),
   by decide, by decide,
   (explicit_definition_wins plainPlatform pt "toString" (some 1) (by decide)).2.1⟩

/-- C21: an event name or alias that is no DOM method and that the method table does not
define resolves to a function that binds. Called with a function first, it binds the function
to the full event name on every element of the selection through `on`; called with anything
else, or with nothing, it changes nothing, asks nothing of the platform and returns the
selection. The aliases stand for the mouse events of the table. -/
theorem event_shortcut_binds (pf : Platform) (target : MethodTable) (prop : String)
    (first : Option Elem) (arr : List Elem) (pg : Page)
    (hev : prop ∈ standardEvents ∨ (JsMap.get aliases prop).isSome = true)
    (hdm : prop ∉ domMethodNames) (htab : JsMap.get target prop = none) :
    Proxy.get pf target prop first = .eventShortcut ((JsMap.get aliases prop).getD prop) ∧
    (∀ f rest, ∃ pg1,
      (Proxy.get pf target prop first).call pf arr (.fn f :: rest) pg = some (pg1, .this) ∧
      pg1.effects = pg.effects ∧
      pg1.events = on_ pg.events arr ((JsMap.get aliases prop).getD prop)
        (.direct f .undefined) ∧
      pg1.events.delegatedHandlers = pg.events.delegatedHandlers ∧
      (∀ el ∈ arr, ∃ l ∈ pg1.events.listeners,
        l.target = el ∧ l.type = (JsMap.get aliases prop).getD prop ∧
        l.callback = .direct f) ∧
      (∀ l ∈ pg1.events.listeners, l ∈ pg.events.listeners ∨
        (l.target ∈ arr ∧ l.type = (JsMap.get aliases prop).getD prop ∧
          l.callback = .direct f))) ∧
    (∀ args, (∀ f, args.head? ≠ some (.fn f)) →
      (Proxy.get pf target prop first).call pf arr args pg = some (pg, .this)) ∧
    aliases.map (fun e => (JsMap.get aliases e.1).getD e.1) =
      ["mouseover", "mouseout", "mouseenter", "mouseleave", "mousemove", "mouseup",
       "mousedown"] := by
  have hmem := eventName_mem prop hev
  have hget : Proxy.get pf target prop first =
      .eventShortcut ((JsMap.get aliases prop).getD prop) := by
    rw [proxyGet_of_not_inTarget pf target prop _ htab (shortcut_not_inherited prop hev)]
    have h1 : (decide (prop ∈ standardEvents) || (JsMap.get aliases prop).isSome) = true := by
      rcases hev with h | h
      · simp [h]
      · simp [h]
    simp only [h1, hdm, and_false, if_false, if_true]
  rw [hget]
  refine ⟨rfl, ?_, ?_, by decide⟩
  · intro f rest
    refine ⟨_, rfl, rfl, rfl, ?_, ?_, ?_⟩
    · show (on_ pg.events arr _ (.direct f .undefined)).delegatedHandlers = _
      rw [on_shortcut_eq _ _ _ _ hmem]
      exact (foldl_onDirectEl_frame _ _ _ _ _).1
    · show ∀ el ∈ arr, ∃ l ∈ (on_ pg.events arr _ (.direct f .undefined)).listeners, _
      rw [on_shortcut_eq _ _ _ _ hmem]
      intro el hel
      obtain ⟨l, hl, h1, h2, h3, -⟩ := foldl_onDirectEl_installs
        ((JsMap.get aliases prop).getD prop) f .undefined arr pg.events el hel
      exact ⟨l, hl, h1, h2, h3⟩
    · show ∀ l ∈ (on_ pg.events arr _ (.direct f .undefined)).listeners, _
      rw [on_shortcut_eq _ _ _ _ hmem]
      intro l hl
      rcases foldl_onDirectEl_only _ f .undefined arr pg.events l hl with h | ⟨el, hel, h⟩
      · exact Or.inl h
      · right
        rw [h]
        exact ⟨hel, rfl, rfl⟩
  · intro args h
    match args, h with
    | [], _ => rfl
    | .undefined :: _, _ => rfl
    | .other _ :: _, _ => rfl
    | .fn f :: _, h => exact absurd rfl (h f)

/-- Witness for C21: the alias `enter` on the selection `[1, 2]`. -/
theorem event_shortcut_binds_witness :
    ("enter" ∈ standardEvents ∨ (JsMap.get aliases "enter").isSome = true) ∧
    "enter" ∉ domMethodNames ∧ JsMap.get pt "enter" = none ∧
    Proxy.get plainPlatform pt "enter" (some 1) = .eventShortcut "mouseenter" ∧
    (Proxy.get plainPlatform pt "enter" (some 1)).call plainPlatform [1, 2] []
        { events := State.init, effects := [] } =
      some ({ events := State.init, effects := [] }, .this) :=
  ⟨by decide, by decide, by decide,
   (event_shortcut_binds plainPlatform pt "enter" (some 1) [1, 2]
      { events := State.init, effects := [] } (by decide) (by decide) (by decide)).1,
   (event_shortcut_binds plainPlatform pt "enter" (some 1) [1, 2]
      { events := State.init, effects := [] } (by decide) (by decide) (by decide)).2.2.1 []
      (by intro f; simp)⟩


/-- C25, as stated, fails: `click` is not defined on the method table, yet `extend` does not
define it, because the name resolves to the click function of the resolver; and `length` is
defined on the method table, with the value 0, yet `extend` replaces it. -/
theorem extend_skips_resolved_name :
    JsMap.get pt "click" = none ∧
    (extend plainPlatform pt [("click", .fn 7)]).map (fun t => JsMap.get t "click") =
      some none ∧
    JsMap.get pt "length" = some (.num 0) ∧
    (extend plainPlatform pt [("length", .fn 7)]).map (fun t => JsMap.get t "length") =
      some (some (.fn 7)) := by
  decide

/-- C25 (amended): `extend` tests each own name of its argument through the member resolver,
on the prototype. Where the name resolves to a truthy value (a truthy definition of the
method table, a member inherited from `Object.prototype`, or an event shortcut, a DOM method,
a DOM property of the list or a style name) the method table is left as it is at that name.
Where the name is not defined and the resolver finds nothing, the name is defined afterwards
as the supplied value, and every selection that has no property of that name of its own
reads that value under the name (every selection has `elements` and `length` of its own).
Other names are untouched. The argument has distinct own names and keeps the inherited
`hasOwnProperty`. -/
theorem extend_defines_unresolved_names (pf : Platform) (target : MethodTable)
    (methods : List (String × Member)) (name : String) (m : Member)
    (hnd : (methods.map Prod.fst).Nodup) (hown : "hasOwnProperty" ∉ methods.map Prod.fst)
    (hmem : (name, m) ∈ methods) :
    ∃ t, extend pf target methods = some t ∧
      ((Proxy.get pf target name none).truthy = true →
        JsMap.get t name = JsMap.get target name) ∧
      (Proxy.get pf target name none = .fallback →
        JsMap.get t name = some m ∧
        ∀ own first, name ≠ "elements" → name ≠ "length" → name ∉ own →
          selectionGet pf t own first name = some (.explicit m)) ∧
      (∀ other, other ∉ methods.map Prod.fst → JsMap.get t other = JsMap.get target other) := by
  refine ⟨_, extend_eq_some pf target methods hown, ?_, ?_,
    fun other ho => foldl_extendStep_get_of_not_mem pf methods target other ho⟩
  · intro ht
    rw [foldl_extendStep_get_of_mem pf methods target hnd name m hmem, if_neg (by simp [ht])]
  · intro hf
    have h1 : JsMap.get (methods.foldl (extendStep pf) target) name = some m := by
      rw [foldl_extendStep_get_of_mem pf methods target hnd name m hmem,
        if_pos (by rw [hf]; rfl)]
    refine ⟨h1, fun own first hne1 hne2 hne3 => ?_⟩
    unfold selectionGet
    rw [if_neg (by simp [hne1, hne2, hne3]), proxyGet_explicit pf _ name first m h1]

/-- Witness for C25: a plugin with the new method `foo`, the existing method `css` and the
inherited name `toString`. -/
theorem extend_defines_unresolved_names_witness :
    (["foo", "css", "toString"] : List String).Nodup ∧
    (extend plainPlatform pt [("foo", .fn 7), ("css", .fn 8), ("toString", .fn 9)]).map
      (fun t => (JsMap.get t "foo", JsMap.get t "css", JsMap.get t "toString")) =
      some (some (.fn 7), some (.builtin "css"), none) ∧
    ∃ t, extend plainPlatform pt [("foo", .fn 7), ("css", .fn 8), ("toString", .fn 9)] =
        some t ∧
      JsMap.get t "foo" = some (.fn 7) ∧
      selectionGet plainPlatform t ["_observers"] (some 1) "foo" =
        some (.explicit (.fn 7)) := by
  refine ⟨by decide, by decide, ?_⟩
  obtain ⟨t, ht, -, h2, -⟩ := extend_defines_unresolved_names plainPlatform pt
    [("foo", .fn 7), ("css", .fn 8), ("toString", .fn 9)] "foo" (.fn 7) (by decide)
    (by decide) (by decide)
  exact ⟨t, ht, (h2 (by decide)).1,
    (h2 (by decide)).2 ["_observers"] (some 1) (by decide) (by decide) (by decide)⟩

/-- C27: the registry and the listener list fall apart when a delegated handler bound with
`one` meets an event that matches no element: after `one("click", "li", h)` on the list and
a click on the list itself, the platform has dropped the dispatcher, the registry still holds
its entry, the handler has not run, and a later click inside an item does not run it. -/
theorem once_dispatcher_dropped_by_unmatched_event :
    (lookup (dispatchAt (one State.init [1] "click" (.delegated "li" 7 .undefined)) listDom 1
        clickOnList).delegatedHandlers 1 "click" "li" "" 7 (false, true)).isSome = true ∧
    (dispatchAt (one State.init [1] "click" (.delegated "li" 7 .undefined)) listDom 1
        clickOnList).listeners = [] ∧
    (dispatchAt (one State.init [1] "click" (.delegated "li" 7 .undefined)) listDom 1
        clickOnList).calls = [] ∧
    (dispatchAt (dispatchAt (one State.init [1] "click" (.delegated "li" 7 .undefined))
        listDom 1 clickOnList) listDom 1 clickOnSpan).calls = [] := by
  decide

/-- C28, as stated, fails: `pointerdown` is a base event name of the parser and no event
shortcut of the resolver. -/
theorem pointerdown_has_no_shortcut :
    "pointerdown" ∈ domEventNames ∧ "pointerdown" ∉ standardEvents ∧
    parseNamespacedEvent "pointerdown.menu" = { type := "pointerdown", nspace := "menu" } ∧
    Proxy.get plainPlatform pt "pointerdown" (some 1) = .fallback := by
  decide

/-- C28 (amended): every event shortcut of the resolver is a base event name of the parser;
the base event names without a shortcut are the pointer and touch events. -/
theorem shortcut_names_are_base_names :
    (∀ n ∈ standardEvents, n ∈ domEventNames) ∧
    (∀ e ∈ aliases, e.2 ∈ domEventNames) ∧
    (domEventNames.filter fun n => decide (n ∉ standardEvents)) =
      ["pointerdown", "pointerup", "pointermove", "pointerenter", "pointerleave",
       "touchstart", "touchend", "touchmove"] := by
  decide


/-- C24: for a positive page size, `paginate` counts `ceil(n / itemsPerPage)` pages, and the
page `p` between 1 and that number holds the items at the indices from
`(p - 1) * itemsPerPage` up to `min (p * itemsPerPage) n - 1`: it is not empty, it holds at
most `itemsPerPage` items, and the pages in order make up the content. -/
theorem pages_partition_content {α : Type} (content : List α) (itemsPerPage : Int)
    (hq : 0 < itemsPerPage) :
    (∀ p, (renderPage content itemsPerPage p).2 =
      (p, ⌈(content.length : ℚ) / (itemsPerPage : ℚ)⌉)) ∧
    (∀ p, 1 ≤ p → p ≤ totalPages content.length itemsPerPage →
      (((renderPage content itemsPerPage p).1.length : Nat) : Int) =
        min (p * itemsPerPage) content.length - (p - 1) * itemsPerPage ∧
      (∀ i : Nat, i < (renderPage content itemsPerPage p).1.length →
        (renderPage content itemsPerPage p).1[i]? =
          content[((p - 1) * itemsPerPage).toNat + i]?) ∧
      0 < (renderPage content itemsPerPage p).1.length ∧
      (((renderPage content itemsPerPage p).1.length : Nat) : Int) ≤ itemsPerPage) ∧
    (List.range (totalPages content.length itemsPerPage).toNat).flatMap
      (fun k => (renderPage content itemsPerPage ((k : Int) + 1)).1) = content := by
  obtain ⟨q, rfl⟩ : ∃ q : Nat, itemsPerPage = (q : Int) := ⟨itemsPerPage.toNat, by omega⟩
  obtain ⟨hT1, hT2⟩ := totalPages_spec content.length (q : Int) hq
  refine ⟨fun p => rfl, ?_, ?_⟩
  · intro p hp1 hp2
    obtain ⟨k, rfl⟩ : ∃ k : Nat, p = (k : Int) + 1 := ⟨(p - 1).toNat, by omega⟩
    have hk : ((k * q : Nat) : Int) < content.length := by
      have h1 : (k : Int) * (q : Int) ≤ (totalPages content.length (q : Int) - 1) * (q : Int) :=
        mul_le_mul_of_nonneg_right (by omega) (by omega)
      push_cast
      omega
    have hk1 : k * q < content.length := by exact_mod_cast hk
    have e1 : ((k : Int) + 1) * (q : Int) = ((k * q : Nat) : Int) + q := by push_cast; ring
    have e2 : ((k : Int) + 1 - 1) * (q : Int) = ((k * q : Nat) : Int) := by push_cast; ring
    rw [renderPage_eq, e1, e2]
    have hlen : ((content.drop (k * q)).take q).length = min q (content.length - k * q) := by
      rw [List.length_take, List.length_drop]
    refine ⟨?_, ?_, ?_, ?_⟩
    · rw [hlen]
      omega
    · intro i hi
      rw [hlen] at hi
      rw [List.getElem?_take_of_lt (by omega), List.getElem?_drop, Int.toNat_ofNat]
    · rw [hlen]
      have hq1 : 0 < q := by exact_mod_cast hq
      omega
    · rw [hlen]
      omega
  · have hfun : (fun k : Nat => (renderPage content (q : Int) ((k : Int) + 1)).1) =
        fun k : Nat => (content.drop (k * q)).take q := by
      funext k
      exact renderPage_eq content q k
    rw [hfun, flatMap_pages]
    apply List.take_of_length_le
    have hT0 : 0 ≤ totalPages content.length (q : Int) := by
      by_contra hneg
      have : totalPages content.length (q : Int) * (q : Int) < 0 :=
        mul_neg_of_neg_of_pos (by omega) hq
      omega
    have h3 : ((content.length : Nat) : Int) ≤
        (((totalPages content.length (q : Int)).toNat * q : Nat) : Int) := by
      push_cast
      rw [Int.toNat_of_nonneg hT0]
      exact hT2
    exact_mod_cast h3

/-- Witness for C24: five items, two on a page, as in the test of `paginate`. -/
theorem pages_partition_content_witness :
    (0 : Int) < 2 ∧
    (List.range (totalPages ["a", "b", "c", "d", "e"].length 2).toNat).flatMap
      (fun k => (renderPage ["a", "b", "c", "d", "e"] 2 ((k : Int) + 1)).1) =
        ["a", "b", "c", "d", "e"] ∧
    (renderPage ["a", "b", "c", "d", "e"] 2 1).1 = ["a", "b"] ∧
    (renderPage ["a", "b", "c", "d", "e"] 2 2).1 = ["c", "d"] ∧
    (renderPage ["a", "b", "c", "d", "e"] 2 3).1 = ["e"] ∧
    totalPages 5 2 = 3 :=
  ⟨by decide, (pages_partition_content ["a", "b", "c", "d", "e"] 2 (by decide)).2.2,
   by decide, by decide, by decide, by rw [totalPages_eq 5 2 (by decide)]; decide⟩

/-- C30: for at least one page, a current page `p` among the pages and at least one page
number to show, the page buttons run from `startPage = max 1 (p - floor(maxPageNumbers / 2))`
to `endPage = min totalPages (startPage + maxPageNumbers - 1)`: the range lies within the
pages, has at most `maxPageNumbers` buttons and contains `p`, so exactly one button is
active; and the handlers of First, Last, Next and Previous keep the current page among the
pages. -/
theorem page_buttons_window (total p m : Int) (hT : 1 ≤ total) (hp1 : 1 ≤ p)
    (hp2 : p ≤ total) (hm : 1 ≤ m) :
    startPage p m = max 1 (p - m / 2) ∧
    endPage total p m = min total (startPage p m + m - 1) ∧
    1 ≤ startPage p m ∧ startPage p m ≤ p ∧ p ≤ endPage total p m ∧
    endPage total p m ≤ total ∧
    (((pageButtons total p m).length : Nat) : Int) = endPage total p m - startPage p m + 1 ∧
    (((pageButtons total p m).length : Nat) : Int) ≤ m ∧
    (pageButtons total p m).map Prod.fst =
      (List.range (pageButtons total p m).length).map (fun k : Nat => startPage p m + k) ∧
    (pageButtons total p m).filter (fun b => b.2) = [(p, true)] ∧
    (∀ s : PagerState, 1 ≤ s.currentPage → s.currentPage ≤ total →
      (1 ≤ (firstHandler s).currentPage ∧ (firstHandler s).currentPage ≤ total) ∧
      (1 ≤ (lastHandler total s).currentPage ∧ (lastHandler total s).currentPage ≤ total) ∧
      (1 ≤ (nextHandler total s).currentPage ∧ (nextHandler total s).currentPage ≤ total) ∧
      (1 ≤ (prevHandler s).currentPage ∧ (prevHandler s).currentPage ≤ total)) := by
  have hs1 : 1 ≤ startPage p m := by unfold startPage; omega
  have hs2 : startPage p m ≤ p := by unfold startPage; omega
  have he1 : p ≤ endPage total p m := by unfold endPage startPage; omega
  have he2 : endPage total p m ≤ total := by unfold endPage; omega
  have he3 : endPage total p m - startPage p m + 1 ≤ m := by unfold endPage; omega
  have hlen : (((pageButtons total p m).length : Nat) : Int) =
      endPage total p m - startPage p m + 1 := by
    unfold pageButtons
    rw [List.length_map, List.length_range]
    omega
  refine ⟨rfl, rfl, hs1, hs2, he1, he2, hlen, by omega, ?_, ?_, ?_⟩
  · unfold pageButtons
    simp [List.length_map, List.length_range, Function.comp_def]
  · unfold pageButtons
    apply filter_window _ _ _ hs2
    omega
  · intro s h1 h2
    unfold firstHandler lastHandler nextHandler prevHandler
    refine ⟨?_, ?_, ?_, ?_⟩
    · split_ifs
      · exact ⟨le_refl _, hT⟩
      · exact ⟨h1, h2⟩
    · split_ifs
      · exact ⟨hT, le_refl _⟩
      · exact ⟨h1, h2⟩
    · split_ifs with h
      · show 1 ≤ s.currentPage + 1 ∧ s.currentPage + 1 ≤ total
        omega
      · exact ⟨h1, h2⟩
    · split_ifs with h
      · show 1 ≤ s.currentPage - 1 ∧ s.currentPage - 1 ≤ total
        omega
      · exact ⟨h1, h2⟩

/-- Witness for C30: ten pages, the current page 7 and five page numbers to show. -/
theorem page_buttons_window_witness :
    (1 : Int) ≤ 10 ∧ (1 : Int) ≤ 7 ∧ (7 : Int) ≤ 10 ∧ (1 : Int) ≤ 5 ∧
    pageButtons 10 7 5 = [(5, false), (6, false), (7, true), (8, false), (9, false)] ∧
    (pageButtons 10 7 5).filter (fun b => b.2) = [(7, true)] :=
  ⟨by decide, by decide, by decide, by decide, by decide,
   (page_buttons_window 10 7 5 (by decide) (by decide) (by decide) (by decide)).2.2.2.2.2.2.2.2.2.1⟩

/-- C26: for a selection that is not empty, `siblings` returns the children of the parents of
the selected elements that are not selected themselves: each of them once, in the order in
which the loop first meets them, and no selected element. -/
theorem siblings_are_unselected_children (tree : Tree) (arr : List Elem) (h : arr ≠ []) :
    (siblings tree arr).Nodup ∧
    (∀ k, k ∈ siblings tree arr ↔
      (∃ el ∈ arr, ∃ parent, tree.parentElement el = some parent ∧
        k ∈ tree.children parent) ∧ k ∉ arr) ∧
    (∀ a b, a ∈ siblings tree arr → b ∈ siblings tree arr →
      ((siblings tree arr).indexOf a < (siblings tree arr).indexOf b ↔
        (encountered tree arr).indexOf a < (encountered tree arr).indexOf b)) ∧
    ∀ k ∈ arr, k ∉ siblings tree arr := by
  have hlen : ¬ arr.length = 0 := by
    intro h0
    exact h (List.length_eq_zero.1 h0)
  have hs : siblings tree arr =
      ((encountered tree arr).foldl (siblingsKid arr) ([], [])).1 := by
    unfold siblings encountered
    rw [if_neg hlen, foldl_siblingsEl]
  obtain ⟨-, hnd, hmem, hord⟩ := foldl_siblingsKid arr (encountered tree arr)
  rw [hs]
  have henc : ∀ k, k ∈ encountered tree arr ↔
      ∃ el ∈ arr, ∃ parent, tree.parentElement el = some parent ∧
        k ∈ tree.children parent := by
    intro k
    unfold encountered
    rw [List.mem_flatMap]
    constructor
    · rintro ⟨el, hel, hk⟩
      cases hp : tree.parentElement el with
      | none => rw [hp] at hk; simp at hk
      | some parent => rw [hp] at hk; exact ⟨el, hel, parent, hp, hk⟩
    · rintro ⟨el, hel, parent, hp, hk⟩
      exact ⟨el, hel, by rw [hp]; exact hk⟩
  refine ⟨hnd, ?_, hord, ?_⟩
  · intro k
    rw [hmem, henc]
  · intro k hk hk1
    exact ((hmem k).1 hk1).2 hk

/-- Witness for C26: the two items `1` and `2` of the list are selected, the item `3` is
their only sibling. -/
theorem siblings_are_unselected_children_witness :
    ([1, 2] : List Elem) ≠ [] ∧ siblings listTree [1, 2] = [3] ∧
    ∀ k ∈ ([1, 2] : List Elem), k ∉ siblings listTree [1, 2] :=
  ⟨by decide, by decide,
   (siblings_are_unselected_children listTree [1, 2] (by decide)).2.2.2⟩

/-- C22: on a form with two controls named `a`, the first one empty and the second one
holding `x`, `serializeForm` maps `a` to the single value `x`: the empty value is lost and no
array is built, although the form submits two values under the name. -/
theorem serializeForm_loses_empty_first_value :
    valuesOf [("a", .str ""), ("a", .str "x")] "a" = [.str "", .str "x"] ∧
    serializeForm (some [("a", .str ""), ("a", .str "x")]) = [("a", .single (.str "x"))] ∧
    serializeForm (some [("a", .str "w"), ("a", .str "x")]) =
      [("a", .array [.str "w", .str "x"])] := by
  decide

/-- C23: on a form whose control `a` holds `12`, with the rules `pattern` (digits only) and
`minLength: 5` for `a`, `validate` reports the form valid without any error, although the
value is shorter than the minimal length: a pattern that matches ends the chain of checks.
Without the pattern the same value is rejected. -/
theorem matching_pattern_hides_later_rules :
    Violates noFloat "12"
      { FieldRules.none with pattern := some digitsOnly, minLength := some 5 } ∧
    validate plainEnv shortNumberForm
      [("a", some { FieldRules.none with pattern := some digitsOnly, minLength := some 5 })]
      Settings.default = some { valid := true, errors := [] } ∧
    validate plainEnv shortNumberForm
      [("a", some { FieldRules.none with minLength := some 5 })] Settings.default =
        some { valid := false, errors := [("a", "Minimum length is 5 characters")] } :=
  ⟨Or.inr (Or.inr (Or.inl ⟨5, rfl, by decide⟩)), by decide, by decide⟩

/-- C29: on a form with an empty control whose id is `x` and whose name is `__proto__`, with
the rule `required` for `x`, `validate` returns `valid = false` and an `errors` object
without any entry: the assignment `errors[name] = errorMessage` stores nothing under the name
`__proto__`. With a control named `a` instead, the error is stored. And on a form with a
group of radio buttons named `r`, `validate` with its default options returns nothing: the
call throws at `field.classList`. -/
theorem proto_named_field_leaves_errors_empty :
    validate plainEnv protoNameForm [("x", some { FieldRules.none with required := true })]
      Settings.default = some { valid := false, errors := [] } ∧
    validate plainEnv
      (.form fun name => if name = "x" then some (Named.control "a" "") else none)
      [("x", some { FieldRules.none with required := true })] Settings.default =
        some { valid := false, errors := [("a", "This field is required")] } ∧
    validate plainEnv radioForm [("r", some { FieldRules.none with required := true })]
      Settings.default = none := by
  decide

end DomMan
